import Mathlib

/-!
# freecs: an archetype-based entity-component store

A shallow embedding of `src/freecs.c` / `src/freecs.h`.

Conventions of the embedding.

* Machine integers are natural numbers (or `Int` for the `int32_t` edge and
  column tables).  Every cast and every wrapping operation of the source is
  written out: `toU32` for `(uint32_t)x`, `toI32` for `(int32_t)x`,
  `% 2 ^ 32` / `% 2 ^ 64` for wrapping increments and shifts.
* Heap arrays (`locations`, `archetypes`, `columns`, `entities`, ...) are
  lists; an index outside the list is an out-of-bounds access of the C code,
  whose behaviour is undefined.  Functions that can hit such an access, or
  that can loop forever, return `Option`; `none` stands for "the C code has
  no defined result here".
* The inline arrays of `FREECS_MAX_COMPONENTS` cells (`type_sizes`,
  `column_bits`, `add_edges`, `remove_edges`) are lists that the code creates
  with 64 cells; they are read with `List.getD` and written with `List.set`.
* A column buffer is the list `data` of its `data_len` live bytes together
  with its capacity `data_cap`; the buffer pointer is `NULL` exactly when
  `data_cap = 0`.  The capacities of the other arrays are not observable and
  are left out; `realloc` is assumed to succeed.
-/

namespace Freecs

/-! ## Machine integers -/

/-- Value of the C cast `(uint32_t)n`. -/
def toU32 (n : Nat) : Nat := n % 2 ^ 32

/-- Value of the C cast `(int32_t)n` (two's complement). -/
def toI32 (n : Nat) : Int :=
  if n % 2 ^ 32 < 2 ^ 31 then ((n % 2 ^ 32 : Nat) : Int)
  else ((n % 2 ^ 32 : Nat) : Int) - 2 ^ 32

/-- Value of the C expression `~x` on `uint64_t`. -/
def not64 (x : Nat) : Nat := 2 ^ 64 - 1 - x % 2 ^ 64

/-- Constant `FREECS_MAX_COMPONENTS`. -/
def FREECS_MAX_COMPONENTS : Nat := 64

/-! ## Data model (`freecs.h`) -/

/-- Handle `freecs_entity_t`. -/
structure freecs_entity_t where
  id : Nat
  generation : Nat
  deriving DecidableEq, Repr

/-- Sentinel `FREECS_ENTITY_NIL`. -/
def FREECS_ENTITY_NIL : freecs_entity_t := ⟨0, 0⟩

/-- Slot `freecs_entity_location_t`. -/
structure freecs_entity_location_t where
  archetype_index : Nat
  row : Nat
  generation : Nat
  alive : Bool
  deriving DecidableEq, Repr

/-- Column `freecs_component_column_t`; `data.length` is `data_len`. -/
structure freecs_component_column_t where
  data : List Nat
  data_cap : Nat
  elem_size : Nat
  bit : Nat
  type_index : Nat
  deriving DecidableEq, Repr

/-- Table `freecs_archetype_t`, with the two arrays of `freecs_table_edges_t`
inlined; `entities.length` is `entities_len`, `columns.length` is `columns_len`. -/
structure freecs_archetype_t where
  mask : Nat
  entities : List freecs_entity_t
  columns : List freecs_component_column_t
  column_bits : List Int
  add_edges : List Int
  remove_edges : List Int
  deriving DecidableEq, Repr

/-- Entry `freecs_cache_entry_t`; `value` is the index array. -/
structure freecs_cache_entry_t where
  key : Nat
  value : List Nat
  deriving DecidableEq, Repr

/-- World `freecs_world_t`. -/
structure freecs_world_t where
  locations : List freecs_entity_location_t
  archetypes : List freecs_archetype_t
  archetype_index : List freecs_cache_entry_t
  type_sizes : List Nat
  free_entities : List freecs_entity_t
  next_entity_id : Nat
  next_bit : Nat
  query_cache : List freecs_cache_entry_t
  despawn_queue : List freecs_entity_t
  deriving DecidableEq, Repr

/-- Entry `freecs_type_info_entry_t`; `data = none` is the `NULL` payload. -/
structure freecs_type_info_entry_t where
  bit : Nat
  size : Nat
  data : Option (List Nat)
  type_index : Nat
  deriving DecidableEq, Repr

/-- A `void*` into a column buffer: `NULL`, or the byte at offset `off` of
column `col` of archetype `arch`. -/
inductive Ptr where
  | null : Ptr
  | cell (arch : Nat) (col : Nat) (off : Nat) : Ptr
  deriving DecidableEq, Repr

/-! ## Helpers of `freecs.c` -/

/-- Loop of `freecs_bit_index`: `while ((bit & 1) == 0) { bit >>= 1; count++; }`,
run for at most `fuel` iterations. -/
def bit_index_loop : Nat → Nat → Nat → Option Nat
  | 0, _, _ => none
  | fuel + 1, bit, count =>
    if bit % 2 = 1 then some count else bit_index_loop fuel (bit / 2) (count + 1)

/-- Function `freecs_bit_index`.  A non-zero 64-bit value leaves the loop within
64 tests; on `0` the loop never ends, which is `none`. -/
def freecs_bit_index (bit : Nat) : Option Nat := bit_index_loop 64 bit 0

/-- Loop `while (new_cap < needed) new_cap *= 2;` of the `ensure_capacity_*`
helpers. -/
def grow_cap : Nat → Nat → Nat → Nat
  | 0, new_cap, _ => new_cap
  | fuel + 1, new_cap, needed =>
    if new_cap < needed then grow_cap fuel (new_cap * 2) needed else new_cap

/-- Capacity after `ensure_capacity_u8(&data, &cap, needed)`. -/
def ensure_capacity_u8 (cap needed : Nat) : Nat :=
  if needed ≤ cap then cap
  else grow_cap needed (if cap = 0 then 16 else cap * 2) needed

/-- Function `cache_find`, scanning from index `i`; `none` is `(size_t)-1`. -/
def cache_find_from : List freecs_cache_entry_t → Nat → Nat → Option Nat
  | [], _, _ => none
  | e :: rest, key, i => if e.key = key then some i else cache_find_from rest key (i + 1)

/-- Function `cache_find`. -/
def cache_find (cache : List freecs_cache_entry_t) (key : Nat) : Option Nat :=
  cache_find_from cache key 0

/-- Function `freecs_create_world`. -/
def freecs_create_world : freecs_world_t where
  locations := []
  archetypes := []
  archetype_index := []
  type_sizes := List.replicate FREECS_MAX_COMPONENTS 0
  free_entities := []
  next_entity_id := 0
  next_bit := 1
  query_cache := []
  despawn_queue := []

/-- Function `freecs_register_component`. -/
def freecs_register_component (world : freecs_world_t) (size : Nat) :
    Option (freecs_world_t × Nat) := do
  let bit := world.next_bit
  let idx ← freecs_bit_index bit
  some ({ world with
            next_bit := (world.next_bit * 2) % 2 ^ 64
            type_sizes := world.type_sizes.set idx size }, bit)

/-- Function `ensure_entity_slot`. -/
def ensure_entity_slot (world : freecs_world_t) (id : Nat) : freecs_world_t :=
  if world.locations.length > id then world
  else { world with
           locations := world.locations ++
             List.replicate (id + 1 - world.locations.length) ⟨0, 0, 0, false⟩ }

/-- Function `alloc_entity`. -/
def alloc_entity (world : freecs_world_t) : freecs_world_t × freecs_entity_t :=
  match world.free_entities.getLast? with
  | some e => ({ world with free_entities := world.free_entities.dropLast }, e)
  | none =>
    let id := world.next_entity_id
    let world1 := { world with next_entity_id := (world.next_entity_id + 1) % 2 ^ 32 }
    (ensure_entity_slot world1 id, ⟨id, 0⟩)

/-- Sequential loop over an array whose body can be undefined: `f` is applied
to every cell in order. -/
def mapOpt {α β : Type} (f : α → Option β) : List α → Option (List β)
  | [] => some []
  | x :: xs =>
    match f x with
    | none => none
    | some y =>
      match mapOpt f xs with
      | none => none
      | some ys => some (y :: ys)

/-- Archetype of `find_or_create_archetype` after `memset(arch, 0, ..)`,
`arch->mask = mask` and the loop that fills the three tables with `-1`. -/
def new_archetype (mask : Nat) : freecs_archetype_t where
  mask := mask
  entities := []
  columns := []
  column_bits := List.replicate FREECS_MAX_COMPONENTS (-1)
  add_edges := List.replicate FREECS_MAX_COMPONENTS (-1)
  remove_edges := List.replicate FREECS_MAX_COMPONENTS (-1)

/-- Column-creation loop of `find_or_create_archetype` (one column per
`type_info` entry, in order). -/
def add_columns : freecs_archetype_t → List freecs_type_info_entry_t →
    Option freecs_archetype_t
  | arch, [] => some arch
  | arch, ti :: rest =>
    match freecs_bit_index ti.bit with
    | none => none
    | some bi =>
      let col_idx := arch.columns.length
      let col : freecs_component_column_t :=
        { data := [], data_cap := 0, elem_size := ti.size, bit := ti.bit,
          type_index := ti.type_index }
      add_columns
        { arch with
            columns := arch.columns ++ [col]
            column_bits := arch.column_bits.set bi (toI32 col_idx) } rest

/-- Query-cache loop of `find_or_create_archetype`: the new archetype index is
appended to every cached entry whose low 32 key bits are contained in `mask`. -/
def update_query_cache (cache : List freecs_cache_entry_t) (mask arch_idx : Nat) :
    List freecs_cache_entry_t :=
  cache.map (fun e =>
    let query_mask := e.key &&& 0xFFFFFFFF
    if mask &&& query_mask = query_mask then { e with value := e.value ++ [arch_idx] }
    else e)

/-- Body of the inner edge loop of `find_or_create_archetype` for one existing
archetype and one component bit index; `comp_mask` is `(uint64_t)1 << comp_bit_index`. -/
def wire_edges (mask arch_idx comp_bit_index : Nat) (existing : freecs_archetype_t) :
    freecs_archetype_t :=
  let comp_mask := 2 ^ comp_bit_index % 2 ^ 64
  let e1 :=
    if existing.mask ||| comp_mask = mask then
      { existing with add_edges := existing.add_edges.set comp_bit_index (toI32 arch_idx) }
    else existing
  if e1.mask &&& not64 comp_mask = mask then
    { e1 with remove_edges := e1.remove_edges.set comp_bit_index (toI32 arch_idx) }
  else e1

/-- Edge loop of `find_or_create_archetype`: for every component bit index with
a non-zero registered size, every archetype (the new one included) is wired. -/
def cross_wire (type_sizes : List Nat) (mask arch_idx : Nat)
    (archetypes : List freecs_archetype_t) : List freecs_archetype_t :=
  (List.range FREECS_MAX_COMPONENTS).foldl
    (fun archs comp_bit_index =>
      if type_sizes.getD comp_bit_index 0 = 0 then archs
      else archs.map (wire_edges mask arch_idx comp_bit_index))
    archetypes

/-- Function `find_or_create_archetype`. -/
def find_or_create_archetype (world : freecs_world_t) (mask : Nat)
    (type_info : List freecs_type_info_entry_t) : Option (freecs_world_t × Nat) :=
  match cache_find world.archetype_index mask with
  | some idx =>
    match world.archetype_index[idx]? with
    | none => none
    | some entry =>
      match entry.value[0]? with
      | none => none
      | some a => some (world, a)
  | none =>
    let arch_idx := world.archetypes.length
    match add_columns (new_archetype mask) type_info with
    | none => none
    | some arch =>
      some ({ world with
                archetypes :=
                  cross_wire world.type_sizes mask arch_idx (world.archetypes ++ [arch])
                archetype_index := world.archetype_index ++ [⟨mask, [arch_idx]⟩]
                query_cache := update_query_cache world.query_cache mask arch_idx },
            arch_idx)

/-- Bytes stored for one spawn entry: `memcpy` of `size` payload bytes, or
`memset` to zero when the payload is `NULL` or `size` is 0.  Reading past the
end of the payload is undefined. -/
def entry_bytes (entry : freecs_type_info_entry_t) : Option (List Nat) :=
  match entry.data with
  | some d =>
    if entry.size > 0 then
      if entry.size ≤ d.length then some (d.take entry.size) else none
    else some (List.replicate entry.size 0)
  | none => some (List.replicate entry.size 0)

/-- Body of the entry loop of `freecs_spawn`. -/
def spawn_entry (arch : freecs_archetype_t) (entry : freecs_type_info_entry_t) :
    Option freecs_archetype_t :=
  match freecs_bit_index entry.bit with
  | none => none
  | some bi =>
    let col_idx := arch.column_bits.getD bi (-1)
    if col_idx ≥ 0 then
      match arch.columns[col_idx.toNat]? with
      | none => none
      | some col =>
        match entry_bytes entry with
        | none => none
        | some bytes =>
          let old_len := col.data.length
          some { arch with
                   columns := arch.columns.set col_idx.toNat
                     { col with
                         data := col.data ++ bytes
                         data_cap := ensure_capacity_u8 col.data_cap (old_len + entry.size) } }
    else some arch

/-- Entry loop of `freecs_spawn`. -/
def spawn_entries : freecs_archetype_t → List freecs_type_info_entry_t →
    Option freecs_archetype_t
  | arch, [] => some arch
  | arch, entry :: rest =>
    match spawn_entry arch entry with
    | none => none
    | some arch1 => spawn_entries arch1 rest

/-- Function `freecs_spawn`. -/
def freecs_spawn (world : freecs_world_t) (mask : Nat)
    (entries : List freecs_type_info_entry_t) : Option (freecs_world_t × freecs_entity_t) :=
  if entries.length = 0 ∨ mask = 0 then some (world, FREECS_ENTITY_NIL)
  else
    match find_or_create_archetype world mask entries with
    | none => none
    | some (world1, arch_idx) =>
      match world1.archetypes[arch_idx]? with
      | none => none
      | some arch =>
        let (world2, entity) := alloc_entity world1
        let row := arch.entities.length
        match spawn_entries { arch with entities := arch.entities ++ [entity] } entries with
        | none => none
        | some arch1 =>
          if entity.id < world2.locations.length then
            some ({ world2 with
                      archetypes := world2.archetypes.set arch_idx arch1
                      locations := world2.locations.set entity.id
                        ⟨toU32 arch_idx, toU32 row, entity.generation, true⟩ },
                  entity)
          else none

/-- Loop of `freecs_spawn_batch` that collects one `type_info` entry for every
bit of `mask` whose registered size is non-zero. -/
def batch_type_info (type_sizes : List Nat) (mask : Nat) : List freecs_type_info_entry_t :=
  (List.range FREECS_MAX_COMPONENTS).filterMap (fun bit_idx =>
    let comp_bit := 2 ^ bit_idx % 2 ^ 64
    if mask &&& comp_bit ≠ 0 then
      let size := type_sizes.getD bit_idx 0
      if size > 0 then some ⟨comp_bit, size, none, bit_idx⟩ else none
    else none)

/-- Body of the entity loop of `freecs_spawn_batch` for the row `row = start_row + i`. -/
def spawn_batch_row (world : freecs_world_t) (arch_idx row : Nat) :
    Option (freecs_world_t × freecs_entity_t) :=
  let (world1, entity) := alloc_entity world
  match world1.archetypes[arch_idx]? with
  | none => none
  | some arch =>
    let arch1 : freecs_archetype_t :=
      { arch with
          entities := arch.entities ++ [entity]
          columns := arch.columns.map (fun col =>
            { col with data := col.data ++ List.replicate col.elem_size 0 }) }
    if entity.id < world1.locations.length then
      some ({ world1 with
                archetypes := world1.archetypes.set arch_idx arch1
                locations := world1.locations.set entity.id
                  ⟨toU32 arch_idx, toU32 row, entity.generation, true⟩ },
            entity)
    else none

/-- Entity loop of `freecs_spawn_batch`: `count` iterations starting at row `row`. -/
def spawn_batch_loop : Nat → freecs_world_t → Nat → Nat →
    Option (freecs_world_t × List freecs_entity_t)
  | 0, world, _, _ => some (world, [])
  | count + 1, world, arch_idx, row =>
    match spawn_batch_row world arch_idx row with
    | none => none
    | some (world1, entity) =>
      match spawn_batch_loop count world1 arch_idx (row + 1) with
      | none => none
      | some (world2, entities) => some (world2, entity :: entities)

/-- Function `freecs_spawn_batch`; the result list is the returned array (`[]`
for `NULL`), its length is `*out_count`. -/
def freecs_spawn_batch (world : freecs_world_t) (mask count : Nat) :
    Option (freecs_world_t × List freecs_entity_t) :=
  if mask = 0 ∨ count = 0 then some (world, [])
  else
    let type_info := batch_type_info world.type_sizes mask
    if type_info.length = 0 then some (world, [])
    else
      match find_or_create_archetype world mask type_info with
      | none => none
      | some (world1, arch_idx) =>
        match world1.archetypes[arch_idx]? with
        | none => none
        | some arch =>
          let start_row := arch.entities.length
          let arch1 : freecs_archetype_t :=
            { arch with
                columns := arch.columns.map (fun col =>
                  { col with
                      data_cap := ensure_capacity_u8 col.data_cap
                        (col.data.length + count * col.elem_size) }) }
          spawn_batch_loop count
            { world1 with archetypes := world1.archetypes.set arch_idx arch1 }
            arch_idx start_row

/-- The `memcpy(&col->data[dst_start], &col->data[src_start], col->elem_size)` of
the swap-remove code; columns of element size 0 are skipped.  `data` holds the
`data_len` live bytes only, so the result is `none` when the source row does
not lie inside `data_len`: the code has no such check and copies bytes that
are not part of the embedded state (inside `data_cap` it returns with them).
`Reachable.column_bytes` accounts for the states after such calls. -/
def copy_row (dst_row src_row : Nat) (col : freecs_component_column_t) :
    Option freecs_component_column_t :=
  if col.elem_size > 0 then
    let src_start := src_row * col.elem_size
    let dst_start := dst_row * col.elem_size
    if src_start + col.elem_size ≤ col.data.length then
      some { col with
               data := col.data.take dst_start ++
                 (col.data.drop src_start).take col.elem_size ++
                 col.data.drop (dst_start + col.elem_size) }
    else none
  else some col

/-- The `col->data_len -= col->elem_size` of the swap-remove code.  The result
is `none` when `data_len < elem_size`: the unsigned subtraction of the code
wraps and the call returns, with a `data_len` that no list of live bytes
represents.  `Reachable.column_bytes` accounts for the states after such
calls. -/
def pop_row (col : freecs_component_column_t) : Option freecs_component_column_t :=
  if col.elem_size > 0 then
    if col.elem_size ≤ col.data.length then
      some { col with data := col.data.take (col.data.length - col.elem_size) }
    else none
  else some col

/-- Swap-remove of row `row` of archetype `arch_idx`: the code shared, line for
line, by `freecs_despawn` (lines 344-369) and `move_entity` (lines 488-510).
With `entities_len = 0` the C code reads `entities[SIZE_MAX]`. -/
def remove_row (world : freecs_world_t) (arch_idx row : Nat) : Option freecs_world_t := do
  let arch ← world.archetypes[arch_idx]?
  if arch.entities.length = 0 then none
  else
    let last_row := arch.entities.length - 1
    let (arch1, locations1) ←
      (if row < last_row then do
        let last_entity ← arch.entities[last_row]?
        let loc ← world.locations[last_entity.id]?
        let columns ← mapOpt (copy_row row last_row) arch.columns
        some ({ arch with
                  entities := arch.entities.set row last_entity
                  columns := columns },
              world.locations.set last_entity.id { loc with row := toU32 row })
      else some (arch, world.locations))
    let columns2 ← mapOpt pop_row arch1.columns
    some { world with
             archetypes := world.archetypes.set arch_idx
               { arch1 with entities := arch1.entities.dropLast, columns := columns2 }
             locations := locations1 }

/-- Function `freecs_despawn`. -/
def freecs_despawn (world : freecs_world_t) (entity : freecs_entity_t) :
    Option (freecs_world_t × Bool) :=
  if entity.id ≥ world.locations.length then some (world, false)
  else do
    let loc ← world.locations[entity.id]?
    if !loc.alive || loc.generation != entity.generation then some (world, false)
    else do
      let world1 ← remove_row world loc.archetype_index loc.row
      let loc1 ← world1.locations[entity.id]?
      let generation := (loc1.generation + 1) % 2 ^ 32
      some ({ world1 with
                locations := world1.locations.set entity.id
                  { loc1 with alive := false, generation := generation }
                free_entities := world1.free_entities ++ [⟨entity.id, generation⟩] },
            true)

/-- Function `freecs_despawn_batch`. -/
def freecs_despawn_batch : freecs_world_t → List freecs_entity_t → Option (freecs_world_t × Nat)
  | world, [] => some (world, 0)
  | world, entity :: rest => do
    let (world1, ok) ← freecs_despawn world entity
    let (world2, despawned) ← freecs_despawn_batch world1 rest
    some (world2, if ok then despawned + 1 else despawned)

/-- Function `freecs_is_alive`. -/
def freecs_is_alive (world : freecs_world_t) (entity : freecs_entity_t) : Bool :=
  if entity.id ≥ world.locations.length then false
  else
    match world.locations[entity.id]? with
    | none => false
    | some loc => loc.alive && loc.generation == entity.generation

/-- The pointer `&col->data[offset]`: `NULL` when the buffer was never allocated
and the offset is 0. -/
def elem_addr (arch_idx col_idx : Nat) (col : freecs_component_column_t) (offset : Nat) :
    Option Ptr :=
  if col.data_cap = 0 then (if offset = 0 then some Ptr.null else none)
  else some (Ptr.cell arch_idx col_idx offset)

/-- Function `freecs_get`. -/
def freecs_get (world : freecs_world_t) (entity : freecs_entity_t) (bit : Nat) : Option Ptr :=
  if entity.id ≥ world.locations.length then some Ptr.null
  else do
    let loc ← world.locations[entity.id]?
    if !loc.alive || loc.generation != entity.generation then some Ptr.null
    else do
      let arch ← world.archetypes[loc.archetype_index]?
      let bi ← freecs_bit_index bit
      let col_idx := arch.column_bits.getD bi (-1)
      if col_idx < 0 then some Ptr.null
      else do
        let col ← arch.columns[col_idx.toNat]?
        elem_addr loc.archetype_index col_idx.toNat col (loc.row * col.elem_size)

/-- The `n` bytes a pointer returned by the store addresses; nothing is read
when `n = 0`. -/
def read_bytes (world : freecs_world_t) (p : Ptr) (n : Nat) : Option (List Nat) :=
  if n = 0 then some []
  else
    match p with
    | Ptr.null => none
    | Ptr.cell a c off => do
      let arch ← world.archetypes[a]?
      let col ← arch.columns[c]?
      if off + n ≤ col.data.length then some ((col.data.drop off).take n) else none

/-- Function `freecs_has`. -/
def freecs_has (world : freecs_world_t) (entity : freecs_entity_t) (bit : Nat) : Option Bool :=
  if entity.id ≥ world.locations.length then some false
  else do
    let loc ← world.locations[entity.id]?
    if !loc.alive || loc.generation != entity.generation then some false
    else do
      let arch ← world.archetypes[loc.archetype_index]?
      some (arch.mask &&& bit != 0)

/-- Function `freecs_has_components`. -/
def freecs_has_components (world : freecs_world_t) (entity : freecs_entity_t) (mask : Nat) :
    Option Bool :=
  if entity.id ≥ world.locations.length then some false
  else do
    let loc ← world.locations[entity.id]?
    if !loc.alive || loc.generation != entity.generation then some false
    else do
      let arch ← world.archetypes[loc.archetype_index]?
      some (arch.mask &&& mask == mask)

/-- Function `freecs_component_mask`; the pair is `(result, *ok)`. -/
def freecs_component_mask (world : freecs_world_t) (entity : freecs_entity_t) :
    Option (Nat × Bool) :=
  if entity.id ≥ world.locations.length then some (0, false)
  else do
    let loc ← world.locations[entity.id]?
    if !loc.alive || loc.generation != entity.generation then some (0, false)
    else do
      let arch ← world.archetypes[loc.archetype_index]?
      some (arch.mask, true)

/-- Body of the column loop of `move_entity` for one destination column.  The
result is `none` when the source row does not lie inside `data_len` of the
source column: the `memcpy` of the code has no such check and copies bytes
that are not part of the embedded state.  `Reachable.column_bytes` accounts
for the states after such calls. -/
def move_column (from_arch : freecs_archetype_t) (from_row : Nat)
    (to_col : freecs_component_column_t) : Option freecs_component_column_t := do
  let old_len := to_col.data.length
  let cap := ensure_capacity_u8 to_col.data_cap (old_len + to_col.elem_size)
  let bi ← freecs_bit_index to_col.bit
  let from_col_idx := from_arch.column_bits.getD bi (-1)
  if from_col_idx ≥ 0 then do
    let from_col ← from_arch.columns[from_col_idx.toNat]?
    let src_offset := from_row * from_col.elem_size
    if src_offset + to_col.elem_size ≤ from_col.data.length then
      some { to_col with
               data := to_col.data ++ (from_col.data.drop src_offset).take to_col.elem_size
               data_cap := cap }
    else none
  else
    some { to_col with
             data := to_col.data ++ List.replicate to_col.elem_size 0
             data_cap := cap }

/-- Function `move_entity`. -/
def move_entity (world : freecs_world_t) (entity : freecs_entity_t)
    (from_arch_idx from_row to_arch_idx : Nat) : Option freecs_world_t := do
  let from_arch ← world.archetypes[from_arch_idx]?
  let to_arch ← world.archetypes[to_arch_idx]?
  let new_row := to_arch.entities.length
  let columns ← mapOpt (move_column from_arch from_row) to_arch.columns
  let world1 : freecs_world_t :=
    { world with
        archetypes := world.archetypes.set to_arch_idx
          { to_arch with entities := to_arch.entities ++ [entity], columns := columns } }
  let world2 ← remove_row world1 from_arch_idx from_row
  if entity.id < world2.locations.length then
    some { world2 with
             locations := world2.locations.set entity.id
               ⟨toU32 to_arch_idx, toU32 new_row, entity.generation, true⟩ }
  else none

/-- The `memcpy(&col->data[offset], value, size)` of `freecs_add_component` and
`freecs_set`: `size` bytes of `value` overwrite the column bytes at `offset`.
The result is `none` when `value` holds fewer than `size` bytes, and when the
written range does not lie inside `data_len`: the code has no check against
`data_len` and then writes bytes that are not part of the embedded state.
`Reachable.column_bytes` accounts for the states after such calls. -/
def write_column (col : freecs_component_column_t) (offset : Nat) (value : List Nat)
    (size : Nat) : Option freecs_component_column_t :=
  if size ≤ value.length ∧ offset + size ≤ col.data.length then
    some { col with
             data := col.data.take offset ++ value.take size ++ col.data.drop (offset + size) }
  else none

/-- Payload write of `freecs_add_component` into the column of `bit_idx` of the
archetype and row recorded in the slot `entity_id`. -/
def write_component (world : freecs_world_t) (entity_id bit_idx : Nat) (value : List Nat)
    (size : Nat) : Option freecs_world_t := do
  let loc ← world.locations[entity_id]?
  let arch ← world.archetypes[loc.archetype_index]?
  let col_idx := arch.column_bits.getD bit_idx (-1)
  if col_idx < 0 then none
  else do
    let col ← arch.columns[col_idx.toNat]?
    let col1 ← write_column col (loc.row * col.elem_size) value size
    some { world with
             archetypes := world.archetypes.set loc.archetype_index
               { arch with columns := arch.columns.set col_idx.toNat col1 } }

/-- Function `freecs_add_component`.  The local array `type_info` has
`FREECS_MAX_COMPONENTS` cells. -/
def freecs_add_component (world : freecs_world_t) (entity : freecs_entity_t) (bit : Nat)
    (value : List Nat) (size : Nat) : Option (freecs_world_t × Bool) :=
  if entity.id ≥ world.locations.length then some (world, false)
  else do
    let loc ← world.locations[entity.id]?
    if !loc.alive || loc.generation != entity.generation then some (world, false)
    else do
      let bit_idx ← freecs_bit_index bit
      let arch ← world.archetypes[loc.archetype_index]?
      if arch.mask &&& bit ≠ 0 then do
        let world1 ← write_component world entity.id bit_idx value size
        some (world1, true)
      else do
        let new_mask := arch.mask ||| bit
        let target_arch_idx_signed := arch.add_edges.getD bit_idx (-1)
        let (world1, target1) ←
          (if target_arch_idx_signed < 0 then do
            if arch.columns.length + 1 > FREECS_MAX_COMPONENTS then none
            else do
              let type_info : List freecs_type_info_entry_t :=
                arch.columns.map (fun col => ⟨col.bit, col.elem_size, none, col.type_index⟩) ++
                  [⟨bit, size, none, bit_idx⟩]
              let (w, idx) ← find_or_create_archetype world new_mask type_info
              let a ← w.archetypes[loc.archetype_index]?
              some ({ w with
                        archetypes := w.archetypes.set loc.archetype_index
                          { a with add_edges := a.add_edges.set bit_idx (toI32 idx) } },
                    toI32 idx)
          else some (world, target_arch_idx_signed))
        if target1 < 0 then none
        else do
          let world2 ← move_entity world1 entity loc.archetype_index loc.row target1.toNat
          if size > 0 then do
            let world3 ← write_component world2 entity.id bit_idx value size
            some (world3, true)
          else some (world2, true)

/-- Function `freecs_remove_component`. -/
def freecs_remove_component (world : freecs_world_t) (entity : freecs_entity_t) (bit : Nat) :
    Option (freecs_world_t × Bool) :=
  if entity.id ≥ world.locations.length then some (world, false)
  else do
    let loc ← world.locations[entity.id]?
    if !loc.alive || loc.generation != entity.generation then some (world, false)
    else do
      let bit_idx ← freecs_bit_index bit
      let arch ← world.archetypes[loc.archetype_index]?
      if arch.mask &&& bit = 0 then some (world, false)
      else
        let new_mask := arch.mask &&& not64 bit
        if new_mask = 0 then do
          let (world1, _) ← freecs_despawn world entity
          some (world1, true)
        else do
          let target_arch_idx_signed := arch.remove_edges.getD bit_idx (-1)
          let (world1, target1) ←
            (if target_arch_idx_signed < 0 then do
              let type_info : List freecs_type_info_entry_t :=
                (arch.columns.filter (fun col => col.bit != bit)).map
                  (fun col => ⟨col.bit, col.elem_size, none, col.type_index⟩)
              if type_info.length > FREECS_MAX_COMPONENTS then none
              else do
                let (w, idx) ← find_or_create_archetype world new_mask type_info
                let a ← w.archetypes[loc.archetype_index]?
                some ({ w with
                          archetypes := w.archetypes.set loc.archetype_index
                            { a with remove_edges := a.remove_edges.set bit_idx (toI32 idx) } },
                      toI32 idx)
            else some (world, target_arch_idx_signed))
          if target1 < 0 then none
          else do
            let world2 ← move_entity world1 entity loc.archetype_index loc.row target1.toNat
            some (world2, true)

/-- Scan loop of `freecs_get_matching_archetypes` over the archetypes from index `i`. -/
def matching_from : List freecs_archetype_t → Nat → Nat → Nat → List Nat
  | [], _, _, _ => []
  | arch :: rest, mask, exclude, i =>
    if arch.mask &&& mask = mask ∧ (exclude = 0 ∨ arch.mask &&& exclude = 0) then
      i :: matching_from rest mask exclude (i + 1)
    else matching_from rest mask exclude (i + 1)

/-- Function `freecs_get_matching_archetypes`; the list is the returned index
array, its length is `*out_count`. -/
def freecs_get_matching_archetypes (world : freecs_world_t) (mask exclude : Nat) :
    Option (freecs_world_t × List Nat) :=
  let cache_key := mask ||| (exclude <<< 32) % 2 ^ 64
  match cache_find world.query_cache cache_key with
  | some idx =>
    match world.query_cache[idx]? with
    | none => none
    | some entry => some (world, entry.value)
  | none =>
    let matching := matching_from world.archetypes mask exclude 0
    some ({ world with query_cache := world.query_cache ++ [⟨cache_key, matching⟩] }, matching)

/-- Function `freecs_entity_count`. -/
def freecs_entity_count (world : freecs_world_t) : Nat :=
  world.archetypes.foldl (fun count arch => count + arch.entities.length) 0

/-- Function `freecs_queue_despawn`. -/
def freecs_queue_despawn (world : freecs_world_t) (entity : freecs_entity_t) : freecs_world_t :=
  { world with despawn_queue := world.despawn_queue ++ [entity] }

/-- Loop of `freecs_apply_despawns` over the queued handles. -/
def apply_despawns_loop : List freecs_entity_t → freecs_world_t → Option freecs_world_t
  | [], world => some world
  | entity :: rest, world => do
    let (world1, _) ← freecs_despawn world entity
    apply_despawns_loop rest world1

/-- Function `freecs_apply_despawns`. -/
def freecs_apply_despawns (world : freecs_world_t) : Option freecs_world_t := do
  let world1 ← apply_despawns_loop world.despawn_queue world
  some { world1 with despawn_queue := [] }

/-- Function `freecs_set`: `memcpy(ptr, value, size)` through the pointer
returned by `freecs_get`. -/
def freecs_set (world : freecs_world_t) (entity : freecs_entity_t) (bit : Nat)
    (value : List Nat) (size : Nat) : Option (freecs_world_t × Bool) := do
  let p ← freecs_get world entity bit
  match p with
  | Ptr.null => some (world, false)
  | Ptr.cell a c off => do
    let arch ← world.archetypes[a]?
    let col ← arch.columns[c]?
    let col1 ← write_column col off value size
    some ({ world with
              archetypes := world.archetypes.set a
                { arch with columns := arch.columns.set c col1 } },
          true)

/-- Summation loop of `freecs_query_count` over the returned index array:
`count += world->archetypes[matching[i]].entities_len`.  The sum of the
lengths of arrays held in memory stays below `2^64`. -/
def query_count_loop (archetypes : List freecs_archetype_t) : List Nat → Nat → Option Nat
  | [], count => some count
  | i :: rest, count =>
    match archetypes[i]? with
    | none => none
    | some arch => query_count_loop archetypes rest (count + arch.entities.length)

/-- Function `freecs_query_count`. -/
def freecs_query_count (world : freecs_world_t) (mask exclude : Nat) :
    Option (freecs_world_t × Nat) :=
  match freecs_get_matching_archetypes world mask exclude with
  | none => none
  | some (world1, matching) =>
    match query_count_loop world1.archetypes matching 0 with
    | none => none
    | some count => some (world1, count)

/-- Copy loop of `freecs_query_entities`: the rows of every listed archetype are
appended to the output, in row order. -/
def query_entities_loop (archetypes : List freecs_archetype_t) :
    List Nat → List freecs_entity_t → Option (List freecs_entity_t)
  | [], out => some out
  | i :: rest, out =>
    match archetypes[i]? with
    | none => none
    | some arch => query_entities_loop archetypes rest (out ++ arch.entities)

/-- Function `freecs_query_entities`; the list is the returned array of
`*out_count` handles, `[]` standing for the `NULL` return with
`*out_count = 0`.  The output buffer has `total` cells: writing more handles
than that, or returning cells that were never written, is undefined. -/
def freecs_query_entities (world : freecs_world_t) (mask exclude : Nat) :
    Option (freecs_world_t × List freecs_entity_t) :=
  match freecs_query_count world mask exclude with
  | none => none
  | some (world1, total) =>
    if total = 0 then some (world1, [])
    else
      match freecs_get_matching_archetypes world1 mask exclude with
      | none => none
      | some (world2, matching) =>
        match query_entities_loop world2.archetypes matching [] with
        | none => none
        | some out => if out.length = total then some (world2, out) else none

/-! ## Command buffer -/

/-- Enum `freecs_command_type_t`. -/
inductive freecs_command_type_t where
  | FREECS_CMD_SPAWN
  | FREECS_CMD_DESPAWN
  | FREECS_CMD_ADD_COMPONENTS
  | FREECS_CMD_REMOVE_COMPONENTS
  deriving DecidableEq, Repr

/-- Record `freecs_command_t`.  `component_data` holds the `component_data_len`
bytes of the command's own buffer; a cell is `none` while the `malloc`ed byte
has not been written.  `component_sizes` and `component_bits` are the two
arrays with their lengths. -/
structure freecs_command_t where
  command_type : freecs_command_type_t
  entity : freecs_entity_t
  mask : Nat
  component_data : List (Option Nat)
  component_sizes : List Nat
  component_bits : List Nat
  deriving DecidableEq, Repr

/-- Record `freecs_command_buffer_t`; the world it points to is passed to
`freecs_apply_commands` as an argument. -/
structure freecs_command_buffer_t where
  commands : List freecs_command_t
  deriving DecidableEq, Repr

/-- Function `freecs_create_command_buffer`. -/
def freecs_create_command_buffer : freecs_command_buffer_t := ⟨[]⟩

/-- Function `freecs_clear_command_buffer`. -/
def freecs_clear_command_buffer (buffer : freecs_command_buffer_t) : freecs_command_buffer_t :=
  { buffer with commands := [] }

/-- Bytes that the copy loop of `freecs_queue_spawn` leaves in the command's
buffer for one entry: the `size` payload bytes when `data` is not `NULL` and
`size > 0` (reading past the end of the payload is undefined), `size`
unwritten bytes otherwise. -/
def queue_spawn_bytes (entry : freecs_type_info_entry_t) : Option (List (Option Nat)) :=
  match entry.data with
  | some d =>
    if entry.size > 0 then
      if entry.size ≤ d.length then some ((d.take entry.size).map some) else none
    else some (List.replicate entry.size none)
  | none => some (List.replicate entry.size none)

/-- Function `freecs_queue_spawn`.  The byte counts of the entries are sizes of
objects in memory, their sum stays below `2^64`. -/
def freecs_queue_spawn (buffer : freecs_command_buffer_t) (mask : Nat)
    (entries : List freecs_type_info_entry_t) : Option freecs_command_buffer_t :=
  match mapOpt queue_spawn_bytes entries with
  | none => none
  | some pieces =>
    some { buffer with
             commands := buffer.commands ++
               [{ command_type := freecs_command_type_t.FREECS_CMD_SPAWN
                  entity := ⟨0, 0⟩
                  mask := mask
                  component_data := pieces.flatten
                  component_sizes := entries.map (fun entry => entry.size)
                  component_bits := entries.map (fun entry => entry.bit) }] }

/-- Function `freecs_cmd_queue_despawn`. -/
def freecs_cmd_queue_despawn (buffer : freecs_command_buffer_t) (entity : freecs_entity_t) :
    freecs_command_buffer_t :=
  { buffer with
      commands := buffer.commands ++
        [{ command_type := freecs_command_type_t.FREECS_CMD_DESPAWN
           entity := entity
           mask := 0
           component_data := []
           component_sizes := []
           component_bits := [] }] }

/-- Function `freecs_queue_add_components`. -/
def freecs_queue_add_components (buffer : freecs_command_buffer_t) (entity : freecs_entity_t)
    (mask : Nat) : freecs_command_buffer_t :=
  { buffer with
      commands := buffer.commands ++
        [{ command_type := freecs_command_type_t.FREECS_CMD_ADD_COMPONENTS
           entity := entity
           mask := mask
           component_data := []
           component_sizes := []
           component_bits := [] }] }

/-- Function `freecs_queue_remove_components`. -/
def freecs_queue_remove_components (buffer : freecs_command_buffer_t)
    (entity : freecs_entity_t) (mask : Nat) : freecs_command_buffer_t :=
  { buffer with
      commands := buffer.commands ++
        [{ command_type := freecs_command_type_t.FREECS_CMD_REMOVE_COMPONENTS
           entity := entity
           mask := mask
           component_data := []
           component_sizes := []
           component_bits := [] }] }

/-- The written bytes at the start of a region of a command's buffer.  A
`memcpy` of `size` bytes from the region is defined only when all of its first
`size` bytes were written. -/
def written_bytes : List (Option Nat) → List Nat
  | some b :: rest => b :: written_bytes rest
  | _ => []

/-- Entry-rebuilding loop of the `FREECS_CMD_SPAWN` case of
`freecs_apply_commands`, from index `j` with the running `offset`, over the
remaining cells of `component_bits`.  The local array `entries` has
`FREECS_MAX_COMPONENTS` cells; `data` is `&component_data[offset]` when the
size is positive and `NULL` otherwise. -/
def rebuild_entries (cmd : freecs_command_t) :
    List Nat → Nat → Nat → Option (List freecs_type_info_entry_t)
  | [], _, _ => some []
  | bit :: rest, j, offset =>
    if j ≥ FREECS_MAX_COMPONENTS then none
    else
      match cmd.component_sizes[j]? with
      | none => none
      | some size =>
        match freecs_bit_index bit with
        | none => none
        | some type_index =>
          match rebuild_entries cmd rest (j + 1) (offset + size) with
          | none => none
          | some entries =>
            some ({ bit := bit
                    size := size
                    data := if size > 0 then
                        some (written_bytes ((cmd.component_data.drop offset).take size))
                      else none
                    type_index := type_index } :: entries)

/-- Body of the loop of `freecs_apply_commands` for one command. -/
def apply_command (world : freecs_world_t) (cmd : freecs_command_t) : Option freecs_world_t :=
  match cmd.command_type with
  | freecs_command_type_t.FREECS_CMD_SPAWN =>
    match rebuild_entries cmd cmd.component_bits 0 0 with
    | none => none
    | some entries =>
      match freecs_spawn world cmd.mask entries with
      | none => none
      | some (world1, _) => some world1
  | freecs_command_type_t.FREECS_CMD_DESPAWN =>
    match freecs_despawn world cmd.entity with
    | none => none
    | some (world1, _) => some world1
  | freecs_command_type_t.FREECS_CMD_ADD_COMPONENTS => some world
  | freecs_command_type_t.FREECS_CMD_REMOVE_COMPONENTS => some world

/-- Loop of `freecs_apply_commands` over the commands, in order. -/
def apply_commands_loop : List freecs_command_t → freecs_world_t → Option freecs_world_t
  | [], world => some world
  | cmd :: rest, world =>
    match apply_command world cmd with
    | none => none
    | some world1 => apply_commands_loop rest world1

/-- Function `freecs_apply_commands`, on the world the buffer points to. -/
def freecs_apply_commands (world : freecs_world_t) (buffer : freecs_command_buffer_t) :
    Option (freecs_world_t × freecs_command_buffer_t) :=
  match apply_commands_loop buffer.commands world with
  | none => none
  | some world1 => some (world1, freecs_clear_command_buffer buffer)

/-! ## Tags -/

/-- Constant `FREECS_MAX_TAGS`. -/
def FREECS_MAX_TAGS : Nat := 64

/-- Record `freecs_tag_entry_t`. -/
structure freecs_tag_entry_t where
  entity : freecs_entity_t
  mask : Nat
  deriving DecidableEq, Repr

/-- Record `freecs_tags_t`: `storage` has `FREECS_MAX_TAGS` cells, each the
entry array of one tag (`entries_len` is its length); `next_tag` is an `int`. -/
structure freecs_tags_t where
  storage : List (List freecs_tag_entry_t)
  next_tag : Int
  deriving DecidableEq, Repr

/-- Function `freecs_create_tags`. -/
def freecs_create_tags : freecs_tags_t :=
  { storage := List.replicate FREECS_MAX_TAGS [], next_tag := 0 }

/-- Function `freecs_register_tag`; `next_tag++` on `INT_MAX` is a signed
overflow. -/
def freecs_register_tag (tags : freecs_tags_t) : Option (freecs_tags_t × Int) :=
  if tags.next_tag = 2 ^ 31 - 1 then none
  else some ({ tags with next_tag := tags.next_tag + 1 }, tags.next_tag)

/-- Scan loop of `freecs_add_tag`: the first entry with the id of `entity` gets
`entity` stored; `none` when the loop ends without a match. -/
def tag_overwrite : List freecs_tag_entry_t → freecs_entity_t →
    Option (List freecs_tag_entry_t)
  | [], _ => none
  | entry :: rest, entity =>
    if entry.entity.id = entity.id then some ({ entry with entity := entity } :: rest)
    else
      match tag_overwrite rest entity with
      | none => none
      | some rest1 => some (entry :: rest1)

/-- Function `freecs_add_tag`. -/
def freecs_add_tag (tags : freecs_tags_t) (tag_id : Int) (entity : freecs_entity_t) :
    freecs_tags_t :=
  if tag_id < 0 ∨ tag_id ≥ FREECS_MAX_TAGS then tags
  else
    let entries := tags.storage.getD tag_id.toNat []
    match tag_overwrite entries entity with
    | some entries1 => { tags with storage := tags.storage.set tag_id.toNat entries1 }
    | none =>
      { tags with storage := tags.storage.set tag_id.toNat (entries ++ [⟨entity, 0⟩]) }

/-- Scan loop of `freecs_remove_tag` from index `i`: index of the first entry
with the given id. -/
def tag_find : List freecs_tag_entry_t → Nat → Nat → Option Nat
  | [], _, _ => none
  | entry :: rest, id, i => if entry.entity.id = id then some i else tag_find rest id (i + 1)

/-- Function `freecs_remove_tag`: the first entry with the id of `entity` is
overwritten with the last entry and the array is shortened by one. -/
def freecs_remove_tag (tags : freecs_tags_t) (tag_id : Int) (entity : freecs_entity_t) :
    freecs_tags_t :=
  if tag_id < 0 ∨ tag_id ≥ FREECS_MAX_TAGS then tags
  else
    let entries := tags.storage.getD tag_id.toNat []
    match tag_find entries entity.id 0 with
    | none => tags
    | some i =>
      match entries.getLast? with
      | none => tags
      | some last =>
        { tags with storage := tags.storage.set tag_id.toNat (entries.set i last).dropLast }

/-- Scan loop of `freecs_has_tag`. -/
def has_tag_loop : List freecs_tag_entry_t → freecs_entity_t → Bool
  | [], _ => false
  | entry :: rest, entity =>
    if entry.entity.id = entity.id ∧ entry.entity.generation = entity.generation then true
    else has_tag_loop rest entity

/-- Function `freecs_has_tag`. -/
def freecs_has_tag (tags : freecs_tags_t) (tag_id : Int) (entity : freecs_entity_t) : Bool :=
  if tag_id < 0 ∨ tag_id ≥ FREECS_MAX_TAGS then false
  else has_tag_loop (tags.storage.getD tag_id.toNat []) entity

/-- Function `freecs_tag_count`. -/
def freecs_tag_count (tags : freecs_tags_t) (tag_id : Int) : Nat :=
  if tag_id < 0 ∨ tag_id ≥ FREECS_MAX_TAGS then 0
  else (tags.storage.getD tag_id.toNat []).length

/-- Function `freecs_clear_entity_tags`. -/
def freecs_clear_entity_tags (tags : freecs_tags_t) (entity : freecs_entity_t) : freecs_tags_t :=
  (List.range FREECS_MAX_TAGS).foldl (fun t i => freecs_remove_tag t (i : Int) entity) tags

/-- Function `freecs_query_tag`: the returned array (`none` is `NULL`) and
`*out_count`. -/
def freecs_query_tag (tags : freecs_tags_t) (tag_id : Int) :
    Option (List freecs_entity_t) × Nat :=
  if tag_id < 0 ∨ tag_id ≥ FREECS_MAX_TAGS then (none, 0)
  else
    let entries := tags.storage.getD tag_id.toNat []
    if entries.length = 0 then (none, 0)
    else (some (entries.map fun entry => entry.entity), entries.length)

/-! ## Event queues -/

/-- Structure `freecs_event_queue_t`: `data` holds the `data_len` live bytes of
the buffer. -/
structure freecs_event_queue_t where
  data : List Nat
  data_cap : Nat
  elem_size : Nat
  deriving DecidableEq, Repr

/-- Function `freecs_create_event_queue`. -/
def freecs_create_event_queue (elem_size : Nat) : freecs_event_queue_t :=
  { data := [], data_cap := 0, elem_size := elem_size }

/-- Function `freecs_send_event`; `event` is the object behind the pointer, of
which `memcpy` reads `elem_size` bytes (`none` when it is shorter). -/
def freecs_send_event (queue : freecs_event_queue_t) (event : List Nat) :
    Option freecs_event_queue_t :=
  if queue.elem_size ≤ event.length then
    some { queue with
      data_cap := ensure_capacity_u8 queue.data_cap (queue.data.length + queue.elem_size)
      data := queue.data ++ event.take queue.elem_size }
  else none

/-- Function `freecs_read_events`: the buffer and `*out_count`; the division by
an `elem_size` of zero has no result. -/
def freecs_read_events (queue : freecs_event_queue_t) : Option (List Nat × Nat) :=
  if queue.elem_size = 0 then none
  else some (queue.data, queue.data.length / queue.elem_size)

/-- Function `freecs_clear_events`. -/
def freecs_clear_events (queue : freecs_event_queue_t) : freecs_event_queue_t :=
  { queue with data := [] }

/-- Function `freecs_event_count`. -/
def freecs_event_count (queue : freecs_event_queue_t) : Option Nat :=
  if queue.elem_size = 0 then none
  else some (queue.data.length / queue.elem_size)
/-! ## Invariants -/

/-- Entity vectors of the archetypes, by archetype index. -/
def ents (world : freecs_world_t) : List (List freecs_entity_t) :=
  world.archetypes.map (fun arch => arch.entities)

/-- Consistency of the slot table `locs` with the entity vectors `es` and the
free list `free`: every row is recorded in its slot, every live slot points to
its row, and the free list holds exactly the dead slots, once each. -/
structure EntInv (locs : List freecs_entity_location_t) (es : List (List freecs_entity_t))
    (free : List freecs_entity_t) : Prop where
  bound : locs.length < 2 ^ 32
  gen_bound : ∀ (i : Nat) (loc : freecs_entity_location_t), locs[i]? = some loc → loc.generation < 2 ^ 32
  slot : ∀ (a r : Nat) (row_es : List freecs_entity_t) (e : freecs_entity_t), es[a]? = some row_es → row_es[r]? = some e →
    locs[e.id]? = some ⟨a, r, e.generation, true⟩
  alive : ∀ (i : Nat) (loc : freecs_entity_location_t), locs[i]? = some loc → loc.alive = true →
    ∃ row_es, es[loc.archetype_index]? = some row_es ∧
      row_es[loc.row]? = some ⟨i, loc.generation⟩
  free_nodup : (free.map (fun e => e.id)).Nodup
  free_dead : ∀ e ∈ free, ∃ loc, locs[e.id]? = some loc ∧ loc.alive = false ∧
    loc.generation = e.generation
  dead_free : ∀ (i : Nat) (loc : freecs_entity_location_t), locs[i]? = some loc → loc.alive = false → ⟨i, loc.generation⟩ ∈ free

/-- The same consistency with the slot `i` taken out: it is in range, no row
and no free-list entry names it, and nothing is required of its contents. -/
structure Limbo (locs : List freecs_entity_location_t) (es : List (List freecs_entity_t))
    (free : List freecs_entity_t) (i : Nat) : Prop where
  bound : locs.length < 2 ^ 32
  in_range : i < locs.length
  gen_bound : ∀ (j : Nat) (loc : freecs_entity_location_t), locs[j]? = some loc → j ≠ i → loc.generation < 2 ^ 32
  slot : ∀ (a r : Nat) (row_es : List freecs_entity_t) (e : freecs_entity_t), es[a]? = some row_es → row_es[r]? = some e →
    e.id ≠ i ∧ locs[e.id]? = some ⟨a, r, e.generation, true⟩
  alive : ∀ (j : Nat) (loc : freecs_entity_location_t), locs[j]? = some loc → j ≠ i → loc.alive = true →
    ∃ row_es, es[loc.archetype_index]? = some row_es ∧
      row_es[loc.row]? = some ⟨j, loc.generation⟩
  free_nodup : (free.map (fun e => e.id)).Nodup
  free_dead : ∀ e ∈ free, e.id ≠ i ∧ ∃ loc, locs[e.id]? = some loc ∧ loc.alive = false ∧
    loc.generation = e.generation
  dead_free : ∀ (j : Nat) (loc : freecs_entity_location_t), locs[j]? = some loc → j ≠ i → loc.alive = false →
    ⟨j, loc.generation⟩ ∈ free

/-- The part of an archetype the archetype graph is made of. -/
def graph_of (arch : freecs_archetype_t) : Nat × List Int × List Int :=
  (arch.mask, arch.add_edges, arch.remove_edges)

/-- Consistency of the archetype index and of the add/remove edges: index
entry `i` is `(archetypes[i].mask, [i])`, masks are pairwise distinct, and a
non-negative edge for bit index `b` leads to the archetype whose mask is the
source mask with bit `b` set (add) or cleared (remove). -/
structure GraphInv (world : freecs_world_t) : Prop where
  arch_bound : world.archetypes.length < 2 ^ 31
  index_len : world.archetype_index.length = world.archetypes.length
  index_entry : ∀ (i : Nat) (entry : freecs_cache_entry_t),
    world.archetype_index[i]? = some entry →
      entry.value = [i] ∧ ∃ arch, world.archetypes[i]? = some arch ∧ arch.mask = entry.key
  mask_inj : ∀ (i j : Nat) (a1 a2 : freecs_archetype_t), world.archetypes[i]? = some a1 →
    world.archetypes[j]? = some a2 → a1.mask = a2.mask → i = j
  add_edge : ∀ (a b : Nat) (arch : freecs_archetype_t), world.archetypes[a]? = some arch →
    b < 64 → 0 ≤ arch.add_edges.getD b (-1) →
      ∃ arch1, world.archetypes[(arch.add_edges.getD b (-1)).toNat]? = some arch1 ∧
        arch1.mask = arch.mask ||| 2 ^ b
  remove_edge : ∀ (a b : Nat) (arch : freecs_archetype_t), world.archetypes[a]? = some arch →
    b < 64 → 0 ≤ arch.remove_edges.getD b (-1) →
      ∃ arch1, world.archetypes[(arch.remove_edges.getD b (-1)).toNat]? = some arch1 ∧
        arch1.mask = arch.mask &&& not64 (2 ^ b)

/-- Structural invariant of a world: slot table, entity vectors, free list,
archetype index and edges are consistent. -/
structure StructInv (world : freecs_world_t) : Prop where
  next_id : world.next_entity_id = world.locations.length
  ent : EntInv world.locations (ents world) world.free_entities
  graph : GraphInv world

/-- All steps of the edge loop applied to one archetype. -/
def wire_all (type_sizes : List Nat) (mask n : Nat) (bs : List Nat)
    (X : freecs_archetype_t) : freecs_archetype_t :=
  bs.foldl (fun Y c => if type_sizes.getD c 0 = 0 then Y else wire_edges mask n c Y) X

/-- A component bit: a non-zero single-bit 64-bit mask. -/
def IsBit (bit : Nat) : Prop := ∃ k, k < 64 ∧ bit = 2 ^ k

/-- The world fits the 32-bit index fields: fewer than `2^32` slots and fewer
than `2^31` archetypes, so that no `uint32_t` / `int32_t` cast truncates. -/
def Bounded (world : freecs_world_t) : Prop :=
  world.locations.length < 2 ^ 32 ∧ world.archetypes.length < 2 ^ 31

/-- A column without the contents of its buffer: `elem_size`, `bit` and
`type_index` are kept, `data`, `data_len` and `data_cap` are dropped. -/
def erase_bytes_col (col : freecs_component_column_t) : freecs_component_column_t :=
  { col with data := [], data_cap := 0 }

/-- An archetype without the contents of its column buffers. -/
def erase_bytes_arch (arch : freecs_archetype_t) : freecs_archetype_t :=
  { arch with columns := arch.columns.map erase_bytes_col }

/-- A world without the contents of its column buffers: slot table, entity
vectors, free list, masks, edges, index, caches and the list of columns of
every archetype are kept. -/
def erase_bytes (world : freecs_world_t) : freecs_world_t :=
  { world with archetypes := world.archetypes.map erase_bytes_arch }

/-- A column that holds `rows` rows: `rows * elem_size` bytes, all zero. -/
def full_col (rows : Nat) (col : freecs_component_column_t) : freecs_component_column_t :=
  { col with
      data := List.replicate (rows * col.elem_size) 0
      data_cap := rows * col.elem_size }

/-- An archetype in which every column holds one row for each entity. -/
def full_arch (arch : freecs_archetype_t) : freecs_archetype_t :=
  { arch with columns := arch.columns.map (full_col arch.entities.length) }

/-- A world with the same slot table, entity vectors, free list, masks, edges,
index and caches in which every column holds one row for each entity of its
archetype. -/
def full_columns (world : freecs_world_t) : freecs_world_t :=
  { world with archetypes := world.archetypes.map full_arch }

/-- States reachable from `freecs_create_world` through calls of the public
functions that return (no undefined behaviour), with single-bit component bits
in `freecs_add_component` / `freecs_remove_component`, inside the 32-bit index
space.

The last constructor, `column_bytes`, closes the set under every change of the
column buffers (bytes, `data_len`, `data_cap`) that keeps all the rest.  The
embedded column loops (`copy_row`, `pop_row`, `move_column`, `write_column`)
have a result only while the rows they touch lie inside `data_len`; on a column
that is shorter than its archetype the C code still returns when the access
stays inside `data_cap`: it reads bytes that are not part of the embedded
state, and `data_len -= elem_size` wraps.  The state after such a call and
the state after the same call on columns filled up to full length differ in
column buffers only, so both are in this set
(`Reachable.despawn_full_columns` spells this out for `freecs_despawn`). -/
inductive Reachable : freecs_world_t → Prop
  | create : Reachable freecs_create_world
  | register_component (world world1 : freecs_world_t) (size bit : Nat) :
      Reachable world → freecs_register_component world size = some (world1, bit) →
      Reachable world1
  | spawn (world world1 : freecs_world_t) (mask : Nat)
      (entries : List freecs_type_info_entry_t) (entity : freecs_entity_t) :
      Reachable world → freecs_spawn world mask entries = some (world1, entity) →
      Bounded world1 → Reachable world1
  | spawn_batch (world world1 : freecs_world_t) (mask count : Nat)
      (entities : List freecs_entity_t) :
      Reachable world → freecs_spawn_batch world mask count = some (world1, entities) →
      Bounded world1 → Reachable world1
  | despawn (world world1 : freecs_world_t) (entity : freecs_entity_t) (ok : Bool) :
      Reachable world → freecs_despawn world entity = some (world1, ok) → Reachable world1
  | despawn_batch (world world1 : freecs_world_t) (entities : List freecs_entity_t)
      (despawned : Nat) :
      Reachable world → freecs_despawn_batch world entities = some (world1, despawned) →
      Reachable world1
  | add_component (world world1 : freecs_world_t) (entity : freecs_entity_t) (bit : Nat)
      (value : List Nat) (size : Nat) (ok : Bool) :
      Reachable world → IsBit bit →
      freecs_add_component world entity bit value size = some (world1, ok) →
      Bounded world1 → Reachable world1
  | remove_component (world world1 : freecs_world_t) (entity : freecs_entity_t) (bit : Nat)
      (ok : Bool) :
      Reachable world → IsBit bit →
      freecs_remove_component world entity bit = some (world1, ok) →
      Bounded world1 → Reachable world1
  | set (world world1 : freecs_world_t) (entity : freecs_entity_t) (bit : Nat)
      (value : List Nat) (size : Nat) (ok : Bool) :
      Reachable world → freecs_set world entity bit value size = some (world1, ok) →
      Reachable world1
  | get_matching_archetypes (world world1 : freecs_world_t) (mask exclude : Nat)
      (result : List Nat) :
      Reachable world →
      freecs_get_matching_archetypes world mask exclude = some (world1, result) →
      Reachable world1
  | queue_despawn (world : freecs_world_t) (entity : freecs_entity_t) :
      Reachable world → Reachable (freecs_queue_despawn world entity)
  | apply_despawns (world world1 : freecs_world_t) :
      Reachable world → freecs_apply_despawns world = some world1 → Reachable world1
  | column_bytes (world world1 : freecs_world_t) :
      Reachable world → erase_bytes world1 = erase_bytes world → Reachable world1

/-- Bit index `b` belongs to a component registered in `world`: it is below 64
and `2^b` was handed out, that is, lies below `next_bit` (`next_bit` is 0 once
all 64 bits were handed out). -/
def Registered (world : freecs_world_t) (b : Nat) : Prop :=
  b < 64 ∧ (world.next_bit = 0 ∨ 2 ^ b < world.next_bit)

/-- Column layout of one archetype for the registered sizes `ts`: a column
table cell that is set names a column of that bit, the bit is in the mask;
every mask bit of non-zero size has a column; every column is the column of
its bit, has the registered element size, holds `entities_len * elem_size`
bytes, and its buffer is unallocated exactly when it never received a byte. -/
structure ArchCols (ts : List Nat) (arch : freecs_archetype_t) : Prop where
  mask_ne : arch.mask ≠ 0
  col_of_bit : ∀ (b : Nat), b < 64 → 0 ≤ arch.column_bits.getD b (-1) →
    arch.mask.testBit b = true ∧
      ∃ col, arch.columns[(arch.column_bits.getD b (-1)).toNat]? = some col ∧ col.bit = 2 ^ b
  bit_has_col : ∀ (b : Nat), b < 64 → arch.mask.testBit b = true → ts.getD b 0 ≠ 0 →
    0 ≤ arch.column_bits.getD b (-1)
  col_ok : ∀ (c : Nat) (col : freecs_component_column_t), arch.columns[c]? = some col →
    ∃ b, b < 64 ∧ col.bit = 2 ^ b ∧ arch.column_bits.getD b (-1) = (c : Int) ∧
      col.elem_size = ts.getD b 0 ∧
      col.data.length = arch.entities.length * col.elem_size ∧
      (col.data_cap = 0 → col.data = []) ∧ (col.elem_size = 0 → col.data_cap = 0)

/-- Column invariant of a world: `next_bit` is a power of two below `2^64` or
0, every archetype mask only has registered bits, and every archetype has
the column layout `ArchCols`. -/
structure ColInv (world : freecs_world_t) : Prop where
  next_bit_ok : world.next_bit = 0 ∨ ∃ n, n < 64 ∧ world.next_bit = 2 ^ n
  mask_reg : ∀ (a : Nat) (arch : freecs_archetype_t), world.archetypes[a]? = some arch →
    ∀ (b : Nat), arch.mask.testBit b = true → Registered world b
  archs : ∀ (a : Nat) (arch : freecs_archetype_t), world.archetypes[a]? = some arch →
    ArchCols world.type_sizes arch

/-- Well-formed world: structural and column invariants. -/
structure WellFormed (world : freecs_world_t) : Prop where
  struct : StructInv world
  cols : ColInv world

/-- The entries of a spawn call list each bit of `mask` exactly once, each with
its registered size and with a payload (when present) of at least that size. -/
structure EntriesFor (world : freecs_world_t) (mask : Nat)
    (entries : List freecs_type_info_entry_t) : Prop where
  mask_ne : mask ≠ 0
  mask_reg : ∀ (b : Nat), mask.testBit b = true → Registered world b
  nodup : (entries.map (fun en => en.bit)).Nodup
  bit_ok : ∀ en ∈ entries, ∃ b, b < 64 ∧ en.bit = 2 ^ b ∧ mask.testBit b = true ∧
    en.size = world.type_sizes.getD b 0
  covers : ∀ (b : Nat), mask.testBit b = true → ∃ en ∈ entries, en.bit = 2 ^ b
  data_ok : ∀ en ∈ entries, ∀ (d : List Nat), en.data = some d → en.size ≤ d.length

/-- Value of a component as seen through `freecs_get`: `some none` when the
pointer is `NULL`, `some (some bytes)` with the `elem_size` bytes the pointer
addresses otherwise; `none` when `freecs_get` or the read is undefined. -/
def get_bytes (world : freecs_world_t) (entity : freecs_entity_t) (bit : Nat) :
    Option (Option (List Nat)) :=
  match freecs_get world entity bit with
  | none => none
  | some Ptr.null => some none
  | some (Ptr.cell a c off) =>
    match world.archetypes[a]? with
    | none => none
    | some arch =>
      match arch.columns[c]? with
      | none => none
      | some col =>
        match read_bytes world (Ptr.cell a c off) col.elem_size with
        | none => none
        | some bytes => some (some bytes)

/-- The `elem_size` bytes of row `r` of a column. -/
def row_bytes (col : freecs_component_column_t) (r : Nat) : List Nat :=
  (col.data.drop (r * col.elem_size)).take col.elem_size

/-- Description of `world2 = remove_row world a row` when `arch` is archetype
`a` of `world`, `arch2` its replacement and `last` the entity of its last row. -/
structure RowRemoved (world world2 : freecs_world_t) (a row : Nat)
    (arch arch2 : freecs_archetype_t) (last : freecs_entity_t) : Prop where
  src : world.archetypes[a]? = some arch
  dst : world2.archetypes = world.archetypes.set a arch2
  last_eq : arch.entities[arch.entities.length - 1]? = some last
  mask_eq : arch2.mask = arch.mask
  bits_eq : arch2.column_bits = arch.column_bits
  add_eq : arch2.add_edges = arch.add_edges
  rem_eq : arch2.remove_edges = arch.remove_edges
  ents_eq : arch2.entities =
    (if row < arch.entities.length - 1 then arch.entities.set row last
      else arch.entities).dropLast
  cols_len : arch2.columns.length = arch.columns.length
  cols : ∀ (c : Nat) (col : freecs_component_column_t), arch.columns[c]? = some col →
    ∃ col2, arch2.columns[c]? = some col2 ∧ col2.elem_size = col.elem_size ∧
      col2.bit = col.bit ∧ col2.type_index = col.type_index ∧
      col2.data_cap = col.data_cap ∧
      col2.data.length = (arch.entities.length - 1) * col.elem_size ∧
      ∀ r, r < arch.entities.length - 1 →
        row_bytes col2 r =
          if r = row then row_bytes col (arch.entities.length - 1) else row_bytes col r
  locs : world2.locations =
    if row < arch.entities.length - 1 then
      world.locations.set last.id ⟨a, row, last.generation, true⟩
    else world.locations
  index_eq : world2.archetype_index = world.archetype_index
  sizes_eq : world2.type_sizes = world.type_sizes
  free_eq : world2.free_entities = world.free_entities
  next_id_eq : world2.next_entity_id = world.next_entity_id
  next_bit_eq : world2.next_bit = world.next_bit
  cache_eq : world2.query_cache = world.query_cache
  queue_eq : world2.despawn_queue = world.despawn_queue

/-- What `freecs_get` shows of row `row` of an archetype for the component
`bit`: `some none` for `NULL`, `some (some bytes)` for the bytes of the row. -/
def comp_view (arch : freecs_archetype_t) (row bit : Nat) : Option (Option (List Nat)) :=
  match freecs_bit_index bit with
  | none => none
  | some bi =>
    if arch.column_bits.getD bi (-1) < 0 then some none
    else
      match arch.columns[(arch.column_bits.getD bi (-1)).toNat]? with
      | none => none
      | some col => if col.data_cap = 0 then some none else some (some (row_bytes col row))

/-- Column description created by `find_or_create_archetype` for one
`type_info` entry. -/
def column_of_entry (ti : freecs_type_info_entry_t) : freecs_component_column_t :=
  { data := [], data_cap := 0, elem_size := ti.size, bit := ti.bit, type_index := ti.type_index }

/-- The `type_info` array handed to `find_or_create_archetype` fits `mask` and
the registered sizes `ts`: its bits are distinct single bits of `mask`, with
the registered sizes, and every bit of `mask` of non-zero size is listed. -/
structure TypeInfoFor (ts : List Nat) (mask : Nat) (ti : List freecs_type_info_entry_t) :
    Prop where
  mask_ne : mask ≠ 0
  nodup : (ti.map (fun en => en.bit)).Nodup
  bit_ok : ∀ en ∈ ti, ∃ b, b < 64 ∧ en.bit = 2 ^ b ∧ mask.testBit b = true ∧
    en.size = ts.getD b 0
  covers : ∀ (b : Nat), b < 64 → mask.testBit b = true → ts.getD b 0 ≠ 0 →
    ∃ en ∈ ti, en.bit = 2 ^ b

/-- What a caller can observe of a live handle stays the same from `world` to
`world2` for every handle whose id is not in `S`: the handle is still alive,
has the same component mask and, for every bit, the same result of
`freecs_get` (null or the same bytes). -/
def Frame (world world2 : freecs_world_t) (S : Nat → Prop) : Prop :=
  ∀ x : freecs_entity_t, ¬ S x.id → freecs_is_alive world x = true →
    freecs_is_alive world2 x = true ∧
    freecs_component_mask world2 x = freecs_component_mask world x ∧
    ∀ bit, get_bytes world2 x bit = get_bytes world x bit

/-- States built from `freecs_create_world` by calls that return and respect
the contract of the store: `freecs_spawn` with entries that list every bit of
the mask once with its registered size, `freecs_spawn_batch` with a mask of
registered bits, `freecs_add_component` with a registered single bit and its
registered size, `freecs_remove_component` with a single bit, inside the
32-bit index space. -/
inductive Built : freecs_world_t → Prop
  | create : Built freecs_create_world
  | register_component (world world1 : freecs_world_t) (size bit : Nat) :
      Built world → freecs_register_component world size = some (world1, bit) →
      Built world1
  | spawn (world world1 : freecs_world_t) (mask : Nat)
      (entries : List freecs_type_info_entry_t) (entity : freecs_entity_t) :
      Built world → EntriesFor world mask entries →
      world.locations.length + 1 < 2 ^ 32 → world.archetypes.length + 1 < 2 ^ 31 →
      freecs_spawn world mask entries = some (world1, entity) → Built world1
  | spawn_batch (world world1 : freecs_world_t) (mask count : Nat)
      (entities : List freecs_entity_t) :
      Built world → (∀ b, mask.testBit b = true → Registered world b) →
      freecs_spawn_batch world mask count = some (world1, entities) →
      Bounded world1 → Built world1
  | despawn (world world1 : freecs_world_t) (entity : freecs_entity_t) (ok : Bool) :
      Built world → freecs_despawn world entity = some (world1, ok) → Built world1
  | despawn_batch (world world1 : freecs_world_t) (entities : List freecs_entity_t)
      (despawned : Nat) :
      Built world → freecs_despawn_batch world entities = some (world1, despawned) →
      Built world1
  | add_component (world world1 : freecs_world_t) (entity : freecs_entity_t) (k : Nat)
      (value : List Nat) (size : Nat) (ok : Bool) :
      Built world → Registered world k → size = world.type_sizes.getD k 0 →
      world.archetypes.length + 1 < 2 ^ 31 →
      freecs_add_component world entity (2 ^ k) value size = some (world1, ok) →
      Built world1
  | remove_component (world world1 : freecs_world_t) (entity : freecs_entity_t) (k : Nat)
      (ok : Bool) :
      Built world → k < 64 → world.archetypes.length + 1 < 2 ^ 31 →
      freecs_remove_component world entity (2 ^ k) = some (world1, ok) →
      Built world1
  | set (world world1 : freecs_world_t) (entity : freecs_entity_t) (bit : Nat)
      (value : List Nat) (size : Nat) (ok : Bool) :
      Built world → freecs_set world entity bit value size = some (world1, ok) →
      Built world1
  | get_matching_archetypes (world world1 : freecs_world_t) (mask exclude : Nat)
      (result : List Nat) :
      Built world →
      freecs_get_matching_archetypes world mask exclude = some (world1, result) →
      Built world1
  | queue_despawn (world : freecs_world_t) (entity : freecs_entity_t) :
      Built world → Built (freecs_queue_despawn world entity)
  | apply_despawns (world world1 : freecs_world_t) :
      Built world → freecs_apply_despawns world = some world1 → Built world1

/-- Runs from `freecs_create_world` in which no entity is ever despawned:
`NoDespawnRun n world` says that `world` was reached by calls that created
exactly `n` entities, one per successful `freecs_spawn` and `*out_count` per
`freecs_spawn_batch`, the other calls being `freecs_register_component`,
rejected spawns, `freecs_add_component`, `freecs_set`, a
`freecs_remove_component` that returns false or leaves the handle alive, a
`freecs_despawn` that returns false, `freecs_get_matching_archetypes` and
`freecs_queue_despawn`.  As in `Reachable`, the constructor `column_bytes`
closes the runs under changes of the column buffers. -/
inductive NoDespawnRun : Nat → freecs_world_t → Prop
  | create : NoDespawnRun 0 freecs_create_world
  | register_component (k : Nat) (world world1 : freecs_world_t) (size bit : Nat) :
      NoDespawnRun k world → freecs_register_component world size = some (world1, bit) →
      NoDespawnRun k world1
  | spawn (k : Nat) (world world1 : freecs_world_t) (mask : Nat)
      (entries : List freecs_type_info_entry_t) (entity : freecs_entity_t) :
      NoDespawnRun k world → ¬ (entries.length = 0 ∨ mask = 0) →
      freecs_spawn world mask entries = some (world1, entity) → NoDespawnRun (k + 1) world1
  | get_matching_archetypes (k : Nat) (world world1 : freecs_world_t) (mask exclude : Nat)
      (result : List Nat) :
      NoDespawnRun k world →
      freecs_get_matching_archetypes world mask exclude = some (world1, result) →
      NoDespawnRun k world1
  | queue_despawn (k : Nat) (world : freecs_world_t) (entity : freecs_entity_t) :
      NoDespawnRun k world → NoDespawnRun k (freecs_queue_despawn world entity)
  | spawn_batch (k : Nat) (world world1 : freecs_world_t) (mask count : Nat)
      (entities : List freecs_entity_t) :
      NoDespawnRun k world → freecs_spawn_batch world mask count = some (world1, entities) →
      NoDespawnRun (k + entities.length) world1
  | add_component (k : Nat) (world world1 : freecs_world_t) (entity : freecs_entity_t)
      (bit : Nat) (value : List Nat) (size : Nat) (ok : Bool) :
      NoDespawnRun k world →
      freecs_add_component world entity bit value size = some (world1, ok) →
      NoDespawnRun k world1
  | remove_component (k : Nat) (world world1 : freecs_world_t) (entity : freecs_entity_t)
      (bit : Nat) (ok : Bool) :
      NoDespawnRun k world → freecs_remove_component world entity bit = some (world1, ok) →
      (ok = false ∨ freecs_is_alive world1 entity = true) → NoDespawnRun k world1
  | set (k : Nat) (world world1 : freecs_world_t) (entity : freecs_entity_t) (bit : Nat)
      (value : List Nat) (size : Nat) (ok : Bool) :
      NoDespawnRun k world → freecs_set world entity bit value size = some (world1, ok) →
      NoDespawnRun k world1
  | despawn_refused (k : Nat) (world world1 : freecs_world_t) (entity : freecs_entity_t) :
      NoDespawnRun k world → freecs_despawn world entity = some (world1, false) →
      NoDespawnRun k world1
  | column_bytes (k : Nat) (world world1 : freecs_world_t) :
      NoDespawnRun k world → erase_bytes world1 = erase_bytes world → NoDespawnRun k world1

/-- Every archetype of `world` is still there in `world1`, at the same index
and with the same mask. -/
def MasksKept (world world1 : freecs_world_t) : Prop :=
  ∀ (i : Nat) (X : freecs_archetype_t), world.archetypes[i]? = some X →
    ∃ X1, world1.archetypes[i]? = some X1 ∧ X1.mask = X.mask

/-- States of a tag store reachable from `freecs_create_tags` through
`freecs_register_tag`, `freecs_add_tag`, `freecs_remove_tag` and
`freecs_clear_entity_tags`. -/
inductive TagsReachable : freecs_tags_t → Prop
  | create : TagsReachable freecs_create_tags
  | register_tag (tags tags1 : freecs_tags_t) (id : Int) :
      TagsReachable tags → freecs_register_tag tags = some (tags1, id) → TagsReachable tags1
  | add_tag (tags : freecs_tags_t) (tag_id : Int) (entity : freecs_entity_t) :
      TagsReachable tags → TagsReachable (freecs_add_tag tags tag_id entity)
  | remove_tag (tags : freecs_tags_t) (tag_id : Int) (entity : freecs_entity_t) :
      TagsReachable tags → TagsReachable (freecs_remove_tag tags tag_id entity)
  | clear_entity_tags (tags : freecs_tags_t) (entity : freecs_entity_t) :
      TagsReachable tags → TagsReachable (freecs_clear_entity_tags tags entity)

/-- Invariant of a tag store: `storage` has `FREECS_MAX_TAGS` cells and no
entry array holds two entries with the same entity id. -/
structure TagsInv (tags : freecs_tags_t) : Prop where
  cells : tags.storage.length = FREECS_MAX_TAGS
  ids_nodup : ∀ (s : Nat) (entries : List freecs_tag_entry_t),
    tags.storage[s]? = some entries → (entries.map (fun en => en.entity.id)).Nodup

/-- Invariant of the query cache: every cached index array is strictly
increasing and holds indices of existing archetypes. -/
def CacheInv (world : freecs_world_t) : Prop :=
  ∀ entry ∈ world.query_cache,
    entry.value.Pairwise (fun x y => x < y) ∧ ∀ i ∈ entry.value, i < world.archetypes.length

/-- The step from `world` to `world1` leaves the query cache and the number of
archetypes as they are. -/
def CacheKept (world world1 : freecs_world_t) : Prop :=
  world1.query_cache = world.query_cache ∧
    world1.archetypes.length = world.archetypes.length

/-- The `entities` array of archetype `i` (empty for an index that is not an
archetype). -/
def archetype_rows (world : freecs_world_t) (i : Nat) : List freecs_entity_t :=
  ((world.archetypes[i]?).map (fun arch => arch.entities)).getD []

/-! ## Command replay -/

/-- A column without its `type_index` field.  The field is copied from the
`type_info` entries to the columns and back, and is never read otherwise. -/
def forget_col (col : freecs_component_column_t) : freecs_component_column_t :=
  { col with type_index := 0 }

/-- An archetype without the `type_index` fields of its columns. -/
def forget_arch (arch : freecs_archetype_t) : freecs_archetype_t :=
  { arch with columns := arch.columns.map forget_col }

/-- A world without the `type_index` fields of its columns: what remains is
everything the functions of the store read. -/
def forget_type_index (world : freecs_world_t) : freecs_world_t :=
  { world with archetypes := world.archetypes.map forget_arch }

/-- What `freecs_spawn` uses of an entry: its bit, its size and the bytes it
stores for it (an entry whose payload is too short to be read keeps that
property). -/
def norm_entry (entry : freecs_type_info_entry_t) : freecs_type_info_entry_t :=
  { bit := entry.bit, size := entry.size, data := some ((entry_bytes entry).getD []),
    type_index := 0 }

/-- A call that a caller defers through a command buffer: a spawn with its
mask and entries, or a despawn. -/
inductive queued_call_t where
  | spawn (mask : Nat) (entries : List freecs_type_info_entry_t)
  | despawn (entity : freecs_entity_t)

/-- The calls are queued in order, spawns with `freecs_queue_spawn` and
despawns with `freecs_cmd_queue_despawn`. -/
def queue_calls : freecs_command_buffer_t → List queued_call_t →
    Option freecs_command_buffer_t
  | buffer, [] => some buffer
  | buffer, queued_call_t.spawn mask entries :: rest =>
    match freecs_queue_spawn buffer mask entries with
    | none => none
    | some buffer1 => queue_calls buffer1 rest
  | buffer, queued_call_t.despawn entity :: rest =>
    queue_calls (freecs_cmd_queue_despawn buffer entity) rest

/-- Direct execution, as the specification words it: `freecs_spawn` and
`freecs_despawn` are called directly, in insertion order, with the entries as
they were when the call was queued. -/
def direct_execution : freecs_world_t → List queued_call_t → Option freecs_world_t
  | world, [] => some world
  | world, queued_call_t.spawn mask entries :: rest =>
    match freecs_spawn world mask entries with
    | none => none
    | some (world1, _) => direct_execution world1 rest
  | world, queued_call_t.despawn entity :: rest =>
    match freecs_despawn world entity with
    | none => none
    | some (world1, _) => direct_execution world1 rest

/-- The two edge tables of every archetype have `FREECS_MAX_COMPONENTS` cells,
as their C type says. -/
def CellsInv (world : freecs_world_t) : Prop :=
  ∀ X ∈ world.archetypes, X.add_edges.length = FREECS_MAX_COMPONENTS ∧
    X.remove_edges.length = FREECS_MAX_COMPONENTS
/-! ## Scenarios -/

/-- Run of `freecs_register_component` `n` times with size 1. -/
def register_n : Nat → freecs_world_t → Option freecs_world_t
  | 0, world => some world
  | n + 1, world =>
    match freecs_register_component world 1 with
    | none => none
    | some (world1, _) => register_n n world1

/-- Run of `freecs_register_component` with the given sizes, in order. -/
def register_sizes : List Nat → freecs_world_t → Option freecs_world_t
  | [], world => some world
  | size :: rest, world =>
    match freecs_register_component world size with
    | none => none
    | some (world1, _) => register_sizes rest world1

/-- Scenario: two one-byte components, the query `(required = 1, excluded = 2)`
is issued, then an entity with both components is spawned, then the same query
is issued again.  Result: the second answer and the archetype masks. -/
def scenario_cached_exclusion : Option (List Nat × List Nat) := do
  let world ← register_n 2 freecs_create_world
  let (world, _) ← freecs_get_matching_archetypes world 1 2
  let (world, _) ← freecs_spawn world 3 [⟨1, 1, some [7], 0⟩, ⟨2, 1, some [9], 1⟩]
  let (world, second) ← freecs_get_matching_archetypes world 1 2
  some (second, world.archetypes.map (fun arch => arch.mask))

/-- World with 33 one-byte components and one entity holding component 1 only. -/
def world_33 : Option freecs_world_t := do
  let world ← register_n 33 freecs_create_world
  let (world, _) ← freecs_spawn world 2 [⟨2, 1, some [5], 1⟩]
  some world

/-- Scenario: in `world_33` the query `(required = 2^32, excluded = 0)` is issued
and then the query `(required = 0, excluded = 1)`.  Result: the second answer. -/
def scenario_key_collision : Option (List Nat) := do
  let world ← world_33
  let (world, _) ← freecs_get_matching_archetypes world (2 ^ 32) 0
  let (_, second) ← freecs_get_matching_archetypes world 0 1
  some second

/-- Scenario: in `world_33` the query `(required = 0, excluded = 1)` alone. -/
def scenario_no_collision : Option (List Nat) := do
  let world ← world_33
  let (_, second) ← freecs_get_matching_archetypes world 0 1
  some second

/-- World after registering one two-byte component (bit 1). -/
def world_reg0 : freecs_world_t :=
  (register_sizes [2] freecs_create_world).getD freecs_create_world

/-- World after registering one two-byte component (bit 1) and one one-byte
component (bit 2). -/
def world_reg : freecs_world_t :=
  (register_sizes [2, 1] freecs_create_world).getD freecs_create_world

/-- The world `world_reg` after spawning one entity with component 1 = `[7, 8]`. -/
def world_one : freecs_world_t :=
  ((freecs_spawn world_reg 1 [⟨1, 2, some [7, 8], 0⟩]).map Prod.fst).getD world_reg

/-- The world `world_one` after spawning a second entity with component
1 = `[17, 18]` and a third with components 1 = `[27, 28]` and 2 = `[9]`. -/
def world_three : freecs_world_t :=
  ((do
    let (w, _) ← freecs_spawn world_one 1 [⟨1, 2, some [17, 18], 0⟩]
    let (w, _) ← freecs_spawn w 3 [⟨1, 2, some [27, 28], 0⟩, ⟨2, 1, some [9], 1⟩]
    some w).getD world_one)

/-- World after registering a two-byte component (bit 1) and a zero-size
component (bit 2). -/
def world_tag_reg : freecs_world_t :=
  (register_sizes [2, 0] freecs_create_world).getD freecs_create_world

/-- The world `world_tag_reg` after `freecs_spawn_batch` of one entity with both
components: the archetype has a column for bit 1 only. -/
def world_tag_batch : freecs_world_t :=
  ((freecs_spawn_batch world_tag_reg 3 1).map Prod.fst).getD world_tag_reg

/-- The world `world_tag_reg` after spawning one entity with both components,
the zero-size one with an empty payload. -/
def world_tag_one : freecs_world_t :=
  ((freecs_spawn world_tag_reg 3 [⟨1, 2, some [7, 8], 0⟩, ⟨2, 0, some [], 1⟩]).map
    Prod.fst).getD world_tag_reg

/-- The world `world_reg` after a spawn with mask 3 that lists component 1
only: the archetype of mask 3 is created with a single column. -/
def world_sparse : freecs_world_t :=
  ((freecs_spawn world_reg 3 [⟨1, 2, some [1, 2], 0⟩]).map Prod.fst).getD world_reg

/-- The world `world_one` after spawning a second entity with component
1 = `[17, 18]`; `world_three` is this world after the third spawn. -/
def world_two : freecs_world_t :=
  ((freecs_spawn world_one 1 [⟨1, 2, some [17, 18], 0⟩]).map Prod.fst).getD world_one

/-- The world `world_sparse` after a second spawn with mask 3 that lists both
components with non-null payloads. -/
def world_sparse_two : freecs_world_t :=
  ((freecs_spawn world_sparse 3 [⟨1, 2, some [7, 8], 0⟩, ⟨2, 1, some [9], 1⟩]).map
    Prod.fst).getD world_sparse

/-- The world `world_three` after adding component 2 = `[5]` to the handle
`(0, 0)`, which moves it from the archetype of mask 1 to that of mask 3. -/
def world_three_added : freecs_world_t :=
  ((freecs_add_component world_three ⟨0, 0⟩ 2 [5] 1).map Prod.fst).getD world_three

/-- The world `world_three` after removing component 2 from the handle
`(2, 0)`, which moves it from the archetype of mask 3 to that of mask 1. -/
def world_three_removed : freecs_world_t :=
  ((freecs_remove_component world_three ⟨2, 0⟩ 2).map Prod.fst).getD world_three

/-- Scenario: in `world_three` the handle `(0, 0)` is queued for despawn twice
and the handle `(7, 0)`, which never existed, once. -/
def world_three_queued : freecs_world_t :=
  freecs_queue_despawn (freecs_queue_despawn (freecs_queue_despawn world_three ⟨0, 0⟩) ⟨7, 0⟩)
    ⟨0, 0⟩

/-- The world `world_tag_reg` after spawning one entity with the two-byte
component only: one archetype, of mask 1. -/
def world_tag_p : freecs_world_t :=
  ((freecs_spawn world_tag_reg 1 [⟨1, 2, some [7, 8], 0⟩]).map Prod.fst).getD world_tag_reg

/-- The world `world_one` after `find_or_create_archetype` has created the
archetype of mask 3 with a column for each of the two components. -/
def world_one_created : freecs_world_t :=
  ((find_or_create_archetype world_one 3 [⟨1, 2, none, 0⟩, ⟨2, 1, none, 1⟩]).map
    Prod.fst).getD world_one

/-- Scenario: 33 one-byte components are registered and one entity holding
component 33 (bit `2^32`) only is spawned; the query
`(required = 0, excluded = 2^32)` is issued and then the empty query `(0, 0)`,
followed by `freecs_query_count(0, 0)`.  Result: the answer of the empty
query, the number of archetypes, the query count and the entity count. -/
def scenario_empty_query : Option (List Nat × Nat × Nat × Nat) := do
  let world ← register_n 33 freecs_create_world
  let (world, _) ← freecs_spawn world (2 ^ 32) [⟨2 ^ 32, 1, some [5], 32⟩]
  let (world, _) ← freecs_get_matching_archetypes world 0 (2 ^ 32)
  let (world, result) ← freecs_get_matching_archetypes world 0 0
  let (world, count) ← freecs_query_count world 0 0
  some (result, world.archetypes.length, count, freecs_entity_count world)

/-- Scenario: the same run without the query `(0, 2^32)`. -/
def scenario_empty_query_alone : Option (List Nat × Nat × Nat × Nat) := do
  let world ← register_n 33 freecs_create_world
  let (world, _) ← freecs_spawn world (2 ^ 32) [⟨2 ^ 32, 1, some [5], 32⟩]
  let (world, result) ← freecs_get_matching_archetypes world 0 0
  let (world, count) ← freecs_query_count world 0 0
  some (result, world.archetypes.length, count, freecs_entity_count world)

/-- What a caller sees of one component of the handle returned by a spawn: the
handle, `freecs_has`, the pointer returned by `freecs_get`, the bytes it
addresses (`none` when the read leaves the `data_len` bytes of the column),
and for every archetype `entities_len` with `(elem_size, data_len)` of each
column. -/
structure SpawnView where
  entity : freecs_entity_t
  has : Option Bool
  ptr : Option Ptr
  bytes : Option (Option (List Nat))
  shape : List (Nat × List (Nat × Nat))
  deriving DecidableEq, Repr

/-- View of component `bit` of the handle returned by
`freecs_spawn(mask, entries)`. -/
def spawn_view (world : freecs_world_t) (mask : Nat) (entries : List freecs_type_info_entry_t)
    (bit : Nat) : Option SpawnView :=
  (freecs_spawn world mask entries).map (fun r =>
    { entity := r.2
      has := freecs_has r.1 r.2 bit
      ptr := freecs_get r.1 r.2 bit
      bytes := get_bytes r.1 r.2 bit
      shape := r.1.archetypes.map (fun arch =>
        (arch.entities.length, arch.columns.map (fun col => (col.elem_size, col.data.length)))) })

/-- Scenario: three deferred calls, a spawn with component 1, the despawn of
the handle `(0, 0)`, and a spawn with both components whose first payload is
longer than the component and whose `type_index` fields are arbitrary. -/
def calls_three : List queued_call_t :=
  [queued_call_t.spawn 1 [⟨1, 2, some [7, 8], 0⟩],
   queued_call_t.despawn ⟨0, 0⟩,
   queued_call_t.spawn 3 [⟨1, 2, some [1, 2, 3], 5⟩, ⟨2, 1, some [9], 7⟩]]

/-- The command buffer after queueing `calls_three`. -/
def buffer_three : freecs_command_buffer_t :=
  (queue_calls freecs_create_command_buffer calls_three).getD freecs_create_command_buffer

/-- Run of `freecs_register_component` with the given sizes, in order, keeping
the returned masks. -/
def register_all : List Nat → freecs_world_t → Option (freecs_world_t × List Nat)
  | [], world => some (world, [])
  | size :: rest, world =>
    match freecs_register_component world size with
    | none => none
    | some (world1, bit) =>
      match register_all rest world1 with
      | none => none
      | some (world2, bits) => some (world2, bit :: bits)

/-- Run of `freecs_send_event` with the given events, in order. -/
def send_events : freecs_event_queue_t → List (List Nat) → Option freecs_event_queue_t
  | queue, [] => some queue
  | queue, event :: rest =>
    match freecs_send_event queue event with
    | none => none
    | some queue1 => send_events queue1 rest

/-- The command as it lies in memory when byte `i` of the block that `malloc`
returned for `component_data` held `fresh i`: a byte that was never written
still holds that value. -/
def command_in_memory (fresh : Nat → Nat) (cmd : freecs_command_t) : freecs_command_t :=
  { cmd with
      component_data := cmd.component_data.enum.map fun p => some (p.2.getD (fresh p.1)) }

/-- The command buffer with every command as it lies in memory, see
`command_in_memory`. -/
def buffer_in_memory (fresh : Nat → Nat) (buffer : freecs_command_buffer_t) :
    freecs_command_buffer_t :=
  { buffer with commands := buffer.commands.map (command_in_memory fresh) }

/-- Scenario: the command buffer after
`freecs_queue_spawn(mask = 1, [{bit 1, size 2, data NULL}])`. -/
def buffer_null_payload : freecs_command_buffer_t :=
  (freecs_queue_spawn freecs_create_command_buffer 1 [⟨1, 2, none, 0⟩]).getD
    freecs_create_command_buffer

/-- The world with `add_edges[b]` of archetype `a` reset to `-1`. -/
def reset_add_edge (world : freecs_world_t) (a b : Nat) : freecs_world_t :=
  match world.archetypes[a]? with
  | none => world
  | some arch =>
    { world with
        archetypes := world.archetypes.set a { arch with add_edges := arch.add_edges.set b (-1) } }

/-- The world with `remove_edges[b]` of archetype `a` reset to `-1`. -/
def reset_remove_edge (world : freecs_world_t) (a b : Nat) : freecs_world_t :=
  match world.archetypes[a]? with
  | none => world
  | some arch =>
    { world with
        archetypes := world.archetypes.set a
          { arch with remove_edges := arch.remove_edges.set b (-1) } }

/-- The world `world_three_removed` after adding component 2 = `[9]` back to the
handle `(2, 0)`, which moves it to the archetype of mask 3 again. -/
def world_three_back : freecs_world_t :=
  ((freecs_add_component world_three_removed ⟨2, 0⟩ 2 [9] 1).map Prod.fst).getD
    world_three_removed

/-- The world with the live bytes of column `c` of archetype `a` replaced by
`data`; nothing else changes. -/
def with_column_data (world : freecs_world_t) (a c : Nat) (data : List Nat) : freecs_world_t :=
  match world.archetypes[a]? with
  | none => world
  | some arch =>
    match arch.columns[c]? with
    | none => world
    | some col =>
      { world with
          archetypes := world.archetypes.set a
            { arch with columns := arch.columns.set c { col with data := data } } }

/-- The world `world_three` after `freecs_spawn(mask 3, [component 1 = {37, 38}])`,
which lists component 1 only: archetype 1 (mask 3) has the two rows `(2, 0)` and
`(3, 0)`, and its column of component 2 holds the byte of the first row only. -/
def world_short : freecs_world_t :=
  ((freecs_spawn world_three 3 [⟨1, 2, some [37, 38], 0⟩]).map Prod.fst).getD world_three

/-- The state of the program after `freecs_despawn((2, 0))` in `world_short`.
The swap-remove copies row 1 to row 0 in every column of archetype 1; in the
column of component 2 (`elem_size` 1, `data_len` 1, `data_cap` 16) row 1 lies
past `data_len`, the copied byte is whatever the buffer holds there, and
`data_len` drops to 0.  The state is the despawn on the column filled with a
second byte, with the live bytes of that column cut to `data_len = 0`
afterwards. -/
def world_short_despawned : freecs_world_t :=
  with_column_data
    (((freecs_despawn (with_column_data world_short 1 1 [9, 0]) ⟨2, 0⟩).map Prod.fst).getD
      world_short) 1 1 []

/-- The world `world_reg` after `freecs_spawn_batch(mask 1, count 2)`: the
entities `(0, 0)` and `(1, 0)`, no despawn. -/
def world_batch_two : freecs_world_t :=
  ((freecs_spawn_batch world_reg 1 2).map Prod.fst).getD world_reg

/-- The world `world_batch_two` after the first `freecs_spawn`, of an entity
with component 1 = `[7, 8]`. -/
def world_batch_three : freecs_world_t :=
  ((freecs_spawn world_batch_two 1 [⟨1, 2, some [7, 8], 0⟩]).map Prod.fst).getD world_batch_two

/-! # Properties -/

/-! ## Queries -/

theorem matching_from_mem (archs : List freecs_archetype_t) (mask exclude i0 i : Nat) :
    i ∈ matching_from archs mask exclude i0 ↔
      i0 ≤ i ∧ ∃ arch, archs[i - i0]? = some arch ∧ arch.mask &&& mask = mask ∧
        (exclude = 0 ∨ arch.mask &&& exclude = 0) := by
  induction archs generalizing i0 with
  | nil => simp [matching_from]
  | cons a rest ih =>
    have hstep : ∀ j, i0 + 1 ≤ j → (a :: rest)[j - i0]? = rest[j - (i0 + 1)]? := by
      intro j hj
      have : j - i0 = (j - (i0 + 1)) + 1 := by omega
      rw [this, List.getElem?_cons_succ]
    unfold matching_from
    split
    · rename_i hp
      rw [List.mem_cons, ih]
      constructor
      · rintro (h | ⟨h1, h2⟩)
        · subst h
          exact ⟨le_rfl, a, by simp, hp⟩
        · exact ⟨by omega, by rw [hstep i h1]; exact h2⟩
      · rintro ⟨h1, h2⟩
        by_cases hi : i = i0
        · exact Or.inl hi
        · right
          have h3 : i0 + 1 ≤ i := by omega
          exact ⟨h3, by rw [← hstep i h3]; exact h2⟩
    · rename_i hp
      rw [ih]
      constructor
      · rintro ⟨h1, h2⟩
        exact ⟨by omega, by rw [hstep i h1]; exact h2⟩
      · rintro ⟨h1, arch, h2, h3⟩
        by_cases hi : i = i0
        · subst hi
          simp at h2
          subst h2
          exact absurd h3 hp
        · have h4 : i0 + 1 ≤ i := by omega
          exact ⟨h4, by rw [← hstep i h4]; exact ⟨arch, h2, h3⟩⟩

theorem matching_from_sorted (archs : List freecs_archetype_t) (mask exclude i0 : Nat) :
    (matching_from archs mask exclude i0).Pairwise (fun x y => x < y) := by
  induction archs generalizing i0 with
  | nil => simp [matching_from]
  | cons a rest ih =>
    unfold matching_from
    split
    · rw [List.pairwise_cons]
      refine ⟨?_, ih _⟩
      intro j hj
      rw [matching_from_mem] at hj
      omega
    · exact ih _

/-- C3: on a cache miss `freecs_get_matching_archetypes` returns, in strictly
ascending order, exactly the indices of the archetypes whose mask contains
`required` and, when `excluded` is non-zero, is disjoint from `excluded`; the
list is stored in the cache under the composite key. -/
theorem get_matching_archetypes_miss (world : freecs_world_t) (mask exclude : Nat)
    (hmiss : cache_find world.query_cache (mask ||| (exclude <<< 32) % 2 ^ 64) = none) :
    ∃ result, freecs_get_matching_archetypes world mask exclude =
        some ({ world with
                  query_cache := world.query_cache ++
                    [⟨mask ||| (exclude <<< 32) % 2 ^ 64, result⟩] }, result) ∧
      result.Pairwise (fun x y => x < y) ∧
      ∀ i, i ∈ result ↔ ∃ arch, world.archetypes[i]? = some arch ∧
        arch.mask &&& mask = mask ∧ (exclude = 0 ∨ arch.mask &&& exclude = 0) := by
  refine ⟨matching_from world.archetypes mask exclude 0, ?_, matching_from_sorted _ _ _ _, ?_⟩
  · unfold freecs_get_matching_archetypes
    simp only [hmiss]
  · intro i
    rw [matching_from_mem]
    simp

set_option maxRecDepth 100000 in
/-- Witness of C3 in `world_three`, whose archetypes have the masks 1 and 3 and
whose query cache is empty: the query `(required = 1, excluded = 2)` answers
`[0]`, the archetype of mask 3 being excluded; the query `(1, 0)` answers
`[0, 1]`. -/
theorem get_matching_archetypes_miss_witness :
    (∃ result, freecs_get_matching_archetypes world_three 1 2 =
        some ({ world_three with
                  query_cache := world_three.query_cache ++
                    [⟨1 ||| (2 <<< 32) % 2 ^ 64, result⟩] }, result) ∧
      result.Pairwise (fun x y => x < y) ∧
      ∀ i, i ∈ result ↔ ∃ arch, world_three.archetypes[i]? = some arch ∧
        arch.mask &&& 1 = 1 ∧ ((2 : Nat) = 0 ∨ arch.mask &&& 2 = 0)) ∧
    world_three.archetypes.map (fun arch => arch.mask) = [1, 3] ∧
    (freecs_get_matching_archetypes world_three 1 2).map Prod.snd = some [0] ∧
    (freecs_get_matching_archetypes world_three 1 0).map Prod.snd = some [0, 1] :=
  ⟨get_matching_archetypes_miss world_three 1 2 (by decide), by decide, by decide, by decide⟩

set_option maxRecDepth 100000 in
/-- C4: after the query `(required = 1, excluded = 2)` has been cached, creating
the archetype with mask `3` appends its index to the cached entry although the
mask contains the excluded bit: the repeated query answers `[0]` while the only
archetype has mask `3`. -/
theorem cached_query_ignores_exclusion :
    scenario_cached_exclusion = some ([0], [3]) ∧ (3 &&& 2 : Nat) ≠ 0 := by
  decide

set_option maxRecDepth 100000 in
/-- C5: the queries `(2^32, 0)` and `(0, 1)` share the cache key `2^32`; issued
after the first, the second answers `[]`, while issued alone it answers `[0]`. -/
theorem query_cache_key_collision :
    scenario_key_collision = some [] ∧ scenario_no_collision = some [0] := by
  decide

/-! ## Slot table and entity vectors -/

variable {locs : List freecs_entity_location_t} {es : List (List freecs_entity_t)}
  {free : List freecs_entity_t}

/-- A list of rows whose slots record distinct rows has at most as many rows
as there are slots outside `excl`. -/
theorem rows_le_slots (locs : List freecs_entity_location_t) (row_es : List freecs_entity_t)
    (a : Nat) (excl : Finset Nat) (hex : ∀ x ∈ excl, x < locs.length)
    (h : ∀ (r : Nat) (e : freecs_entity_t), row_es[r]? = some e →
      e.id ∉ excl ∧ locs[e.id]? = some ⟨a, r, e.generation, true⟩) :
    row_es.length + excl.card ≤ locs.length := by
  have hget : ∀ r (hr : r < row_es.length), row_es[r]? = some row_es[r] :=
    fun r hr => List.getElem?_eq_getElem hr
  have hinj : Set.InjOn (fun r => (row_es.getD r ⟨0, 0⟩).id) (Finset.range row_es.length) := by
    intro r hr s hs hrs
    simp only [Finset.coe_range, Set.mem_Iio] at hr hs
    simp only [List.getD_eq_getElem?_getD, hget r hr, hget s hs, Option.getD_some] at hrs
    have h1 := (h r _ (hget r hr)).2
    have h2 := (h s _ (hget s hs)).2
    rw [hrs, h2] at h1
    simp only [Option.some.injEq, freecs_entity_location_t.mk.injEq] at h1
    omega
  have hsub : (Finset.range row_es.length).image (fun r => (row_es.getD r ⟨0, 0⟩).id) ∪ excl ⊆
      Finset.range locs.length := by
    intro x hx
    rw [Finset.mem_union] at hx
    rw [Finset.mem_range]
    rcases hx with hx | hx
    · rw [Finset.mem_image] at hx
      obtain ⟨r, hr, rfl⟩ := hx
      rw [Finset.mem_range] at hr
      simp only [List.getD_eq_getElem?_getD, hget r hr, Option.getD_some]
      have h1 := (h r _ (hget r hr)).2
      exact (List.getElem?_eq_some.mp h1).1
    · exact hex x hx
  have hdisj : Disjoint ((Finset.range row_es.length).image
      (fun r => (row_es.getD r ⟨0, 0⟩).id)) excl := by
    rw [Finset.disjoint_left]
    intro x hx hx2
    rw [Finset.mem_image] at hx
    obtain ⟨r, hr, rfl⟩ := hx
    rw [Finset.mem_range] at hr
    simp only [List.getD_eq_getElem?_getD, hget r hr, Option.getD_some] at hx2
    exact (h r _ (hget r hr)).1 hx2
  have hcard := Finset.card_le_card hsub
  rw [Finset.card_union_of_disjoint hdisj, Finset.card_image_of_injOn hinj,
    Finset.card_range, Finset.card_range] at hcard
  exact hcard

theorem EntInv.rows_le (h : EntInv locs es free) {a : Nat} {row_es : List freecs_entity_t}
    (ha : es[a]? = some row_es) : row_es.length ≤ locs.length := by
  have := rows_le_slots locs row_es a ∅ (by simp)
    (fun r e hr => ⟨by simp, h.slot a r row_es e ha hr⟩)
  simpa using this

theorem Limbo.rows_lt {i : Nat} (h : Limbo locs es free i) {a : Nat}
    {row_es : List freecs_entity_t} (ha : es[a]? = some row_es) :
    row_es.length < locs.length := by
  have := rows_le_slots locs row_es a {i} (by simpa using h.in_range)
    (fun r e hr => ⟨by simpa using (h.slot a r row_es e ha hr).1,
      (h.slot a r row_es e ha hr).2⟩)
  simp at this
  omega

theorem EntInv.new_archetype (h : EntInv locs es free) : EntInv locs (es ++ [[]]) free := by
  have hget : ∀ (a : Nat) (row_es : List freecs_entity_t) (r : Nat) (e : freecs_entity_t),
      (es ++ [[]])[a]? = some row_es → row_es[r]? = some e → es[a]? = some row_es := by
    intro a row_es r e ha hr
    rw [List.getElem?_append] at ha
    split at ha
    · exact ha
    · rename_i hlt
      have : (([[]] : List (List freecs_entity_t))[a - es.length]?) = some row_es := ha
      rcases Nat.eq_zero_or_pos (a - es.length) with h0 | h0
      · rw [h0] at this
        simp at this
        subst this
        simp at hr
      · rw [List.getElem?_eq_none (by simp only [List.length_singleton]; omega)] at this
        simp at this
  refine ⟨h.bound, h.gen_bound, ?_, ?_, h.free_nodup, h.free_dead, h.dead_free⟩
  · intro a r row_es e ha hr
    exact h.slot a r row_es e (hget a row_es r e ha hr) hr
  · intro i loc hi hal
    obtain ⟨row_es, h1, h2⟩ := h.alive i loc hi hal
    refine ⟨row_es, ?_, h2⟩
    rw [List.getElem?_append_left (List.getElem?_eq_some.mp h1).1]
    exact h1

theorem EntInv.pop_free {f0 : List freecs_entity_t} {e : freecs_entity_t}
    (h : EntInv locs es (f0 ++ [e])) : Limbo locs es f0 e.id := by
  obtain ⟨le, hle, hdead, hgen⟩ := h.free_dead e (by simp)
  have hnd := h.free_nodup
  rw [List.map_append, List.nodup_append] at hnd
  refine ⟨h.bound, (List.getElem?_eq_some.mp hle).1, fun j loc hj _ => h.gen_bound j loc hj,
    ?_, fun j loc hj _ hal => h.alive j loc hj hal, hnd.1, ?_, ?_⟩
  · intro a r row_es x ha hr
    have hx := h.slot a r row_es x ha hr
    refine ⟨?_, hx⟩
    intro hid
    rw [hid, hle] at hx
    simp only [Option.some.injEq] at hx
    rw [hx] at hdead
    simp at hdead
  · intro x hx
    refine ⟨?_, h.free_dead x (by simp [hx])⟩
    intro hid
    exact hnd.2.2 (List.mem_map.mpr ⟨x, hx, hid⟩) (by simp)
  · intro j loc hj hne hal
    have := h.dead_free j loc hj hal
    rw [List.mem_append] at this
    rcases this with h1 | h1
    · exact h1
    · simp only [List.mem_singleton] at h1
      rw [← h1] at hne
      exact absurd rfl hne

theorem EntInv.fresh (h : EntInv locs es free) (d : freecs_entity_location_t)
    (hb : locs.length + 1 < 2 ^ 32) : Limbo (locs ++ [d]) es free locs.length := by
  have hold : ∀ (j : Nat) (loc : freecs_entity_location_t),
      (locs ++ [d])[j]? = some loc → j ≠ locs.length → locs[j]? = some loc := by
    intro j loc hj hne
    have hlt : j < (locs ++ [d]).length := (List.getElem?_eq_some.mp hj).1
    rw [List.length_append, List.length_singleton] at hlt
    rw [List.getElem?_append_left (by omega)] at hj
    exact hj
  have hkeep : ∀ (j : Nat) (loc : freecs_entity_location_t),
      locs[j]? = some loc → (locs ++ [d])[j]? = some loc ∧ j ≠ locs.length := by
    intro j loc hj
    have hlt := (List.getElem?_eq_some.mp hj).1
    exact ⟨by rw [List.getElem?_append_left hlt]; exact hj, by omega⟩
  refine ⟨by simpa using hb, by simp, fun j loc hj hne => h.gen_bound j loc (hold j loc hj hne),
    ?_, fun j loc hj hne hal => h.alive j loc (hold j loc hj hne) hal, h.free_nodup, ?_,
    fun j loc hj hne hal => h.dead_free j loc (hold j loc hj hne) hal⟩
  · intro a r row_es x ha hr
    have hx := hkeep _ _ (h.slot a r row_es x ha hr)
    exact ⟨hx.2, hx.1⟩
  · intro x hx
    obtain ⟨loc, h1, h2, h3⟩ := h.free_dead x hx
    have := hkeep _ _ h1
    exact ⟨this.2, loc, this.1, h2, h3⟩

theorem Limbo.kill {i : Nat} (h : Limbo locs es free i) (l : freecs_entity_location_t)
    (hl : l.alive = false) (hg : l.generation < 2 ^ 32) :
    EntInv (locs.set i l) es (free ++ [⟨i, l.generation⟩]) := by
  have hother : ∀ (j : Nat), j ≠ i → (locs.set i l)[j]? = locs[j]? := by
    intro j hne
    rw [List.getElem?_set_ne (Ne.symm hne)]
  have hself : (locs.set i l)[i]? = some l := by
    rw [List.getElem?_set_self h.in_range]
  have hcases : ∀ (j : Nat) (loc : freecs_entity_location_t), (locs.set i l)[j]? = some loc →
      (j = i ∧ loc = l) ∨ (j ≠ i ∧ locs[j]? = some loc) := by
    intro j loc hj
    by_cases hji : j = i
    · subst hji
      rw [hself] at hj
      exact Or.inl ⟨rfl, (Option.some.inj hj).symm⟩
    · rw [hother j hji] at hj
      exact Or.inr ⟨hji, hj⟩
  refine ⟨by simpa using h.bound, ?_, ?_, ?_, ?_, ?_, ?_⟩
  · intro j loc hj
    rcases hcases j loc hj with ⟨_, rfl⟩ | ⟨hne, h1⟩
    · exact hg
    · exact h.gen_bound j loc h1 hne
  · intro a r row_es x ha hr
    obtain ⟨hne, hx⟩ := h.slot a r row_es x ha hr
    rw [hother _ hne]
    exact hx
  · intro j loc hj hal
    rcases hcases j loc hj with ⟨_, rfl⟩ | ⟨hne, h1⟩
    · rw [hl] at hal
      simp at hal
    · exact h.alive j loc h1 hne hal
  · rw [List.map_append, List.nodup_append]
    refine ⟨h.free_nodup, by simp, ?_⟩
    intro x hx hx2
    simp only [List.map_cons, List.map_nil, List.mem_singleton] at hx2
    rw [List.mem_map] at hx
    obtain ⟨y, hy, rfl⟩ := hx
    exact (h.free_dead y hy).1 hx2
  · intro x hx
    rw [List.mem_append] at hx
    rcases hx with hx | hx
    · obtain ⟨hne, loc, h1, h2, h3⟩ := h.free_dead x hx
      exact ⟨loc, by rw [hother _ hne]; exact h1, h2, h3⟩
    · simp only [List.mem_singleton] at hx
      subst hx
      exact ⟨l, hself, hl, rfl⟩
  · intro j loc hj hal
    rcases hcases j loc hj with ⟨rfl, rfl⟩ | ⟨hne, h1⟩
    · simp
    · exact List.mem_append_left _ (h.dead_free j loc h1 hne hal)

theorem Limbo.insert {i : Nat} (h : Limbo locs es free i) {t : Nat}
    {row_es : List freecs_entity_t} (ht : es[t]? = some row_es) (g : Nat) (hg : g < 2 ^ 32) :
    EntInv (locs.set i ⟨t, row_es.length, g, true⟩) (es.set t (row_es ++ [⟨i, g⟩])) free := by
  have htlt : t < es.length := (List.getElem?_eq_some.mp ht).1
  have hother : ∀ (j : Nat), j ≠ i →
      (locs.set i ⟨t, row_es.length, g, true⟩)[j]? = locs[j]? := by
    intro j hne
    rw [List.getElem?_set_ne (Ne.symm hne)]
  have hself : (locs.set i ⟨t, row_es.length, g, true⟩)[i]? =
      some ⟨t, row_es.length, g, true⟩ := by
    rw [List.getElem?_set_self h.in_range]
  have hcases : ∀ (j : Nat) (loc : freecs_entity_location_t),
      (locs.set i ⟨t, row_es.length, g, true⟩)[j]? = some loc →
      (j = i ∧ loc = ⟨t, row_es.length, g, true⟩) ∨ (j ≠ i ∧ locs[j]? = some loc) := by
    intro j loc hj
    by_cases hji : j = i
    · subst hji
      rw [hself] at hj
      exact Or.inl ⟨rfl, (Option.some.inj hj).symm⟩
    · rw [hother j hji] at hj
      exact Or.inr ⟨hji, hj⟩
  have hes_t : (es.set t (row_es ++ [⟨i, g⟩]))[t]? = some (row_es ++ [⟨i, g⟩]) := by
    rw [List.getElem?_set_self htlt]
  have hes_o : ∀ (a : Nat), a ≠ t → (es.set t (row_es ++ [⟨i, g⟩]))[a]? = es[a]? := by
    intro a hne
    rw [List.getElem?_set_ne (Ne.symm hne)]
  refine ⟨by simpa using h.bound, ?_, ?_, ?_, h.free_nodup, ?_, ?_⟩
  · intro j loc hj
    rcases hcases j loc hj with ⟨_, rfl⟩ | ⟨hne, h1⟩
    · exact hg
    · exact h.gen_bound j loc h1 hne
  · intro a r R e ha hr
    by_cases hat : a = t
    · subst hat
      rw [hes_t] at ha
      have hR := Option.some.inj ha
      subst hR
      rw [List.getElem?_append] at hr
      split at hr
      · obtain ⟨hne, hx⟩ := h.slot a r row_es e ht hr
        rw [hother _ hne]
        exact hx
      · rename_i hge
        have hr0 : r = row_es.length := by
          have := (List.getElem?_eq_some.mp hr).1
          simp only [List.length_singleton] at this
          omega
        subst hr0
        simp only [Nat.sub_self, List.getElem?_cons_zero, Option.some.injEq] at hr
        subst hr
        exact hself
    · rw [hes_o a hat] at ha
      obtain ⟨hne, hx⟩ := h.slot a r R e ha hr
      rw [hother _ hne]
      exact hx
  · intro j loc hj hal
    rcases hcases j loc hj with ⟨rfl, rfl⟩ | ⟨hne, h1⟩
    · exact ⟨_, hes_t, by simp⟩
    · obtain ⟨R, h2, h3⟩ := h.alive j loc h1 hne hal
      by_cases hat : loc.archetype_index = t
      · rw [hat] at h2 ⊢
        rw [ht] at h2
        have hR := Option.some.inj h2
        subst hR
        refine ⟨_, hes_t, ?_⟩
        rw [List.getElem?_append_left (List.getElem?_eq_some.mp h3).1]
        exact h3
      · exact ⟨R, by rw [hes_o _ hat]; exact h2, h3⟩
  · intro x hx
    obtain ⟨hne, loc, h1, h2, h3⟩ := h.free_dead x hx
    exact ⟨loc, by rw [hother _ hne]; exact h1, h2, h3⟩
  · intro j loc hj hal
    rcases hcases j loc hj with ⟨rfl, rfl⟩ | ⟨hne, h1⟩
    · simp at hal
    · exact h.dead_free j loc h1 hne hal

/-- Rows of an entity vector after the swap-remove of row `row`. -/
theorem swap_remove_rows {α : Type} (l : List α) (row : Nat) (last : α)
    (hrow : row < l.length) (r : Nat) :
    ((if row < l.length - 1 then l.set row last else l).dropLast)[r]? =
      if r < l.length - 1 then (if r = row then some last else l[r]?) else none := by
  rw [List.getElem?_dropLast]
  split
  · simp only [List.length_set, ite_self]
    by_cases h1 : r < l.length - 1
    · simp only [h1, if_true]
      rw [List.getElem?_set]
      by_cases h2 : row = r
      · subst h2
        simp [hrow]
      · simp [h2, Ne.symm h2]
    · simp [h1]
  · rename_i hnot
    by_cases h1 : r < l.length - 1
    · simp only [h1, if_true]
      have : r ≠ row := by omega
      simp [this]
    · simp [h1]

theorem EntInv.remove (h : EntInv locs es free) {i : Nat} {loc : freecs_entity_location_t}
    (hi : locs[i]? = some loc) (hal : loc.alive = true) {row_es : List freecs_entity_t}
    (ha : es[loc.archetype_index]? = some row_es) :
    ∃ last lloc, row_es[row_es.length - 1]? = some last ∧ locs[last.id]? = some lloc ∧
      row_es[loc.row]? = some ⟨i, loc.generation⟩ ∧
      Limbo (if loc.row < row_es.length - 1 then
              locs.set last.id { lloc with row := loc.row } else locs)
        (es.set loc.archetype_index
          ((if loc.row < row_es.length - 1 then row_es.set loc.row last else row_es).dropLast))
        free i := by
  obtain ⟨R, hR, hrow⟩ := h.alive i loc hi hal
  rw [ha] at hR
  have := Option.some.inj hR
  subst this
  have hrowlt : loc.row < row_es.length := (List.getElem?_eq_some.mp hrow).1
  have hlastex : row_es.length - 1 < row_es.length := by omega
  obtain ⟨last, hlast⟩ : ∃ last, row_es[row_es.length - 1]? = some last :=
    ⟨_, List.getElem?_eq_getElem hlastex⟩
  have hlloc := h.slot _ _ _ _ ha hlast
  have hiloc : locs[i]? = some ⟨loc.archetype_index, loc.row, loc.generation, true⟩ :=
    h.slot _ _ _ _ ha hrow
  refine ⟨last, _, hlast, hlloc, hrow, ?_⟩
  have halt : loc.archetype_index < es.length := (List.getElem?_eq_some.mp ha).1
  show Limbo (if loc.row < row_es.length - 1 then
      locs.set last.id ⟨loc.archetype_index, loc.row, last.generation, true⟩ else locs)
    (es.set loc.archetype_index
      ((if loc.row < row_es.length - 1 then row_es.set loc.row last else row_es).dropLast))
    free i
  generalize hes' : es.set loc.archetype_index
    ((if loc.row < row_es.length - 1 then row_es.set loc.row last else row_es).dropLast) = es'
  generalize hlocs' : (if loc.row < row_es.length - 1 then
      locs.set last.id ⟨loc.archetype_index, loc.row, last.generation, true⟩ else locs) = locs'
  -- lookups in the new entity vectors
  have hes_a : ∀ (r : Nat), ∃ R', es'[loc.archetype_index]? = some R' ∧
      R'[r]? = if r < row_es.length - 1 then (if r = loc.row then some last else row_es[r]?)
        else none := by
    intro r
    refine ⟨_, by rw [← hes', List.getElem?_set_self halt], ?_⟩
    exact swap_remove_rows row_es loc.row last hrowlt r
  have hes_o : ∀ (a : Nat), a ≠ loc.archetype_index → es'[a]? = es[a]? := by
    intro a hne
    rw [← hes', List.getElem?_set_ne (Ne.symm hne)]
  -- lookups in the new slot table
  have hlen : locs'.length = locs.length := by
    rw [← hlocs']
    split <;> simp
  have hlast_ne : loc.row < row_es.length - 1 → last.id ≠ i := by
    intro hlt hid
    rw [hid, hiloc] at hlloc
    simp only [Option.some.injEq, freecs_entity_location_t.mk.injEq] at hlloc
    omega
  have hlocs_last : loc.row < row_es.length - 1 →
      locs'[last.id]? = some ⟨loc.archetype_index, loc.row, last.generation, true⟩ := by
    intro hlt
    rw [← hlocs', if_pos hlt, List.getElem?_set_self (List.getElem?_eq_some.mp hlloc).1]
  have hlocs_o : ∀ (j : Nat), (loc.row < row_es.length - 1 → j ≠ last.id) →
      locs'[j]? = locs[j]? := by
    intro j hj
    rw [← hlocs']
    split
    · rename_i hlt
      rw [List.getElem?_set_ne (Ne.symm (hj hlt))]
    · rfl
  -- an old row of another entity keeps its slot
  have hkeep : ∀ (a r : Nat) (R : List freecs_entity_t) (e : freecs_entity_t),
      es[a]? = some R → R[r]? = some e → (a = loc.archetype_index → r ≠ row_es.length - 1) →
      locs'[e.id]? = some ⟨a, r, e.generation, true⟩ := by
    intro a r R e h1 h2 h3
    have hx := h.slot a r R e h1 h2
    rw [hlocs_o]
    · exact hx
    · intro _ hid
      rw [hid, hlloc] at hx
      simp only [Option.some.injEq, freecs_entity_location_t.mk.injEq] at hx
      exact h3 hx.1.symm hx.2.1.symm
  have hne_i : ∀ (a r : Nat) (R : List freecs_entity_t) (e : freecs_entity_t),
      es[a]? = some R → R[r]? = some e → (a = loc.archetype_index → r ≠ loc.row) →
      e.id ≠ i := by
    intro a r R e h1 h2 h3 hid
    have hx := h.slot a r R e h1 h2
    rw [hid, hiloc] at hx
    simp only [Option.some.injEq, freecs_entity_location_t.mk.injEq] at hx
    exact h3 hx.1.symm hx.2.1.symm
  refine ⟨by rw [hlen]; exact h.bound, by rw [hlen]; exact (List.getElem?_eq_some.mp hi).1,
    ?_, ?_, ?_, h.free_nodup, ?_, ?_⟩
  · intro j l hj hne
    by_cases hjl : loc.row < row_es.length - 1 ∧ j = last.id
    · obtain ⟨hlt, rfl⟩ := hjl
      rw [hlocs_last hlt] at hj
      rw [← Option.some.inj hj]
      have hgb := h.gen_bound last.id _ hlloc
      exact hgb
    · rw [hlocs_o j (fun hlt hid => hjl ⟨hlt, hid⟩)] at hj
      exact h.gen_bound j l hj
  · intro a r R e hR' hr
    by_cases hat : a = loc.archetype_index
    · subst hat
      obtain ⟨R', h1, h2⟩ := hes_a r
      rw [hR'] at h1
      have := Option.some.inj h1
      subst this
      rw [hr] at h2
      by_cases hr1 : r < row_es.length - 1
      · rw [if_pos hr1] at h2
        by_cases hr2 : r = loc.row
        · subst hr2
          rw [if_pos rfl] at h2
          have := Option.some.inj h2
          subst this
          exact ⟨hlast_ne hr1, hlocs_last hr1⟩
        · rw [if_neg hr2] at h2
          exact ⟨hne_i _ r _ e ha h2.symm (fun _ => hr2),
            hkeep _ r _ e ha h2.symm (fun _ => by omega)⟩
      · rw [if_neg hr1] at h2
        simp at h2
    · rw [hes_o a hat] at hR'
      exact ⟨hne_i a r R e hR' hr (fun hh => absurd hh hat),
        hkeep a r R e hR' hr (fun hh => absurd hh hat)⟩
  · intro j l hj hne hal'
    by_cases hjl : loc.row < row_es.length - 1 ∧ j = last.id
    · obtain ⟨hlt, rfl⟩ := hjl
      rw [hlocs_last hlt] at hj
      rw [← Option.some.inj hj]
      obtain ⟨R', h1, h2⟩ := hes_a loc.row
      refine ⟨R', h1, ?_⟩
      rw [h2, if_pos hlt, if_pos rfl]
    · rw [hlocs_o j (fun hlt hid => hjl ⟨hlt, hid⟩)] at hj
      obtain ⟨R, h1, h2⟩ := h.alive j l hj hal'
      by_cases hat : l.archetype_index = loc.archetype_index
      · rw [hat] at h1 ⊢
        rw [ha] at h1
        have := Option.some.inj h1
        subst this
        obtain ⟨R', h3, h4⟩ := hes_a l.row
        refine ⟨R', h3, ?_⟩
        have hlr : l.row < row_es.length := (List.getElem?_eq_some.mp h2).1
        have hne_row : l.row ≠ loc.row := by
          intro heq
          rw [heq, hrow] at h2
          simp only [Option.some.injEq, freecs_entity_t.mk.injEq] at h2
          exact hne h2.1.symm
        have hne_last : l.row ≠ row_es.length - 1 ∨ loc.row < row_es.length - 1 := by
          omega
        have hlt : l.row < row_es.length - 1 := by
          rcases Nat.lt_or_ge l.row (row_es.length - 1) with h5 | h5
          · exact h5
          · exfalso
            have h6 : l.row = row_es.length - 1 := by omega
            rw [h6, hlast] at h2
            have hlt2 : loc.row < row_es.length - 1 := by omega
            apply hjl
            refine ⟨hlt2, ?_⟩
            have := Option.some.inj h2
            rw [this]
        rw [h4, if_pos hlt, if_neg hne_row]
        exact h2
      · exact ⟨R, by rw [hes_o _ hat]; exact h1, h2⟩
  · intro x hx
    obtain ⟨l, h1, h2, h3⟩ := h.free_dead x hx
    refine ⟨?_, l, ?_, h2, h3⟩
    · intro hid
      rw [hid, hi] at h1
      rw [← Option.some.inj h1, hal] at h2
      simp at h2
    · rw [hlocs_o]
      · exact h1
      · intro _ hid
        rw [hid, hlloc] at h1
        rw [← Option.some.inj h1] at h2
        simp at h2
  · intro j l hj hne hal'
    by_cases hjl : loc.row < row_es.length - 1 ∧ j = last.id
    · obtain ⟨hlt, rfl⟩ := hjl
      rw [hlocs_last hlt] at hj
      rw [← Option.some.inj hj] at hal'
      simp at hal'
    · rw [hlocs_o j (fun hlt hid => hjl ⟨hlt, hid⟩)] at hj
      exact h.dead_free j l hj hal'

/-! ## Archetype index and edges -/

theorem cache_find_from_some (cache : List freecs_cache_entry_t) (key i0 i : Nat)
    (h : cache_find_from cache key i0 = some i) :
    i0 ≤ i ∧ ∃ e, cache[i - i0]? = some e ∧ e.key = key := by
  induction cache generalizing i0 with
  | nil => simp [cache_find_from] at h
  | cons e rest ih =>
    unfold cache_find_from at h
    split at h
    · rename_i hk
      have := Option.some.inj h
      subst this
      exact ⟨le_rfl, e, by simp, hk⟩
    · obtain ⟨h1, e1, h2, h3⟩ := ih _ h
      refine ⟨by omega, e1, ?_, h3⟩
      have : i - i0 = (i - (i0 + 1)) + 1 := by omega
      rw [this, List.getElem?_cons_succ]
      exact h2

theorem cache_find_from_none (cache : List freecs_cache_entry_t) (key i0 : Nat)
    (h : cache_find_from cache key i0 = none) : ∀ e ∈ cache, e.key ≠ key := by
  induction cache generalizing i0 with
  | nil => simp
  | cons e rest ih =>
    unfold cache_find_from at h
    split at h
    · simp at h
    · rename_i hk
      intro x hx
      rcases List.mem_cons.mp hx with rfl | hx
      · exact hk
      · exact ih _ h x hx

theorem cache_find_some {cache : List freecs_cache_entry_t} {key i : Nat}
    (h : cache_find cache key = some i) : ∃ e, cache[i]? = some e ∧ e.key = key := by
  obtain ⟨_, e, h1, h2⟩ := cache_find_from_some cache key 0 i h
  exact ⟨e, by simpa using h1, h2⟩

theorem cache_find_none {cache : List freecs_cache_entry_t} {key : Nat}
    (h : cache_find cache key = none) : ∀ e ∈ cache, e.key ≠ key :=
  cache_find_from_none cache key 0 h

theorem getD_set_eq {α : Type} (l : List α) (c b : Nat) (v d : α) :
    (l.set c v).getD b d = if c = b ∧ c < l.length then v else l.getD b d := by
  rw [List.getD_eq_getElem?_getD, List.getD_eq_getElem?_getD, List.getElem?_set]
  by_cases h1 : c = b
  · by_cases h2 : c < l.length
    · subst h1
      simp [h2]
    · rw [if_pos h1, if_neg h2, if_neg (fun h => h2 h.2)]
      rw [List.getElem?_eq_none (by omega)]
  · rw [if_neg h1, if_neg (fun h => h1 h.1)]

/-- Effect of one step of the edge loop on an archetype. -/
theorem wire_edges_spec (mask n c : Nat) (X : freecs_archetype_t) :
    (wire_edges mask n c X).mask = X.mask ∧ (wire_edges mask n c X).entities = X.entities ∧
    (wire_edges mask n c X).columns = X.columns ∧
    (wire_edges mask n c X).column_bits = X.column_bits ∧
    (wire_edges mask n c X).add_edges =
      (if X.mask ||| 2 ^ c % 2 ^ 64 = mask then X.add_edges.set c (toI32 n) else X.add_edges) ∧
    (wire_edges mask n c X).remove_edges =
      (if X.mask &&& not64 (2 ^ c % 2 ^ 64) = mask then X.remove_edges.set c (toI32 n)
        else X.remove_edges) := by
  unfold wire_edges
  by_cases h1 : X.mask ||| 2 ^ c % 2 ^ 64 = mask <;>
    by_cases h2 : X.mask &&& not64 (2 ^ c % 2 ^ 64) = mask <;>
    simp only [h1, h2, if_true, if_false, and_self]

theorem cross_wire_fold (type_sizes : List Nat) (mask n : Nat) (bs : List Nat)
    (archs : List freecs_archetype_t) :
    bs.foldl (fun archs c => if type_sizes.getD c 0 = 0 then archs
        else archs.map (wire_edges mask n c)) archs =
      archs.map (wire_all type_sizes mask n bs) := by
  induction bs generalizing archs with
  | nil =>
    have : wire_all type_sizes mask n [] = id := rfl
    rw [this, List.map_id]
    rfl
  | cons c rest ih =>
    rw [List.foldl_cons, ih]
    by_cases hc : type_sizes.getD c 0 = 0
    · rw [if_pos hc]
      apply List.map_congr_left
      intro Y _
      simp only [wire_all, List.foldl_cons, if_pos hc]
    · rw [if_neg hc, List.map_map]
      apply List.map_congr_left
      intro Y _
      simp only [wire_all, List.foldl_cons, if_neg hc, Function.comp]

theorem cross_wire_eq (type_sizes : List Nat) (mask n : Nat) (archs : List freecs_archetype_t) :
    cross_wire type_sizes mask n archs =
      archs.map (wire_all type_sizes mask n (List.range FREECS_MAX_COMPONENTS)) :=
  cross_wire_fold type_sizes mask n _ archs

/-- What the edge loop leaves of an archetype: everything but the edges is
kept, and every edge cell is either kept or now holds the new index `n` with
the mask relation of the cell satisfied. -/
theorem wire_all_spec (type_sizes : List Nat) (mask n : Nat) (bs : List Nat)
    (X : freecs_archetype_t) :
    (wire_all type_sizes mask n bs X).mask = X.mask ∧
    (wire_all type_sizes mask n bs X).entities = X.entities ∧
    (wire_all type_sizes mask n bs X).columns = X.columns ∧
    (wire_all type_sizes mask n bs X).column_bits = X.column_bits ∧
    (wire_all type_sizes mask n bs X).add_edges.length = X.add_edges.length ∧
    (wire_all type_sizes mask n bs X).remove_edges.length = X.remove_edges.length ∧
    (∀ b, (wire_all type_sizes mask n bs X).add_edges.getD b (-1) = X.add_edges.getD b (-1) ∨
      ((wire_all type_sizes mask n bs X).add_edges.getD b (-1) = toI32 n ∧
        X.mask ||| 2 ^ b % 2 ^ 64 = mask)) ∧
    (∀ b, (wire_all type_sizes mask n bs X).remove_edges.getD b (-1) =
        X.remove_edges.getD b (-1) ∨
      ((wire_all type_sizes mask n bs X).remove_edges.getD b (-1) = toI32 n ∧
        X.mask &&& not64 (2 ^ b % 2 ^ 64) = mask)) := by
  induction bs generalizing X with
  | nil => simp [wire_all]
  | cons c rest ih =>
    have hstep : wire_all type_sizes mask n (c :: rest) X =
        wire_all type_sizes mask n rest
          (if type_sizes.getD c 0 = 0 then X else wire_edges mask n c X) := by
      simp only [wire_all, List.foldl_cons]
    rw [hstep]
    by_cases hc : type_sizes.getD c 0 = 0
    · simp only [hc, if_true]
      exact ih X
    · simp only [hc, if_false]
      obtain ⟨h1, h2, h3, h4, h5, h6, h7, h8⟩ := ih (wire_edges mask n c X)
      obtain ⟨w1, w2, w3, w4, w5, w6⟩ := wire_edges_spec mask n c X
      refine ⟨h1.trans w1, h2.trans w2, h3.trans w3, h4.trans w4, ?_, ?_, ?_, ?_⟩
      · rw [h5, w5]; split <;> simp
      · rw [h6, w6]; split <;> simp
      · intro b
        rcases h7 b with h | ⟨h, hm⟩
        · rw [h, w5]
          by_cases hm : X.mask ||| 2 ^ c % 2 ^ 64 = mask
          · rw [if_pos hm, getD_set_eq]
            by_cases hcb : c = b ∧ c < X.add_edges.length
            · rw [if_pos hcb]
              exact Or.inr ⟨rfl, by rw [← hcb.1]; exact hm⟩
            · rw [if_neg hcb]
              exact Or.inl rfl
          · rw [if_neg hm]
            exact Or.inl rfl
        · right
          exact ⟨h, by rw [← w1]; exact hm⟩
      · intro b
        rcases h8 b with h | ⟨h, hm⟩
        · rw [h, w6]
          by_cases hm : X.mask &&& not64 (2 ^ c % 2 ^ 64) = mask
          · rw [if_pos hm, getD_set_eq]
            by_cases hcb : c = b ∧ c < X.remove_edges.length
            · rw [if_pos hcb]
              exact Or.inr ⟨rfl, by rw [← hcb.1]; exact hm⟩
            · rw [if_neg hcb]
              exact Or.inl rfl
          · rw [if_neg hm]
            exact Or.inl rfl
        · right
          exact ⟨h, by rw [← w1]; exact hm⟩

theorem toI32_small {n : Nat} (h : n < 2 ^ 31) : toI32 n = (n : Int) := by
  unfold toI32
  have h1 : n % 2 ^ 32 = n := Nat.mod_eq_of_lt (by omega)
  rw [h1, if_pos h]

theorem toU32_small {n : Nat} (h : n < 2 ^ 32) : toU32 n = n :=
  Nat.mod_eq_of_lt h

theorem add_columns_spec (arch arch1 : freecs_archetype_t) (ti : List freecs_type_info_entry_t)
    (h : add_columns arch ti = some arch1) :
    arch1.mask = arch.mask ∧ arch1.entities = arch.entities ∧
      arch1.add_edges = arch.add_edges ∧ arch1.remove_edges = arch.remove_edges := by
  induction ti generalizing arch with
  | nil =>
    simp only [add_columns, Option.some.injEq] at h
    subst h
    exact ⟨rfl, rfl, rfl, rfl⟩
  | cons t rest ih =>
    unfold add_columns at h
    split at h
    · simp at h
    · have := ih _ h
      exact this

/-- The two outcomes of `find_or_create_archetype`. -/
theorem find_or_create_cases (world world1 : freecs_world_t) (mask idx : Nat)
    (ti : List freecs_type_info_entry_t)
    (h : find_or_create_archetype world mask ti = some (world1, idx)) :
    (world1 = world ∧ ∃ i entry, cache_find world.archetype_index mask = some i ∧
        world.archetype_index[i]? = some entry ∧ entry.value[0]? = some idx) ∨
    (cache_find world.archetype_index mask = none ∧ idx = world.archetypes.length ∧
      ∃ arch0, add_columns (new_archetype mask) ti = some arch0 ∧
        world1 = { world with
          archetypes := (world.archetypes ++ [arch0]).map
            (wire_all world.type_sizes mask world.archetypes.length
              (List.range FREECS_MAX_COMPONENTS))
          archetype_index := world.archetype_index ++ [⟨mask, [world.archetypes.length]⟩]
          query_cache := update_query_cache world.query_cache mask world.archetypes.length }) := by
  unfold find_or_create_archetype at h
  split at h
  · rename_i i hi
    left
    split at h
    · simp at h
    · rename_i entry he
      split at h
      · simp at h
      · rename_i a ha
        simp only [Option.some.injEq, Prod.mk.injEq] at h
        obtain ⟨rfl, rfl⟩ := h
        exact ⟨rfl, i, entry, hi, he, ha⟩
  · rename_i hnone
    right
    split at h
    · simp at h
    · rename_i arch0 h0
      simp only [Option.some.injEq, Prod.mk.injEq] at h
      obtain ⟨rfl, rfl⟩ := h
      refine ⟨hnone, rfl, arch0, h0, ?_⟩
      rw [cross_wire_eq]

theorem GraphInv.find {world : freecs_world_t} (hg : GraphInv world) {mask i idx : Nat}
    {entry : freecs_cache_entry_t} (hi : cache_find world.archetype_index mask = some i)
    (he : world.archetype_index[i]? = some entry) (hv : entry.value[0]? = some idx) :
    ∃ arch, world.archetypes[idx]? = some arch ∧ arch.mask = mask := by
  obtain ⟨e, h1, h2⟩ := cache_find_some hi
  rw [he] at h1
  have := Option.some.inj h1
  subst this
  obtain ⟨h3, arch, h4, h5⟩ := hg.index_entry i entry he
  rw [h3] at hv
  simp only [List.getElem?_cons_zero, Option.some.injEq] at hv
  subst hv
  exact ⟨arch, h4, h5.trans h2⟩

theorem GraphInv.no_mask {world : freecs_world_t} (hg : GraphInv world) {mask : Nat}
    (hn : cache_find world.archetype_index mask = none) :
    ∀ (i : Nat) (arch : freecs_archetype_t), world.archetypes[i]? = some arch →
      arch.mask ≠ mask := by
  intro i arch hi hm
  have hlt : i < world.archetype_index.length := by
    rw [hg.index_len]
    exact (List.getElem?_eq_some.mp hi).1
  have he := List.getElem?_eq_getElem hlt
  obtain ⟨_, arch1, h1, h2⟩ := hg.index_entry i _ he
  rw [hi] at h1
  have := Option.some.inj h1
  subst this
  exact cache_find_none hn _ (List.getElem_mem hlt) (h2.symm.trans hm)

theorem GraphInv.of_graph_eq {world world1 : freecs_world_t} (hg : GraphInv world)
    (hi : world1.archetype_index = world.archetype_index)
    (hm : world1.archetypes.map graph_of = world.archetypes.map graph_of) :
    GraphInv world1 := by
  have hlen : world1.archetypes.length = world.archetypes.length := by
    have := congrArg List.length hm
    simpa using this
  have hpt : ∀ (i : Nat) (a1 : freecs_archetype_t), world1.archetypes[i]? = some a1 →
      ∃ a0, world.archetypes[i]? = some a0 ∧ a0.mask = a1.mask ∧
        a0.add_edges = a1.add_edges ∧ a0.remove_edges = a1.remove_edges := by
    intro i a1 h1
    have h2 := congrArg (fun l => l[i]?) hm
    simp only [List.getElem?_map, h1, Option.map_some'] at h2
    cases h3 : world.archetypes[i]? with
    | none => rw [h3] at h2; simp at h2
    | some a0 =>
      rw [h3] at h2
      simp only [Option.map_some', Option.some.injEq, graph_of, Prod.mk.injEq] at h2
      exact ⟨a0, rfl, h2.1.symm, h2.2.1.symm, h2.2.2.symm⟩
  have hpt2 : ∀ (i : Nat) (a0 : freecs_archetype_t), world.archetypes[i]? = some a0 →
      ∃ a1, world1.archetypes[i]? = some a1 ∧ a0.mask = a1.mask := by
    intro i a0 h0
    have hlt : i < world1.archetypes.length := by
      rw [hlen]
      exact (List.getElem?_eq_some.mp h0).1
    obtain ⟨a0', h1, h2, _⟩ := hpt i _ (List.getElem?_eq_getElem hlt)
    rw [h0] at h1
    have := Option.some.inj h1
    subst this
    exact ⟨_, List.getElem?_eq_getElem hlt, h2⟩
  refine ⟨by rw [hlen]; exact hg.arch_bound, by rw [hi, hlen]; exact hg.index_len, ?_, ?_, ?_, ?_⟩
  · intro i entry he
    rw [hi] at he
    obtain ⟨h1, arch, h2, h3⟩ := hg.index_entry i entry he
    obtain ⟨a1, h4, h5⟩ := hpt2 i arch h2
    exact ⟨h1, a1, h4, h5.symm.trans h3⟩
  · intro i j a1 a2 h1 h2 h3
    obtain ⟨b1, h4, h5, _⟩ := hpt i a1 h1
    obtain ⟨b2, h6, h7, _⟩ := hpt j a2 h2
    exact hg.mask_inj i j b1 b2 h4 h6 (by rw [h5, h7, h3])
  · intro a b arch h1 hb h2
    obtain ⟨a0, h3, h4, h5, _⟩ := hpt a arch h1
    rw [← h5] at h2 ⊢
    obtain ⟨t, h6, h7⟩ := hg.add_edge a b a0 h3 hb h2
    obtain ⟨t1, h8, h9⟩ := hpt2 _ t h6
    exact ⟨t1, h8, by rw [← h9, h7, h4]⟩
  · intro a b arch h1 hb h2
    obtain ⟨a0, h3, h4, _, h5⟩ := hpt a arch h1
    rw [← h5] at h2 ⊢
    obtain ⟨t, h6, h7⟩ := hg.remove_edge a b a0 h3 hb h2
    obtain ⟨t1, h8, h9⟩ := hpt2 _ t h6
    exact ⟨t1, h8, by rw [← h9, h7, h4]⟩

theorem GraphInv.create {world : freecs_world_t} (hg : GraphInv world) {mask : Nat}
    {ti : List freecs_type_info_entry_t} {arch0 : freecs_archetype_t}
    (hn : cache_find world.archetype_index mask = none)
    (h0 : add_columns (new_archetype mask) ti = some arch0)
    (hb : world.archetypes.length + 1 < 2 ^ 31) :
    GraphInv { world with
      archetypes := (world.archetypes ++ [arch0]).map
        (wire_all world.type_sizes mask world.archetypes.length
          (List.range FREECS_MAX_COMPONENTS))
      archetype_index := world.archetype_index ++ [⟨mask, [world.archetypes.length]⟩]
      query_cache := update_query_cache world.query_cache mask world.archetypes.length } := by
  obtain ⟨hm0, _, hadd0, hrem0⟩ := add_columns_spec _ _ _ h0
  generalize hW : wire_all world.type_sizes mask world.archetypes.length
    (List.range FREECS_MAX_COMPONENTS) = W
  have hWspec := fun X => wire_all_spec world.type_sizes mask world.archetypes.length
    (List.range FREECS_MAX_COMPONENTS) X
  rw [hW] at hWspec
  have hnew : ((world.archetypes ++ [arch0]).map W)[world.archetypes.length]? =
      some (W arch0) := by
    rw [List.getElem?_map, List.getElem?_append_right (le_refl _)]
    simp
  have hold : ∀ (i : Nat) (X : freecs_archetype_t), world.archetypes[i]? = some X →
      ((world.archetypes ++ [arch0]).map W)[i]? = some (W X) := by
    intro i X hX
    rw [List.getElem?_map, List.getElem?_append_left (List.getElem?_eq_some.mp hX).1, hX]
    rfl
  have hcases : ∀ (i : Nat) (Y : freecs_archetype_t),
      ((world.archetypes ++ [arch0]).map W)[i]? = some Y →
      (∃ X, world.archetypes[i]? = some X ∧ Y = W X) ∨
        (i = world.archetypes.length ∧ Y = W arch0) := by
    intro i Y hY
    have hlt : i < ((world.archetypes ++ [arch0]).map W).length :=
      (List.getElem?_eq_some.mp hY).1
    simp only [List.length_map, List.length_append, List.length_singleton] at hlt
    by_cases hi : i < world.archetypes.length
    · left
      have hX := List.getElem?_eq_getElem hi
      rw [hold i _ hX] at hY
      exact ⟨_, hX, (Option.some.inj hY).symm⟩
    · right
      have : i = world.archetypes.length := by omega
      subst this
      rw [hnew] at hY
      exact ⟨rfl, (Option.some.inj hY).symm⟩
  have hmask0 : (W arch0).mask = mask := by
    rw [(hWspec arch0).1, hm0]
    rfl
  have hnomask := hg.no_mask hn
  have hn31 : world.archetypes.length < 2 ^ 31 := by omega
  have htoNat : (toI32 world.archetypes.length).toNat = world.archetypes.length := by
    rw [toI32_small hn31]
    simp
  have hpow : ∀ (b : Nat), b < 64 → 2 ^ b % 2 ^ 64 = 2 ^ b := fun b hb =>
    Nat.mod_eq_of_lt (Nat.pow_lt_pow_right (by norm_num) hb)
  refine ⟨?_, ?_, ?_, ?_, ?_, ?_⟩
  · simp only [List.length_map, List.length_append, List.length_singleton]
    exact hb
  · simp only [List.length_map, List.length_append, List.length_singleton]
    rw [hg.index_len]
  · intro i entry he
    show entry.value = [i] ∧ ∃ arch,
      ((world.archetypes ++ [arch0]).map W)[i]? = some arch ∧ arch.mask = entry.key
    have he' : (world.archetype_index ++ [⟨mask, [world.archetypes.length]⟩])[i]? =
        some entry := he
    by_cases hi : i < world.archetype_index.length
    · rw [List.getElem?_append_left hi] at he'
      obtain ⟨h1, arch, h2, h3⟩ := hg.index_entry i entry he'
      exact ⟨h1, _, hold i arch h2, by rw [(hWspec arch).1]; exact h3⟩
    · have hlt : i < (world.archetype_index ++
          [(⟨mask, [world.archetypes.length]⟩ : freecs_cache_entry_t)]).length :=
        (List.getElem?_eq_some.mp he').1
      simp only [List.length_append, List.length_singleton] at hlt
      have hi2 : i = world.archetype_index.length := by omega
      subst hi2
      rw [List.getElem?_append_right (le_refl _)] at he'
      simp only [Nat.sub_self, List.getElem?_cons_zero, Option.some.injEq] at he'
      subst he'
      rw [hg.index_len]
      exact ⟨rfl, _, hnew, hmask0⟩
  · intro i j a1 a2 h1 h2 h3
    rcases hcases i a1 h1 with ⟨X1, hx1, rfl⟩ | ⟨rfl, rfl⟩ <;>
      rcases hcases j a2 h2 with ⟨X2, hx2, rfl⟩ | ⟨rfl, rfl⟩
    · rw [(hWspec X1).1, (hWspec X2).1] at h3
      exact hg.mask_inj i j X1 X2 hx1 hx2 h3
    · rw [(hWspec X1).1, hmask0] at h3
      exact absurd h3 (hnomask i X1 hx1)
    · rw [(hWspec X2).1, hmask0] at h3
      exact absurd h3.symm (hnomask j X2 hx2)
    · rfl
  · intro a b arch h1 hb64 h2
    show ∃ arch1, ((world.archetypes ++ [arch0]).map W)[(arch.add_edges.getD b (-1)).toNat]? =
      some arch1 ∧ arch1.mask = arch.mask ||| 2 ^ b
    have key : ∀ (X : freecs_archetype_t), arch = W X →
        (0 ≤ X.add_edges.getD b (-1) → ∃ arch1,
          world.archetypes[(X.add_edges.getD b (-1)).toNat]? = some arch1 ∧
            arch1.mask = X.mask ||| 2 ^ b) →
        ∃ arch1, ((world.archetypes ++ [arch0]).map W)[(arch.add_edges.getD b (-1)).toNat]? =
          some arch1 ∧ arch1.mask = arch.mask ||| 2 ^ b := by
      intro X hX hedge
      subst hX
      rcases (hWspec X).2.2.2.2.2.2.1 b with h | ⟨h, hm⟩
      · rw [h] at h2 ⊢
        obtain ⟨arch1, h3, h4⟩ := hedge h2
        exact ⟨_, hold _ arch1 h3, by rw [(hWspec arch1).1, (hWspec X).1]; exact h4⟩
      · rw [h, htoNat]
        refine ⟨_, hnew, ?_⟩
        rw [hmask0, (hWspec X).1, ← hm, hpow b hb64]
    rcases hcases a arch h1 with ⟨X, hx, rfl⟩ | ⟨rfl, rfl⟩
    · exact key X rfl (fun h => hg.add_edge a b X hx hb64 h)
    · refine key arch0 rfl (fun h => ?_)
      rw [hadd0] at h
      simp only [new_archetype, FREECS_MAX_COMPONENTS, List.getD_eq_getElem?_getD,
        List.getElem?_replicate] at h
      split at h <;> simp at h
  · intro a b arch h1 hb64 h2
    show ∃ arch1,
      ((world.archetypes ++ [arch0]).map W)[(arch.remove_edges.getD b (-1)).toNat]? =
        some arch1 ∧ arch1.mask = arch.mask &&& not64 (2 ^ b)
    have key : ∀ (X : freecs_archetype_t), arch = W X →
        (0 ≤ X.remove_edges.getD b (-1) → ∃ arch1,
          world.archetypes[(X.remove_edges.getD b (-1)).toNat]? = some arch1 ∧
            arch1.mask = X.mask &&& not64 (2 ^ b)) →
        ∃ arch1,
          ((world.archetypes ++ [arch0]).map W)[(arch.remove_edges.getD b (-1)).toNat]? =
            some arch1 ∧ arch1.mask = arch.mask &&& not64 (2 ^ b) := by
      intro X hX hedge
      subst hX
      rcases (hWspec X).2.2.2.2.2.2.2 b with h | ⟨h, hm⟩
      · rw [h] at h2 ⊢
        obtain ⟨arch1, h3, h4⟩ := hedge h2
        exact ⟨_, hold _ arch1 h3, by rw [(hWspec arch1).1, (hWspec X).1]; exact h4⟩
      · rw [h, htoNat]
        refine ⟨_, hnew, ?_⟩
        rw [hmask0, (hWspec X).1, ← hm, hpow b hb64]
    rcases hcases a arch h1 with ⟨X, hx, rfl⟩ | ⟨rfl, rfl⟩
    · exact key X rfl (fun h => hg.remove_edge a b X hx hb64 h)
    · refine key arch0 rfl (fun h => ?_)
      rw [hrem0] at h
      simp only [new_archetype, FREECS_MAX_COMPONENTS, List.getD_eq_getElem?_getD,
        List.getElem?_replicate] at h
      split at h <;> simp at h

/-! ## Operations preserve the structural invariant -/

theorem remove_row_spec {world world1 : freecs_world_t} {a row : Nat}
    (h : remove_row world a row = some world1) :
    ∃ arch last columns2, world.archetypes[a]? = some arch ∧
      arch.entities[arch.entities.length - 1]? = some last ∧
      ((row < arch.entities.length - 1 ∧ ∃ lloc columns1,
          world.locations[last.id]? = some lloc ∧
          mapOpt (copy_row row (arch.entities.length - 1)) arch.columns = some columns1 ∧
          mapOpt pop_row columns1 = some columns2 ∧
          world1 = { world with
            archetypes := world.archetypes.set a
              { arch with
                  entities := (arch.entities.set row last).dropLast
                  columns := columns2 }
            locations := world.locations.set last.id { lloc with row := toU32 row } }) ∨
       (¬ row < arch.entities.length - 1 ∧
          mapOpt pop_row arch.columns = some columns2 ∧
          world1 = { world with
            archetypes := world.archetypes.set a
              { arch with entities := arch.entities.dropLast, columns := columns2 } })) := by
  unfold remove_row at h
  simp only [Option.bind_eq_bind, Option.bind_eq_some] at h
  obtain ⟨arch, harch, h⟩ := h
  split at h
  · simp at h
  · rename_i hne
    simp only [Option.bind_eq_some] at h
    obtain ⟨⟨arch1, locs1⟩, h1, columns2, h2, h3⟩ := h
    have hw := (Option.some.inj h3).symm
    by_cases hrow : row < arch.entities.length - 1
    · rw [if_pos hrow] at h1
      simp only [Option.bind_eq_some, Option.some.injEq, Prod.mk.injEq] at h1
      obtain ⟨last, hlast, lloc, hlloc, columns1, hc1, rfl, rfl⟩ := h1
      exact ⟨arch, last, columns2, harch, hlast, Or.inl ⟨hrow, lloc, columns1, hlloc, hc1, h2, hw⟩⟩
    · rw [if_neg hrow] at h1
      simp only [Option.some.injEq, Prod.mk.injEq] at h1
      obtain ⟨rfl, rfl⟩ := h1
      have hlt : arch.entities.length - 1 < arch.entities.length := by omega
      exact ⟨arch, _, columns2, harch, List.getElem?_eq_getElem hlt, Or.inr ⟨hrow, h2, hw⟩⟩
theorem map_set_of_eq {α β : Type} (f : α → β) (l : List α) (a : Nat) (x x1 : α)
    (hx : l[a]? = some x) (hf : f x1 = f x) : (l.set a x1).map f = l.map f := by
  apply List.ext_getElem?
  intro i
  rw [List.getElem?_map, List.getElem?_map, List.getElem?_set]
  by_cases hi : a = i
  · subst hi
    rw [if_pos rfl, if_pos (List.getElem?_eq_some.mp hx).1, hx]
    simp [hf]
  · rw [if_neg hi]

theorem map_set_eq {α β : Type} (f : α → β) (l : List α) (a : Nat) (x1 : α) :
    (l.set a x1).map f = (l.map f).set a (f x1) := by
  apply List.ext_getElem?
  intro i
  rw [List.getElem?_map, List.getElem?_set, List.getElem?_set, List.length_map,
    List.getElem?_map]
  by_cases hi : a = i
  · subst hi
    by_cases h2 : a < l.length <;> simp [h2]
  · simp [hi]

/-- Result of `freecs_despawn` on a handle that passes the liveness test. -/
theorem despawn_spec {world world1 : freecs_world_t} {entity : freecs_entity_t} {ok : Bool}
    (h : freecs_despawn world entity = some (world1, ok)) :
    (ok = false ∧ world1 = world ∧ freecs_is_alive world entity = false) ∨
    (ok = true ∧ ∃ loc world2 loc1, world.locations[entity.id]? = some loc ∧
      loc.alive = true ∧ loc.generation = entity.generation ∧
      remove_row world loc.archetype_index loc.row = some world2 ∧
      world2.locations[entity.id]? = some loc1 ∧
      world1 = { world2 with
        locations := world2.locations.set entity.id
          { loc1 with alive := false, generation := (loc1.generation + 1) % 2 ^ 32 }
        free_entities := world2.free_entities ++
          [⟨entity.id, (loc1.generation + 1) % 2 ^ 32⟩] }) := by
  unfold freecs_despawn at h
  split at h
  · rename_i hge
    simp only [Option.some.injEq, Prod.mk.injEq] at h
    obtain ⟨rfl, rfl⟩ := h
    exact Or.inl ⟨rfl, rfl, by simp [freecs_is_alive, hge]⟩
  · rename_i hlt
    simp only [Option.bind_eq_bind, Option.bind_eq_some] at h
    obtain ⟨loc, hloc, h⟩ := h
    split at h
    · rename_i hdead
      simp only [Option.some.injEq, Prod.mk.injEq] at h
      obtain ⟨rfl, rfl⟩ := h
      refine Or.inl ⟨rfl, rfl, ?_⟩
      simp only [freecs_is_alive, hlt, if_false, hloc]
      simp only [Bool.or_eq_true, Bool.not_eq_true', bne_iff_ne, ne_eq] at hdead
      rcases hdead with h1 | h1
      · simp [h1]
      · simp [h1]
    · rename_i hlive
      simp only [Bool.or_eq_true, Bool.not_eq_true', bne_iff_ne, ne_eq, not_or,
        Bool.not_eq_false, not_not] at hlive
      simp only [Option.bind_eq_some, Option.some.injEq, Prod.mk.injEq] at h
      obtain ⟨world2, h2, loc1, hl1, hw, hok⟩ := h
      exact Or.inr ⟨hok.symm, loc, world2, loc1, hloc, hlive.1, hlive.2, h2, hl1, hw.symm⟩

theorem ents_get {world : freecs_world_t} {a : Nat} {arch : freecs_archetype_t}
    (h : world.archetypes[a]? = some arch) : (ents world)[a]? = some arch.entities := by
  simp [ents, List.getElem?_map, h]

/-- After the swap-remove of the row of a live slot `i`, the world is
consistent up to that slot. -/
theorem remove_row_limbo {world world2 : freecs_world_t} (hs : StructInv world) {i : Nat}
    {loc : freecs_entity_location_t} (hloc : world.locations[i]? = some loc)
    (hal : loc.alive = true)
    (h : remove_row world loc.archetype_index loc.row = some world2) :
    Limbo world2.locations (ents world2) world2.free_entities i ∧ GraphInv world2 ∧
      world2.next_entity_id = world.next_entity_id ∧
      world2.locations.length = world.locations.length ∧
      world2.locations[i]? = some loc := by
  obtain ⟨arch, last, columns2, harch, hlast, hcases⟩ := remove_row_spec h
  have hents := ents_get harch
  obtain ⟨last1, lloc1, hlast1, hlloc1, hrow, hlimbo⟩ := hs.ent.remove hloc hal hents
  rw [hlast] at hlast1
  have := Option.some.inj hlast1
  subst this
  have hrowlt : loc.row < arch.entities.length := (List.getElem?_eq_some.mp hrow).1
  have hrow32 : toU32 loc.row = loc.row := by
    apply toU32_small
    have := hs.ent.rows_le hents
    have := hs.ent.bound
    omega
  rcases hcases with ⟨hlt, lloc, columns1, hlloc, _, _, hw⟩ | ⟨hnlt, _, hw⟩
  · rw [hlloc] at hlloc1
    have := Option.some.inj hlloc1
    subst this
    rw [if_pos hlt, if_pos hlt] at hlimbo
    have hne : last.id ≠ i := by
      intro hid
      have h1 := hs.ent.slot _ _ _ _ hents hlast
      have h2 := hs.ent.slot _ _ _ _ hents hrow
      rw [hid] at h1
      rw [h1] at h2
      simp only [Option.some.injEq, freecs_entity_location_t.mk.injEq] at h2
      omega
    subst hw
    refine ⟨?_, ?_, rfl, by simp, ?_⟩
    · simp only [ents, map_set_eq]
      rw [hrow32]
      exact hlimbo
    · refine hs.graph.of_graph_eq ?_ ?_
      · rfl
      · exact map_set_of_eq graph_of _ _ arch _ harch rfl
    · show (world.locations.set last.id _)[i]? = some loc
      rw [List.getElem?_set_ne hne]
      exact hloc
  · rw [if_neg hnlt, if_neg hnlt] at hlimbo
    subst hw
    refine ⟨?_, ?_, rfl, rfl, hloc⟩
    · simp only [ents, map_set_eq]
      exact hlimbo
    · refine hs.graph.of_graph_eq ?_ ?_
      · rfl
      · exact map_set_of_eq graph_of _ _ arch _ harch rfl

theorem StructInv.despawn {world world1 : freecs_world_t} (hs : StructInv world)
    {entity : freecs_entity_t} {ok : Bool}
    (h : freecs_despawn world entity = some (world1, ok)) : StructInv world1 := by
  rcases despawn_spec h with ⟨_, rfl, _⟩ | ⟨_, loc, world2, loc1, hloc, hal, _, hrr, hl1, rfl⟩
  · exact hs
  · obtain ⟨hlimbo, hgraph, hnext, hlen, _⟩ := remove_row_limbo hs hloc hal hrr
    refine ⟨?_, ?_, ?_⟩
    · show world2.next_entity_id = (world2.locations.set _ _).length
      rw [List.length_set, hnext, hlen]
      exact hs.next_id
    · exact hlimbo.kill
        { loc1 with alive := false, generation := (loc1.generation + 1) % 2 ^ 32 } rfl
        (Nat.mod_lt _ (by norm_num))
    · refine hgraph.of_graph_eq ?_ ?_ <;> rfl

theorem StructInv.despawn_batch {world world1 : freecs_world_t} (hs : StructInv world)
    {entities : List freecs_entity_t} {despawned : Nat}
    (h : freecs_despawn_batch world entities = some (world1, despawned)) :
    StructInv world1 := by
  induction entities generalizing world despawned with
  | nil =>
    simp only [freecs_despawn_batch, Option.some.injEq, Prod.mk.injEq] at h
    rw [← h.1]
    exact hs
  | cons e rest ih =>
    simp only [freecs_despawn_batch, Option.bind_eq_bind, Option.bind_eq_some,
      Option.some.injEq, Prod.mk.injEq] at h
    obtain ⟨⟨w1, ok⟩, h1, ⟨w2, d⟩, h2, rfl, _⟩ := h
    exact ih (hs.despawn h1) h2

theorem StructInv.apply_despawns_loop {world world1 : freecs_world_t} (hs : StructInv world)
    {queue : List freecs_entity_t} (h : apply_despawns_loop queue world = some world1) :
    StructInv world1 := by
  induction queue generalizing world with
  | nil =>
    simp only [Freecs.apply_despawns_loop, Option.some.injEq] at h
    rw [← h]
    exact hs
  | cons e rest ih =>
    simp only [Freecs.apply_despawns_loop, Option.bind_eq_bind, Option.bind_eq_some] at h
    obtain ⟨⟨w1, ok⟩, h1, h2⟩ := h
    exact ih (hs.despawn h1) h2

/-- A structural invariant only reads the slot table, the entity vectors, the
free list, the id counter, the archetype index and the graph part of the
archetypes. -/
theorem StructInv.congr {world world1 : freecs_world_t} (hs : StructInv world)
    (h1 : world1.locations = world.locations) (h2 : ents world1 = ents world)
    (h3 : world1.free_entities = world.free_entities)
    (h4 : world1.next_entity_id = world.next_entity_id)
    (h5 : world1.archetype_index = world.archetype_index)
    (h6 : world1.archetypes.map graph_of = world.archetypes.map graph_of) :
    StructInv world1 := by
  refine ⟨by rw [h4, h1]; exact hs.next_id, by rw [h1, h2, h3]; exact hs.ent,
    hs.graph.of_graph_eq h5 h6⟩

theorem StructInv.apply_despawns {world world1 : freecs_world_t} (hs : StructInv world)
    (h : freecs_apply_despawns world = some world1) : StructInv world1 := by
  simp only [freecs_apply_despawns, Option.bind_eq_bind, Option.bind_eq_some,
    Option.some.injEq] at h
  obtain ⟨w1, h1, rfl⟩ := h
  refine (hs.apply_despawns_loop h1).congr ?_ ?_ ?_ ?_ ?_ ?_ <;> rfl

theorem StructInv.find_or_create {world world1 : freecs_world_t} (hs : StructInv world)
    {mask idx : Nat} {ti : List freecs_type_info_entry_t}
    (h : find_or_create_archetype world mask ti = some (world1, idx))
    (hb : world1.archetypes.length < 2 ^ 31) :
    StructInv world1 ∧ (∃ arch, world1.archetypes[idx]? = some arch ∧ arch.mask = mask) ∧
      world1.locations = world.locations ∧ world1.free_entities = world.free_entities ∧
      world1.next_entity_id = world.next_entity_id := by
  rcases find_or_create_cases _ _ _ _ _ h with ⟨rfl, i, entry, h1, h2, h3⟩ |
    ⟨hn, rfl, arch0, h0, rfl⟩
  · exact ⟨hs, hs.graph.find h1 h2 h3, rfl, rfl, rfl⟩
  · have hb1 : world.archetypes.length + 1 < 2 ^ 31 := by
      simpa using hb
    obtain ⟨hm0, he0, _, _⟩ := add_columns_spec _ _ _ h0
    have hents : ents { world with
        archetypes := (world.archetypes ++ [arch0]).map
          (wire_all world.type_sizes mask world.archetypes.length
            (List.range FREECS_MAX_COMPONENTS))
        archetype_index := world.archetype_index ++ [⟨mask, [world.archetypes.length]⟩]
        query_cache := update_query_cache world.query_cache mask world.archetypes.length } =
        ents world ++ [[]] := by
      simp only [ents, List.map_map, List.map_append, List.map_cons, List.map_nil]
      congr 1
      · apply List.map_congr_left
        intro X _
        exact (wire_all_spec _ _ _ _ X).2.1
      · simp only [Function.comp, (wire_all_spec _ _ _ _ arch0).2.1, he0, new_archetype]
    refine ⟨⟨hs.next_id, ?_, hs.graph.create hn h0 hb1⟩, ?_, rfl, rfl, rfl⟩
    · rw [hents]
      exact hs.ent.new_archetype
    · refine ⟨wire_all world.type_sizes mask world.archetypes.length
        (List.range FREECS_MAX_COMPONENTS) arch0, ?_, ?_⟩
      · show ((world.archetypes ++ [arch0]).map _)[world.archetypes.length]? = some _
        rw [List.getElem?_map, List.getElem?_append_right (le_refl _)]
        simp only [Nat.sub_self, List.getElem?_cons_zero, Option.map_some']
      · rw [(wire_all_spec _ _ _ _ arch0).1, hm0]
        rfl

/-- The two outcomes of `alloc_entity`. -/
theorem alloc_entity_cases (world : freecs_world_t) :
    (∃ e, world.free_entities = world.free_entities.dropLast ++ [e] ∧
      alloc_entity world =
        ({ world with free_entities := world.free_entities.dropLast }, e)) ∨
    (world.free_entities = [] ∧
      alloc_entity world =
        (ensure_entity_slot
          { world with next_entity_id := (world.next_entity_id + 1) % 2 ^ 32 }
          world.next_entity_id, ⟨world.next_entity_id, 0⟩)) := by
  unfold alloc_entity
  cases hl : world.free_entities.getLast? with
  | none => exact Or.inr ⟨List.getLast?_eq_none_iff.mp hl, rfl⟩
  | some e =>
    exact Or.inl ⟨e, (List.dropLast_append_getLast? e (by simp [hl])).symm, rfl⟩

theorem alloc_limbo {world world1 : freecs_world_t} {e : freecs_entity_t}
    (hs : StructInv world) (h : alloc_entity world = (world1, e))
    (hb : world1.locations.length < 2 ^ 32) :
    Limbo world1.locations (ents world1) world1.free_entities e.id ∧
      world1.next_entity_id = world1.locations.length ∧
      world1.archetypes = world.archetypes ∧
      world1.archetype_index = world.archetype_index ∧ e.generation < 2 ^ 32 := by
  rcases alloc_entity_cases world with ⟨e1, hfree, h1⟩ | ⟨hfree, h1⟩
  · rw [h1] at h
    simp only [Prod.mk.injEq] at h
    obtain ⟨rfl, rfl⟩ := h
    have hent := hs.ent
    rw [hfree] at hent
    obtain ⟨loc, h2, _, h3⟩ := hent.free_dead e1 (by simp)
    refine ⟨hent.pop_free, hs.next_id, rfl, rfl, ?_⟩
    rw [← h3]
    exact hent.gen_bound _ _ h2
  · rw [h1] at h
    simp only [Prod.mk.injEq] at h
    obtain ⟨rfl, rfl⟩ := h
    have hnext := hs.next_id
    have hrest : ensure_entity_slot
        { world with next_entity_id := (world.next_entity_id + 1) % 2 ^ 32 }
        world.next_entity_id =
        { world with
            next_entity_id := (world.next_entity_id + 1) % 2 ^ 32
            locations := world.locations ++ [⟨0, 0, 0, false⟩] } := by
      unfold ensure_entity_slot
      rw [if_neg (by simp only [hnext]; omega)]
      simp only [hnext]
      have : world.locations.length + 1 - world.locations.length = 1 := by omega
      rw [this]
      rfl
    rw [hrest] at hb ⊢
    simp only [List.length_append, List.length_singleton] at hb
    refine ⟨?_, ?_, rfl, rfl, by norm_num⟩
    · show Limbo (world.locations ++ [⟨0, 0, 0, false⟩]) (ents world) world.free_entities
        world.next_entity_id
      rw [hnext]
      exact hs.ent.fresh _ hb
    · show (world.next_entity_id + 1) % 2 ^ 32 = (world.locations ++ [_]).length
      rw [List.length_append, List.length_singleton, hnext, Nat.mod_eq_of_lt hb]

/-- The outcomes of the body of the entry loop of `freecs_spawn`. -/
theorem spawn_entry_cases (arch arch2 : freecs_archetype_t) (t : freecs_type_info_entry_t)
    (h2 : spawn_entry arch t = some arch2) :
    ∃ bi, freecs_bit_index t.bit = some bi ∧
      ((arch.column_bits.getD bi (-1) < 0 ∧ arch2 = arch) ∨
       (0 ≤ arch.column_bits.getD bi (-1) ∧ ∃ col bytes,
          arch.columns[(arch.column_bits.getD bi (-1)).toNat]? = some col ∧
          entry_bytes t = some bytes ∧
          arch2 = { arch with
            columns := arch.columns.set (arch.column_bits.getD bi (-1)).toNat
              { col with
                  data := col.data ++ bytes
                  data_cap := ensure_capacity_u8 col.data_cap (col.data.length + t.size) } })) := by
  unfold spawn_entry at h2
  cases hbi : freecs_bit_index t.bit with
  | none => rw [hbi] at h2; simp at h2
  | some bi =>
    rw [hbi] at h2
    simp only at h2
    refine ⟨bi, rfl, ?_⟩
    by_cases hc : arch.column_bits.getD bi (-1) ≥ 0
    · rw [if_pos hc] at h2
      right
      cases hcol : arch.columns[(arch.column_bits.getD bi (-1)).toNat]? with
      | none => rw [hcol] at h2; simp at h2
      | some col =>
        rw [hcol] at h2
        simp only at h2
        cases hby : entry_bytes t with
        | none => rw [hby] at h2; simp at h2
        | some bytes =>
          rw [hby] at h2
          simp only [Option.some.injEq] at h2
          exact ⟨hc, col, bytes, rfl, rfl, h2.symm⟩
    · rw [if_neg hc] at h2
      simp only [Option.some.injEq] at h2
      exact Or.inl ⟨by omega, h2.symm⟩

theorem spawn_entry_spec (arch arch2 : freecs_archetype_t) (t : freecs_type_info_entry_t)
    (h2 : spawn_entry arch t = some arch2) :
    arch2.mask = arch.mask ∧ arch2.entities = arch.entities ∧
      arch2.add_edges = arch.add_edges ∧ arch2.remove_edges = arch.remove_edges ∧
      arch2.column_bits = arch.column_bits ∧
      arch2.columns.length = arch.columns.length := by
  obtain ⟨bi, _, ⟨_, rfl⟩ | ⟨_, col, bytes, _, _, rfl⟩⟩ := spawn_entry_cases _ _ _ h2
  · exact ⟨rfl, rfl, rfl, rfl, rfl, rfl⟩
  · exact ⟨rfl, rfl, rfl, rfl, rfl, by simp⟩

theorem spawn_entries_spec (arch arch1 : freecs_archetype_t)
    (entries : List freecs_type_info_entry_t) (h : spawn_entries arch entries = some arch1) :
    arch1.mask = arch.mask ∧ arch1.entities = arch.entities ∧
      arch1.add_edges = arch.add_edges ∧ arch1.remove_edges = arch.remove_edges ∧
      arch1.column_bits = arch.column_bits ∧ arch1.columns.length = arch.columns.length := by
  induction entries generalizing arch with
  | nil =>
    simp only [spawn_entries, Option.some.injEq] at h
    subst h
    exact ⟨rfl, rfl, rfl, rfl, rfl, rfl⟩
  | cons t rest ih =>
    unfold spawn_entries at h
    split at h
    · simp at h
    · rename_i arch2 h2
      obtain ⟨i1, i2, i3, i4, i5, i6⟩ := ih _ h
      obtain ⟨j1, j2, j3, j4, j5, j6⟩ := spawn_entry_spec _ _ _ h2
      exact ⟨i1.trans j1, i2.trans j2, i3.trans j3, i4.trans j4, i5.trans j5, i6.trans j6⟩

/-- Result of a `freecs_spawn` that passes the argument test. -/
theorem spawn_spec {world world1 : freecs_world_t} {mask : Nat}
    {entries : List freecs_type_info_entry_t} {entity : freecs_entity_t}
    (h : freecs_spawn world mask entries = some (world1, entity))
    (hm : ¬ (entries.length = 0 ∨ mask = 0)) :
    ∃ w1 idx arch w2 arch1, find_or_create_archetype world mask entries = some (w1, idx) ∧
      w1.archetypes[idx]? = some arch ∧ alloc_entity w1 = (w2, entity) ∧
      spawn_entries { arch with entities := arch.entities ++ [entity] } entries = some arch1 ∧
      entity.id < w2.locations.length ∧
      world1 = { w2 with
        archetypes := w2.archetypes.set idx arch1
        locations := w2.locations.set entity.id
          ⟨toU32 idx, toU32 arch.entities.length, entity.generation, true⟩ } := by
  unfold freecs_spawn at h
  rw [if_neg hm] at h
  split at h
  · simp at h
  · rename_i w1 idx hf
    split at h
    · simp at h
    · rename_i arch ha
      cases hal : alloc_entity w1 with
      | mk w2 e =>
        rw [hal] at h
        simp only at h
        split at h
        · simp at h
        · rename_i arch1 hse
          split at h
          · rename_i hlt
            simp only [Option.some.injEq, Prod.mk.injEq] at h
            obtain ⟨rfl, rfl⟩ := h
            exact ⟨w1, idx, arch, w2, arch1, hf, ha, hal, hse, hlt, rfl⟩
          · simp at h

/-- Appending the allocated entity to archetype `idx` and recording its slot
restores the structural invariant. -/
theorem Limbo.insert_world {w2 world1 : freecs_world_t} {entity : freecs_entity_t}
    {idx : Nat} {arch arch1 : freecs_archetype_t}
    (hl : Limbo w2.locations (ents w2) w2.free_entities entity.id)
    (hnext : w2.next_entity_id = w2.locations.length) (hg : GraphInv w2)
    (hgen : entity.generation < 2 ^ 32)
    (ha : w2.archetypes[idx]? = some arch)
    (he : arch1.entities = arch.entities ++ [entity])
    (hgr : graph_of arch1 = graph_of arch)
    (hw : world1 = { w2 with
        archetypes := w2.archetypes.set idx arch1
        locations := w2.locations.set entity.id
          ⟨toU32 idx, toU32 arch.entities.length, entity.generation, true⟩ }) :
    StructInv world1 := by
  subst hw
  have hidx : toU32 idx = idx := by
    apply toU32_small
    have := (List.getElem?_eq_some.mp ha).1
    have := hg.arch_bound
    omega
  have hrow : toU32 arch.entities.length = arch.entities.length := by
    apply toU32_small
    have := hl.rows_lt (ents_get ha)
    have := hl.bound
    omega
  refine ⟨?_, ?_, ?_⟩
  · show w2.next_entity_id = (w2.locations.set _ _).length
    rw [List.length_set]
    exact hnext
  · show EntInv (w2.locations.set _ _) (ents { w2 with archetypes := _, locations := _ }) _
    simp only [ents, map_set_eq]
    rw [hidx, hrow, he]
    have := hl.insert (ents_get ha) entity.generation hgen
    exact this
  · refine hg.of_graph_eq ?_ ?_
    · rfl
    · exact map_set_of_eq graph_of _ _ arch _ ha hgr

theorem StructInv.spawn {world world1 : freecs_world_t} (hs : StructInv world) {mask : Nat}
    {entries : List freecs_type_info_entry_t} {entity : freecs_entity_t}
    (h : freecs_spawn world mask entries = some (world1, entity)) (hb : Bounded world1) :
    StructInv world1 := by
  by_cases hm : entries.length = 0 ∨ mask = 0
  · unfold freecs_spawn at h
    rw [if_pos hm] at h
    simp only [Option.some.injEq, Prod.mk.injEq] at h
    rw [← h.1]
    exact hs
  · obtain ⟨w1, idx, arch, w2, arch1, hf, ha, hal, hse, hlt, hw⟩ := spawn_spec h hm
    have hb1 : w2.locations.length < 2 ^ 32 ∧ w2.archetypes.length < 2 ^ 31 := by
      have := hb
      rw [hw] at this
      simpa [Bounded] using this
    have harch0 : w2.archetypes = w1.archetypes := by
      rcases alloc_entity_cases w1 with ⟨e1, _, h1⟩ | ⟨_, h1⟩
      · rw [h1] at hal
        simp only [Prod.mk.injEq] at hal
        rw [← hal.1]
      · rw [h1] at hal
        simp only [Prod.mk.injEq] at hal
        rw [← hal.1]
        unfold ensure_entity_slot
        split <;> rfl
    obtain ⟨hs1, _, _, _, _⟩ := hs.find_or_create hf (by rw [← harch0]; exact hb1.2)
    obtain ⟨hl, hnext, harch, hidx, hgen⟩ := alloc_limbo hs1 hal hb1.1
    obtain ⟨s1, s2, s3, s4, _, _⟩ := spawn_entries_spec _ _ _ hse
    have hg2 : GraphInv w2 := hs1.graph.of_graph_eq hidx (by rw [harch])
    refine hl.insert_world hnext hg2 hgen (by rw [harch]; exact ha) s2 ?_ hw
    simp only [graph_of, s1, s3, s4]

theorem alloc_entity_archetypes {world world1 : freecs_world_t} {e : freecs_entity_t}
    (hal : alloc_entity world = (world1, e)) :
    world1.archetypes = world.archetypes ∧ world.locations.length ≤ world1.locations.length := by
  rcases alloc_entity_cases world with ⟨e1, _, h1⟩ | ⟨_, h1⟩
  · rw [h1] at hal
    simp only [Prod.mk.injEq] at hal
    rw [← hal.1]
    exact ⟨rfl, le_rfl⟩
  · rw [h1] at hal
    simp only [Prod.mk.injEq] at hal
    rw [← hal.1]
    unfold ensure_entity_slot
    split
    · exact ⟨rfl, le_rfl⟩
    · exact ⟨rfl, by simp⟩

theorem spawn_batch_row_spec {world world1 : freecs_world_t} {idx row : Nat}
    {entity : freecs_entity_t} (h : spawn_batch_row world idx row = some (world1, entity)) :
    ∃ w2 arch, alloc_entity world = (w2, entity) ∧ w2.archetypes[idx]? = some arch ∧
      entity.id < w2.locations.length ∧
      world1 = { w2 with
        archetypes := w2.archetypes.set idx
          { arch with
              entities := arch.entities ++ [entity]
              columns := arch.columns.map (fun col =>
                { col with data := col.data ++ List.replicate col.elem_size 0 }) }
        locations := w2.locations.set entity.id
          ⟨toU32 idx, toU32 row, entity.generation, true⟩ } := by
  unfold spawn_batch_row at h
  cases hal : alloc_entity world with
  | mk w2 e =>
    rw [hal] at h
    simp only at h
    cases ha : w2.archetypes[idx]? with
    | none => rw [ha] at h; simp at h
    | some arch =>
      rw [ha] at h
      simp only at h
      by_cases hlt : e.id < w2.locations.length
      · rw [if_pos hlt] at h
        simp only [Option.some.injEq, Prod.mk.injEq] at h
        obtain ⟨rfl, rfl⟩ := h
        exact ⟨w2, arch, rfl, ha, hlt, rfl⟩
      · rw [if_neg hlt] at h
        simp at h

theorem spawn_batch_loop_len {count : Nat} {world world1 : freecs_world_t} {idx row : Nat}
    {entities : List freecs_entity_t}
    (h : spawn_batch_loop count world idx row = some (world1, entities)) :
    world.locations.length ≤ world1.locations.length ∧
      world1.archetypes.length = world.archetypes.length := by
  induction count generalizing world row entities with
  | zero =>
    simp only [spawn_batch_loop, Option.some.injEq, Prod.mk.injEq] at h
    rw [← h.1]
    exact ⟨le_rfl, rfl⟩
  | succ n ih =>
    unfold spawn_batch_loop at h
    cases hr : spawn_batch_row world idx row with
    | none => rw [hr] at h; simp at h
    | some p =>
      obtain ⟨w1, e⟩ := p
      rw [hr] at h
      simp only at h
      cases hl : spawn_batch_loop n w1 idx (row + 1) with
      | none => rw [hl] at h; simp at h
      | some q =>
        obtain ⟨w2, es⟩ := q
        rw [hl] at h
        simp only [Option.some.injEq, Prod.mk.injEq] at h
        obtain ⟨rfl, rfl⟩ := h
        obtain ⟨i1, i2⟩ := ih hl
        obtain ⟨w3, arch, hal, _, _, rfl⟩ := spawn_batch_row_spec hr
        obtain ⟨a1, a2⟩ := alloc_entity_archetypes hal
        simp only [List.length_set] at i1 i2
        exact ⟨by omega, by rw [i2, a1]⟩

theorem StructInv.spawn_batch_loop {count : Nat} {world world1 : freecs_world_t}
    {idx row : Nat} {entities : List freecs_entity_t} (hs : StructInv world)
    (hrow : ∃ arch, world.archetypes[idx]? = some arch ∧ arch.entities.length = row)
    (h : spawn_batch_loop count world idx row = some (world1, entities))
    (hb : world1.locations.length < 2 ^ 32) : StructInv world1 := by
  induction count generalizing world row entities with
  | zero =>
    simp only [Freecs.spawn_batch_loop, Option.some.injEq, Prod.mk.injEq] at h
    rw [← h.1]
    exact hs
  | succ n ih =>
    unfold Freecs.spawn_batch_loop at h
    cases hr : spawn_batch_row world idx row with
    | none => rw [hr] at h; simp at h
    | some p =>
      obtain ⟨w1, e⟩ := p
      rw [hr] at h
      simp only at h
      cases hl : Freecs.spawn_batch_loop n w1 idx (row + 1) with
      | none => rw [hl] at h; simp at h
      | some q =>
        obtain ⟨w2, es⟩ := q
        rw [hl] at h
        simp only [Option.some.injEq, Prod.mk.injEq] at h
        obtain ⟨rfl, rfl⟩ := h
        obtain ⟨hlen, _⟩ := spawn_batch_loop_len hl
        obtain ⟨w3, arch, hal, ha, hlt, hw⟩ := spawn_batch_row_spec hr
        obtain ⟨arch0, ha0, hrow0⟩ := hrow
        obtain ⟨a1, a2⟩ := alloc_entity_archetypes hal
        have hb3 : w3.locations.length < 2 ^ 32 := by
          rw [hw] at hlen
          simp only [List.length_set] at hlen
          omega
        obtain ⟨hlim, hnext, harch, hidx, hgen⟩ := alloc_limbo hs hal hb3
        have hg3 : GraphInv w3 := hs.graph.of_graph_eq hidx (by rw [harch])
        rw [harch, ha0] at ha
        have := Option.some.inj ha
        subst this
        have hs1 : StructInv w1 := by
          exact @Limbo.insert_world w3 w1 e idx arch0
            { arch0 with
                entities := arch0.entities ++ [e]
                columns := arch0.columns.map (fun col =>
                  { col with data := col.data ++ List.replicate col.elem_size 0 }) }
            hlim hnext hg3 hgen (by rw [harch]; exact ha0) rfl rfl (by rw [hrow0]; exact hw)
        refine ih hs1 ?_ hl
        rw [hw]
        refine ⟨{ arch0 with
            entities := arch0.entities ++ [e]
            columns := arch0.columns.map (fun col =>
              { col with data := col.data ++ List.replicate col.elem_size 0 }) }, ?_, ?_⟩
        · show (w3.archetypes.set idx _)[idx]? = some _
          rw [List.getElem?_set_self (by rw [harch]; exact (List.getElem?_eq_some.mp ha0).1)]
        · simp [hrow0]

theorem StructInv.spawn_batch {world world1 : freecs_world_t} (hs : StructInv world)
    {mask count : Nat} {entities : List freecs_entity_t}
    (h : freecs_spawn_batch world mask count = some (world1, entities))
    (hb : Bounded world1) : StructInv world1 := by
  unfold freecs_spawn_batch at h
  split at h
  · simp only [Option.some.injEq, Prod.mk.injEq] at h
    rw [← h.1]
    exact hs
  · simp only at h
    split at h
    · simp only [Option.some.injEq, Prod.mk.injEq] at h
      rw [← h.1]
      exact hs
    · cases hf : find_or_create_archetype world mask (batch_type_info world.type_sizes mask) with
      | none => rw [hf] at h; simp at h
      | some p =>
        obtain ⟨w1, idx⟩ := p
        rw [hf] at h
        simp only at h
        cases ha : w1.archetypes[idx]? with
        | none => rw [ha] at h; simp at h
        | some arch =>
          rw [ha] at h
          simp only at h
          obtain ⟨hlen, hlen2⟩ := spawn_batch_loop_len h
          simp only [List.length_set] at hlen2
          obtain ⟨hs1, _, _, _, _⟩ := hs.find_or_create hf (by rw [← hlen2]; exact hb.2)
          refine StructInv.spawn_batch_loop ?_ ?_ h hb.1
          · refine hs1.congr rfl ?_ rfl rfl rfl ?_
            · show List.map (fun a => a.entities) (w1.archetypes.set idx _) =
                List.map (fun a => a.entities) w1.archetypes
              exact map_set_of_eq _ _ _ arch _ ha rfl
            · show List.map graph_of (w1.archetypes.set idx _) = List.map graph_of w1.archetypes
              exact map_set_of_eq _ _ _ arch _ ha rfl
          · refine ⟨{ arch with
              columns := arch.columns.map (fun col =>
                { col with
                    data_cap := ensure_capacity_u8 col.data_cap
                      (col.data.length + count * col.elem_size) }) }, ?_, rfl⟩
            show (w1.archetypes.set idx _)[idx]? = some _
            rw [List.getElem?_set_self (List.getElem?_eq_some.mp ha).1]

theorem remove_row_intro_swap {world : freecs_world_t} {a row : Nat}
    {arch : freecs_archetype_t} {last : freecs_entity_t} {lloc : freecs_entity_location_t}
    {columns1 columns2 : List freecs_component_column_t}
    (ha : world.archetypes[a]? = some arch) (hrow : row < arch.entities.length - 1)
    (hlast : arch.entities[arch.entities.length - 1]? = some last)
    (hlloc : world.locations[last.id]? = some lloc)
    (hc1 : mapOpt (copy_row row (arch.entities.length - 1)) arch.columns = some columns1)
    (hc2 : mapOpt pop_row columns1 = some columns2) :
    remove_row world a row = some { world with
      archetypes := world.archetypes.set a
        { arch with
            entities := (arch.entities.set row last).dropLast
            columns := columns2 }
      locations := world.locations.set last.id { lloc with row := toU32 row } } := by
  have hne : ¬ arch.entities.length = 0 := by omega
  unfold remove_row
  simp only [Option.bind_eq_bind, ha, Option.some_bind, if_neg hne, if_pos hrow, hlast, hlloc,
    hc1, hc2]

theorem remove_row_intro_last {world : freecs_world_t} {a row : Nat}
    {arch : freecs_archetype_t} {columns2 : List freecs_component_column_t}
    (ha : world.archetypes[a]? = some arch) (hne : ¬ arch.entities.length = 0)
    (hrow : ¬ row < arch.entities.length - 1)
    (hc2 : mapOpt pop_row arch.columns = some columns2) :
    remove_row world a row = some { world with
      archetypes := world.archetypes.set a
        { arch with entities := arch.entities.dropLast, columns := columns2 } } := by
  unfold remove_row
  simp only [Option.bind_eq_bind, ha, Option.some_bind, if_neg hne, if_neg hrow, hc2]

/-- The swap-remove in archetype `a` commutes with a write to another archetype. -/
theorem remove_row_set_other {world world2 : freecs_world_t} {a t row : Nat}
    (to1 : freecs_archetype_t) (hne : a ≠ t)
    (h : remove_row { world with archetypes := world.archetypes.set t to1 } a row =
      some world2) :
    ∃ w2, remove_row world a row = some w2 ∧
      world2 = { w2 with archetypes := w2.archetypes.set t to1 } ∧
      w2.archetypes[t]? = world.archetypes[t]? := by
  obtain ⟨arch, last, columns2, harch, hlast, hcases⟩ := remove_row_spec h
  have harch0 : world.archetypes[a]? = some arch := by
    have : (world.archetypes.set t to1)[a]? = some arch := harch
    rw [List.getElem?_set_ne (Ne.symm hne)] at this
    exact this
  have hlen : arch.entities.length ≠ 0 := by
    intro h0
    rw [h0] at hlast
    have := (List.getElem?_eq_some.mp hlast).1
    omega
  rcases hcases with ⟨hlt, lloc, columns1, hlloc, hc1, hc2, hw⟩ | ⟨hnlt, hc2, hw⟩
  · refine ⟨_, remove_row_intro_swap harch0 hlt hlast hlloc hc1 hc2, ?_, ?_⟩
    · rw [hw]
      simp only [List.set_comm _ _ _ (Ne.symm hne)]
    · show (world.archetypes.set a _)[t]? = _
      rw [List.getElem?_set_ne hne]
  · refine ⟨_, remove_row_intro_last harch0 hlen hnlt hc2, ?_, ?_⟩
    · rw [hw]
      simp only [List.set_comm _ _ _ (Ne.symm hne)]
    · show (world.archetypes.set a _)[t]? = _
      rw [List.getElem?_set_ne hne]

theorem move_entity_spec {world world1 : freecs_world_t} {entity : freecs_entity_t}
    {from_idx from_row to_idx : Nat}
    (h : move_entity world entity from_idx from_row to_idx = some world1) :
    ∃ from_arch to_arch columns w2, world.archetypes[from_idx]? = some from_arch ∧
      world.archetypes[to_idx]? = some to_arch ∧
      mapOpt (move_column from_arch from_row) to_arch.columns = some columns ∧
      remove_row { world with
          archetypes := world.archetypes.set to_idx
            { to_arch with entities := to_arch.entities ++ [entity], columns := columns } }
        from_idx from_row = some w2 ∧
      entity.id < w2.locations.length ∧
      world1 = { w2 with
        locations := w2.locations.set entity.id
          ⟨toU32 to_idx, toU32 to_arch.entities.length, entity.generation, true⟩ } := by
  unfold move_entity at h
  simp only [Option.bind_eq_bind, Option.bind_eq_some] at h
  obtain ⟨from_arch, hf, to_arch, ht, columns, hc, w2, hr, h⟩ := h
  split at h
  · rename_i hlt
    exact ⟨from_arch, to_arch, columns, w2, hf, ht, hc, hr, hlt, (Option.some.inj h).symm⟩
  · simp at h

/-- Moving a live entity to another archetype keeps the structural invariant. -/
theorem StructInv.move_entity {world world1 : freecs_world_t} (hs : StructInv world)
    {entity : freecs_entity_t} {loc : freecs_entity_location_t} {to_idx : Nat}
    (hloc : world.locations[entity.id]? = some loc) (hal : loc.alive = true)
    (hgen : loc.generation = entity.generation) (hne : loc.archetype_index ≠ to_idx)
    (h : move_entity world entity loc.archetype_index loc.row to_idx = some world1) :
    StructInv world1 := by
  obtain ⟨from_arch, to_arch, columns, w2, hf, ht, hc, hr, hlt, hw⟩ := move_entity_spec h
  obtain ⟨w3, hr3, hw2, ht3⟩ := remove_row_set_other _ hne hr
  obtain ⟨hlimbo, hgraph, hnext, hlen, _⟩ := remove_row_limbo hs hloc hal hr3
  rw [ht] at ht3
  have hg32 : entity.generation < 2 ^ 32 := by
    rw [← hgen]
    exact hs.ent.gen_bound _ _ hloc
  refine @Limbo.insert_world w3 world1 entity to_idx to_arch
    { to_arch with entities := to_arch.entities ++ [entity], columns := columns }
    hlimbo ?_ hgraph hg32 ht3 rfl rfl ?_
  · rw [hnext, hlen]
    exact hs.next_id
  · rw [hw, hw2]

/-- Replacing an archetype by one with the same mask and valid edges keeps the
graph invariant. -/
theorem GraphInv.set_edges {world : freecs_world_t} (hg : GraphInv world) {s : Nat}
    {a a1 : freecs_archetype_t} (ha : world.archetypes[s]? = some a) (hmask : a1.mask = a.mask)
    (hadd : ∀ b, b < 64 → 0 ≤ a1.add_edges.getD b (-1) →
      ∃ arch1, world.archetypes[(a1.add_edges.getD b (-1)).toNat]? = some arch1 ∧
        arch1.mask = a.mask ||| 2 ^ b)
    (hrem : ∀ b, b < 64 → 0 ≤ a1.remove_edges.getD b (-1) →
      ∃ arch1, world.archetypes[(a1.remove_edges.getD b (-1)).toNat]? = some arch1 ∧
        arch1.mask = a.mask &&& not64 (2 ^ b)) :
    GraphInv { world with archetypes := world.archetypes.set s a1 } := by
  have hs : s < world.archetypes.length := (List.getElem?_eq_some.mp ha).1
  have hfwd : ∀ (j : Nat) (X : freecs_archetype_t), world.archetypes[j]? = some X →
      ∃ X1, (world.archetypes.set s a1)[j]? = some X1 ∧ X1.mask = X.mask := by
    intro j X hX
    by_cases hj : s = j
    · subst hj
      rw [ha] at hX
      rw [← Option.some.inj hX]
      exact ⟨a1, List.getElem?_set_self hs, hmask⟩
    · exact ⟨X, by rw [List.getElem?_set_ne hj]; exact hX, rfl⟩
  have hbwd : ∀ (j : Nat) (X1 : freecs_archetype_t),
      (world.archetypes.set s a1)[j]? = some X1 →
      (j = s ∧ X1 = a1) ∨ (j ≠ s ∧ world.archetypes[j]? = some X1) := by
    intro j X1 hX
    by_cases hj : s = j
    · subst hj
      rw [List.getElem?_set_self hs] at hX
      exact Or.inl ⟨rfl, (Option.some.inj hX).symm⟩
    · rw [List.getElem?_set_ne hj] at hX
      exact Or.inr ⟨Ne.symm hj, hX⟩
  have hbwd_mask : ∀ (j : Nat) (X1 : freecs_archetype_t),
      (world.archetypes.set s a1)[j]? = some X1 →
      ∃ X, world.archetypes[j]? = some X ∧ X.mask = X1.mask := by
    intro j X1 hX
    rcases hbwd j X1 hX with ⟨rfl, rfl⟩ | ⟨_, h1⟩
    · exact ⟨a, ha, hmask.symm⟩
    · exact ⟨X1, h1, rfl⟩
  refine ⟨?_, ?_, ?_, ?_, ?_, ?_⟩
  · show (world.archetypes.set s a1).length < 2 ^ 31
    rw [List.length_set]
    exact hg.arch_bound
  · show world.archetype_index.length = (world.archetypes.set s a1).length
    rw [List.length_set]
    exact hg.index_len
  · intro i entry he
    obtain ⟨h1, arch, h2, h3⟩ := hg.index_entry i entry he
    obtain ⟨X1, h4, h5⟩ := hfwd i arch h2
    exact ⟨h1, X1, h4, h5.trans h3⟩
  · intro i j x1 x2 h1 h2 h3
    obtain ⟨y1, h4, h5⟩ := hbwd_mask i x1 h1
    obtain ⟨y2, h6, h7⟩ := hbwd_mask j x2 h2
    exact hg.mask_inj i j y1 y2 h4 h6 (by rw [h5, h7, h3])
  · intro i b arch h1 hb h2
    show ∃ arch1, (world.archetypes.set s a1)[(arch.add_edges.getD b (-1)).toNat]? =
      some arch1 ∧ arch1.mask = arch.mask ||| 2 ^ b
    rcases hbwd i arch h1 with ⟨rfl, rfl⟩ | ⟨_, h3⟩
    · obtain ⟨t, h4, h5⟩ := hadd b hb h2
      obtain ⟨X1, h6, h7⟩ := hfwd _ t h4
      exact ⟨X1, h6, by rw [h7, h5, hmask]⟩
    · obtain ⟨t, h4, h5⟩ := hg.add_edge i b arch h3 hb h2
      obtain ⟨X1, h6, h7⟩ := hfwd _ t h4
      exact ⟨X1, h6, by rw [h7, h5]⟩
  · intro i b arch h1 hb h2
    show ∃ arch1, (world.archetypes.set s a1)[(arch.remove_edges.getD b (-1)).toNat]? =
      some arch1 ∧ arch1.mask = arch.mask &&& not64 (2 ^ b)
    rcases hbwd i arch h1 with ⟨rfl, rfl⟩ | ⟨_, h3⟩
    · obtain ⟨t, h4, h5⟩ := hrem b hb h2
      obtain ⟨X1, h6, h7⟩ := hfwd _ t h4
      exact ⟨X1, h6, by rw [h7, h5, hmask]⟩
    · obtain ⟨t, h4, h5⟩ := hg.remove_edge i b arch h3 hb h2
      obtain ⟨X1, h6, h7⟩ := hfwd _ t h4
      exact ⟨X1, h6, by rw [h7, h5]⟩

theorem GraphInv.set_add_edge {world : freecs_world_t} (hg : GraphInv world) {s t b : Nat}
    {a at1 : freecs_archetype_t} (ha : world.archetypes[s]? = some a)
    (ht : world.archetypes[t]? = some at1) (hm : at1.mask = a.mask ||| 2 ^ b) :
    GraphInv { world with
      archetypes := world.archetypes.set s
        { a with add_edges := a.add_edges.set b (toI32 t) } } := by
  have ht31 : t < 2 ^ 31 := by
    have := (List.getElem?_eq_some.mp ht).1
    have := hg.arch_bound
    omega
  refine hg.set_edges ha rfl ?_ ?_
  · intro b1 hb1 h1
    show ∃ arch1, world.archetypes[((a.add_edges.set b (toI32 t)).getD b1 (-1)).toNat]? =
      some arch1 ∧ arch1.mask = a.mask ||| 2 ^ b1
    have h1' : 0 ≤ (a.add_edges.set b (toI32 t)).getD b1 (-1) := h1
    rw [getD_set_eq] at h1' ⊢
    by_cases hc : b = b1 ∧ b < a.add_edges.length
    · rw [if_pos hc, toI32_small ht31]
      simp only [Int.toNat_ofNat]
      exact ⟨at1, ht, by rw [← hc.1]; exact hm⟩
    · rw [if_neg hc] at h1' ⊢
      exact hg.add_edge s b1 a ha hb1 h1'
  · intro b1 hb1 h1
    exact hg.remove_edge s b1 a ha hb1 h1

theorem GraphInv.set_remove_edge {world : freecs_world_t} (hg : GraphInv world) {s t b : Nat}
    {a at1 : freecs_archetype_t} (ha : world.archetypes[s]? = some a)
    (ht : world.archetypes[t]? = some at1) (hm : at1.mask = a.mask &&& not64 (2 ^ b)) :
    GraphInv { world with
      archetypes := world.archetypes.set s
        { a with remove_edges := a.remove_edges.set b (toI32 t) } } := by
  have ht31 : t < 2 ^ 31 := by
    have := (List.getElem?_eq_some.mp ht).1
    have := hg.arch_bound
    omega
  refine hg.set_edges ha rfl ?_ ?_
  · intro b1 hb1 h1
    exact hg.add_edge s b1 a ha hb1 h1
  · intro b1 hb1 h1
    show ∃ arch1, world.archetypes[((a.remove_edges.set b (toI32 t)).getD b1 (-1)).toNat]? =
      some arch1 ∧ arch1.mask = a.mask &&& not64 (2 ^ b1)
    have h1' : 0 ≤ (a.remove_edges.set b (toI32 t)).getD b1 (-1) := h1
    rw [getD_set_eq] at h1' ⊢
    by_cases hc : b = b1 ∧ b < a.remove_edges.length
    · rw [if_pos hc, toI32_small ht31]
      simp only [Int.toNat_ofNat]
      exact ⟨at1, ht, by rw [← hc.1]; exact hm⟩
    · rw [if_neg hc] at h1' ⊢
      exact hg.remove_edge s b1 a ha hb1 h1'

set_option maxRecDepth 100000 in
theorem bit_index_two_pow : ∀ k, k < 64 → freecs_bit_index (2 ^ k) = some k := by
  decide

theorem testBit_of_and_two_pow_eq_zero {m k : Nat} (h : m &&& 2 ^ k = 0) :
    m.testBit k = false := by
  rw [Nat.and_two_pow] at h
  cases hb : m.testBit k with
  | false => rfl
  | true =>
    rw [hb] at h
    simp at h

theorem testBit_of_and_two_pow_ne_zero {m k : Nat} (h : m &&& 2 ^ k ≠ 0) :
    m.testBit k = true := by
  rw [Nat.and_two_pow] at h
  cases hb : m.testBit k with
  | true => rfl
  | false =>
    rw [hb] at h
    simp at h

theorem or_two_pow_ne {m k : Nat} (h : m &&& 2 ^ k = 0) : m ||| 2 ^ k ≠ m := by
  intro heq
  have h1 := testBit_of_and_two_pow_eq_zero h
  have h2 : (m ||| 2 ^ k).testBit k = true := by
    rw [Nat.testBit_or, Nat.testBit_two_pow]
    simp
  rw [heq, h1] at h2
  exact absurd h2 (by simp)

theorem testBit_not64_two_pow {k : Nat} (hk : k < 64) (i : Nat) :
    (not64 (2 ^ k)).testBit i = (decide (i < 64) && !decide (k = i)) := by
  have hlt : 2 ^ k < 2 ^ 64 := Nat.pow_lt_pow_right (by norm_num) hk
  have : not64 (2 ^ k) = 2 ^ 64 - (2 ^ k + 1) := by
    unfold not64
    rw [Nat.mod_eq_of_lt hlt]
    omega
  rw [this, Nat.testBit_two_pow_sub_succ hlt, Nat.testBit_two_pow]

theorem and_not64_ne {m k : Nat} (hk : k < 64) (h : m &&& 2 ^ k ≠ 0) :
    m &&& not64 (2 ^ k) ≠ m := by
  intro heq
  have h1 := testBit_of_and_two_pow_ne_zero h
  have h2 : (m &&& not64 (2 ^ k)).testBit k = false := by
    rw [Nat.testBit_and, testBit_not64_two_pow hk]
    simp
  rw [heq, h1] at h2
  exact absurd h2 (by simp)

theorem write_component_spec {world world1 : freecs_world_t} {id bit_idx size : Nat}
    {value : List Nat} (h : write_component world id bit_idx value size = some world1) :
    ∃ loc arch col col1, world.locations[id]? = some loc ∧
      world.archetypes[loc.archetype_index]? = some arch ∧
      0 ≤ arch.column_bits.getD bit_idx (-1) ∧
      arch.columns[(arch.column_bits.getD bit_idx (-1)).toNat]? = some col ∧
      write_column col (loc.row * col.elem_size) value size = some col1 ∧
      world1 = { world with
        archetypes := world.archetypes.set loc.archetype_index
          { arch with
              columns := arch.columns.set (arch.column_bits.getD bit_idx (-1)).toNat col1 } } := by
  unfold write_component at h
  simp only [Option.bind_eq_bind, Option.bind_eq_some] at h
  obtain ⟨loc, hloc, arch, harch, h⟩ := h
  split at h
  · simp at h
  · rename_i hc
    simp only [Option.bind_eq_some, Option.some.injEq] at h
    obtain ⟨col, hcol, col1, hw, h⟩ := h
    exact ⟨loc, arch, col, col1, hloc, harch, by omega, hcol, hw, h.symm⟩

theorem StructInv.write_component {world world1 : freecs_world_t} (hs : StructInv world)
    {id bit_idx size : Nat} {value : List Nat}
    (h : write_component world id bit_idx value size = some world1) : StructInv world1 := by
  obtain ⟨loc, arch, col, col1, _, harch, _, _, _, rfl⟩ := write_component_spec h
  refine hs.congr rfl ?_ rfl rfl rfl ?_
  · show List.map (fun a => a.entities) (world.archetypes.set _ _) =
      List.map (fun a => a.entities) world.archetypes
    exact map_set_of_eq _ _ _ arch _ harch rfl
  · show List.map graph_of (world.archetypes.set _ _) = List.map graph_of world.archetypes
    exact map_set_of_eq _ _ _ arch _ harch rfl

/-- The liveness test shared by the handle operations. -/
theorem is_alive_false_of_dead {world : freecs_world_t} {entity : freecs_entity_t}
    {loc : freecs_entity_location_t} (hloc : world.locations[entity.id]? = some loc)
    (hdead : (!loc.alive || loc.generation != entity.generation) = true) :
    freecs_is_alive world entity = false := by
  unfold freecs_is_alive
  split
  · rfl
  · rw [hloc]
    simp only [Bool.or_eq_true, Bool.not_eq_true', bne_iff_ne, ne_eq] at hdead
    rcases hdead with h1 | h1
    · simp [h1]
    · simp [h1]

/-- Outcomes of `freecs_add_component`. -/
theorem add_component_spec {world world1 : freecs_world_t} {entity : freecs_entity_t}
    {bit size : Nat} {value : List Nat} {ok : Bool}
    (h : freecs_add_component world entity bit value size = some (world1, ok)) :
    (ok = false ∧ world1 = world ∧ freecs_is_alive world entity = false) ∨
    (ok = true ∧ ∃ loc bit_idx arch, world.locations[entity.id]? = some loc ∧
      loc.alive = true ∧ loc.generation = entity.generation ∧
      freecs_bit_index bit = some bit_idx ∧
      world.archetypes[loc.archetype_index]? = some arch ∧
      ((arch.mask &&& bit ≠ 0 ∧
          write_component world entity.id bit_idx value size = some world1) ∨
       (arch.mask &&& bit = 0 ∧ ∃ w1 target w2,
          ((arch.add_edges.getD bit_idx (-1) < 0 ∧
              ¬ arch.columns.length + 1 > FREECS_MAX_COMPONENTS ∧ ∃ wf idx a,
              find_or_create_archetype world (arch.mask ||| bit)
                (arch.columns.map (fun col => ⟨col.bit, col.elem_size, none, col.type_index⟩) ++
                  [⟨bit, size, none, bit_idx⟩]) = some (wf, idx) ∧
              wf.archetypes[loc.archetype_index]? = some a ∧
              w1 = { wf with
                archetypes := wf.archetypes.set loc.archetype_index
                  { a with add_edges := a.add_edges.set bit_idx (toI32 idx) } } ∧
              target = toI32 idx) ∨
           (0 ≤ arch.add_edges.getD bit_idx (-1) ∧ w1 = world ∧
              target = arch.add_edges.getD bit_idx (-1))) ∧
          0 ≤ target ∧
          move_entity w1 entity loc.archetype_index loc.row target.toNat = some w2 ∧
          ((size > 0 ∧ write_component w2 entity.id bit_idx value size = some world1) ∨
           (size = 0 ∧ world1 = w2))))) := by
  unfold freecs_add_component at h
  split at h
  · rename_i hge
    simp only [Option.some.injEq, Prod.mk.injEq] at h
    obtain ⟨rfl, rfl⟩ := h
    exact Or.inl ⟨rfl, rfl, by simp [freecs_is_alive, hge]⟩
  · simp only [Option.bind_eq_bind, Option.bind_eq_some] at h
    obtain ⟨loc, hloc, h⟩ := h
    split at h
    · rename_i hdead
      simp only [Option.some.injEq, Prod.mk.injEq] at h
      obtain ⟨rfl, rfl⟩ := h
      exact Or.inl ⟨rfl, rfl, is_alive_false_of_dead hloc hdead⟩
    · rename_i hlive
      simp only [Bool.or_eq_true, Bool.not_eq_true', bne_iff_ne, ne_eq, not_or,
        Bool.not_eq_false, not_not] at hlive
      simp only [Option.bind_eq_some] at h
      obtain ⟨bit_idx, hbi, arch, harch, h⟩ := h
      by_cases hm : arch.mask &&& bit ≠ 0
      · rw [if_pos hm] at h
        simp only [Option.bind_eq_some, Option.some.injEq, Prod.mk.injEq] at h
        obtain ⟨w1, hw, rfl, rfl⟩ := h
        exact Or.inr ⟨rfl, loc, bit_idx, arch, hloc, hlive.1, hlive.2, hbi, harch,
          Or.inl ⟨hm, hw⟩⟩
      · rw [if_neg hm] at h
        simp only [Option.bind_eq_some] at h
        obtain ⟨⟨w1, target⟩, hstep, h⟩ := h
        simp only at h
        by_cases ht : target < 0
        · rw [if_pos ht] at h
          simp at h
        · rw [if_neg ht] at h
          simp only [Option.bind_eq_some] at h
          obtain ⟨w2, hmove, h⟩ := h
          have hfin : ok = true ∧ ((size > 0 ∧
              write_component w2 entity.id bit_idx value size = some world1) ∨
              (size = 0 ∧ world1 = w2)) := by
            by_cases hsz : size > 0
            · rw [if_pos hsz] at h
              simp only [Option.bind_eq_some, Option.some.injEq, Prod.mk.injEq] at h
              obtain ⟨w3, hw3, rfl, rfl⟩ := h
              exact ⟨rfl, Or.inl ⟨hsz, hw3⟩⟩
            · rw [if_neg hsz] at h
              simp only [Option.some.injEq, Prod.mk.injEq] at h
              obtain ⟨rfl, rfl⟩ := h
              exact ⟨rfl, Or.inr ⟨by omega, rfl⟩⟩
          refine Or.inr ⟨hfin.1, loc, bit_idx, arch, hloc, hlive.1, hlive.2, hbi, harch,
            Or.inr ⟨by simpa using hm, w1, target, w2, ?_, by omega, hmove, hfin.2⟩⟩
          by_cases he : arch.add_edges.getD bit_idx (-1) < 0
          · rw [if_pos he] at hstep
            left
            by_cases hcl : arch.columns.length + 1 > FREECS_MAX_COMPONENTS
            · rw [if_pos hcl] at hstep
              simp at hstep
            · rw [if_neg hcl] at hstep
              simp only [Option.bind_eq_bind, Option.bind_eq_some, Option.some.injEq,
                Prod.mk.injEq] at hstep
              obtain ⟨⟨wf, idx⟩, hf, a, ha, hw1, htg⟩ := hstep
              exact ⟨he, hcl, wf, idx, a, hf, ha, hw1.symm, htg.symm⟩
          · rw [if_neg he] at hstep
            simp only [Option.some.injEq, Prod.mk.injEq] at hstep
            exact Or.inr ⟨by omega, hstep.1.symm, hstep.2.symm⟩

/-- An archetype that exists before `find_or_create_archetype` keeps its index
and everything but its edges. -/
theorem find_or_create_old {world world1 : freecs_world_t} {mask idx : Nat}
    {ti : List freecs_type_info_entry_t}
    (h : find_or_create_archetype world mask ti = some (world1, idx)) {i : Nat}
    {X : freecs_archetype_t} (hX : world.archetypes[i]? = some X) :
    ∃ X1, world1.archetypes[i]? = some X1 ∧ X1.mask = X.mask ∧ X1.entities = X.entities ∧
      X1.columns = X.columns ∧ X1.column_bits = X.column_bits := by
  rcases find_or_create_cases _ _ _ _ _ h with ⟨rfl, _⟩ | ⟨_, _, arch0, _, rfl⟩
  · exact ⟨X, hX, rfl, rfl, rfl, rfl⟩
  · obtain ⟨s1, s2, s3, s4, _⟩ := wire_all_spec world.type_sizes mask world.archetypes.length
      (List.range FREECS_MAX_COMPONENTS) X
    refine ⟨_, ?_, s1, s2, s3, s4⟩
    show ((world.archetypes ++ [arch0]).map _)[i]? = some _
    rw [List.getElem?_map, List.getElem?_append_left (List.getElem?_eq_some.mp hX).1, hX]
    rfl

theorem remove_row_arch_len {world world1 : freecs_world_t} {a row : Nat}
    (h : remove_row world a row = some world1) :
    world1.archetypes.length = world.archetypes.length ∧
      world1.locations.length = world.locations.length := by
  obtain ⟨arch, last, columns2, _, _, ⟨_, lloc, columns1, _, _, _, rfl⟩ | ⟨_, _, rfl⟩⟩ :=
    remove_row_spec h
  · exact ⟨by simp, by simp⟩
  · exact ⟨by simp, rfl⟩

theorem move_entity_arch_len {world world1 : freecs_world_t} {entity : freecs_entity_t}
    {from_idx from_row to_idx : Nat}
    (h : move_entity world entity from_idx from_row to_idx = some world1) :
    world1.archetypes.length = world.archetypes.length ∧
      world1.locations.length = world.locations.length := by
  obtain ⟨from_arch, to_arch, columns, w2, _, _, _, hr, _, rfl⟩ := move_entity_spec h
  obtain ⟨h1, h2⟩ := remove_row_arch_len hr
  exact ⟨by simpa using h1, by simpa using h2⟩

theorem write_component_arch_len {world world1 : freecs_world_t} {id bit_idx size : Nat}
    {value : List Nat} (h : write_component world id bit_idx value size = some world1) :
    world1.archetypes.length = world.archetypes.length ∧
      world1.locations = world.locations := by
  obtain ⟨loc, arch, col, col1, _, _, _, _, _, rfl⟩ := write_component_spec h
  exact ⟨by simp, rfl⟩

theorem StructInv.add_component {world world1 : freecs_world_t} (hs : StructInv world)
    {entity : freecs_entity_t} {bit size : Nat} {value : List Nat} {ok : Bool}
    (hbit : IsBit bit)
    (h : freecs_add_component world entity bit value size = some (world1, ok))
    (hb : Bounded world1) : StructInv world1 := by
  rcases add_component_spec h with ⟨_, rfl, _⟩ |
    ⟨_, loc, bit_idx, arch, hloc, hal, hgen, hbi, harch, hcase⟩
  · exact hs
  · obtain ⟨k, hk, rfl⟩ := hbit
    rw [bit_index_two_pow k hk] at hbi
    have := Option.some.inj hbi
    subst this
    rcases hcase with ⟨_, hw⟩ | ⟨hm, w1, target, w2, hstep, htarget, hmove, hfin⟩
    · exact hs.write_component hw
    · have hlen2 : w2.archetypes.length = world1.archetypes.length := by
        rcases hfin with ⟨_, hw⟩ | ⟨_, rfl⟩
        · exact (write_component_arch_len hw).1.symm
        · rfl
      have hlen1 := (move_entity_arch_len hmove).1
      have hs1 : StructInv w1 ∧ w1.locations = world.locations ∧
          ∃ at1, w1.archetypes[target.toNat]? = some at1 ∧ at1.mask ≠ arch.mask ∧
            ∃ a1, w1.archetypes[loc.archetype_index]? = some a1 ∧ a1.mask = arch.mask := by
        rcases hstep with ⟨_, _, wf, idx, a, hf, ha, rfl, rfl⟩ | ⟨he, rfl, rfl⟩
        · have hwf : wf.archetypes.length < 2 ^ 31 := by
            have := hb.2
            rw [← hlen2, hlen1] at this
            simpa using this
          obtain ⟨hsf, ⟨at1, hat1, hmask1⟩, hl, _, _⟩ := hs.find_or_create hf hwf
          obtain ⟨a', ha', hma, _, _, _⟩ := find_or_create_old hf harch
          rw [ha] at ha'
          have := Option.some.inj ha'
          subst this
          have hidx31 : idx < 2 ^ 31 := by
            have := (List.getElem?_eq_some.mp hat1).1
            omega
          have htn : (toI32 idx).toNat = idx := by
            rw [toI32_small hidx31]
            simp
          have hne : at1.mask ≠ arch.mask := by
            rw [hmask1]
            exact or_two_pow_ne hm
          have hidx_ne : loc.archetype_index ≠ idx := by
            intro heq
            rw [heq, hat1] at ha
            rw [← Option.some.inj ha] at hma
            exact hne hma
          refine ⟨⟨hsf.next_id, ?_, ?_⟩, hl, ?_⟩
          · have : ents { wf with
                archetypes := wf.archetypes.set loc.archetype_index
                  { a with add_edges := a.add_edges.set k (toI32 idx) } } = ents wf := by
              show List.map (fun a => a.entities) (wf.archetypes.set _ _) =
                List.map (fun a => a.entities) wf.archetypes
              exact map_set_of_eq _ _ _ a _ ha rfl
            rw [this]
            exact hsf.ent
          · exact hsf.graph.set_add_edge ha hat1 (by rw [hmask1, hma])
          · rw [htn]
            refine ⟨at1, ?_, hne, { a with add_edges := a.add_edges.set k (toI32 idx) }, ?_,
              hma⟩
            · show (wf.archetypes.set loc.archetype_index _)[idx]? = some at1
              rw [List.getElem?_set_ne hidx_ne]
              exact hat1
            · show (wf.archetypes.set loc.archetype_index _)[loc.archetype_index]? = some _
              rw [List.getElem?_set_self (List.getElem?_eq_some.mp ha).1]
        · obtain ⟨at1, hat1, hmask1⟩ := hs.graph.add_edge _ k arch harch hk he
          refine ⟨hs, rfl, at1, hat1, ?_, arch, harch, rfl⟩
          rw [hmask1]
          exact or_two_pow_ne hm
      obtain ⟨hs1, hl1, at1, hat1, hne1, a1, ha1, hma1⟩ := hs1
      have hidx_ne : loc.archetype_index ≠ target.toNat := by
        intro heq
        rw [← heq, ha1] at hat1
        rw [← Option.some.inj hat1] at hne1
        exact hne1 hma1
      have hs2 : StructInv w2 :=
        hs1.move_entity (by rw [hl1]; exact hloc) hal hgen hidx_ne hmove
      rcases hfin with ⟨_, hw⟩ | ⟨_, rfl⟩
      · exact hs2.write_component hw
      · exact hs2

/-- Outcomes of `freecs_remove_component`. -/
theorem remove_component_spec {world world1 : freecs_world_t} {entity : freecs_entity_t}
    {bit : Nat} {ok : Bool}
    (h : freecs_remove_component world entity bit = some (world1, ok)) :
    (ok = false ∧ world1 = world ∧
      (freecs_is_alive world entity = false ∨
        ∃ loc arch, world.locations[entity.id]? = some loc ∧
          world.archetypes[loc.archetype_index]? = some arch ∧ arch.mask &&& bit = 0)) ∨
    (ok = true ∧ ∃ loc bit_idx arch, world.locations[entity.id]? = some loc ∧
      loc.alive = true ∧ loc.generation = entity.generation ∧
      freecs_bit_index bit = some bit_idx ∧
      world.archetypes[loc.archetype_index]? = some arch ∧ arch.mask &&& bit ≠ 0 ∧
      ((arch.mask &&& not64 bit = 0 ∧ ∃ ok1, freecs_despawn world entity = some (world1, ok1)) ∨
       (arch.mask &&& not64 bit ≠ 0 ∧ ∃ w1 target,
          ((arch.remove_edges.getD bit_idx (-1) < 0 ∧
              ¬ ((arch.columns.filter (fun col => col.bit != bit)).map
                (fun col => (⟨col.bit, col.elem_size, none, col.type_index⟩ :
                  freecs_type_info_entry_t))).length > FREECS_MAX_COMPONENTS ∧
              ∃ wf idx a,
              find_or_create_archetype world (arch.mask &&& not64 bit)
                ((arch.columns.filter (fun col => col.bit != bit)).map
                  (fun col => ⟨col.bit, col.elem_size, none, col.type_index⟩)) =
                some (wf, idx) ∧
              wf.archetypes[loc.archetype_index]? = some a ∧
              w1 = { wf with
                archetypes := wf.archetypes.set loc.archetype_index
                  { a with remove_edges := a.remove_edges.set bit_idx (toI32 idx) } } ∧
              target = toI32 idx) ∨
           (0 ≤ arch.remove_edges.getD bit_idx (-1) ∧ w1 = world ∧
              target = arch.remove_edges.getD bit_idx (-1))) ∧
          0 ≤ target ∧
          move_entity w1 entity loc.archetype_index loc.row target.toNat = some world1))) := by
  unfold freecs_remove_component at h
  split at h
  · rename_i hge
    simp only [Option.some.injEq, Prod.mk.injEq] at h
    obtain ⟨rfl, rfl⟩ := h
    exact Or.inl ⟨rfl, rfl, Or.inl (by simp [freecs_is_alive, hge])⟩
  · rw [Option.bind_eq_bind, Option.bind_eq_some] at h
    obtain ⟨loc, hloc, h⟩ := h
    split at h
    · rename_i hdead
      simp only [Option.some.injEq, Prod.mk.injEq] at h
      obtain ⟨rfl, rfl⟩ := h
      exact Or.inl ⟨rfl, rfl, Or.inl (is_alive_false_of_dead hloc hdead)⟩
    · rename_i hlive
      simp only [Bool.or_eq_true, Bool.not_eq_true', bne_iff_ne, ne_eq, not_or,
        Bool.not_eq_false, not_not] at hlive
      rw [Option.bind_eq_bind, Option.bind_eq_some] at h
      obtain ⟨bit_idx, hbi, h⟩ := h
      rw [Option.bind_eq_bind, Option.bind_eq_some] at h
      obtain ⟨arch, harch, h⟩ := h
      by_cases hm : arch.mask &&& bit = 0
      · rw [if_pos hm] at h
        simp only [Option.some.injEq, Prod.mk.injEq] at h
        obtain ⟨rfl, rfl⟩ := h
        exact Or.inl ⟨rfl, rfl, Or.inr ⟨loc, arch, hloc, harch, hm⟩⟩
      · rw [if_neg hm] at h
        simp only at h
        by_cases hz : arch.mask &&& not64 bit = 0
        · rw [if_pos hz] at h
          simp only [Option.bind_eq_bind, Option.bind_eq_some, Option.some.injEq,
            Prod.mk.injEq] at h
          obtain ⟨⟨w1, ok1⟩, hd, rfl, rfl⟩ := h
          exact Or.inr ⟨rfl, loc, bit_idx, arch, hloc, hlive.1, hlive.2, hbi, harch, hm,
            Or.inl ⟨hz, ok1, hd⟩⟩
        · rw [if_neg hz] at h
          rw [Option.bind_eq_bind, Option.bind_eq_some] at h
          obtain ⟨⟨w1, target⟩, hstep, h⟩ := h
          simp only at h
          by_cases ht : target < 0
          · rw [if_pos ht] at h
            simp at h
          · rw [if_neg ht] at h
            simp only [Option.bind_eq_bind, Option.bind_eq_some, Option.some.injEq,
              Prod.mk.injEq] at h
            obtain ⟨w2, hmove, rfl, rfl⟩ := h
            refine Or.inr ⟨rfl, loc, bit_idx, arch, hloc, hlive.1, hlive.2, hbi, harch, hm,
              Or.inr ⟨hz, w1, target, ?_, by omega, hmove⟩⟩
            by_cases he : arch.remove_edges.getD bit_idx (-1) < 0
            · rw [if_pos he] at hstep
              left
              split at hstep
              · simp at hstep
              · rename_i hcl
                simp only [Option.bind_eq_bind, Option.bind_eq_some, Option.some.injEq,
                  Prod.mk.injEq] at hstep
                obtain ⟨⟨wf, idx⟩, hf, a, ha, hw1, htg⟩ := hstep
                exact ⟨he, hcl, wf, idx, a, hf, ha, hw1.symm, htg.symm⟩
            · rw [if_neg he] at hstep
              simp only [Option.some.injEq, Prod.mk.injEq] at hstep
              exact Or.inr ⟨by omega, hstep.1.symm, hstep.2.symm⟩

theorem StructInv.remove_component {world world1 : freecs_world_t} (hs : StructInv world)
    {entity : freecs_entity_t} {bit : Nat} {ok : Bool} (hbit : IsBit bit)
    (h : freecs_remove_component world entity bit = some (world1, ok))
    (hb : Bounded world1) : StructInv world1 := by
  rcases remove_component_spec h with ⟨_, rfl, _⟩ |
    ⟨_, loc, bit_idx, arch, hloc, hal, hgen, hbi, harch, hm, hcase⟩
  · exact hs
  · obtain ⟨k, hk, rfl⟩ := hbit
    rw [bit_index_two_pow k hk] at hbi
    have := Option.some.inj hbi
    subst this
    rcases hcase with ⟨_, ok1, hd⟩ | ⟨_, w1, target, hstep, htarget, hmove⟩
    · exact hs.despawn hd
    · have hlen1 := (move_entity_arch_len hmove).1
      have hs1 : StructInv w1 ∧ w1.locations = world.locations ∧
          ∃ at1, w1.archetypes[target.toNat]? = some at1 ∧ at1.mask ≠ arch.mask ∧
            ∃ a1, w1.archetypes[loc.archetype_index]? = some a1 ∧ a1.mask = arch.mask := by
        rcases hstep with ⟨_, _, wf, idx, a, hf, ha, rfl, rfl⟩ | ⟨he, rfl, rfl⟩
        · have hwf : wf.archetypes.length < 2 ^ 31 := by
            have := hb.2
            rw [hlen1] at this
            simpa using this
          obtain ⟨hsf, ⟨at1, hat1, hmask1⟩, hl, _, _⟩ := hs.find_or_create hf hwf
          obtain ⟨a', ha', hma, _, _, _⟩ := find_or_create_old hf harch
          rw [ha] at ha'
          have := Option.some.inj ha'
          subst this
          have hidx31 : idx < 2 ^ 31 := by
            have := (List.getElem?_eq_some.mp hat1).1
            omega
          have htn : (toI32 idx).toNat = idx := by
            rw [toI32_small hidx31]
            simp
          have hne : at1.mask ≠ arch.mask := by
            rw [hmask1]
            exact and_not64_ne hk hm
          have hidx_ne : loc.archetype_index ≠ idx := by
            intro heq
            rw [heq, hat1] at ha
            rw [← Option.some.inj ha] at hma
            exact hne hma
          refine ⟨⟨hsf.next_id, ?_, ?_⟩, hl, ?_⟩
          · have : ents { wf with
                archetypes := wf.archetypes.set loc.archetype_index
                  { a with remove_edges := a.remove_edges.set k (toI32 idx) } } = ents wf := by
              show List.map (fun a => a.entities) (wf.archetypes.set _ _) =
                List.map (fun a => a.entities) wf.archetypes
              exact map_set_of_eq _ _ _ a _ ha rfl
            rw [this]
            exact hsf.ent
          · exact hsf.graph.set_remove_edge ha hat1 (by rw [hmask1, hma])
          · rw [htn]
            refine ⟨at1, ?_, hne,
              { a with remove_edges := a.remove_edges.set k (toI32 idx) }, ?_, hma⟩
            · show (wf.archetypes.set loc.archetype_index _)[idx]? = some at1
              rw [List.getElem?_set_ne hidx_ne]
              exact hat1
            · show (wf.archetypes.set loc.archetype_index _)[loc.archetype_index]? = some _
              rw [List.getElem?_set_self (List.getElem?_eq_some.mp ha).1]
        · obtain ⟨at1, hat1, hmask1⟩ := hs.graph.remove_edge _ k arch harch hk he
          refine ⟨hs, rfl, at1, hat1, ?_, arch, harch, rfl⟩
          rw [hmask1]
          exact and_not64_ne hk hm
      obtain ⟨hs1, hl1, at1, hat1, hne1, a1, ha1, hma1⟩ := hs1
      have hidx_ne : loc.archetype_index ≠ target.toNat := by
        intro heq
        rw [← heq, ha1] at hat1
        rw [← Option.some.inj hat1] at hne1
        exact hne1 hma1
      exact hs1.move_entity (by rw [hl1]; exact hloc) hal hgen hidx_ne hmove

/-! ## Worlds that differ in column buffers only -/

/-- Two worlds with the same `erase_bytes` agree on every archetype attribute
that does not look into the column buffers. -/
theorem erase_bytes_map {α : Type} {world world1 : freecs_world_t}
    (h : erase_bytes world1 = erase_bytes world) (p : freecs_archetype_t → α)
    (hp : ∀ arch, p (erase_bytes_arch arch) = p arch) :
    world1.archetypes.map p = world.archetypes.map p := by
  have h1 := congrArg (fun w : freecs_world_t => w.archetypes.map p) h
  simp only [erase_bytes, List.map_map] at h1
  have hc : p ∘ erase_bytes_arch = p := funext hp
  rw [hc] at h1
  exact h1

theorem erase_bytes_length {world world1 : freecs_world_t}
    (h : erase_bytes world1 = erase_bytes world) :
    world1.archetypes.length = world.archetypes.length := by
  have := congrArg List.length (erase_bytes_map h (fun _ => ()) (fun _ => rfl))
  simpa using this

theorem erase_bytes_fields {world world1 : freecs_world_t}
    (h : erase_bytes world1 = erase_bytes world) :
    world1.locations = world.locations ∧ world1.free_entities = world.free_entities ∧
      world1.next_entity_id = world.next_entity_id ∧
      world1.archetype_index = world.archetype_index ∧
      world1.query_cache = world.query_cache ∧ world1.type_sizes = world.type_sizes ∧
      world1.next_bit = world.next_bit ∧ world1.despawn_queue = world.despawn_queue := by
  unfold erase_bytes at h
  injection h with h1 h2 h3 h4 h5 h6 h7 h8 h9
  exact ⟨h1, h5, h6, h3, h8, h4, h7, h9⟩

theorem StructInv.of_erase {world world1 : freecs_world_t} (hs : StructInv world)
    (h : erase_bytes world1 = erase_bytes world) : StructInv world1 := by
  obtain ⟨h1, h2, h3, h4, _⟩ := erase_bytes_fields h
  exact hs.congr h1 (erase_bytes_map h (fun arch => arch.entities) (fun _ => rfl)) h2 h3 h4
    (erase_bytes_map h graph_of (fun _ => rfl))

/-! ## Reachable worlds -/

theorem StructInv.initial : StructInv freecs_create_world := by
  refine ⟨rfl, ⟨by decide, ?_, ?_, ?_, by decide, ?_, ?_⟩, ⟨by decide, rfl, ?_, ?_, ?_, ?_⟩⟩ <;>
    simp [freecs_create_world, ents]

theorem StructInv.register_component {world world1 : freecs_world_t} (hs : StructInv world)
    {size bit : Nat} (h : freecs_register_component world size = some (world1, bit)) :
    StructInv world1 := by
  simp only [freecs_register_component, Option.bind_eq_bind, Option.bind_eq_some,
    Option.some.injEq, Prod.mk.injEq] at h
  obtain ⟨idx, _, rfl, _⟩ := h
  refine hs.congr ?_ ?_ ?_ ?_ ?_ ?_ <;> rfl

theorem StructInv.get_matching_archetypes {world world1 : freecs_world_t}
    (hs : StructInv world) {mask exclude : Nat} {result : List Nat}
    (h : freecs_get_matching_archetypes world mask exclude = some (world1, result)) :
    StructInv world1 := by
  unfold freecs_get_matching_archetypes at h
  simp only at h
  split at h
  · split at h
    · simp at h
    · simp only [Option.some.injEq, Prod.mk.injEq] at h
      rw [← h.1]
      exact hs
  · simp only [Option.some.injEq, Prod.mk.injEq] at h
    rw [← h.1]
    refine hs.congr ?_ ?_ ?_ ?_ ?_ ?_ <;> rfl

theorem StructInv.set {world world1 : freecs_world_t} (hs : StructInv world)
    {entity : freecs_entity_t} {bit size : Nat} {value : List Nat} {ok : Bool}
    (h : freecs_set world entity bit value size = some (world1, ok)) : StructInv world1 := by
  unfold freecs_set at h
  simp only [Option.bind_eq_bind, Option.bind_eq_some] at h
  obtain ⟨p, _, h⟩ := h
  cases p with
  | null =>
    simp only [Option.some.injEq, Prod.mk.injEq] at h
    rw [← h.1]
    exact hs
  | cell a c off =>
    simp only [Option.bind_eq_some, Option.some.injEq, Prod.mk.injEq] at h
    obtain ⟨arch, harch, col, _, col1, _, rfl, _⟩ := h
    refine hs.congr rfl ?_ rfl rfl rfl ?_
    · show List.map (fun a => a.entities) (world.archetypes.set _ _) =
        List.map (fun a => a.entities) world.archetypes
      exact map_set_of_eq _ _ _ arch _ harch rfl
    · show List.map graph_of (world.archetypes.set _ _) = List.map graph_of world.archetypes
      exact map_set_of_eq _ _ _ arch _ harch rfl

/-- Every reachable world satisfies the structural invariant. -/
theorem Reachable.struct_inv {world : freecs_world_t} (h : Reachable world) :
    StructInv world := by
  induction h with
  | create => exact StructInv.initial
  | register_component w w1 size bit _ h ih => exact ih.register_component h
  | spawn w w1 mask entries e _ h hb ih => exact ih.spawn h hb
  | spawn_batch w w1 mask count es _ h hb ih => exact ih.spawn_batch h hb
  | despawn w w1 e ok _ h ih => exact ih.despawn h
  | despawn_batch w w1 es d _ h ih => exact ih.despawn_batch h
  | add_component w w1 e bit v size ok _ hbit h hb ih => exact ih.add_component hbit h hb
  | remove_component w w1 e bit ok _ hbit h hb ih => exact ih.remove_component hbit h hb
  | set w w1 e bit v size ok _ h ih => exact ih.set h
  | get_matching_archetypes w w1 m x r _ h ih => exact ih.get_matching_archetypes h
  | queue_despawn w e _ ih =>
    refine ih.congr ?_ ?_ ?_ ?_ ?_ ?_ <;> rfl
  | apply_despawns w w1 _ h ih => exact ih.apply_despawns h
  | column_bytes w w1 _ h ih => exact ih.of_erase h

/-- C2: in every reachable state, for every archetype index `a` and row `r` of
its entity vector holding the handle `e`, the slot `locations[e.id]` records
archetype `a`, row `r`, the generation of `e`, and is alive. -/
theorem slot_table_invariant (world : freecs_world_t) (h : Reachable world)
    (a r : Nat) (arch : freecs_archetype_t) (e : freecs_entity_t)
    (ha : world.archetypes[a]? = some arch) (hr : arch.entities[r]? = some e) :
    world.locations[e.id]? = some ⟨a, r, e.generation, true⟩ :=
  h.struct_inv.ent.slot a r arch.entities e (ents_get ha) hr

set_option maxRecDepth 100000 in
theorem world_reg_reachable : Reachable world_reg :=
  Reachable.register_component world_reg0 world_reg 1 2
    (Reachable.register_component freecs_create_world world_reg0 2 1 Reachable.create
      (by decide)) (by decide)

set_option maxRecDepth 100000 in
theorem world_one_reachable : Reachable world_one :=
  Reachable.spawn world_reg world_one 1 [⟨1, 2, some [7, 8], 0⟩] ⟨0, 0⟩ world_reg_reachable
    (by decide) ⟨by decide, by decide⟩

/-! ## Column buffers -/

theorem mapOpt_some {α β : Type} {f : α → Option β} {xs : List α} {ys : List β}
    (h : mapOpt f xs = some ys) :
    ys.length = xs.length ∧ ∀ (i : Nat) (x : α), xs[i]? = some x →
      ∃ y, ys[i]? = some y ∧ f x = some y := by
  induction xs generalizing ys with
  | nil =>
    simp only [mapOpt, Option.some.injEq] at h
    subst h
    simp
  | cons x rest ih =>
    unfold mapOpt at h
    cases hx : f x with
    | none => rw [hx] at h; simp at h
    | some y =>
      rw [hx] at h
      simp only at h
      cases hr : mapOpt f rest with
      | none => rw [hr] at h; simp at h
      | some ys1 =>
        rw [hr] at h
        simp only [Option.some.injEq] at h
        subst h
        obtain ⟨h1, h2⟩ := ih hr
        refine ⟨by simp [h1], ?_⟩
        intro i x1 hi
        cases i with
        | zero =>
          simp only [List.getElem?_cons_zero, Option.some.injEq] at hi
          subst hi
          exact ⟨y, by simp, hx⟩
        | succ j =>
          simp only [List.getElem?_cons_succ] at hi ⊢
          exact h2 j x1 hi

theorem mapOpt_of_forall {α β : Type} {f : α → Option β} {g : α → β} {xs : List α}
    (h : ∀ x ∈ xs, f x = some (g x)) : mapOpt f xs = some (xs.map g) := by
  induction xs with
  | nil => rfl
  | cons x rest ih =>
    unfold mapOpt
    rw [h x (by simp), ih (fun y hy => h y (by simp [hy]))]
    rfl

/-- Bytes `[off, off + len)` of a buffer. -/
theorem slice_append_left (data x : List Nat) (off len : Nat) (h : off + len ≤ data.length) :
    ((data ++ x).drop off).take len = (data.drop off).take len := by
  apply List.ext_getElem?
  intro i
  simp only [List.getElem?_take, List.getElem?_drop]
  split
  · rw [List.getElem?_append_left (by omega)]
  · rfl

theorem slice_append_right (data x : List Nat) :
    ((data ++ x).drop data.length).take x.length = x := by
  rw [List.drop_left, List.take_length]

theorem slice_take (data : List Nat) (m off len : Nat) (h : off + len ≤ m) :
    ((data.take m).drop off).take len = (data.drop off).take len := by
  apply List.ext_getElem?
  intro i
  simp only [List.getElem?_take, List.getElem?_drop]
  split
  · rw [if_pos (by omega)]
  · rfl

theorem splice_length (data v : List Nat) (a : Nat) (h : a + v.length ≤ data.length) :
    (data.take a ++ v ++ data.drop (a + v.length)).length = data.length := by
  simp only [List.length_append, List.length_take, List.length_drop]
  omega

theorem slice_splice_other (data v : List Nat) (a off len : Nat)
    (h : a + v.length ≤ data.length) (hd : off + len ≤ a ∨ a + v.length ≤ off) :
    ((data.take a ++ v ++ data.drop (a + v.length)).drop off).take len =
      (data.drop off).take len := by
  apply List.ext_getElem?
  intro i
  simp only [List.getElem?_take, List.getElem?_drop]
  split
  · rename_i hi
    rcases hd with hd | hd
    · rw [List.append_assoc, List.getElem?_append_left (by simp; omega), List.getElem?_take,
        if_pos (by omega)]
    · rw [List.getElem?_append_right (by simp; omega), List.getElem?_drop]
      congr 1
      simp only [List.length_append, List.length_take]
      omega
  · rfl

theorem slice_splice_self (data v : List Nat) (a : Nat) (h : a + v.length ≤ data.length) :
    ((data.take a ++ v ++ data.drop (a + v.length)).drop a).take v.length = v := by
  have h1 : (data.take a).length = a := by simp; omega
  rw [List.append_assoc]
  rw [List.drop_left' h1, List.take_left' rfl]

theorem row_end_le {r n es : Nat} (h : r < n) : r * es + es ≤ n * es := by
  have : (r + 1) * es ≤ n * es := Nat.mul_le_mul_right es h
  rw [Nat.add_mul, Nat.one_mul] at this
  exact this

theorem grow_cap_ge (fuel c n : Nat) : c ≤ grow_cap fuel c n := by
  induction fuel generalizing c with
  | zero => simp [grow_cap]
  | succ f ih =>
    unfold grow_cap
    split
    · exact le_trans (by omega) (ih (c * 2))
    · exact le_rfl

theorem ensure_capacity_pos {cap needed : Nat} (h : 0 < needed) :
    ensure_capacity_u8 cap needed ≠ 0 := by
  unfold ensure_capacity_u8
  split
  · omega
  · by_cases hc : cap = 0
    · rw [if_pos hc]
      have := grow_cap_ge needed 16 needed
      omega
    · rw [if_neg hc]
      have := grow_cap_ge needed (cap * 2) needed
      omega

theorem ensure_capacity_zero (cap : Nat) : ensure_capacity_u8 cap 0 = cap := by
  unfold ensure_capacity_u8
  simp

theorem row_bytes_length {col : freecs_component_column_t} {n r : Nat}
    (hs : col.data.length = n * col.elem_size) (hr : r < n) :
    (row_bytes col r).length = col.elem_size := by
  unfold row_bytes
  have := @row_end_le _ _ col.elem_size hr
  simp only [List.length_take, List.length_drop]
  omega

/-- Effect of `copy_row` on a column holding `n` rows. -/
theorem copy_row_some {col : freecs_component_column_t} {n row last : Nat}
    (hs : col.data.length = n * col.elem_size) (hrow : row < last) (hlast : last < n) :
    ∃ col1, copy_row row last col = some col1 ∧ col1.elem_size = col.elem_size ∧
      col1.bit = col.bit ∧ col1.type_index = col.type_index ∧ col1.data_cap = col.data_cap ∧
      col1.data.length = n * col.elem_size ∧
      ∀ r, r < n → row_bytes col1 r = if r = row then row_bytes col last else row_bytes col r := by
  unfold copy_row
  by_cases hes : col.elem_size > 0
  · have h1 := @row_end_le _ _ col.elem_size hlast
    have h2 := @row_end_le _ _ col.elem_size hrow
    have hslice : ((col.data.drop (last * col.elem_size)).take col.elem_size).length =
        col.elem_size := by
      simp only [List.length_take, List.length_drop]
      omega
    have hfit : row * col.elem_size +
        ((col.data.drop (last * col.elem_size)).take col.elem_size).length ≤
        col.data.length := by
      rw [hslice]
      omega
    rw [if_pos hes]
    simp only
    rw [if_pos (by omega)]
    refine ⟨_, rfl, rfl, rfl, rfl, rfl, ?_, ?_⟩
    · have := splice_length col.data _ (row * col.elem_size) hfit
      rw [hslice] at this
      simp only
      rw [this, hs]
    · intro r hr
      have h3 := @row_end_le _ _ col.elem_size hr
      unfold row_bytes
      simp only
      by_cases hrr : r = row
      · subst hrr
        rw [if_pos rfl]
        have := slice_splice_self col.data
          ((col.data.drop (last * col.elem_size)).take col.elem_size) (r * col.elem_size) hfit
        rw [hslice] at this
        exact this
      · rw [if_neg hrr]
        have := slice_splice_other col.data
          ((col.data.drop (last * col.elem_size)).take col.elem_size) (row * col.elem_size)
          (r * col.elem_size) col.elem_size hfit (by
            rw [hslice]
            rcases Nat.lt_or_gt_of_ne hrr with hlt | hgt
            · left
              exact row_end_le hlt
            · right
              exact row_end_le hgt)
        rw [hslice] at this
        exact this
  · rw [if_neg hes]
    refine ⟨col, rfl, rfl, rfl, rfl, rfl, hs, ?_⟩
    intro r _
    have h0 : col.elem_size = 0 := by omega
    unfold row_bytes
    simp [h0]

/-- Effect of `pop_row` on a column holding `n > 0` rows. -/
theorem pop_row_some {col : freecs_component_column_t} {n : Nat}
    (hs : col.data.length = n * col.elem_size) (hn : 0 < n) :
    ∃ col1, pop_row col = some col1 ∧ col1.elem_size = col.elem_size ∧
      col1.bit = col.bit ∧ col1.type_index = col.type_index ∧ col1.data_cap = col.data_cap ∧
      col1.data.length = (n - 1) * col.elem_size ∧
      ∀ r, r < n - 1 → row_bytes col1 r = row_bytes col r := by
  unfold pop_row
  have h1 : (n - 1) * col.elem_size + col.elem_size = n * col.elem_size := by
    have : n = (n - 1) + 1 := by omega
    conv_rhs => rw [this, Nat.add_mul, Nat.one_mul]
  by_cases hes : col.elem_size > 0
  · rw [if_pos hes, if_pos (by omega)]
    refine ⟨_, rfl, rfl, rfl, rfl, rfl, ?_, ?_⟩
    · simp only [List.length_take]
      omega
    · intro r hr
      have h3 := @row_end_le _ _ col.elem_size hr
      unfold row_bytes
      simp only
      exact slice_take col.data _ _ _ (by omega)
  · rw [if_neg hes]
    have h0 : col.elem_size = 0 := by omega
    refine ⟨col, rfl, rfl, rfl, rfl, rfl, by rw [hs, h0]; simp, fun r _ => rfl⟩

theorem mapOpt_exists {α β : Type} {f : α → Option β} {xs : List α}
    (h : ∀ x ∈ xs, ∃ y, f x = some y) : ∃ ys, mapOpt f xs = some ys := by
  induction xs with
  | nil => exact ⟨[], rfl⟩
  | cons x rest ih =>
    obtain ⟨y, hy⟩ := h x (by simp)
    obtain ⟨ys, hys⟩ := ih (fun z hz => h z (by simp [hz]))
    exact ⟨y :: ys, by unfold mapOpt; rw [hy, hys]⟩

/-- The column loops of the swap-remove code on columns that all hold `n`
rows: they succeed, keep every column's description and capacity, leave
`n - 1` rows, and row `row` now holds the bytes of the former last row. -/
theorem remove_cols_some (cols : List freecs_component_column_t) (n row : Nat)
    (hshape : ∀ col ∈ cols, col.data.length = n * col.elem_size) (hrow : row < n) :
    ∃ cols2, (if row < n - 1 then (mapOpt (copy_row row (n - 1)) cols).bind (mapOpt pop_row)
        else mapOpt pop_row cols) = some cols2 ∧ cols2.length = cols.length ∧
      ∀ (c : Nat) (col : freecs_component_column_t), cols[c]? = some col →
        ∃ col2, cols2[c]? = some col2 ∧ col2.elem_size = col.elem_size ∧
          col2.bit = col.bit ∧ col2.type_index = col.type_index ∧
          col2.data_cap = col.data_cap ∧ col2.data.length = (n - 1) * col.elem_size ∧
          ∀ r, r < n - 1 →
            row_bytes col2 r = if r = row then row_bytes col (n - 1) else row_bytes col r := by
  by_cases hlt : row < n - 1
  · rw [if_pos hlt]
    obtain ⟨cols1, h1⟩ := @mapOpt_exists _ _ (copy_row row (n - 1)) cols
      (fun col hc => by
        obtain ⟨c1, h, _⟩ := copy_row_some (hshape col hc) hlt (by omega)
        exact ⟨c1, h⟩)
    obtain ⟨hl1, hp1⟩ := mapOpt_some h1
    have hshape1 : ∀ col1 ∈ cols1, col1.data.length = n * col1.elem_size := by
      intro col1 hc1
      obtain ⟨c, hc⟩ := List.getElem?_of_mem hc1
      have hlt2 : c < cols.length := by
        rw [← hl1]
        exact (List.getElem?_eq_some.mp hc).1
      obtain ⟨y, hy1, hy2⟩ := hp1 c _ (List.getElem?_eq_getElem hlt2)
      rw [hc] at hy1
      have := Option.some.inj hy1
      subst this
      obtain ⟨c1, h, e1, _, _, _, e5, _⟩ :=
        copy_row_some (hshape _ (List.getElem_mem hlt2)) hlt (by omega : n - 1 < n)
      rw [hy2] at h
      rw [Option.some.inj h, e5, e1]
    obtain ⟨cols2, h2⟩ := @mapOpt_exists _ _ pop_row cols1
      (fun col hc => by
        obtain ⟨c1, h, _⟩ := pop_row_some (hshape1 col hc) (by omega)
        exact ⟨c1, h⟩)
    obtain ⟨hl2, hp2⟩ := mapOpt_some h2
    refine ⟨cols2, by rw [h1]; exact h2, by rw [hl2, hl1], ?_⟩
    intro c col hc
    obtain ⟨col1, hc1, hf1⟩ := hp1 c col hc
    obtain ⟨col2, hc2, hf2⟩ := hp2 c col1 hc1
    obtain ⟨x1, hx1, a1, a2, a3, a4, a5, a6⟩ :=
      copy_row_some (hshape col (List.getElem?_mem hc)) hlt (by omega : n - 1 < n)
    rw [hf1] at hx1
    have := Option.some.inj hx1
    subst this
    obtain ⟨x2, hx2, b1, b2, b3, b4, b5, b6⟩ :=
      pop_row_some (hshape1 col1 (List.getElem?_mem hc1)) (by omega : 0 < n)
    rw [hf2] at hx2
    have := Option.some.inj hx2
    subst this
    refine ⟨col2, hc2, b1.trans a1, b2.trans a2, b3.trans a3, b4.trans a4,
      by rw [b5, a1], ?_⟩
    intro r hr
    rw [b6 r hr, a6 r (by omega)]
  · rw [if_neg hlt]
    obtain ⟨cols2, h2⟩ := @mapOpt_exists _ _ pop_row cols
      (fun col hc => by
        obtain ⟨c1, h, _⟩ := pop_row_some (hshape col hc) (by omega)
        exact ⟨c1, h⟩)
    obtain ⟨hl2, hp2⟩ := mapOpt_some h2
    refine ⟨cols2, h2, hl2, ?_⟩
    intro c col hc
    obtain ⟨col2, hc2, hf2⟩ := hp2 c col hc
    obtain ⟨x2, hx2, b1, b2, b3, b4, b5, b6⟩ :=
      pop_row_some (hshape col (List.getElem?_mem hc)) (by omega : 0 < n)
    rw [hf2] at hx2
    have := Option.some.inj hx2
    subst this
    refine ⟨col2, hc2, b1, b2, b3, b4, b5, ?_⟩
    intro r hr
    rw [b6 r hr, if_neg (by omega)]

/-- In a well-formed world the swap-remove of the row of a live slot is
defined, and `RowRemoved` describes its result. -/
theorem remove_row_wf {world : freecs_world_t} (hw : WellFormed world) {i : Nat}
    {loc : freecs_entity_location_t} (hloc : world.locations[i]? = some loc)
    (hal : loc.alive = true) :
    ∃ world2 arch arch2 last,
      remove_row world loc.archetype_index loc.row = some world2 ∧
      RowRemoved world world2 loc.archetype_index loc.row arch arch2 last ∧
      arch.entities[loc.row]? = some ⟨i, loc.generation⟩ := by
  obtain ⟨es, hes, hrow⟩ := hw.struct.ent.alive i loc hloc hal
  simp only [ents, List.getElem?_map] at hes
  cases harch : world.archetypes[loc.archetype_index]? with
  | none => rw [harch] at hes; simp at hes
  | some arch =>
    rw [harch] at hes
    simp only [Option.map_some', Option.some.injEq] at hes
    subst hes
    have hrowlt : loc.row < arch.entities.length := (List.getElem?_eq_some.mp hrow).1
    have hne : ¬ arch.entities.length = 0 := by omega
    have hlastlt : arch.entities.length - 1 < arch.entities.length := by omega
    have hlast := List.getElem?_eq_getElem hlastlt
    have hlloc := hw.struct.ent.slot _ _ _ _ (ents_get harch) hlast
    have hac := hw.cols.archs _ _ harch
    have hshape : ∀ col ∈ arch.columns,
        col.data.length = arch.entities.length * col.elem_size := by
      intro col hcol
      obtain ⟨c, hc⟩ := List.getElem?_of_mem hcol
      obtain ⟨b, _, _, _, _, h5, _⟩ := hac.col_ok c col hc
      exact h5
    have hrow32 : toU32 loc.row = loc.row := by
      apply toU32_small
      have := hw.struct.ent.rows_le (ents_get harch)
      have := hw.struct.ent.bound
      omega
    obtain ⟨cols2, hcols2, hlen2, hrel⟩ :=
      remove_cols_some arch.columns arch.entities.length loc.row hshape hrowlt
    by_cases hlt : loc.row < arch.entities.length - 1
    · rw [if_pos hlt] at hcols2
      simp only [Option.bind_eq_some] at hcols2
      obtain ⟨cols1, hc1, hc2⟩ := hcols2
      refine ⟨_, arch,
        { arch with
            entities := (arch.entities.set loc.row
              (arch.entities[arch.entities.length - 1])).dropLast
            columns := cols2 },
        arch.entities[arch.entities.length - 1],
        remove_row_intro_swap harch hlt hlast hlloc hc1 hc2, ?_, hrow⟩
      refine ⟨harch, rfl, hlast, rfl, rfl, rfl, rfl, by simp only [if_pos hlt], hlen2, hrel,
        ?_, rfl, rfl, rfl, rfl, rfl, rfl, rfl⟩
      simp only [if_pos hlt, hrow32]
    · rw [if_neg hlt] at hcols2
      refine ⟨_, arch,
        { arch with entities := arch.entities.dropLast, columns := cols2 },
        arch.entities[arch.entities.length - 1],
        remove_row_intro_last harch hne hlt hcols2, ?_, hrow⟩
      refine ⟨harch, rfl, hlast, rfl, rfl, rfl, rfl, by simp only [if_neg hlt], hlen2, hrel,
        ?_, rfl, rfl, rfl, rfl, rfl, rfl, rfl⟩
      simp only [if_neg hlt]

/-- An archetype whose columns are rewritten in place, with the same
description and the new row count, keeps its column layout. -/
theorem ArchCols.update {ts : List Nat} {arch arch2 : freecs_archetype_t}
    (h : ArchCols ts arch) (hmask : arch2.mask = arch.mask)
    (hbits : arch2.column_bits = arch.column_bits)
    (hlen : arch2.columns.length = arch.columns.length)
    (hcols : ∀ (c : Nat) (col : freecs_component_column_t), arch.columns[c]? = some col →
      ∃ col2, arch2.columns[c]? = some col2 ∧ col2.elem_size = col.elem_size ∧
        col2.bit = col.bit ∧
        col2.data.length = arch2.entities.length * col2.elem_size ∧
        (col2.data_cap = 0 → col2.data = []) ∧ (col2.elem_size = 0 → col2.data_cap = 0)) :
    ArchCols ts arch2 := by
  refine ⟨by rw [hmask]; exact h.mask_ne, ?_, ?_, ?_⟩
  · intro b hb hc
    rw [hbits] at hc ⊢
    rw [hmask]
    obtain ⟨h1, col, h2, h3⟩ := h.col_of_bit b hb hc
    obtain ⟨col2, h4, _, h5, _⟩ := hcols _ col h2
    exact ⟨h1, col2, h4, h5.trans h3⟩
  · intro b hb hm hts
    rw [hbits]
    rw [hmask] at hm
    exact h.bit_has_col b hb hm hts
  · intro c col2 hc2
    have hlt : c < arch.columns.length := by
      rw [← hlen]
      exact (List.getElem?_eq_some.mp hc2).1
    have hc := List.getElem?_eq_getElem hlt
    obtain ⟨col2', h1, h2, h3, h4, h5, h6⟩ := hcols c _ hc
    rw [hc2] at h1
    have := Option.some.inj h1
    subst this
    obtain ⟨b, hb, g1, g2, g3, _⟩ := h.col_ok c _ hc
    exact ⟨b, hb, h3.trans g1, by rw [hbits]; exact g2, h2.trans g3, h4, h5, h6⟩

/-- Replacing one archetype by one with the same mask and a valid column
layout keeps the column invariant. -/
theorem ColInv.set_arch {world world2 : freecs_world_t} (hc : ColInv world) {a : Nat}
    {arch arch2 : freecs_archetype_t} (hsrc : world.archetypes[a]? = some arch)
    (hdst : world2.archetypes = world.archetypes.set a arch2)
    (hmask : arch2.mask = arch.mask) (hcols : ArchCols world.type_sizes arch2)
    (hts : world2.type_sizes = world.type_sizes) (hnb : world2.next_bit = world.next_bit) :
    ColInv world2 := by
  have hcases : ∀ (j : Nat) (X : freecs_archetype_t), world2.archetypes[j]? = some X →
      (j = a ∧ X = arch2) ∨ (world.archetypes[j]? = some X) := by
    intro j X hX
    rw [hdst] at hX
    by_cases hj : a = j
    · subst hj
      rw [List.getElem?_set_self (List.getElem?_eq_some.mp hsrc).1] at hX
      exact Or.inl ⟨rfl, (Option.some.inj hX).symm⟩
    · rw [List.getElem?_set_ne hj] at hX
      exact Or.inr hX
  refine ⟨by rw [hnb]; exact hc.next_bit_ok, ?_, ?_⟩
  · intro j X hX b hb
    have : Registered world b := by
      rcases hcases j X hX with ⟨rfl, rfl⟩ | h1
      · rw [hmask] at hb
        exact hc.mask_reg _ arch hsrc b hb
      · exact hc.mask_reg j X h1 b hb
    unfold Registered at this ⊢
    rw [hnb]
    exact this
  · intro j X hX
    rw [hts]
    rcases hcases j X hX with ⟨rfl, rfl⟩ | h1
    · exact hcols
    · exact hc.archs j X h1

theorem RowRemoved.arch_cols {world world2 : freecs_world_t} {a row : Nat}
    {arch arch2 : freecs_archetype_t} {last : freecs_entity_t}
    (h : RowRemoved world world2 a row arch arch2 last) (hc : ColInv world) :
    ArchCols world.type_sizes arch2 := by
  have hac := hc.archs a arch h.src
  have hn : 0 < arch.entities.length := by
    have := (List.getElem?_eq_some.mp h.last_eq).1
    omega
  have hlen2 : arch2.entities.length = arch.entities.length - 1 := by
    rw [h.ents_eq, List.length_dropLast]
    split <;> simp
  refine hac.update h.mask_eq h.bits_eq h.cols_len ?_
  intro c col hcol
  obtain ⟨col2, h1, h2, h3, _, h5, h6, _⟩ := h.cols c col hcol
  obtain ⟨b, _, _, _, _, g5, g6, g7⟩ := hac.col_ok c col hcol
  refine ⟨col2, h1, h2, h3, by rw [h6, hlen2, h2], ?_, by rw [h2, h5]; exact g7⟩
  intro hcap
  rw [h5] at hcap
  have hd := g6 hcap
  rw [hd] at g5
  simp only [List.length_nil] at g5
  have hes : col.elem_size = 0 := by
    rcases Nat.eq_zero_or_pos col.elem_size with h0 | h0
    · exact h0
    · have := Nat.mul_pos hn h0
      omega
  rw [hes] at h6
  simp only [Nat.mul_zero] at h6
  exact List.length_eq_zero.mp h6

theorem RowRemoved.col_inv {world world2 : freecs_world_t} {a row : Nat}
    {arch arch2 : freecs_archetype_t} {last : freecs_entity_t}
    (h : RowRemoved world world2 a row arch arch2 last) (hc : ColInv world) :
    ColInv world2 :=
  hc.set_arch h.src h.dst h.mask_eq (h.arch_cols hc) h.sizes_eq h.next_bit_eq

theorem ColInv.same_cols {world world1 : freecs_world_t} (hc : ColInv world)
    (h1 : world1.archetypes = world.archetypes) (h2 : world1.type_sizes = world.type_sizes)
    (h3 : world1.next_bit = world.next_bit) : ColInv world1 := by
  refine ⟨by rw [h3]; exact hc.next_bit_ok, ?_, ?_⟩
  · intro a arch ha b hb
    rw [h1] at ha
    have := hc.mask_reg a arch ha b hb
    unfold Registered at this ⊢
    rw [h3]
    exact this
  · intro a arch ha
    rw [h1] at ha
    rw [h2]
    exact hc.archs a arch ha

theorem despawn_intro {world world2 : freecs_world_t} {entity : freecs_entity_t}
    {loc loc1 : freecs_entity_location_t} (hloc : world.locations[entity.id]? = some loc)
    (hal : loc.alive = true) (hgen : loc.generation = entity.generation)
    (hrr : remove_row world loc.archetype_index loc.row = some world2)
    (hl1 : world2.locations[entity.id]? = some loc1) :
    freecs_despawn world entity = some ({ world2 with
      locations := world2.locations.set entity.id
        { loc1 with alive := false, generation := (loc1.generation + 1) % 2 ^ 32 }
      free_entities := world2.free_entities ++
        [⟨entity.id, (loc1.generation + 1) % 2 ^ 32⟩] }, true) := by
  have hlt : ¬ entity.id ≥ world.locations.length := by
    have := (List.getElem?_eq_some.mp hloc).1
    omega
  unfold freecs_despawn
  rw [if_neg hlt]
  simp only [Option.bind_eq_bind, hloc, Option.some_bind, hal, hgen, Bool.not_true,
    bne_self_eq_false, Bool.or_self, Bool.false_eq_true, if_false, hrr, hl1]

/-- Despawn of a live handle in a well-formed world: the call is defined and
returns true; the result is the swap-remove followed by the slot update and
the free-list push, and it is well-formed again. -/
theorem despawn_live {world : freecs_world_t} (hw : WellFormed world)
    {entity : freecs_entity_t} {loc : freecs_entity_location_t}
    (hloc : world.locations[entity.id]? = some loc) (hal : loc.alive = true)
    (hgen : loc.generation = entity.generation) :
    ∃ world2 arch arch2 last,
      RowRemoved world world2 loc.archetype_index loc.row arch arch2 last ∧
      arch.entities[loc.row]? = some entity ∧
      freecs_despawn world entity = some ({ world2 with
        locations := world2.locations.set entity.id
          ⟨loc.archetype_index, loc.row, (entity.generation + 1) % 2 ^ 32, false⟩
        free_entities := world.free_entities ++
          [⟨entity.id, (entity.generation + 1) % 2 ^ 32⟩] }, true) ∧
      WellFormed { world2 with
        locations := world2.locations.set entity.id
          ⟨loc.archetype_index, loc.row, (entity.generation + 1) % 2 ^ 32, false⟩
        free_entities := world.free_entities ++
          [⟨entity.id, (entity.generation + 1) % 2 ^ 32⟩] } := by
  obtain ⟨world2, arch, arch2, last, hrr, hrem, hrow⟩ := remove_row_wf hw hloc hal
  obtain ⟨_, _, _, _, hl1⟩ := remove_row_limbo hw.struct hloc hal hrr
  have hd := despawn_intro hloc hal hgen hrr hl1
  rw [hrem.free_eq, hgen] at hd
  have hent : (⟨entity.id, entity.generation⟩ : freecs_entity_t) = entity := rfl
  refine ⟨world2, arch, arch2, last, hrem, by rw [hgen] at hrow; exact hrow, hd, ?_⟩
  refine ⟨hw.struct.despawn hd, ?_⟩
  exact (hrem.col_inv hw.cols).same_cols rfl rfl rfl

theorem bit_index_loop_lt (fuel bit count r : Nat)
    (h : bit_index_loop fuel bit count = some r) : r < count + fuel := by
  induction fuel generalizing bit count with
  | zero => simp [bit_index_loop] at h
  | succ f ih =>
    unfold bit_index_loop at h
    split at h
    · simp only [Option.some.injEq] at h
      omega
    · have := ih _ _ h
      omega

theorem bit_index_lt {bit bi : Nat} (h : freecs_bit_index bit = some bi) : bi < 64 := by
  have := bit_index_loop_lt 64 bit 0 bi h
  omega

theorem is_alive_iff {world : freecs_world_t} {entity : freecs_entity_t} :
    freecs_is_alive world entity = true ↔
      ∃ loc, world.locations[entity.id]? = some loc ∧ loc.alive = true ∧
        loc.generation = entity.generation := by
  unfold freecs_is_alive
  constructor
  · intro h
    split at h
    · simp at h
    · cases hl : world.locations[entity.id]? with
      | none => rw [hl] at h; simp at h
      | some loc =>
        rw [hl] at h
        simp only [Bool.and_eq_true, beq_iff_eq] at h
        exact ⟨loc, rfl, h.1, h.2⟩
  · rintro ⟨loc, hl, h1, h2⟩
    have : ¬ entity.id ≥ world.locations.length := by
      have := (List.getElem?_eq_some.mp hl).1
      omega
    rw [if_neg this, hl]
    simp [h1, h2]

/-- In a world with the column layout, `freecs_get` on a live handle shows
the row recorded in its slot. -/
theorem get_bytes_live {world : freecs_world_t} {x : freecs_entity_t}
    {loc : freecs_entity_location_t} {arch : freecs_archetype_t}
    (hloc : world.locations[x.id]? = some loc) (hal : loc.alive = true)
    (hgen : loc.generation = x.generation)
    (harch : world.archetypes[loc.archetype_index]? = some arch)
    (hcols : ArchCols world.type_sizes arch) (hrow : loc.row < arch.entities.length)
    (bit : Nat) : get_bytes world x bit = comp_view arch loc.row bit := by
  have hlt : ¬ x.id ≥ world.locations.length := by
    have := (List.getElem?_eq_some.mp hloc).1
    omega
  unfold get_bytes freecs_get comp_view
  rw [if_neg hlt]
  simp only [Option.bind_eq_bind, hloc, Option.some_bind, hal, hgen, Bool.not_true,
    bne_self_eq_false, Bool.or_self, Bool.false_eq_true, if_false, harch]
  cases hbi : freecs_bit_index bit with
  | none => simp
  | some bi =>
    simp only [Option.some_bind]
    by_cases hneg : arch.column_bits.getD bi (-1) < 0
    · simp only [hneg, if_true]
    · simp only [hneg, if_false]
      cases hcol : arch.columns[(arch.column_bits.getD bi (-1)).toNat]? with
      | none => simp
      | some col =>
        simp only [Option.some_bind]
        obtain ⟨b, _, _, _, _, hlen, hcap, _⟩ := hcols.col_ok _ col hcol
        have hend := @row_end_le _ _ col.elem_size hrow
        by_cases hc0 : col.data_cap = 0
        · have hd := hcap hc0
          rw [hd] at hlen
          simp only [List.length_nil] at hlen
          have hoff : loc.row * col.elem_size = 0 := by omega
          simp only [elem_addr, hc0, if_true, hoff]
        · simp only [elem_addr, hc0, if_false, harch, hcol, read_bytes]
          by_cases hes : col.elem_size = 0
          · simp [hes, row_bytes]
          · have hfit : loc.row * col.elem_size + col.elem_size ≤ col.data.length := by
              rw [hlen]
              exact hend
            simp only [hes, if_false, Option.bind_eq_bind, Option.some_bind, hcol, hfit,
              if_true, row_bytes]

/-- Rows of the archetype after a swap-remove show what they showed before;
the row that received the last row shows the former last row. -/
theorem RowRemoved.view {world world2 : freecs_world_t} {a row : Nat}
    {arch arch2 : freecs_archetype_t} {last : freecs_entity_t}
    (h : RowRemoved world world2 a row arch arch2 last) {r : Nat}
    (hr : r < arch.entities.length - 1) (bit : Nat) :
    comp_view arch2 r bit =
      comp_view arch (if r = row then arch.entities.length - 1 else r) bit := by
  unfold comp_view
  cases hbi : freecs_bit_index bit with
  | none => rfl
  | some bi =>
    simp only [h.bits_eq]
    by_cases hneg : arch.column_bits.getD bi (-1) < 0
    · simp only [hneg, if_true]
    · simp only [hneg, if_false]
      cases hcol : arch.columns[(arch.column_bits.getD bi (-1)).toNat]? with
      | none =>
        have : arch2.columns[(arch.column_bits.getD bi (-1)).toNat]? = none := by
          rw [List.getElem?_eq_none_iff] at hcol ⊢
          rw [h.cols_len]
          exact hcol
        rw [this]
      | some col =>
        obtain ⟨col2, h1, _, _, _, h5, _, h7⟩ := h.cols _ col hcol
        rw [h1]
        simp only [h5]
        by_cases hc0 : col.data_cap = 0
        · simp only [hc0, if_true]
        · simp only [hc0, if_false]
          rw [h7 r hr]
          split <;> rfl

/-- Frame of the swap-remove: every live entity other than the one in the
removed row stays live in its archetype, with the same mask and the same
view of every component. -/
theorem RowRemoved.frame {world world2 : freecs_world_t} {row : Nat}
    {arch arch2 : freecs_archetype_t} {last : freecs_entity_t} {i : Nat}
    {loc : freecs_entity_location_t}
    (h : RowRemoved world world2 loc.archetype_index row arch arch2 last)
    (hw : WellFormed world) (hloc : world.locations[i]? = some loc)
    (hal : loc.alive = true) (hrow : row = loc.row)
    {x : freecs_entity_t} {lx : freecs_entity_location_t} (hx : x.id ≠ i)
    (hxloc : world.locations[x.id]? = some lx) (hxal : lx.alive = true) :
    ∃ lx2 archx archx2, world2.locations[x.id]? = some lx2 ∧ lx2.alive = true ∧
      lx2.generation = lx.generation ∧ lx2.archetype_index = lx.archetype_index ∧
      world.archetypes[lx.archetype_index]? = some archx ∧
      world2.archetypes[lx.archetype_index]? = some archx2 ∧
      archx2.mask = archx.mask ∧ lx.row < archx.entities.length ∧
      lx2.row < archx2.entities.length ∧
      ∀ bit, comp_view archx2 lx2.row bit = comp_view archx lx.row bit := by
  subst hrow
  have hents := ents_get h.src
  obtain ⟨es, hes, hirow⟩ := hw.struct.ent.alive i loc hloc hal
  rw [hents] at hes
  have := Option.some.inj hes
  subst this
  obtain ⟨esx, hesx, hxrow⟩ := hw.struct.ent.alive x.id lx hxloc hxal
  simp only [ents, List.getElem?_map] at hesx
  cases harchx : world.archetypes[lx.archetype_index]? with
  | none => rw [harchx] at hesx; simp at hesx
  | some archx =>
    rw [harchx] at hesx
    simp only [Option.map_some', Option.some.injEq] at hesx
    subst hesx
    have hxrowlt : lx.row < archx.entities.length := (List.getElem?_eq_some.mp hxrow).1
    have hirowlt : loc.row < arch.entities.length := (List.getElem?_eq_some.mp hirow).1
    have hlen2 : arch2.entities.length = arch.entities.length - 1 := by
      rw [h.ents_eq, List.length_dropLast]
      split <;> simp
    have hlastloc := hw.struct.ent.slot _ _ _ _ hents h.last_eq
    have hsrclt : loc.archetype_index < world.archetypes.length :=
      (List.getElem?_eq_some.mp h.src).1
    by_cases hsame : lx.archetype_index = loc.archetype_index
    · -- same archetype
      rw [hsame] at harchx
      rw [h.src] at harchx
      have := Option.some.inj harchx
      subst this
      have h2 : world2.archetypes[lx.archetype_index]? = some arch2 := by
        rw [h.dst, hsame, List.getElem?_set_self hsrclt]
      have hne_row : lx.row ≠ loc.row := by
        intro heq
        rw [heq, hirow] at hxrow
        simp only [Option.some.injEq, freecs_entity_t.mk.injEq] at hxrow
        exact hx hxrow.1.symm
      by_cases hxlast : lx.row = arch.entities.length - 1
      · -- x is the last entity and is swapped into the removed row
        have hlt : loc.row < arch.entities.length - 1 := by omega
        have hlast_x : last = ⟨x.id, lx.generation⟩ := by
          have := h.last_eq
          rw [← hxlast, hxrow] at this
          exact (Option.some.inj this).symm
        refine ⟨⟨loc.archetype_index, loc.row, last.generation, true⟩, arch, arch2, ?_, rfl,
          by rw [hlast_x], hsame.symm, rfl, h2, h.mask_eq, hxrowlt,
          by rw [hlen2]; exact hlt, ?_⟩
        · rw [h.locs, if_pos hlt]
          have : last.id = x.id := by rw [hlast_x]
          rw [this, List.getElem?_set_self (List.getElem?_eq_some.mp hxloc).1]
        · intro bit
          rw [h.view hlt bit, if_pos rfl, hxlast]
      · have hlt : lx.row < arch.entities.length - 1 := by omega
        refine ⟨lx, arch, arch2, ?_, hxal, rfl, rfl, rfl, h2,
          h.mask_eq, hxrowlt, by rw [hlen2]; exact hlt, ?_⟩
        · rw [h.locs]
          split
          · rw [List.getElem?_set_ne]
            · exact hxloc
            · intro hid
              rw [hid, hxloc] at hlastloc
              have := Option.some.inj hlastloc
              rw [this] at hxlast
              exact hxlast rfl
          · exact hxloc
        · intro bit
          rw [h.view hlt bit, if_neg hne_row]
    · -- another archetype
      have h2 : world2.archetypes[lx.archetype_index]? = some archx := by
        rw [h.dst, List.getElem?_set_ne (Ne.symm hsame)]
        exact harchx
      refine ⟨lx, archx, archx, ?_, hxal, rfl, rfl, rfl, h2, rfl, hxrowlt, hxrowlt,
        fun _ => rfl⟩
      rw [h.locs]
      split
      · rw [List.getElem?_set_ne]
        · exact hxloc
        · intro hid
          rw [hid, hxloc] at hlastloc
          have := Option.some.inj hlastloc
          rw [this] at hsame
          exact hsame rfl
      · exact hxloc

theorem two_pow_inj {a b : Nat} (h : 2 ^ a = 2 ^ b) : a = b :=
  Nat.pow_right_injective (le_refl 2) h

/-- A list of distinct single bits has at most 64 members; at most 63 when
some bit index is known not to occur. -/
theorem bits_length_le (bits : List Nat) (hnd : bits.Nodup)
    (hb : ∀ x ∈ bits, ∃ b, b < 64 ∧ x = 2 ^ b) (excl : Finset Nat)
    (hex : ∀ k ∈ excl, k < 64 ∧ 2 ^ k ∉ bits) : bits.length + excl.card ≤ 64 := by
  have hsub : bits.toFinset ∪ excl.image (fun k => 2 ^ k) ⊆
      (Finset.range 64).image (fun k => 2 ^ k) := by
    intro x hx
    rw [Finset.mem_union] at hx
    rw [Finset.mem_image]
    rcases hx with hx | hx
    · obtain ⟨b, hb1, hb2⟩ := hb x (List.mem_toFinset.mp hx)
      exact ⟨b, Finset.mem_range.mpr hb1, hb2.symm⟩
    · rw [Finset.mem_image] at hx
      obtain ⟨k, hk, rfl⟩ := hx
      exact ⟨k, Finset.mem_range.mpr (hex k hk).1, rfl⟩
  have hdisj : Disjoint bits.toFinset (excl.image (fun k => 2 ^ k)) := by
    rw [Finset.disjoint_left]
    intro x hx hx2
    rw [Finset.mem_image] at hx2
    obtain ⟨k, hk, rfl⟩ := hx2
    exact (hex k hk).2 (List.mem_toFinset.mp hx)
  have hinj : Function.Injective (fun k : Nat => 2 ^ k) := fun a b h => two_pow_inj h
  have hcard := Finset.card_le_card hsub
  rw [Finset.card_union_of_disjoint hdisj, List.toFinset_card_of_nodup hnd,
    Finset.card_image_of_injective _ hinj, Finset.card_image_of_injective _ hinj,
    Finset.card_range] at hcard
  exact hcard

/-- Layout produced by the column-creation loop. -/
theorem add_columns_layout (ti : List freecs_type_info_entry_t) :
    ∀ (arch arch1 : freecs_archetype_t), add_columns arch ti = some arch1 →
    (∀ en ∈ ti, ∃ b, b < 64 ∧ en.bit = 2 ^ b) → (ti.map (fun en => en.bit)).Nodup →
    arch.column_bits.length = 64 → arch.columns.length + ti.length < 2 ^ 31 →
    arch1.columns = arch.columns ++ ti.map column_of_entry ∧
    arch1.column_bits.length = 64 ∧
    ∀ (b : Nat), b < 64 →
      (∀ (j : Nat) (en : freecs_type_info_entry_t), ti[j]? = some en → en.bit = 2 ^ b →
        arch1.column_bits.getD b (-1) = ((arch.columns.length + j : Nat) : Int)) ∧
      ((∀ en ∈ ti, en.bit ≠ 2 ^ b) →
        arch1.column_bits.getD b (-1) = arch.column_bits.getD b (-1)) := by
  induction ti with
  | nil =>
    intro arch arch1 h _ _ hlen _
    simp only [add_columns, Option.some.injEq] at h
    subst h
    refine ⟨by simp, hlen, ?_⟩
    intro b _
    exact ⟨fun j en hj => by simp at hj, fun _ => rfl⟩
  | cons t rest ih =>
    intro arch arch1 h hbits hnd hlen hbound
    obtain ⟨b0, hb0, ht⟩ := hbits t (by simp)
    unfold add_columns at h
    rw [ht, bit_index_two_pow b0 hb0] at h
    simp only at h
    simp only [List.map_cons, List.nodup_cons] at hnd
    simp only [List.length_cons] at hbound
    obtain ⟨i1, i2, i3⟩ := ih _ arch1 h (fun en hen => hbits en (by simp [hen])) hnd.2
      (by simp [hlen]) (by simp; omega)
    refine ⟨?_, i2, ?_⟩
    · rw [i1]
      simp [column_of_entry, ht]
    · intro b hb
      have hset : ∀ (b1 : Nat), b1 ≠ b0 →
          (arch.column_bits.set b0 (toI32 arch.columns.length)).getD b1 (-1) =
            arch.column_bits.getD b1 (-1) := by
        intro b1 hne
        rw [getD_set_eq, if_neg (fun hc => hne hc.1.symm)]
      have hself : (arch.column_bits.set b0 (toI32 arch.columns.length)).getD b0 (-1) =
          (arch.columns.length : Int) := by
        rw [getD_set_eq, if_pos ⟨rfl, by omega⟩, toI32_small (by omega)]
      have hrest_ne : ∀ en ∈ rest, en.bit ≠ 2 ^ b0 := by
        intro en hen heq
        apply hnd.1
        rw [ht]
        exact List.mem_map.mpr ⟨en, hen, heq⟩
      obtain ⟨j1, j2⟩ := i3 b hb
      constructor
      · intro j en hj hen
        cases j with
        | zero =>
          simp only [List.getElem?_cons_zero, Option.some.injEq] at hj
          subst hj
          have hbb : b0 = b := two_pow_inj (ht.symm.trans hen)
          subst hbb
          rw [j2 hrest_ne]
          simp only [Nat.add_zero]
          exact hself
        | succ j' =>
          simp only [List.getElem?_cons_succ] at hj
          rw [j1 j' en hj hen]
          simp only [List.length_append, List.length_singleton]
          congr 1
          omega
      · intro hall
        have hne : b ≠ b0 := by
          intro heq
          subst heq
          exact hall t (by simp) ht
        rw [j2 (fun en hen => hall en (by simp [hen])), hset b hne]

/-- The column-creation loop returns when every entry names a single bit. -/
theorem add_columns_some (ti : List freecs_type_info_entry_t) :
    ∀ (arch : freecs_archetype_t), (∀ en ∈ ti, ∃ b, b < 64 ∧ en.bit = 2 ^ b) →
      ∃ arch1, add_columns arch ti = some arch1 := by
  induction ti with
  | nil => intro arch _; exact ⟨arch, rfl⟩
  | cons t rest ih =>
    intro arch hbits
    obtain ⟨b0, hb0, ht⟩ := hbits t (by simp)
    unfold add_columns
    rw [ht, bit_index_two_pow b0 hb0]
    exact ih _ (fun en hen => hbits en (by simp [hen]))

theorem TypeInfoFor.length_le {ts : List Nat} {mask : Nat}
    {ti : List freecs_type_info_entry_t} (h : TypeInfoFor ts mask ti) : ti.length ≤ 64 := by
  have := bits_length_le (ti.map (fun en => en.bit)) h.nodup
    (by
      intro x hx
      obtain ⟨en, hen, rfl⟩ := List.mem_map.mp hx
      obtain ⟨b, hb, hbit, _⟩ := h.bit_ok en hen
      exact ⟨b, hb, hbit⟩) ∅ (by simp)
  simpa using this

/-- The archetype built for a fitting `type_info` array has the column layout. -/
theorem ArchCols.of_type_info {ts : List Nat} {mask : Nat}
    {ti : List freecs_type_info_entry_t} (hti : TypeInfoFor ts mask ti)
    {arch0 : freecs_archetype_t} (h : add_columns (new_archetype mask) ti = some arch0) :
    ArchCols ts arch0 ∧ arch0.entities = [] := by
  have hlen := hti.length_le
  obtain ⟨l1, l2, l3⟩ := add_columns_layout ti (new_archetype mask) arch0 h
    (fun en hen => by
      obtain ⟨b, hb, hbit, _⟩ := hti.bit_ok en hen
      exact ⟨b, hb, hbit⟩) hti.nodup (by simp [new_archetype, FREECS_MAX_COMPONENTS])
    (by simp only [new_archetype, List.length_nil]; omega)
  obtain ⟨s1, s2, _, _⟩ := add_columns_spec _ _ _ h
  have hcols : arch0.columns = ti.map column_of_entry := by
    rw [l1]; simp [new_archetype]
  have hnew : ∀ b, (new_archetype mask).column_bits.getD b (-1) = -1 := by
    intro b
    simp only [new_archetype, List.getD_eq_getElem?_getD, List.getElem?_replicate]
    split <;> rfl
  have hmask : arch0.mask = mask := s1
  have hfind : ∀ b, b < 64 → 0 ≤ arch0.column_bits.getD b (-1) →
      ∃ (j : Nat) (en : freecs_type_info_entry_t), ti[j]? = some en ∧ en.bit = 2 ^ b ∧
        arch0.column_bits.getD b (-1) = (j : Int) := by
    intro b hb hge
    by_cases hex : ∃ en ∈ ti, en.bit = 2 ^ b
    · obtain ⟨en, hen, hbit⟩ := hex
      obtain ⟨j, hj⟩ := List.getElem?_of_mem hen
      refine ⟨j, en, hj, hbit, ?_⟩
      have := (l3 b hb).1 j en hj hbit
      simpa [new_archetype] using this
    · exfalso
      have := (l3 b hb).2 (fun en hen hbit => hex ⟨en, hen, hbit⟩)
      rw [this, hnew] at hge
      omega
  refine ⟨⟨?_, ?_, ?_, ?_⟩, s2⟩
  · rw [hmask]; exact hti.mask_ne
  · intro b hb hge
    obtain ⟨j, en, hj, hbit, hval⟩ := hfind b hb hge
    obtain ⟨b1, _, hbit1, htest, _⟩ := hti.bit_ok en (List.getElem?_mem hj)
    have hbb : b1 = b := two_pow_inj (hbit1.symm.trans hbit)
    subst hbb
    refine ⟨by rw [hmask]; exact htest, column_of_entry en, ?_, hbit⟩
    rw [hval, Int.toNat_ofNat, hcols, List.getElem?_map, hj]
    rfl
  · intro b hb htest hsz
    rw [hmask] at htest
    obtain ⟨en, hen, hbit⟩ := hti.covers b hb htest hsz
    obtain ⟨j, hj⟩ := List.getElem?_of_mem hen
    have := (l3 b hb).1 j en hj hbit
    rw [this]
    exact Int.natCast_nonneg _
  · intro c col hc
    rw [hcols, List.getElem?_map] at hc
    cases hj : ti[c]? with
    | none => rw [hj] at hc; simp at hc
    | some en =>
      rw [hj] at hc
      simp only [Option.map_some', Option.some.injEq] at hc
      subst hc
      obtain ⟨b, hb, hbit, _, hsize⟩ := hti.bit_ok en (List.getElem?_mem hj)
      refine ⟨b, hb, hbit, ?_, hsize, ?_, fun _ => rfl, fun _ => rfl⟩
      · have := (l3 b hb).1 c en hj hbit
        simpa [new_archetype] using this
      · rw [s2]; simp [column_of_entry, new_archetype]

/-- An archetype that differs only in its edges has the same column layout. -/
theorem ArchCols.of_eq {ts : List Nat} {arch arch2 : freecs_archetype_t}
    (h : ArchCols ts arch) (hmask : arch2.mask = arch.mask)
    (hents : arch2.entities = arch.entities) (hcols : arch2.columns = arch.columns)
    (hbits : arch2.column_bits = arch.column_bits) : ArchCols ts arch2 := by
  refine ⟨?_, ?_, ?_, ?_⟩
  · rw [hmask]; exact h.mask_ne
  · rw [hmask, hbits, hcols]; exact h.col_of_bit
  · rw [hmask, hbits]; exact h.bit_has_col
  · rw [hcols, hbits, hents]; exact h.col_ok

/-- Function `find_or_create_archetype` keeps the column invariant when the
`type_info` array fits the mask. -/
theorem ColInv.create_cols {world world1 : freecs_world_t} (hc : ColInv world)
    {mask idx : Nat} {ti : List freecs_type_info_entry_t}
    (hti : TypeInfoFor world.type_sizes mask ti)
    (hreg : ∀ b, mask.testBit b = true → Registered world b)
    (h : find_or_create_archetype world mask ti = some (world1, idx)) :
    ColInv world1 ∧ world1.type_sizes = world.type_sizes ∧
      world1.next_bit = world.next_bit := by
  rcases find_or_create_cases world world1 mask idx ti h with ⟨rfl, _⟩ | ⟨_, _, arch0, h0, rfl⟩
  · exact ⟨hc, rfl, rfl⟩
  · refine ⟨⟨hc.next_bit_ok, ?_, ?_⟩, rfl, rfl⟩
    · intro a arch ha b hb
      simp only [List.getElem?_map] at ha
      cases hx : (world.archetypes ++ [arch0])[a]? with
      | none => rw [hx] at ha; simp at ha
      | some X =>
        rw [hx] at ha
        simp only [Option.map_some', Option.some.injEq] at ha
        subst ha
        rw [(wire_all_spec _ _ _ _ X).1] at hb
        have hmem := List.getElem?_mem hx
        rw [List.mem_append] at hmem
        rcases hmem with hm | hm
        · obtain ⟨a1, ha1⟩ := List.getElem?_of_mem hm
          exact hc.mask_reg a1 X ha1 b hb
        · simp only [List.mem_singleton] at hm
          subst hm
          rw [(add_columns_spec _ _ _ h0).1] at hb
          exact hreg b hb
    · intro a arch ha
      simp only [List.getElem?_map] at ha
      cases hx : (world.archetypes ++ [arch0])[a]? with
      | none => rw [hx] at ha; simp at ha
      | some X =>
        rw [hx] at ha
        simp only [Option.map_some', Option.some.injEq] at ha
        subst ha
        obtain ⟨w1, w2, w3, w4, _⟩ := wire_all_spec world.type_sizes mask
          world.archetypes.length (List.range FREECS_MAX_COMPONENTS) X
        have hmem := List.getElem?_mem hx
        rw [List.mem_append] at hmem
        rcases hmem with hm | hm
        · obtain ⟨a1, ha1⟩ := List.getElem?_of_mem hm
          exact (hc.archs a1 X ha1).of_eq w1 w2 w3 w4
        · simp only [List.mem_singleton] at hm
          subst hm
          exact (ArchCols.of_type_info hti h0).1.of_eq w1 w2 w3 w4

/-- Function `find_or_create_archetype` returns in a structurally consistent
world when every `type_info` entry names a single bit. -/
theorem find_or_create_some {world : freecs_world_t} (hs : StructInv world) (mask : Nat)
    (ti : List freecs_type_info_entry_t) (hbits : ∀ en ∈ ti, ∃ b, b < 64 ∧ en.bit = 2 ^ b) :
    ∃ world1 idx, find_or_create_archetype world mask ti = some (world1, idx) := by
  unfold find_or_create_archetype
  cases hf : cache_find world.archetype_index mask with
  | some i =>
    obtain ⟨e, he, _⟩ := cache_find_some hf
    obtain ⟨hv, _⟩ := hs.graph.index_entry i e he
    simp only [he, hv]
    exact ⟨world, i, rfl⟩
  | none =>
    obtain ⟨arch1, h1⟩ := add_columns_some ti (new_archetype mask) hbits
    simp only [h1]
    exact ⟨_, _, rfl⟩

theorem entity_count_foldl_add (l : List freecs_archetype_t) (k init : Nat) :
    l.foldl (fun count arch => count + arch.entities.length) (init + k) =
      l.foldl (fun count arch => count + arch.entities.length) init + k := by
  induction l generalizing init with
  | nil => rfl
  | cons x rest ih =>
    simp only [List.foldl_cons]
    rw [show init + k + x.entities.length = init + x.entities.length + k by omega]
    exact ih _

theorem entity_count_foldl_set (l : List freecs_archetype_t) :
    ∀ (a : Nat) (arch arch2 : freecs_archetype_t) (init : Nat), l[a]? = some arch →
      (l.set a arch2).foldl (fun count x => count + x.entities.length) init +
          arch.entities.length =
        l.foldl (fun count x => count + x.entities.length) init + arch2.entities.length := by
  induction l with
  | nil => intro a arch arch2 init h; simp at h
  | cons x rest ih =>
    intro a arch arch2 init h
    cases a with
    | zero =>
      simp only [List.getElem?_cons_zero, Option.some.injEq] at h
      subst h
      simp only [List.set_cons_zero, List.foldl_cons]
      rw [entity_count_foldl_add, entity_count_foldl_add rest x.entities.length]
      omega
    | succ a1 =>
      simp only [List.getElem?_cons_succ] at h
      simp only [List.set_cons_succ, List.foldl_cons]
      exact ih a1 arch arch2 _ h

/-- Replacing one archetype changes the entity count by the difference of the
two row counts. -/
theorem entity_count_set {world world2 : freecs_world_t} {a : Nat}
    {arch arch2 : freecs_archetype_t} (hsrc : world.archetypes[a]? = some arch)
    (hdst : world2.archetypes = world.archetypes.set a arch2) :
    freecs_entity_count world2 + arch.entities.length =
      freecs_entity_count world + arch2.entities.length := by
  unfold freecs_entity_count
  rw [hdst]
  exact entity_count_foldl_set _ a arch arch2 0 hsrc

theorem is_alive_false_of_loc {world : freecs_world_t} {entity : freecs_entity_t}
    {loc : freecs_entity_location_t} (hloc : world.locations[entity.id]? = some loc)
    (h : loc.alive = false ∨ loc.generation ≠ entity.generation) :
    freecs_is_alive world entity = false := by
  cases hx : freecs_is_alive world entity with
  | false => rfl
  | true =>
    obtain ⟨loc1, h1, h2, h3⟩ := is_alive_iff.mp hx
    rw [hloc] at h1
    have := Option.some.inj h1
    subst this
    rcases h with h | h
    · rw [h] at h2; cases h2
    · exact absurd h3 h

theorem component_mask_live {world : freecs_world_t} {x : freecs_entity_t}
    {loc : freecs_entity_location_t} {arch : freecs_archetype_t}
    (hloc : world.locations[x.id]? = some loc) (hal : loc.alive = true)
    (hgen : loc.generation = x.generation)
    (harch : world.archetypes[loc.archetype_index]? = some arch) :
    freecs_component_mask world x = some (arch.mask, true) := by
  have hlt : x.id < world.locations.length := by
    rcases Nat.lt_or_ge x.id world.locations.length with h | h
    · exact h
    · rw [List.getElem?_eq_none h] at hloc; cases hloc
  unfold freecs_component_mask
  rw [if_neg (by omega)]
  simp [hloc, hal, hgen, harch]

theorem has_live {world : freecs_world_t} {x : freecs_entity_t}
    {loc : freecs_entity_location_t} {arch : freecs_archetype_t}
    (hloc : world.locations[x.id]? = some loc) (hal : loc.alive = true)
    (hgen : loc.generation = x.generation)
    (harch : world.archetypes[loc.archetype_index]? = some arch) (bit : Nat) :
    freecs_has world x bit = some (arch.mask &&& bit != 0) := by
  have hlt : x.id < world.locations.length := by
    rcases Nat.lt_or_ge x.id world.locations.length with h | h
    · exact h
    · rw [List.getElem?_eq_none h] at hloc; cases hloc
  unfold freecs_has
  rw [if_neg (by omega)]
  simp [hloc, hal, hgen, harch]

theorem get_null_of_stale {world : freecs_world_t} {x : freecs_entity_t}
    {loc : freecs_entity_location_t} (hloc : world.locations[x.id]? = some loc)
    (h : loc.alive = false ∨ loc.generation ≠ x.generation) (bit : Nat) :
    freecs_get world x bit = some Ptr.null := by
  have hlt : x.id < world.locations.length := by
    rcases Nat.lt_or_ge x.id world.locations.length with h | h
    · exact h
    · rw [List.getElem?_eq_none h] at hloc; cases hloc
  unfold freecs_get
  rw [if_neg (by omega)]
  rcases h with h | h
  · simp [hloc, h]
  · simp [hloc, h]

theorem RowRemoved.locs_length {world world2 : freecs_world_t} {a row : Nat}
    {arch arch2 : freecs_archetype_t} {last : freecs_entity_t}
    (h : RowRemoved world world2 a row arch arch2 last) :
    world2.locations.length = world.locations.length := by
  rw [h.locs]
  split <;> simp

theorem RowRemoved.ents_length {world world2 : freecs_world_t} {a row : Nat}
    {arch arch2 : freecs_archetype_t} {last : freecs_entity_t}
    (h : RowRemoved world world2 a row arch arch2 last) :
    arch2.entities.length = arch.entities.length - 1 := by
  rw [h.ents_eq]
  split <;> simp

/-- Effect of the entry loop of `freecs_spawn` on the columns of an archetype
whose column table and columns name each other: the loop returns, and every
column receives the bytes of the entry of its bit, if there is one. -/
theorem spawn_entries_layout (entries : List freecs_type_info_entry_t) :
    ∀ (arch : freecs_archetype_t),
    (∀ (b : Nat), b < 64 → 0 ≤ arch.column_bits.getD b (-1) →
      ∃ col, arch.columns[(arch.column_bits.getD b (-1)).toNat]? = some col ∧
        col.bit = 2 ^ b) →
    (∀ (c : Nat) (col : freecs_component_column_t), arch.columns[c]? = some col →
      ∃ b, b < 64 ∧ col.bit = 2 ^ b ∧ arch.column_bits.getD b (-1) = (c : Int)) →
    (∀ en ∈ entries, ∃ b, b < 64 ∧ en.bit = 2 ^ b) →
    (entries.map (fun en => en.bit)).Nodup →
    (∀ en ∈ entries, ∃ bytes, entry_bytes en = some bytes) →
    ∃ arch1, spawn_entries arch entries = some arch1 ∧
      ∀ (c : Nat) (col : freecs_component_column_t), arch.columns[c]? = some col →
        ∃ col1, arch1.columns[c]? = some col1 ∧ col1.elem_size = col.elem_size ∧
          col1.bit = col.bit ∧ col1.type_index = col.type_index ∧
          ((∀ en ∈ entries, en.bit ≠ col.bit) → col1 = col) ∧
          (∀ en ∈ entries, en.bit = col.bit → ∃ bytes, entry_bytes en = some bytes ∧
            col1.data = col.data ++ bytes ∧
            col1.data_cap = ensure_capacity_u8 col.data_cap (col.data.length + en.size)) := by
  induction entries with
  | nil =>
    intro arch _ _ _ _ _
    refine ⟨arch, rfl, ?_⟩
    intro c col hc
    exact ⟨col, hc, rfl, rfl, rfl, fun _ => rfl, fun en hen => by simp at hen⟩
  | cons t rest ih =>
    intro arch h1 h2 hbits hnd hdata
    obtain ⟨b0, hb0, ht⟩ := hbits t (by simp)
    obtain ⟨bytes0, hbytes0⟩ := hdata t (by simp)
    simp only [List.map_cons, List.nodup_cons] at hnd
    have hrest_ne : ∀ en ∈ rest, en.bit ≠ t.bit := by
      intro en hen heq
      exact hnd.1 (List.mem_map.mpr ⟨en, hen, heq⟩)
    have hbits1 : ∀ en ∈ rest, ∃ b, b < 64 ∧ en.bit = 2 ^ b :=
      fun en hen => hbits en (by simp [hen])
    have hdata1 : ∀ en ∈ rest, ∃ bytes, entry_bytes en = some bytes :=
      fun en hen => hdata en (by simp [hen])
    by_cases hge : 0 ≤ arch.column_bits.getD b0 (-1)
    · obtain ⟨col0, hcol0, hcol0bit⟩ := h1 b0 hb0 hge
      have hidx0 : arch.column_bits.getD b0 (-1) =
          (((arch.column_bits.getD b0 (-1)).toNat : Nat) : Int) :=
        (Int.toNat_of_nonneg hge).symm
      generalize hc0 : (arch.column_bits.getD b0 (-1)).toNat = c0 at hcol0 hidx0
      have hc0lt : c0 < arch.columns.length := by
        rcases Nat.lt_or_ge c0 arch.columns.length with hlt | hge2
        · exact hlt
        · rw [List.getElem?_eq_none hge2] at hcol0; cases hcol0
      have hstep : spawn_entry arch t = some
          (freecs_archetype_t.mk arch.mask arch.entities
            (arch.columns.set c0
              (freecs_component_column_t.mk (col0.data ++ bytes0)
                (ensure_capacity_u8 col0.data_cap (col0.data.length + t.size))
                col0.elem_size col0.bit col0.type_index))
            arch.column_bits arch.add_edges arch.remove_edges) := by
        unfold spawn_entry
        rw [ht, bit_index_two_pow b0 hb0]
        simp only [ge_iff_le, hge, if_true, hc0, hcol0, hbytes0]
      obtain ⟨arch1, ha1, hcols1⟩ := ih
        (freecs_archetype_t.mk arch.mask arch.entities
            (arch.columns.set c0
              (freecs_component_column_t.mk (col0.data ++ bytes0)
                (ensure_capacity_u8 col0.data_cap (col0.data.length + t.size))
                col0.elem_size col0.bit col0.type_index))
            arch.column_bits arch.add_edges arch.remove_edges)
        (by
          intro b hb hbge
          obtain ⟨col, hcol, hcolbit⟩ := h1 b hb hbge
          show ∃ col, (arch.columns.set c0 _)[(arch.column_bits.getD b (-1)).toNat]? =
            some col ∧ col.bit = 2 ^ b
          by_cases heq : c0 = (arch.column_bits.getD b (-1)).toNat
          · rw [← heq, List.getElem?_set_self hc0lt]
            refine ⟨_, rfl, ?_⟩
            rw [← heq, hcol0] at hcol
            rw [← Option.some.inj hcol] at hcolbit
            exact hcolbit
          · rw [List.getElem?_set_ne heq]
            exact ⟨col, hcol, hcolbit⟩)
        (by
          intro c col hc
          have hc2 : (arch.columns.set c0
              (freecs_component_column_t.mk (col0.data ++ bytes0)
                (ensure_capacity_u8 col0.data_cap (col0.data.length + t.size))
                col0.elem_size col0.bit col0.type_index))[c]? = some col := hc
          show ∃ b, b < 64 ∧ col.bit = 2 ^ b ∧ arch.column_bits.getD b (-1) = (c : Int)
          by_cases heq : c0 = c
          · rw [heq] at hc2 hcol0 hc0lt
            rw [List.getElem?_set_self hc0lt] at hc2
            rw [← Option.some.inj hc2]
            exact h2 c col0 hcol0
          · rw [List.getElem?_set_ne heq] at hc2
            exact h2 c col hc2)
        hbits1 hnd.2 hdata1
      refine ⟨arch1, ?_, ?_⟩
      · unfold spawn_entries
        rw [hstep]
        exact ha1
      · intro c col hc
        by_cases heq : c0 = c
        · subst heq
          rw [hcol0] at hc
          have hcc := Option.some.inj hc
          subst hcc
          obtain ⟨col1, k1, k2, k3, k4, k5, _⟩ := hcols1 c0 _ (List.getElem?_set_self hc0lt)
          have hcol1 := k5 (fun en hen => by
            show en.bit ≠ col0.bit
            rw [hcol0bit, ← ht]
            exact hrest_ne en hen)
          subst hcol1
          refine ⟨_, k1, rfl, rfl, rfl, ?_, ?_⟩
          · intro hall
            exact absurd (ht.trans hcol0bit.symm) (hall t (by simp))
          · intro en hen hbit
            simp only [List.mem_cons] at hen
            rcases hen with rfl | hen
            · exact ⟨bytes0, hbytes0, rfl, rfl⟩
            · exact absurd (hbit.trans (hcol0bit.trans ht.symm)) (hrest_ne en hen)
        · have hne : t.bit ≠ col.bit := by
            intro hbit
            obtain ⟨b, hb, hcb, hidx⟩ := h2 c col hc
            have hbb : b0 = b := two_pow_inj (ht.symm.trans (hbit.trans hcb))
            subst hbb
            apply heq
            rw [hidx] at hidx0
            exact (Int.ofNat_inj.mp hidx0).symm
          obtain ⟨col1, k1, k2, k3, k4, k5, k6⟩ := hcols1 c col (by
            show (arch.columns.set c0 _)[c]? = some col
            rw [List.getElem?_set_ne heq]
            exact hc)
          refine ⟨col1, k1, k2, k3, k4, ?_, ?_⟩
          · intro hall
            exact k5 (fun en hen => hall en (by simp [hen]))
          · intro en hen hbit
            simp only [List.mem_cons] at hen
            rcases hen with rfl | hen
            · exact absurd hbit hne
            · exact k6 en hen hbit
    · have hstep : spawn_entry arch t = some arch := by
        unfold spawn_entry
        rw [ht, bit_index_two_pow b0 hb0]
        simp only [ge_iff_le, hge, if_false]
      obtain ⟨arch1, ha1, hcols1⟩ := ih arch h1 h2 hbits1 hnd.2 hdata1
      refine ⟨arch1, ?_, ?_⟩
      · unfold spawn_entries
        rw [hstep]
        exact ha1
      · intro c col hc
        obtain ⟨col1, k1, k2, k3, k4, k5, k6⟩ := hcols1 c col hc
        have hne : t.bit ≠ col.bit := by
          intro hbit
          obtain ⟨b, hb, hcb, hidx⟩ := h2 c col hc
          have hbb : b0 = b := two_pow_inj (ht.symm.trans (hbit.trans hcb))
          subst hbb
          apply hge
          rw [hidx]
          exact Int.natCast_nonneg _
        refine ⟨col1, k1, k2, k3, k4, ?_, ?_⟩
        · intro hall
          exact k5 (fun en hen => hall en (by simp [hen]))
        · intro en hen hbit
          simp only [List.mem_cons] at hen
          rcases hen with rfl | hen
          · exact absurd hbit hne
          · exact k6 en hen hbit

theorem entry_bytes_length {en : freecs_type_info_entry_t} {bytes : List Nat}
    (h : entry_bytes en = some bytes) : bytes.length = en.size := by
  unfold entry_bytes at h
  cases hd : en.data with
  | none =>
    rw [hd] at h
    simp only [Option.some.injEq] at h
    rw [← h]; simp
  | some d =>
    rw [hd] at h
    simp only at h
    by_cases hs : en.size > 0
    · rw [if_pos hs] at h
      by_cases hl : en.size ≤ d.length
      · rw [if_pos hl] at h
        simp only [Option.some.injEq] at h
        rw [← h]; simp [hl]
      · rw [if_neg hl] at h; cases h
    · rw [if_neg hs] at h
      simp only [Option.some.injEq] at h
      rw [← h]; simp

theorem entry_bytes_some {en : freecs_type_info_entry_t}
    (h : ∀ d, en.data = some d → en.size ≤ d.length) : ∃ bytes, entry_bytes en = some bytes := by
  unfold entry_bytes
  cases hd : en.data with
  | none => exact ⟨_, rfl⟩
  | some d =>
    simp only
    by_cases hs : en.size > 0
    · rw [if_pos hs, if_pos (h d hd)]
      exact ⟨_, rfl⟩
    · rw [if_neg hs]
      exact ⟨_, rfl⟩

theorem entry_bytes_data {en : freecs_type_info_entry_t} {d : List Nat}
    (hd : en.data = some d) (hs : en.size ≤ d.length) :
    entry_bytes en = some (d.take en.size) := by
  unfold entry_bytes
  simp only [hd]
  by_cases hz : en.size > 0
  · rw [if_pos hz, if_pos hs]
  · rw [if_neg hz]
    have : en.size = 0 := by omega
    rw [this]
    rfl

theorem comp_view_of_col {arch : freecs_archetype_t} {b c : Nat}
    {col : freecs_component_column_t} (hb : b < 64)
    (hidx : arch.column_bits.getD b (-1) = (c : Int)) (hcol : arch.columns[c]? = some col)
    (row : Nat) :
    comp_view arch row (2 ^ b) =
      if col.data_cap = 0 then some none else some (some (row_bytes col row)) := by
  unfold comp_view
  rw [bit_index_two_pow b hb]
  simp only [hidx]
  rw [if_neg (by omega), Int.toNat_ofNat, hcol]

/-- Effect of the entry loop of `freecs_spawn` on an archetype with the column
layout, when the entries list every bit of the mask once with its registered
size: the layout is kept for the new row count, and the new row shows the
bytes of each entry of non-zero size. -/
theorem spawn_cols {ts : List Nat} {arch : freecs_archetype_t}
    {entries : List freecs_type_info_entry_t} (entity : freecs_entity_t)
    (hcols : ArchCols ts arch)
    (hnd : (entries.map (fun en => en.bit)).Nodup)
    (hbit : ∀ en ∈ entries, ∃ b, b < 64 ∧ en.bit = 2 ^ b ∧ arch.mask.testBit b = true ∧
      en.size = ts.getD b 0)
    (hcov : ∀ (b : Nat), b < 64 → arch.mask.testBit b = true → ∃ en ∈ entries, en.bit = 2 ^ b)
    (hdata : ∀ en ∈ entries, ∀ (d : List Nat), en.data = some d → en.size ≤ d.length) :
    ∃ arch1, spawn_entries { arch with entities := arch.entities ++ [entity] } entries =
        some arch1 ∧
      ArchCols ts arch1 ∧ arch1.entities = arch.entities ++ [entity] ∧
      arch1.mask = arch.mask ∧ graph_of arch1 = graph_of arch ∧
      ∀ en ∈ entries, en.size ≠ 0 → ∀ bytes, entry_bytes en = some bytes →
        comp_view arch1 arch.entities.length en.bit = some (some bytes) := by
  obtain ⟨arch1, hse, hlay⟩ := spawn_entries_layout entries
    { arch with entities := arch.entities ++ [entity] }
    (fun b hb hge => (hcols.col_of_bit b hb hge).2)
    (fun c col hc => by
      obtain ⟨b, hb, h1, h2, _⟩ := hcols.col_ok c col hc
      exact ⟨b, hb, h1, h2⟩)
    (fun en hen => by
      obtain ⟨b, hb, h1, _⟩ := hbit en hen
      exact ⟨b, hb, h1⟩)
    hnd (fun en hen => entry_bytes_some (hdata en hen))
  obtain ⟨s1, s2, s3, s4, s5, s6⟩ := spawn_entries_spec _ _ _ hse
  have hents : arch1.entities = arch.entities ++ [entity] := s2
  have hmask : arch1.mask = arch.mask := s1
  have hbits : arch1.column_bits = arch.column_bits := s5
  -- every column has its entry
  have hentry : ∀ (c : Nat) (col : freecs_component_column_t), arch.columns[c]? = some col →
      ∃ en ∈ entries, en.bit = col.bit ∧ en.size = col.elem_size := by
    intro c col hc
    obtain ⟨b, hb, h1, h2, h3, _⟩ := hcols.col_ok c col hc
    have hge : 0 ≤ arch.column_bits.getD b (-1) := by rw [h2]; exact Int.natCast_nonneg _
    obtain ⟨en, hen, henb⟩ := hcov b hb (hcols.col_of_bit b hb hge).1
    obtain ⟨b1, _, hb1, _, hsz⟩ := hbit en hen
    have hbb : b1 = b := two_pow_inj (hb1.symm.trans henb)
    subst hbb
    exact ⟨en, hen, henb.trans h1.symm, hsz.trans h3.symm⟩
  refine ⟨arch1, hse, ?_, hents, hmask, ?_, ?_⟩
  · refine hcols.update hmask hbits s6 ?_
    intro c col hc
    obtain ⟨col1, k1, k2, k3, _, _, k6⟩ := hlay c col hc
    obtain ⟨en, hen, henb, hsz⟩ := hentry c col hc
    obtain ⟨bytes, hby, hdat, hcap⟩ := k6 en hen henb
    obtain ⟨b, hb, h1, h2, h3, h4, h5, h6⟩ := hcols.col_ok c col hc
    have hbl := entry_bytes_length hby
    refine ⟨col1, k1, k2, k3, ?_, ?_, ?_⟩
    · rw [hdat, hents, k2]
      simp only [List.length_append, List.length_singleton]
      rw [h4, hbl, hsz, Nat.add_mul, Nat.one_mul]
    · intro hz
      rw [hcap] at hz
      by_cases hes : col.elem_size = 0
      · rw [hdat]
        have hb0 : bytes = [] := List.eq_nil_of_length_eq_zero (by rw [hbl, hsz, hes])
        have hd0 : col.data = [] := List.eq_nil_of_length_eq_zero (by rw [h4, hes]; simp)
        rw [hb0, hd0]; rfl
      · exact absurd hz (ensure_capacity_pos (by rw [hsz]; omega))
    · intro hz
      rw [k2] at hz
      rw [hcap, hsz, hz, h6 hz]
      have hd0 : col.data = [] := List.eq_nil_of_length_eq_zero (by rw [h4, hz]; simp)
      rw [hd0]
      exact ensure_capacity_zero 0
  · unfold graph_of
    rw [hmask, s3, s4]
  · intro en hen hsz bytes hby
    obtain ⟨b, hb, henb, htest, hsize⟩ := hbit en hen
    have hge := hcols.bit_has_col b hb htest (by rw [← hsize]; exact hsz)
    obtain ⟨_, col, hcol, hcolbit⟩ := hcols.col_of_bit b hb hge
    have hidx : arch.column_bits.getD b (-1) =
        (((arch.column_bits.getD b (-1)).toNat : Nat) : Int) := (Int.toNat_of_nonneg hge).symm
    generalize (arch.column_bits.getD b (-1)).toNat = c at hcol hidx
    obtain ⟨col1, k1, k2, k3, _, _, k6⟩ := hlay c col hcol
    obtain ⟨bytes1, hby1, hdat, hcap⟩ := k6 en hen (henb.trans hcolbit.symm)
    rw [hby] at hby1
    have hbb := Option.some.inj hby1
    subst hbb
    obtain ⟨b2, hb2, h1, h2, h3, h4, h5, h6⟩ := hcols.col_ok c col hcol
    have hbl := entry_bytes_length hby
    have hb2b : b2 = b := two_pow_inj (h1.symm.trans hcolbit)
    subst hb2b
    have hes : col.elem_size = en.size := by rw [h3, hsize]
    rw [henb, comp_view_of_col hb (by rw [hbits]; exact hidx) k1]
    rw [if_neg (by rw [hcap]; exact ensure_capacity_pos (by omega))]
    congr 2
    unfold row_bytes
    rw [hdat, k2, hes, ← hes, ← h4, List.drop_left, hes, ← hbl, List.take_length]

/-- What `alloc_entity` leaves unchanged, and how far the slot table can grow. -/
theorem alloc_entity_frame {world world1 : freecs_world_t} {e : freecs_entity_t}
    (hal : alloc_entity world = (world1, e)) :
    world1.archetypes = world.archetypes ∧ world1.type_sizes = world.type_sizes ∧
      world1.next_bit = world.next_bit ∧ world1.query_cache = world.query_cache ∧
      world1.despawn_queue = world.despawn_queue ∧
      world1.locations.length ≤ max world.locations.length (world.next_entity_id + 1) := by
  rcases alloc_entity_cases world with ⟨e1, _, h1⟩ | ⟨_, h1⟩
  · rw [h1] at hal
    simp only [Prod.mk.injEq] at hal
    rw [← hal.1]
    exact ⟨rfl, rfl, rfl, rfl, rfl, by simp⟩
  · rw [h1] at hal
    simp only [Prod.mk.injEq] at hal
    rw [← hal.1]
    unfold ensure_entity_slot
    split
    · exact ⟨rfl, rfl, rfl, rfl, rfl, by simp⟩
    · refine ⟨rfl, rfl, rfl, rfl, rfl, ?_⟩
      simp only [List.length_append, List.length_replicate]
      omega

theorem EntriesFor.type_info {world : freecs_world_t} {mask : Nat}
    {entries : List freecs_type_info_entry_t} (he : EntriesFor world mask entries) :
    TypeInfoFor world.type_sizes mask entries :=
  ⟨he.mask_ne, he.nodup, he.bit_ok, fun b _ ht _ => he.covers b ht⟩

theorem EntriesFor.not_rejected {world : freecs_world_t} {mask : Nat}
    {entries : List freecs_type_info_entry_t} (he : EntriesFor world mask entries) :
    ¬ (entries.length = 0 ∨ mask = 0) := by
  intro h
  rcases h with h | h
  · obtain ⟨b, hb⟩ := Nat.ne_zero_implies_bit_true he.mask_ne
    obtain ⟨en, hen, _⟩ := he.covers b hb
    have : entries = [] := List.eq_nil_of_length_eq_zero h
    rw [this] at hen
    simp at hen
  · exact he.mask_ne h

/-- Function `freecs_spawn` in a well-formed world, called with entries that
list every bit of the mask once with its registered size: the call returns, the
world stays well-formed, the new handle is recorded in the last row of the
archetype of `mask`, and that row shows the bytes of every entry of non-zero
size. -/
theorem spawn_wf {world : freecs_world_t} (hw : WellFormed world) {mask : Nat}
    {entries : List freecs_type_info_entry_t} (he : EntriesFor world mask entries)
    (hb1 : world.locations.length + 1 < 2 ^ 32) (hb2 : world.archetypes.length + 1 < 2 ^ 31) :
    ∃ world1 entity loc arch1, freecs_spawn world mask entries = some (world1, entity) ∧
      WellFormed world1 ∧ world1.locations[entity.id]? = some loc ∧ loc.alive = true ∧
      loc.generation = entity.generation ∧
      world1.archetypes[loc.archetype_index]? = some arch1 ∧ arch1.mask = mask ∧
      loc.row + 1 = arch1.entities.length ∧
      world1.type_sizes = world.type_sizes ∧ world1.next_bit = world.next_bit ∧
      ∀ en ∈ entries, en.size ≠ 0 → ∀ bytes, entry_bytes en = some bytes →
        comp_view arch1 loc.row en.bit = some (some bytes) := by
  have hm := he.not_rejected
  obtain ⟨w1, idx, hfoc⟩ := find_or_create_some hw.struct mask entries (fun en hen => by
    obtain ⟨b, hb, h1, _⟩ := he.bit_ok en hen
    exact ⟨b, hb, h1⟩)
  have hlen1 : w1.archetypes.length ≤ world.archetypes.length + 1 := by
    rcases find_or_create_cases _ _ _ _ _ hfoc with ⟨rfl, _⟩ | ⟨_, _, arch0, _, rfl⟩
    · omega
    · simp
  obtain ⟨hs1, ⟨arch, hidx, hmask⟩, hlocs1, hfree1, hnext1⟩ :=
    hw.struct.find_or_create hfoc (by omega)
  obtain ⟨hc1, hts1, hnb1⟩ := hw.cols.create_cols he.type_info he.mask_reg hfoc
  cases hal : alloc_entity w1 with
  | mk w2 entity =>
  obtain ⟨f1, f2, f3, _, _, f6⟩ := alloc_entity_frame hal
  have hb3 : w2.locations.length < 2 ^ 32 := by
    rw [hlocs1, hnext1, hw.struct.next_id] at f6
    have : max world.locations.length (world.locations.length + 1) =
      world.locations.length + 1 := by omega
    omega
  obtain ⟨hl, hnext, harch, hidx2, hgen⟩ := alloc_limbo hs1 hal hb3
  have hac := hc1.archs idx arch hidx
  obtain ⟨arch1, hse, hac1, hents1, hmask1, hgraph1, hview⟩ := @spawn_cols w1.type_sizes
    arch entries entity hac he.nodup
    (fun en hen => by
      obtain ⟨b, hb, h1, h2, h3⟩ := he.bit_ok en hen
      exact ⟨b, hb, h1, by rw [hmask]; exact h2, by rw [hts1]; exact h3⟩)
    (fun b _ ht => he.covers b (by rw [← hmask]; exact ht)) he.data_ok
  have hlt : entity.id < w2.locations.length := hl.in_range
  have hspawn : freecs_spawn world mask entries = some ({ w2 with
      archetypes := w2.archetypes.set idx arch1
      locations := w2.locations.set entity.id
        ⟨toU32 idx, toU32 arch.entities.length, entity.generation, true⟩ }, entity) := by
    unfold freecs_spawn
    rw [if_neg hm]
    simp only [hfoc, hidx, hal, hse, hlt, if_true]
  have hs2 : StructInv { w2 with
      archetypes := w2.archetypes.set idx arch1
      locations := w2.locations.set entity.id
        ⟨toU32 idx, toU32 arch.entities.length, entity.generation, true⟩ } :=
    hw.struct.spawn hspawn (by
      constructor
      · simpa using hb3
      · simp only [List.length_set]
        rw [f1]; omega)
  have hidxlt : idx < w2.archetypes.length := by
    rw [f1]
    rcases Nat.lt_or_ge idx w1.archetypes.length with hlt2 | hge
    · exact hlt2
    · rw [List.getElem?_eq_none hge] at hidx; cases hidx
  have harch1 : (w2.archetypes.set idx arch1)[idx]? = some arch1 :=
    List.getElem?_set_self hidxlt
  have hlast : arch1.entities[arch.entities.length]? = some entity := by
    rw [hents1]
    simp
  have hloc := hs2.ent.slot idx arch.entities.length arch1.entities entity
    (by simp only [ents, List.getElem?_map, harch1, Option.map_some']) hlast
  have hc2 : ColInv { w2 with
      archetypes := w2.archetypes.set idx arch1
      locations := w2.locations.set entity.id
        ⟨toU32 idx, toU32 arch.entities.length, entity.generation, true⟩ } := by
    have hcw2 : ColInv w2 := hc1.same_cols f1 f2 f3
    exact @ColInv.set_arch w2 _ hcw2 idx arch arch1 (by rw [f1]; exact hidx) rfl
      hmask1 (by rw [f2]; exact hac1) rfl rfl
  refine ⟨_, entity, _, arch1, hspawn, ⟨hs2, hc2⟩, hloc, rfl, rfl, harch1,
    hmask1.trans hmask, ?_, ?_, ?_, hview⟩
  · rw [hents1]; simp
  · show w2.type_sizes = world.type_sizes
    rw [f2, hts1]
  · show w2.next_bit = world.next_bit
    rw [f3, hnb1]

/-- Swap-remove in archetype `a` commutes with replacing another archetype `t`. -/
theorem remove_row_set_other_intro {world w2 : freecs_world_t} {a t row : Nat}
    (to1 : freecs_archetype_t) (hne : a ≠ t) (h : remove_row world a row = some w2) :
    remove_row { world with archetypes := world.archetypes.set t to1 } a row =
      some { w2 with archetypes := w2.archetypes.set t to1 } := by
  obtain ⟨arch, last, columns2, harch, hlast, hcases⟩ := remove_row_spec h
  have harch1 : ({ world with archetypes := world.archetypes.set t to1 } :
      freecs_world_t).archetypes[a]? = some arch := by
    show (world.archetypes.set t to1)[a]? = some arch
    rw [List.getElem?_set_ne (Ne.symm hne)]
    exact harch
  have hlen : arch.entities.length ≠ 0 := by
    intro h0
    rw [h0] at hlast
    have := (List.getElem?_eq_some.mp hlast).1
    omega
  rcases hcases with ⟨hlt, lloc, columns1, hlloc, hc1, hc2, hw⟩ | ⟨hnlt, hc2, hw⟩
  · rw [remove_row_intro_swap harch1 hlt hlast hlloc hc1 hc2, hw]
    simp only [List.set_comm _ _ _ (Ne.symm hne)]
  · rw [remove_row_intro_last harch1 hlen hnlt hc2, hw]
    simp only [List.set_comm _ _ _ (Ne.symm hne)]

/-- One step of the column loop of `move_entity` between two archetypes with
the column layout: the destination column receives the bytes of the source row
when the source has a column of the same bit, zero bytes otherwise. -/
theorem move_column_some {ts : List Nat} {from_arch : freecs_archetype_t} {from_row : Nat}
    (hfrom : ArchCols ts from_arch) (hrow : from_row < from_arch.entities.length)
    {to_col : freecs_component_column_t} {b : Nat} (hb : b < 64) (hbit : to_col.bit = 2 ^ b)
    (hes : to_col.elem_size = ts.getD b 0) :
    ∃ extra, move_column from_arch from_row to_col = some
        { to_col with
            data := to_col.data ++ extra
            data_cap := ensure_capacity_u8 to_col.data_cap
              (to_col.data.length + to_col.elem_size) } ∧
      extra.length = to_col.elem_size ∧
      (∀ fc, 0 ≤ from_arch.column_bits.getD b (-1) →
        from_arch.columns[(from_arch.column_bits.getD b (-1)).toNat]? = some fc →
        extra = row_bytes fc from_row) ∧
      (from_arch.column_bits.getD b (-1) < 0 → extra = List.replicate to_col.elem_size 0) := by
  by_cases hge : 0 ≤ from_arch.column_bits.getD b (-1)
  · obtain ⟨_, fc, hfc, hfcbit⟩ := hfrom.col_of_bit b hb hge
    obtain ⟨b1, hb1, h1, h2, h3, h4, _⟩ := hfrom.col_ok _ fc hfc
    have hbb : b1 = b := two_pow_inj (h1.symm.trans hfcbit)
    subst hbb
    have hsz : fc.elem_size = to_col.elem_size := by rw [h3, hes]
    have hfit : from_row * fc.elem_size + to_col.elem_size ≤ fc.data.length := by
      rw [h4, ← hsz]
      exact row_end_le hrow
    refine ⟨row_bytes fc from_row, ?_, ?_, ?_, ?_⟩
    · unfold move_column
      rw [hsz] at hfit
      simp only [Option.bind_eq_bind, hbit, bit_index_two_pow b1 hb1, Option.some_bind,
        ge_iff_le, hge, if_true, hfc, row_bytes, hsz, hfit]
    · unfold row_bytes
      rw [List.length_take, List.length_drop]
      omega
    · intro fc2 _ hfc2
      rw [hfc] at hfc2
      rw [Option.some.inj hfc2]
    · intro hlt
      omega
  · refine ⟨List.replicate to_col.elem_size 0, ?_, by simp, ?_, fun _ => rfl⟩
    · unfold move_column
      simp only [Option.bind_eq_bind, hbit, bit_index_two_pow b hb, Option.some_bind,
        ge_iff_le, hge, if_false]
    · intro fc hge2
      exact absurd hge2 hge

theorem comp_view_no_col {arch : freecs_archetype_t} {b : Nat} (hb : b < 64)
    (hlt : arch.column_bits.getD b (-1) < 0) (row : Nat) :
    comp_view arch row (2 ^ b) = some none := by
  unfold comp_view
  rw [bit_index_two_pow b hb]
  simp only [hlt, if_true]

/-- In an archetype with the column layout, a bit of registered size 0 always
shows `NULL`. -/
theorem comp_view_zero_size {ts : List Nat} {arch : freecs_archetype_t}
    (h : ArchCols ts arch) {b : Nat} (hb : b < 64) (hz : ts.getD b 0 = 0) (row : Nat) :
    comp_view arch row (2 ^ b) = some none := by
  by_cases hge : 0 ≤ arch.column_bits.getD b (-1)
  · obtain ⟨_, col, hcol, hcolbit⟩ := h.col_of_bit b hb hge
    obtain ⟨b1, hb1, h1, h2, h3, h4, h5, h6⟩ := h.col_ok _ col hcol
    have hbb : b1 = b := two_pow_inj (h1.symm.trans hcolbit)
    subst hbb
    have hidx : arch.column_bits.getD b1 (-1) =
        (((arch.column_bits.getD b1 (-1)).toNat : Nat) : Int) := (Int.toNat_of_nonneg hge).symm
    rw [comp_view_of_col hb hidx hcol, if_pos (h6 (by rw [h3, hz]))]
  · exact comp_view_no_col hb (by omega) row

/-- In an archetype with the column layout, a mask bit of non-zero registered
size shows the bytes of its column in every row. -/
theorem comp_view_present {ts : List Nat} {arch : freecs_archetype_t}
    (h : ArchCols ts arch) {b : Nat} (hb : b < 64) (hm : arch.mask.testBit b = true)
    (hz : ts.getD b 0 ≠ 0) {row : Nat} (hrow : row < arch.entities.length) :
    ∃ (c : Nat) (col : freecs_component_column_t),
      arch.column_bits.getD b (-1) = (c : Int) ∧ arch.columns[c]? = some col ∧
      col.bit = 2 ^ b ∧ col.elem_size = ts.getD b 0 ∧
      col.data.length = arch.entities.length * col.elem_size ∧ col.data_cap ≠ 0 ∧
      comp_view arch row (2 ^ b) = some (some (row_bytes col row)) := by
  have hge := h.bit_has_col b hb hm hz
  obtain ⟨_, col, hcol, hcolbit⟩ := h.col_of_bit b hb hge
  obtain ⟨b1, hb1, h1, h2, h3, h4, h5, h6⟩ := h.col_ok _ col hcol
  have hbb : b1 = b := two_pow_inj (h1.symm.trans hcolbit)
  subst hbb
  have hidx : arch.column_bits.getD b1 (-1) =
      (((arch.column_bits.getD b1 (-1)).toNat : Nat) : Int) := (Int.toNat_of_nonneg hge).symm
  have hcap : col.data_cap ≠ 0 := by
    intro hc
    have := h5 hc
    rw [this] at h4
    simp only [List.length_nil] at h4
    have hpos : 0 < arch.entities.length * col.elem_size :=
      Nat.mul_pos (by omega) (by rw [h3]; omega)
    omega
  refine ⟨_, col, hidx, hcol, hcolbit, h3, h4, hcap, ?_⟩
  rw [comp_view_of_col hb hidx hcol, if_neg hcap]

/-- In an archetype with the column layout, a bit outside the mask shows `NULL`. -/
theorem comp_view_absent {ts : List Nat} {arch : freecs_archetype_t}
    (h : ArchCols ts arch) {b : Nat} (hb : b < 64) (hm : arch.mask.testBit b = false)
    (row : Nat) : comp_view arch row (2 ^ b) = some none := by
  apply comp_view_no_col hb
  by_contra hge
  have := (h.col_of_bit b hb (by omega)).1
  rw [hm] at this
  cases this

theorem row_bytes_append_last {col : freecs_component_column_t} {n : Nat} {extra : List Nat}
    {cap : Nat} (hlen : col.data.length = n * col.elem_size)
    (hex : extra.length = col.elem_size) :
    row_bytes { col with data := col.data ++ extra, data_cap := cap } n = extra := by
  unfold row_bytes
  show ((col.data ++ extra).drop (n * col.elem_size)).take col.elem_size = extra
  rw [← hlen, ← hex]
  exact slice_append_right col.data extra

theorem row_bytes_append_old {col : freecs_component_column_t} {n r : Nat} {extra : List Nat}
    {cap : Nat} (hlen : col.data.length = n * col.elem_size) (hr : r < n) :
    row_bytes { col with data := col.data ++ extra, data_cap := cap } r = row_bytes col r := by
  unfold row_bytes
  show ((col.data ++ extra).drop (r * col.elem_size)).take col.elem_size = _
  exact slice_append_left col.data extra _ _ (by rw [hlen]; exact row_end_le hr)

/-- The column loop of `move_entity` between two archetypes with the column
layout returns; the destination keeps the layout with one more row, its old
rows show what they showed, and the new row shows what the source row showed
for every bit that is in both masks or in neither, and zero bytes for a bit of
non-zero size that only the destination has. -/
theorem move_cols {ts : List Nat} {from_arch to_arch : freecs_archetype_t} {from_row : Nat}
    (entity : freecs_entity_t) (hfrom : ArchCols ts from_arch) (hto : ArchCols ts to_arch)
    (hrow : from_row < from_arch.entities.length) :
    ∃ columns, mapOpt (move_column from_arch from_row) to_arch.columns = some columns ∧
      ∀ to1 : freecs_archetype_t, to1.mask = to_arch.mask →
        to1.entities = to_arch.entities ++ [entity] → to1.columns = columns →
        to1.column_bits = to_arch.column_bits →
        ArchCols ts to1 ∧
        (∀ r, r < to_arch.entities.length → ∀ bit,
          comp_view to1 r bit = comp_view to_arch r bit) ∧
        (∀ b, b < 64 → from_arch.mask.testBit b = to_arch.mask.testBit b →
          comp_view to1 to_arch.entities.length (2 ^ b) =
            comp_view from_arch from_row (2 ^ b)) ∧
        (∀ b, b < 64 → from_arch.mask.testBit b = false → to_arch.mask.testBit b = true →
          ts.getD b 0 ≠ 0 →
          comp_view to1 to_arch.entities.length (2 ^ b) =
            some (some (List.replicate (ts.getD b 0) 0))) := by
  obtain ⟨columns, hmap⟩ := @mapOpt_exists _ _ (move_column from_arch from_row)
    to_arch.columns (by
      intro col hcol
      obtain ⟨c, hc⟩ := List.getElem?_of_mem hcol
      obtain ⟨b, hb, h1, _, h3, _⟩ := hto.col_ok c col hc
      obtain ⟨extra, hmv, _⟩ := move_column_some hfrom hrow hb h1 h3
      exact ⟨_, hmv⟩)
  obtain ⟨hlen, hidx⟩ := mapOpt_some hmap
  have hper : ∀ (c : Nat) (col : freecs_component_column_t), to_arch.columns[c]? = some col →
      ∃ b extra, b < 64 ∧ col.bit = 2 ^ b ∧ to_arch.column_bits.getD b (-1) = (c : Int) ∧
        col.elem_size = ts.getD b 0 ∧
        col.data.length = to_arch.entities.length * col.elem_size ∧
        (col.data_cap = 0 → col.data = []) ∧ (col.elem_size = 0 → col.data_cap = 0) ∧
        columns[c]? = some { col with
          data := col.data ++ extra
          data_cap := ensure_capacity_u8 col.data_cap (col.data.length + col.elem_size) } ∧
        extra.length = col.elem_size ∧
        (∀ fc, 0 ≤ from_arch.column_bits.getD b (-1) →
          from_arch.columns[(from_arch.column_bits.getD b (-1)).toNat]? = some fc →
          extra = row_bytes fc from_row) ∧
        (from_arch.column_bits.getD b (-1) < 0 →
          extra = List.replicate col.elem_size 0) := by
    intro c col hc
    obtain ⟨b, hb, h1, h2, h3, h4, h5, h6⟩ := hto.col_ok c col hc
    obtain ⟨extra, hmv, e1, e2, e3⟩ := move_column_some hfrom hrow hb h1 h3
    obtain ⟨y, hy, hfy⟩ := hidx c col hc
    rw [hmv] at hfy
    rw [← Option.some.inj hfy] at hy
    exact ⟨b, extra, hb, h1, h2, h3, h4, h5, h6, hy, e1, e2, e3⟩
  refine ⟨columns, hmap, ?_⟩
  intro to1 hmask hents hcolumns hbits
  have hac1 : ArchCols ts to1 := by
    refine hto.update hmask hbits (by rw [hcolumns, hlen]) ?_
    intro c col hc
    obtain ⟨b, extra, hb, h1, h2, h3, h4, h5, h6, hy, e1, _, _⟩ := hper c col hc
    refine ⟨{ col with
        data := col.data ++ extra
        data_cap := ensure_capacity_u8 col.data_cap (col.data.length + col.elem_size) },
      by rw [hcolumns]; exact hy, rfl, rfl, ?_, ?_, ?_⟩
    · show (col.data ++ extra).length = to1.entities.length * col.elem_size
      rw [hents]
      simp only [List.length_append, List.length_singleton]
      rw [h4, e1, Nat.add_mul, Nat.one_mul]
    · intro hz
      have hz2 : ensure_capacity_u8 col.data_cap (col.data.length + col.elem_size) = 0 := hz
      show col.data ++ extra = []
      by_cases hes : col.elem_size = 0
      · have hb0 : extra = [] := List.eq_nil_of_length_eq_zero (by rw [e1, hes])
        have hd0 : col.data = [] := List.eq_nil_of_length_eq_zero (by rw [h4, hes]; simp)
        rw [hb0, hd0]; rfl
      · exact absurd hz2 (ensure_capacity_pos (by omega))
    · intro hz
      have hz2 : col.elem_size = 0 := hz
      show ensure_capacity_u8 col.data_cap (col.data.length + col.elem_size) = 0
      have hd0 : col.data = [] := List.eq_nil_of_length_eq_zero (by rw [h4, hz2]; simp)
      rw [hz2, h6 hz2, hd0]
      exact ensure_capacity_zero 0
  -- the new row of a bit with a destination column
  have hnew : ∀ b, b < 64 → to_arch.mask.testBit b = true → ts.getD b 0 ≠ 0 →
      ∃ extra, comp_view to1 to_arch.entities.length (2 ^ b) = some (some extra) ∧
        extra.length = ts.getD b 0 ∧
        (∀ fc, 0 ≤ from_arch.column_bits.getD b (-1) →
          from_arch.columns[(from_arch.column_bits.getD b (-1)).toNat]? = some fc →
          extra = row_bytes fc from_row) ∧
        (from_arch.column_bits.getD b (-1) < 0 →
          extra = List.replicate (ts.getD b 0) 0) := by
    intro b hb hm hz
    have hge := hto.bit_has_col b hb hm hz
    obtain ⟨_, col, hcol, hcolbit⟩ := hto.col_of_bit b hb hge
    obtain ⟨b1, extra, hb1, h1, h2, h3, h4, h5, h6, hy, e1, e2, e3⟩ := hper _ col hcol
    have hbb : b1 = b := two_pow_inj (h1.symm.trans hcolbit)
    subst hbb
    refine ⟨extra, ?_, by rw [e1, h3], e2, by rw [← h3]; exact e3⟩
    rw [comp_view_of_col hb (by rw [hbits]; exact h2) (by rw [hcolumns]; exact hy)]
    rw [if_neg (ensure_capacity_pos (by omega))]
    rw [row_bytes_append_last h4 e1]
  refine ⟨hac1, ?_, ?_, ?_⟩
  · intro r hr bit
    unfold comp_view
    cases hbi : freecs_bit_index bit with
    | none => rfl
    | some bi =>
      simp only [hbits]
      by_cases hneg : to_arch.column_bits.getD bi (-1) < 0
      · rw [if_pos hneg, if_pos hneg]
      · rw [if_neg hneg, if_neg hneg]
        cases hc : to_arch.columns[(to_arch.column_bits.getD bi (-1)).toNat]? with
        | none =>
          have hge2 := List.getElem?_eq_none_iff.mp hc
          rw [hcolumns, List.getElem?_eq_none (by rw [hlen]; exact hge2)]
        | some col =>
          obtain ⟨b, extra, hb, h1, h2, h3, h4, h5, h6, hy, e1, _, _⟩ := hper _ col hc
          rw [hcolumns, hy]
          simp only
          by_cases hes : col.elem_size = 0
          · rw [if_pos (h6 hes), if_pos]
            have hd0 : col.data = [] := List.eq_nil_of_length_eq_zero (by rw [h4, hes]; simp)
            rw [hes, h6 hes, hd0]
            exact ensure_capacity_zero 0
          · have hcap : col.data_cap ≠ 0 := by
              intro hc0
              have := h5 hc0
              rw [this] at h4
              simp only [List.length_nil] at h4
              have hpos : 0 < to_arch.entities.length * col.elem_size :=
                Nat.mul_pos (by omega) (by omega)
              omega
            rw [if_neg hcap, if_neg (ensure_capacity_pos (by omega))]
            rw [row_bytes_append_old h4 hr]
  · intro b hb hsame
    by_cases hz : ts.getD b 0 = 0
    · rw [comp_view_zero_size hac1 hb hz, comp_view_zero_size hfrom hb hz]
    · cases hm : to_arch.mask.testBit b with
      | false =>
        rw [hm] at hsame
        rw [comp_view_absent hac1 hb (by rw [hmask]; exact hm), comp_view_absent hfrom hb hsame]
      | true =>
        rw [hm] at hsame
        obtain ⟨extra, hv, _, e2, _⟩ := hnew b hb hm hz
        obtain ⟨c, fc, f1, f2, _, _, _, _, f7⟩ := comp_view_present hfrom hb hsame hz hrow
        rw [hv, f7]
        have hge : 0 ≤ from_arch.column_bits.getD b (-1) := by
          rw [f1]; exact Int.natCast_nonneg _
        rw [e2 fc hge (by rw [f1, Int.toNat_ofNat]; exact f2)]
  · intro b hb hf ht hz
    obtain ⟨extra, hv, _, _, e3⟩ := hnew b hb ht hz
    rw [hv]
    have hlt : from_arch.column_bits.getD b (-1) < 0 := by
      by_contra hge
      have := (hfrom.col_of_bit b hb (by omega)).1
      rw [hf] at this
      cases this
    rw [e3 hlt]

theorem Frame.refl (world : freecs_world_t) (S : Nat → Prop) : Frame world world S :=
  fun _ _ h => ⟨h, rfl, fun _ => rfl⟩

theorem Frame.trans {w1 w2 w3 : freecs_world_t} {S : Nat → Prop} (h12 : Frame w1 w2 S)
    (h23 : Frame w2 w3 S) : Frame w1 w3 S := by
  intro x hx hal
  obtain ⟨a1, a2, a3⟩ := h12 x hx hal
  obtain ⟨b1, b2, b3⟩ := h23 x hx a1
  exact ⟨b1, b2.trans a2, fun bit => (b3 bit).trans (a3 bit)⟩

theorem Frame.mono {w1 w2 : freecs_world_t} {S T : Nat → Prop} (h : Frame w1 w2 S)
    (hst : ∀ i, S i → T i) : Frame w1 w2 T :=
  fun x hx hal => h x (fun hs => hx (hst _ hs)) hal

/-- A handle that is recorded alive in both worlds, in archetypes of the same
mask and in rows that show the same, is observed the same. -/
theorem observe_of_view {world world2 : freecs_world_t} (hc : ColInv world)
    (hc2 : ColInv world2) {x : freecs_entity_t} {lx lx2 : freecs_entity_location_t}
    {archx archx2 : freecs_archetype_t}
    (hxloc : world.locations[x.id]? = some lx) (hxal : lx.alive = true)
    (hxgen : lx.generation = x.generation)
    (h1 : world2.locations[x.id]? = some lx2) (h2 : lx2.alive = true)
    (h3 : lx2.generation = lx.generation)
    (h5 : world.archetypes[lx.archetype_index]? = some archx)
    (h6 : world2.archetypes[lx2.archetype_index]? = some archx2)
    (h7 : archx2.mask = archx.mask) (h8 : lx.row < archx.entities.length)
    (h9 : lx2.row < archx2.entities.length)
    (h10 : ∀ bit, comp_view archx2 lx2.row bit = comp_view archx lx.row bit) :
    freecs_is_alive world2 x = true ∧
      freecs_component_mask world2 x = freecs_component_mask world x ∧
      ∀ bit, get_bytes world2 x bit = get_bytes world x bit := by
  have hgen2 : lx2.generation = x.generation := h3.trans hxgen
  refine ⟨is_alive_iff.mpr ⟨lx2, h1, h2, hgen2⟩, ?_, ?_⟩
  · rw [component_mask_live hxloc hxal hxgen h5, component_mask_live h1 h2 hgen2 h6, h7]
  · intro bit
    rw [get_bytes_live hxloc hxal hxgen h5 (hc.archs _ _ h5) h8 bit]
    rw [get_bytes_live h1 h2 hgen2 h6 (hc2.archs _ _ h6) h9 bit]
    exact h10 bit

/-- A world that differs only in the free list, the query cache, the pending
queue, the archetype index and the edges of its archetypes is observed the same. -/
theorem Frame.of_same_rows {world world2 : freecs_world_t} (hc : ColInv world)
    (hs : StructInv world) (hc2 : ColInv world2) (hlocs : world2.locations = world.locations)
    (harchs : ∀ (a : Nat) (arch : freecs_archetype_t), world.archetypes[a]? = some arch →
      ∃ arch2, world2.archetypes[a]? = some arch2 ∧ arch2.mask = arch.mask ∧
        arch2.entities = arch.entities ∧ arch2.columns = arch.columns ∧
        arch2.column_bits = arch.column_bits)
    (S : Nat → Prop) : Frame world world2 S := by
  intro x _ hal
  obtain ⟨lx, hxloc, hxal, hxgen⟩ := is_alive_iff.mp hal
  obtain ⟨es, hes, hrow⟩ := hs.ent.alive x.id lx hxloc hxal
  simp only [ents, List.getElem?_map] at hes
  cases harch : world.archetypes[lx.archetype_index]? with
  | none => rw [harch] at hes; simp at hes
  | some archx =>
    rw [harch] at hes
    simp only [Option.map_some', Option.some.injEq] at hes
    subst hes
    have hrowlt : lx.row < archx.entities.length := (List.getElem?_eq_some.mp hrow).1
    obtain ⟨arch2, k1, k2, k3, k4, k5⟩ := harchs _ _ harch
    refine observe_of_view hc hc2 hxloc hxal hxgen (by rw [hlocs]; exact hxloc) hxal rfl
      harch k1 k2 hrowlt (by rw [k3]; exact hrowlt) ?_
    intro bit
    unfold comp_view
    rw [k4, k5]

/-- Function `move_entity` in a well-formed world, for a live handle and a
destination archetype other than its own: the call returns, the world stays
well-formed, the handle is recorded in the new last row of the destination,
that row shows what the old row showed for every bit that is in both masks or
in neither and zero bytes for a new bit of non-zero size, every other live
handle is observed the same, and the entity count is unchanged. -/
theorem move_entity_wf {world : freecs_world_t} (hw : WellFormed world)
    {entity : freecs_entity_t} {loc : freecs_entity_location_t}
    (hloc : world.locations[entity.id]? = some loc) (hal : loc.alive = true)
    (hgen : loc.generation = entity.generation) {to_idx : Nat} {to_arch : freecs_archetype_t}
    (hto : world.archetypes[to_idx]? = some to_arch) (hne : loc.archetype_index ≠ to_idx) :
    ∃ world2 from_arch to1,
      move_entity world entity loc.archetype_index loc.row to_idx = some world2 ∧
      WellFormed world2 ∧
      world.archetypes[loc.archetype_index]? = some from_arch ∧
      loc.row < from_arch.entities.length ∧
      world2.locations[entity.id]? =
        some ⟨to_idx, to_arch.entities.length, entity.generation, true⟩ ∧
      world2.archetypes[to_idx]? = some to1 ∧ to1.mask = to_arch.mask ∧
      to1.entities = to_arch.entities ++ [entity] ∧
      world2.type_sizes = world.type_sizes ∧ world2.next_bit = world.next_bit ∧
      world2.free_entities = world.free_entities ∧
      world2.query_cache = world.query_cache ∧
      world2.despawn_queue = world.despawn_queue ∧
      world2.archetypes.length = world.archetypes.length ∧
      world2.locations.length = world.locations.length ∧
      (∀ b, b < 64 → from_arch.mask.testBit b = to_arch.mask.testBit b →
        comp_view to1 to_arch.entities.length (2 ^ b) =
          comp_view from_arch loc.row (2 ^ b)) ∧
      (∀ b, b < 64 → from_arch.mask.testBit b = false → to_arch.mask.testBit b = true →
        world.type_sizes.getD b 0 ≠ 0 →
        comp_view to1 to_arch.entities.length (2 ^ b) =
          some (some (List.replicate (world.type_sizes.getD b 0) 0))) ∧
      Frame world world2 (fun i => i = entity.id) ∧
      freecs_entity_count world2 = freecs_entity_count world := by
  obtain ⟨w2r, from_arch, from2, last, hrm, hrr, hent⟩ := remove_row_wf hw hloc hal
  have hrowlt : loc.row < from_arch.entities.length := (List.getElem?_eq_some.mp hent).1
  have hfromc := hw.cols.archs _ _ hrr.src
  have htoc := hw.cols.archs _ _ hto
  obtain ⟨columns, hmap, hto1⟩ := move_cols entity hfromc htoc hrowlt
  obtain ⟨t1, t2, t3, t4⟩ := hto1
    { to_arch with entities := to_arch.entities ++ [entity], columns := columns } rfl rfl rfl rfl
  have hrm2 := remove_row_set_other_intro
    { to_arch with entities := to_arch.entities ++ [entity], columns := columns } hne hrm
  have hidlt : entity.id < world.locations.length := by
    rcases Nat.lt_or_ge entity.id world.locations.length with hlt | hge
    · exact hlt
    · rw [List.getElem?_eq_none hge] at hloc; cases hloc
  have hidlt2 : entity.id < (w2r.locations).length := by
    rw [hrr.locs_length]; exact hidlt
  have hmove : move_entity world entity loc.archetype_index loc.row to_idx = some
      { w2r with
          archetypes := w2r.archetypes.set to_idx
            { to_arch with entities := to_arch.entities ++ [entity], columns := columns }
          locations := w2r.locations.set entity.id
            ⟨toU32 to_idx, toU32 to_arch.entities.length, entity.generation, true⟩ } := by
    unfold move_entity
    simp only [Option.bind_eq_bind, hrr.src, hto, hmap, Option.some_bind, hrm2, hidlt2,
      if_true]
  have hs2 := hw.struct.move_entity hloc hal hgen hne hmove
  have hto2 : w2r.archetypes[to_idx]? = some to_arch := by
    rw [hrr.dst, List.getElem?_set_ne hne]
    exact hto
  have hcr : ColInv w2r := hrr.col_inv hw.cols
  have hc2 : ColInv { w2r with
          archetypes := w2r.archetypes.set to_idx
            { to_arch with entities := to_arch.entities ++ [entity], columns := columns }
          locations := w2r.locations.set entity.id
            ⟨toU32 to_idx, toU32 to_arch.entities.length, entity.generation, true⟩ } :=
    @ColInv.set_arch w2r _ hcr to_idx to_arch
      { to_arch with entities := to_arch.entities ++ [entity], columns := columns }
      hto2 rfl rfl (by rw [hrr.sizes_eq]; exact t1) rfl rfl
  have htolt : to_idx < w2r.archetypes.length := by
    rcases Nat.lt_or_ge to_idx w2r.archetypes.length with hlt | hge
    · exact hlt
    · rw [List.getElem?_eq_none hge] at hto2; cases hto2
  have harch1 : (w2r.archetypes.set to_idx
      { to_arch with entities := to_arch.entities ++ [entity], columns := columns })[to_idx]? =
      some { to_arch with entities := to_arch.entities ++ [entity], columns := columns } :=
    List.getElem?_set_self htolt
  have hnewloc := hs2.ent.slot to_idx to_arch.entities.length
    (to_arch.entities ++ [entity]) entity
    (by simp only [ents, List.getElem?_map, harch1, Option.map_some']) (by simp)
  refine ⟨_, from_arch, _, hmove, ⟨hs2, hc2⟩, hrr.src, hrowlt, hnewloc, harch1, rfl, rfl,
    hrr.sizes_eq, hrr.next_bit_eq, hrr.free_eq, hrr.cache_eq, hrr.queue_eq, ?_, ?_, t3, t4,
    ?_, ?_⟩
  · show (w2r.archetypes.set to_idx _).length = _
    rw [List.length_set, hrr.dst, List.length_set]
  · show (w2r.locations.set entity.id _).length = _
    rw [List.length_set, hrr.locs_length]
  · intro x hx hxlive
    obtain ⟨lx, hxloc, hxal, hxgen⟩ := is_alive_iff.mp hxlive
    have hxne : x.id ≠ entity.id := hx
    obtain ⟨lx2, archx, archx2, f1, f2, f3, f4, f5, f6, f7, f8, f9, f10⟩ :=
      hrr.frame hw hloc hal rfl hxne hxloc hxal
    have hloc1 : (w2r.locations.set entity.id
        ⟨toU32 to_idx, toU32 to_arch.entities.length, entity.generation, true⟩)[x.id]? =
          some lx2 := by
      rw [List.getElem?_set_ne (Ne.symm hxne)]
      exact f1
    by_cases hxt : lx.archetype_index = to_idx
    · have hax : archx = to_arch := by
        rw [hxt, hto] at f5
        exact (Option.some.inj f5).symm
      have hax2 : archx2 = to_arch := by
        rw [hxt, hto2] at f6
        exact (Option.some.inj f6).symm
      rw [hax2] at f9 f10
      rw [hax] at f8 f10
      have h6 : ({ w2r with
          archetypes := w2r.archetypes.set to_idx
            { to_arch with entities := to_arch.entities ++ [entity], columns := columns }
          locations := w2r.locations.set entity.id
            ⟨toU32 to_idx, toU32 to_arch.entities.length, entity.generation, true⟩ } :
          freecs_world_t).archetypes[lx2.archetype_index]? =
          some { to_arch with entities := to_arch.entities ++ [entity], columns := columns } := by
        rw [f4, hxt]; exact harch1
      have h9 : lx2.row < ({ to_arch with
          entities := to_arch.entities ++ [entity], columns := columns } :
          freecs_archetype_t).entities.length := by
        show lx2.row < (to_arch.entities ++ [entity]).length
        simp only [List.length_append, List.length_singleton]
        omega
      have h5 : world.archetypes[lx.archetype_index]? = some to_arch := by
        rw [hxt]; exact hto
      refine observe_of_view hw.cols hc2 hxloc hxal hxgen hloc1 f2 f3 h5 h6 rfl f8 h9 ?_
      intro bit
      rw [t2 lx2.row f9 bit]
      exact f10 bit
    · have h6 : ({ w2r with
          archetypes := w2r.archetypes.set to_idx
            { to_arch with entities := to_arch.entities ++ [entity], columns := columns }
          locations := w2r.locations.set entity.id
            ⟨toU32 to_idx, toU32 to_arch.entities.length, entity.generation, true⟩ } :
          freecs_world_t).archetypes[lx2.archetype_index]? = some archx2 := by
        rw [f4]
        show (w2r.archetypes.set to_idx _)[lx.archetype_index]? = some archx2
        rw [List.getElem?_set_ne (Ne.symm hxt)]
        exact f6
      exact observe_of_view hw.cols hc2 hxloc hxal hxgen hloc1 f2 f3 f5 h6 f7 f8 f9 f10
  · have h1 := @entity_count_set w2r { w2r with
          archetypes := w2r.archetypes.set to_idx
            { to_arch with entities := to_arch.entities ++ [entity], columns := columns }
          locations := w2r.locations.set entity.id
            ⟨toU32 to_idx, toU32 to_arch.entities.length, entity.generation, true⟩ }
      to_idx to_arch
      { to_arch with entities := to_arch.entities ++ [entity], columns := columns } hto2 rfl
    have h2 := entity_count_set hrr.src hrr.dst
    have h3 := hrr.ents_length
    simp only [List.length_append, List.length_singleton] at h1
    omega

theorem row_bytes_write_self {col : freecs_component_column_t} {row : Nat} {v : List Nat}
    (hv : v.length = col.elem_size) (hfit : row * col.elem_size + v.length ≤ col.data.length) :
    row_bytes { col with
      data := col.data.take (row * col.elem_size) ++ v ++
        col.data.drop (row * col.elem_size + v.length) } row = v := by
  unfold row_bytes
  show ((col.data.take (row * col.elem_size) ++ v ++
    col.data.drop (row * col.elem_size + v.length)).drop (row * col.elem_size)).take
      col.elem_size = v
  have h := slice_splice_self col.data v (row * col.elem_size) hfit
  rw [hv] at h ⊢
  exact h

theorem row_bytes_write_other {col : freecs_component_column_t} {row r : Nat} {v : List Nat}
    (hv : v.length = col.elem_size) (hfit : row * col.elem_size + v.length ≤ col.data.length)
    (hne : r ≠ row) :
    row_bytes { col with
      data := col.data.take (row * col.elem_size) ++ v ++
        col.data.drop (row * col.elem_size + v.length) } r = row_bytes col r := by
  unfold row_bytes
  show ((col.data.take (row * col.elem_size) ++ v ++
    col.data.drop (row * col.elem_size + v.length)).drop (r * col.elem_size)).take
      col.elem_size = _
  apply slice_splice_other col.data v _ _ _ hfit
  rw [hv]
  rcases Nat.lt_or_gt_of_ne hne with hlt | hgt
  · left
    have : (r + 1) * col.elem_size ≤ row * col.elem_size := Nat.mul_le_mul_right _ hlt
    rw [Nat.add_mul, Nat.one_mul] at this
    exact this
  · right
    have : (row + 1) * col.elem_size ≤ r * col.elem_size := Nat.mul_le_mul_right _ hgt
    rw [Nat.add_mul, Nat.one_mul] at this
    exact this

/-- Overwriting one row of the column of bit index `k` with `elem_size` bytes
keeps the column layout; the row then shows the written bytes for bit `k`, and
every other row and every other bit index shows what it showed. -/
theorem write_cols {ts : List Nat} {arch : freecs_archetype_t} (hac : ArchCols ts arch)
    {k : Nat} (hk : k < 64) (hge : 0 ≤ arch.column_bits.getD k (-1)) {row : Nat}
    (hrow : row < arch.entities.length) {value : List Nat} {size : Nat}
    (hsize : size = ts.getD k 0) (hval : size ≤ value.length) :
    ∃ col col1, arch.columns[(arch.column_bits.getD k (-1)).toNat]? = some col ∧
      write_column col (row * col.elem_size) value size = some col1 ∧
      ∀ arch1 : freecs_archetype_t, arch1.mask = arch.mask → arch1.entities = arch.entities →
        arch1.column_bits = arch.column_bits →
        arch1.columns = arch.columns.set (arch.column_bits.getD k (-1)).toNat col1 →
        ArchCols ts arch1 ∧
        (size ≠ 0 → comp_view arch1 row (2 ^ k) = some (some (value.take size))) ∧
        (∀ r bit, (r ≠ row ∨ freecs_bit_index bit ≠ some k) →
          comp_view arch1 r bit = comp_view arch r bit) := by
  obtain ⟨_, col, hcol, hcolbit⟩ := hac.col_of_bit k hk hge
  obtain ⟨k1, hk1, h1, h2, h3, h4, h5, h6⟩ := hac.col_ok _ col hcol
  have hkk : k1 = k := two_pow_inj (h1.symm.trans hcolbit)
  subst hkk
  have hes : col.elem_size = size := by rw [h3, hsize]
  have hvl : (value.take size).length = col.elem_size := by
    rw [List.length_take, hes]; omega
  have hfit : row * col.elem_size + (value.take size).length ≤ col.data.length := by
    rw [hvl, h4]; exact row_end_le hrow
  have hwrite : write_column col (row * col.elem_size) value size = some
      { col with
          data := col.data.take (row * col.elem_size) ++ value.take size ++
            col.data.drop (row * col.elem_size + (value.take size).length) } := by
    have hl : (value.take size).length = size := by rw [hvl, hes]
    unfold write_column
    rw [if_pos ⟨hval, by rw [hl] at hfit; exact hfit⟩, hl]
  generalize hcdef : (arch.column_bits.getD k1 (-1)).toNat = c at hcol h2 ⊢
  have h2' : arch.column_bits.getD k1 (-1) = (c : Int) := h2
  have hclt : c < arch.columns.length := (List.getElem?_eq_some.mp hcol).1
  refine ⟨col, _, hcol, hwrite, ?_⟩
  intro arch1 hmask hents hbits hcolumns
  have hlen1 : (col.data.take (row * col.elem_size) ++ value.take size ++
      col.data.drop (row * col.elem_size + (value.take size).length)).length =
      col.data.length := splice_length col.data (value.take size) _ hfit
  have hget1 : arch1.columns[c]? = some { col with
      data := col.data.take (row * col.elem_size) ++ value.take size ++
        col.data.drop (row * col.elem_size + (value.take size).length) } := by
    rw [hcolumns, List.getElem?_set_self hclt]
  refine ⟨?_, ?_, ?_⟩
  · refine hac.update hmask hbits (by rw [hcolumns, List.length_set]) ?_
    intro c2 col2 hc2
    by_cases hcc : c = c2
    · subst hcc
      rw [hcol] at hc2
      have := Option.some.inj hc2
      subst this
      refine ⟨_, hget1, rfl, rfl, ?_, ?_, h6⟩
      · rw [hents]
        show (col.data.take (row * col.elem_size) ++ value.take size ++
          col.data.drop (row * col.elem_size + (value.take size).length)).length = _
        rw [hlen1, h4]
      · intro hz
        have hd := h5 hz
        apply List.eq_nil_of_length_eq_zero
        show (col.data.take (row * col.elem_size) ++ value.take size ++
          col.data.drop (row * col.elem_size + (value.take size).length)).length = 0
        rw [hlen1, hd]; rfl
    · obtain ⟨b2, _, _, _, g3, g4, g5, g6⟩ := hac.col_ok c2 col2 hc2
      refine ⟨col2, ?_, rfl, rfl, by rw [hents]; exact g4, g5, g6⟩
      rw [hcolumns, List.getElem?_set_ne hcc]
      exact hc2
  · intro hnz
    have hcap : col.data_cap ≠ 0 := by
      intro hc0
      have := h5 hc0
      rw [this] at h4
      simp only [List.length_nil] at h4
      have hpos : 0 < arch.entities.length * col.elem_size :=
        Nat.mul_pos (by omega) (by omega)
      omega
    rw [comp_view_of_col hk (by rw [hbits]; exact h2') hget1]
    rw [if_neg hcap, row_bytes_write_self hvl hfit]
  · intro r bit hor
    unfold comp_view
    cases hbi : freecs_bit_index bit with
    | none => rfl
    | some bi =>
      simp only [hbits]
      by_cases hneg : arch.column_bits.getD bi (-1) < 0
      · rw [if_pos hneg, if_pos hneg]
      · rw [if_neg hneg, if_neg hneg]
        by_cases hcc : c = (arch.column_bits.getD bi (-1)).toNat
        · rw [← hcc, hget1, hcol]
          simp only
          have hbik : bi = k1 := by
            have hbi64 := bit_index_lt hbi
            obtain ⟨_, colb, hcolb, hcolbbit⟩ := hac.col_of_bit bi hbi64 (by omega)
            rw [← hcc, hcol] at hcolb
            rw [← Option.some.inj hcolb] at hcolbbit
            exact two_pow_inj (hcolbbit.symm.trans h1)
          have hr : r ≠ row := by
            rcases hor with h | h
            · exact h
            · exact absurd (by rw [hbi, hbik]) h
          rw [row_bytes_write_other hvl hfit hr]
        · rw [hcolumns, List.getElem?_set_ne hcc]

theorem live_row {world : freecs_world_t} (hs : StructInv world) {i : Nat}
    {loc : freecs_entity_location_t} (hloc : world.locations[i]? = some loc)
    (hal : loc.alive = true) :
    ∃ arch, world.archetypes[loc.archetype_index]? = some arch ∧
      arch.entities[loc.row]? = some ⟨i, loc.generation⟩ ∧ loc.row < arch.entities.length := by
  obtain ⟨es, hes, hrow⟩ := hs.ent.alive i loc hloc hal
  simp only [ents, List.getElem?_map] at hes
  cases harch : world.archetypes[loc.archetype_index]? with
  | none => rw [harch] at hes; simp at hes
  | some arch =>
    rw [harch] at hes
    simp only [Option.map_some', Option.some.injEq] at hes
    subst hes
    exact ⟨arch, rfl, hrow, (List.getElem?_eq_some.mp hrow).1⟩

/-- Function `write_component` in a well-formed world, for a live handle whose
archetype has a column for bit index `k`, with `size` the registered size: the
call returns, the world stays well-formed, the row of the handle shows the
written bytes for bit `k` and what it showed for every other bit index, and
every other live handle is observed the same. -/
theorem write_component_wf {world : freecs_world_t} (hw : WellFormed world)
    {x : freecs_entity_t} {loc : freecs_entity_location_t}
    (hloc : world.locations[x.id]? = some loc) (hal : loc.alive = true)
    {arch : freecs_archetype_t} (harch : world.archetypes[loc.archetype_index]? = some arch)
    {k : Nat} (hk : k < 64) (hge : 0 ≤ arch.column_bits.getD k (-1))
    {value : List Nat} {size : Nat} (hsize : size = world.type_sizes.getD k 0)
    (hval : size ≤ value.length) :
    ∃ world1 arch1, write_component world x.id k value size = some world1 ∧
      WellFormed world1 ∧ world1.locations = world.locations ∧
      world1.archetypes[loc.archetype_index]? = some arch1 ∧ arch1.mask = arch.mask ∧
      arch1.entities = arch.entities ∧
      world1.type_sizes = world.type_sizes ∧ world1.next_bit = world.next_bit ∧
      world1.free_entities = world.free_entities ∧
      world1.query_cache = world.query_cache ∧
      world1.despawn_queue = world.despawn_queue ∧
      world1.archetypes.length = world.archetypes.length ∧
      (size ≠ 0 → comp_view arch1 loc.row (2 ^ k) = some (some (value.take size))) ∧
      (∀ bit, freecs_bit_index bit ≠ some k →
        comp_view arch1 loc.row bit = comp_view arch loc.row bit) ∧
      Frame world world1 (fun i => i = x.id) ∧
      freecs_entity_count world1 = freecs_entity_count world := by
  obtain ⟨arch0, harch0, hent, hrowlt⟩ := live_row hw.struct hloc hal
  rw [harch] at harch0
  have := Option.some.inj harch0
  subst this
  have hac := hw.cols.archs _ _ harch
  obtain ⟨col, col1, hcol, hwrite, hrest⟩ := write_cols hac hk hge hrowlt hsize hval
  obtain ⟨r1, r2, r3⟩ := hrest
    { arch with columns := arch.columns.set (arch.column_bits.getD k (-1)).toNat col1 }
    rfl rfl rfl rfl
  have hlt : ¬ arch.column_bits.getD k (-1) < 0 := by omega
  have hwc : write_component world x.id k value size = some { world with
      archetypes := world.archetypes.set loc.archetype_index
        { arch with
            columns := arch.columns.set (arch.column_bits.getD k (-1)).toNat col1 } } := by
    unfold write_component
    simp only [Option.bind_eq_bind, hloc, Option.some_bind, harch, hlt, if_false, hcol, hwrite]
  have hs1 := hw.struct.write_component hwc
  have hc1 : ColInv { world with
      archetypes := world.archetypes.set loc.archetype_index
        { arch with
            columns := arch.columns.set (arch.column_bits.getD k (-1)).toNat col1 } } :=
    @ColInv.set_arch world _ hw.cols loc.archetype_index arch
      { arch with columns := arch.columns.set (arch.column_bits.getD k (-1)).toNat col1 }
      harch rfl rfl r1 rfl rfl
  have halt : loc.archetype_index < world.archetypes.length :=
    (List.getElem?_eq_some.mp harch).1
  have harch1 : (world.archetypes.set loc.archetype_index
      { arch with
          columns := arch.columns.set (arch.column_bits.getD k (-1)).toNat col1 })[
        loc.archetype_index]? = some { arch with
          columns := arch.columns.set (arch.column_bits.getD k (-1)).toNat col1 } :=
    List.getElem?_set_self halt
  refine ⟨_, _, hwc, ⟨hs1, hc1⟩, rfl, harch1, rfl, rfl, rfl, rfl, rfl, rfl, rfl, ?_, r2,
    fun bit hbit => r3 loc.row bit (Or.inr hbit), ?_, ?_⟩
  · show (world.archetypes.set _ _).length = _
    rw [List.length_set]
  · intro y hy hylive
    obtain ⟨ly, hyloc, hyal, hygen⟩ := is_alive_iff.mp hylive
    have hyne : y.id ≠ x.id := hy
    obtain ⟨archy, harchy, henty, hrowy⟩ := live_row hw.struct hyloc hyal
    by_cases hsame : ly.archetype_index = loc.archetype_index
    · rw [hsame, harch] at harchy
      have := Option.some.inj harchy
      subst this
      have hrne : ly.row ≠ loc.row := by
        intro hr
        rw [hr, hent] at henty
        have := Option.some.inj henty
        simp only [freecs_entity_t.mk.injEq] at this
        exact hyne this.1.symm
      have h5 : world.archetypes[ly.archetype_index]? = some arch := by
        rw [hsame]; exact harch
      have h6 : ({ world with
          archetypes := world.archetypes.set loc.archetype_index
            { arch with
                columns := arch.columns.set (arch.column_bits.getD k (-1)).toNat col1 } } :
          freecs_world_t).archetypes[ly.archetype_index]? = some { arch with
            columns := arch.columns.set (arch.column_bits.getD k (-1)).toNat col1 } := by
        rw [hsame]; exact harch1
      exact observe_of_view hw.cols hc1 hyloc hyal hygen hyloc hyal rfl h5 h6 rfl hrowy hrowy
        (fun bit => r3 ly.row bit (Or.inl hrne))
    · have h6 : ({ world with
          archetypes := world.archetypes.set loc.archetype_index
            { arch with
                columns := arch.columns.set (arch.column_bits.getD k (-1)).toNat col1 } } :
          freecs_world_t).archetypes[ly.archetype_index]? = some archy := by
        show (world.archetypes.set _ _)[ly.archetype_index]? = some archy
        rw [List.getElem?_set_ne (Ne.symm hsame)]
        exact harchy
      exact observe_of_view hw.cols hc1 hyloc hyal hygen hyloc hyal rfl harchy h6 rfl hrowy
        hrowy (fun _ => rfl)
  · have h1 := @entity_count_set world { world with
      archetypes := world.archetypes.set loc.archetype_index
        { arch with
            columns := arch.columns.set (arch.column_bits.getD k (-1)).toNat col1 } }
      loc.archetype_index arch { arch with
            columns := arch.columns.set (arch.column_bits.getD k (-1)).toNat col1 } harch rfl
    simp only at h1
    omega

theorem entity_count_ents (world : freecs_world_t) :
    freecs_entity_count world = (ents world).foldl (fun c es => c + es.length) 0 := by
  unfold freecs_entity_count ents
  rw [List.foldl_map]

theorem entity_count_congr {world world1 : freecs_world_t} (h : ents world1 = ents world) :
    freecs_entity_count world1 = freecs_entity_count world := by
  rw [entity_count_ents, entity_count_ents, h]

/-- Changing only the edges of one archetype keeps a world well-formed (given
the graph invariant of the result) and is not observable. -/
theorem WellFormed.edges_only {world : freecs_world_t} (hw : WellFormed world) {s : Nat}
    {a a1 : freecs_archetype_t} (ha : world.archetypes[s]? = some a)
    (hmask : a1.mask = a.mask) (hents : a1.entities = a.entities)
    (hcols : a1.columns = a.columns) (hbits : a1.column_bits = a.column_bits)
    (hg : GraphInv { world with archetypes := world.archetypes.set s a1 })
    (S : Nat → Prop) :
    WellFormed { world with archetypes := world.archetypes.set s a1 } ∧
      Frame world { world with archetypes := world.archetypes.set s a1 } S ∧
      freecs_entity_count { world with archetypes := world.archetypes.set s a1 } =
        freecs_entity_count world := by
  have hents2 : ents { world with archetypes := world.archetypes.set s a1 } = ents world := by
    show List.map (fun a => a.entities) (world.archetypes.set _ _) =
      List.map (fun a => a.entities) world.archetypes
    exact map_set_of_eq _ _ _ a _ ha hents
  have hs1 : StructInv { world with archetypes := world.archetypes.set s a1 } :=
    ⟨hw.struct.next_id, by rw [hents2]; exact hw.struct.ent, hg⟩
  have hc1 : ColInv { world with archetypes := world.archetypes.set s a1 } :=
    @ColInv.set_arch world _ hw.cols s a a1 ha rfl hmask
      ((hw.cols.archs s a ha).of_eq hmask hents hcols hbits) rfl rfl
  refine ⟨⟨hs1, hc1⟩, ?_, entity_count_congr hents2⟩
  apply Frame.of_same_rows hw.cols hw.struct hc1 rfl
  intro i X hX
  by_cases hi : s = i
  · subst hi
    rw [ha] at hX
    have := Option.some.inj hX
    subst this
    refine ⟨a1, ?_, hmask, hents, hcols, hbits⟩
    show (world.archetypes.set s a1)[s]? = some a1
    exact List.getElem?_set_self (List.getElem?_eq_some.mp ha).1
  · refine ⟨X, ?_, rfl, rfl, rfl, rfl⟩
    show (world.archetypes.set s a1)[i]? = some X
    rw [List.getElem?_set_ne hi]
    exact hX

/-- Function `find_or_create_archetype` in a well-formed world with a fitting
`type_info` array: the call returns the index of an archetype of the mask, the
world stays well-formed, old archetypes keep their rows and columns, and
nothing observable changes. -/
theorem create_target_wf {world : freecs_world_t} (hw : WellFormed world) {mask : Nat}
    {ti : List freecs_type_info_entry_t} (hti : TypeInfoFor world.type_sizes mask ti)
    (hreg : ∀ b, mask.testBit b = true → Registered world b)
    (hb : world.archetypes.length + 1 < 2 ^ 31) (S : Nat → Prop) :
    ∃ wf idx at1, find_or_create_archetype world mask ti = some (wf, idx) ∧
      WellFormed wf ∧ wf.archetypes[idx]? = some at1 ∧ at1.mask = mask ∧ idx < 2 ^ 31 ∧
      wf.locations = world.locations ∧ wf.free_entities = world.free_entities ∧
      wf.type_sizes = world.type_sizes ∧ wf.next_bit = world.next_bit ∧
      wf.despawn_queue = world.despawn_queue ∧
      wf.archetypes.length ≤ world.archetypes.length + 1 ∧
      (∀ (i : Nat) (X : freecs_archetype_t), world.archetypes[i]? = some X →
        ∃ X1, wf.archetypes[i]? = some X1 ∧ X1.mask = X.mask ∧ X1.entities = X.entities ∧
          X1.columns = X.columns ∧ X1.column_bits = X.column_bits) ∧
      Frame world wf S ∧ freecs_entity_count wf = freecs_entity_count world := by
  obtain ⟨wf, idx, hfoc⟩ := find_or_create_some hw.struct mask ti (fun en hen => by
    obtain ⟨b, hb, h1, _⟩ := hti.bit_ok en hen
    exact ⟨b, hb, h1⟩)
  have hlen1 : wf.archetypes.length ≤ world.archetypes.length + 1 := by
    rcases find_or_create_cases _ _ _ _ _ hfoc with ⟨rfl, _⟩ | ⟨_, _, arch0, _, rfl⟩
    · omega
    · simp
  obtain ⟨hs1, ⟨at1, hidx, hmask⟩, hlocs1, hfree1, hnext1⟩ :=
    hw.struct.find_or_create hfoc (by omega)
  obtain ⟨hc1, hts1, hnb1⟩ := hw.cols.create_cols hti hreg hfoc
  have hold : ∀ (i : Nat) (X : freecs_archetype_t), world.archetypes[i]? = some X →
      ∃ X1, wf.archetypes[i]? = some X1 ∧ X1.mask = X.mask ∧ X1.entities = X.entities ∧
        X1.columns = X.columns ∧ X1.column_bits = X.column_bits :=
    fun i X hX => find_or_create_old hfoc hX
  have hq : wf.despawn_queue = world.despawn_queue := by
    rcases find_or_create_cases _ _ _ _ _ hfoc with ⟨rfl, _⟩ | ⟨_, _, arch0, _, rfl⟩ <;> rfl
  have hcount : freecs_entity_count wf = freecs_entity_count world := by
    rcases find_or_create_cases _ _ _ _ _ hfoc with ⟨rfl, _⟩ | ⟨_, _, arch0, h0, rfl⟩
    · rfl
    · rw [entity_count_ents, entity_count_ents]
      have : ents { world with
          archetypes := (world.archetypes ++ [arch0]).map
            (wire_all world.type_sizes mask world.archetypes.length
              (List.range FREECS_MAX_COMPONENTS))
          archetype_index := world.archetype_index ++ [⟨mask, [world.archetypes.length]⟩]
          query_cache := update_query_cache world.query_cache mask world.archetypes.length } =
          ents world ++ [[]] := by
        simp only [ents, List.map_map, List.map_append, List.map_cons, List.map_nil]
        congr 1
        · apply List.map_congr_left
          intro X _
          exact (wire_all_spec _ _ _ _ X).2.1
        · simp only [Function.comp, (wire_all_spec _ _ _ _ arch0).2.1,
            (add_columns_spec _ _ _ h0).2.1, new_archetype]
      rw [this, List.foldl_append]
      rfl
  refine ⟨wf, idx, at1, hfoc, ⟨hs1, hc1⟩, hidx, hmask, ?_, hlocs1, hfree1, hts1, hnb1, hq,
    hlen1, hold, Frame.of_same_rows hw.cols hw.struct hc1 hlocs1 hold S, hcount⟩
  have := (List.getElem?_eq_some.mp hidx).1
  omega

theorem and_two_pow_ne_zero_of_testBit {m k : Nat} (h : m.testBit k = true) :
    m &&& 2 ^ k ≠ 0 := by
  intro h0
  have := testBit_of_and_two_pow_eq_zero h0
  rw [h] at this
  cases this

theorem and_two_pow_eq_zero_of_testBit {m k : Nat} (h : m.testBit k = false) :
    m &&& 2 ^ k = 0 := by
  by_contra h0
  have := testBit_of_and_two_pow_ne_zero h0
  rw [h] at this
  cases this

theorem testBit_or_two_pow (m k b : Nat) :
    (m ||| 2 ^ k).testBit b = (m.testBit b || decide (k = b)) := by
  rw [Nat.testBit_or, Nat.testBit_two_pow]

theorem or_two_pow_of_testBit {m k : Nat} (h : m.testBit k = true) : m ||| 2 ^ k = m := by
  apply Nat.eq_of_testBit_eq
  intro b
  rw [testBit_or_two_pow]
  by_cases hb : k = b
  · subst hb
    simp [h]
  · simp [hb]

theorem testBit_and_not64_two_pow {m k : Nat} (hm : m < 2 ^ 64) (hk : k < 64) (b : Nat) :
    (m &&& not64 (2 ^ k)).testBit b = (m.testBit b && !decide (k = b)) := by
  rw [Nat.testBit_and, testBit_not64_two_pow hk]
  by_cases hb : b < 64
  · simp [hb]
  · have : m.testBit b = false := by
      apply Nat.testBit_lt_two_pow
      calc m < 2 ^ 64 := hm
        _ ≤ 2 ^ b := Nat.pow_le_pow_right (by omega) (by omega)
    simp [this]

/-- The columns of an archetype with the column layout have distinct bits. -/
theorem ArchCols.bits_nodup {ts : List Nat} {arch : freecs_archetype_t}
    (h : ArchCols ts arch) : (arch.columns.map (fun col => col.bit)).Nodup := by
  rw [List.nodup_iff_getElem?_ne_getElem?]
  intro i j hij hj heq
  simp only [List.length_map] at hj
  simp only [List.getElem?_map] at heq
  have hi : i < arch.columns.length := by omega
  rw [List.getElem?_eq_getElem hi, List.getElem?_eq_getElem hj] at heq
  simp only [Option.map_some', Option.some.injEq] at heq
  obtain ⟨b1, _, h1, h2, _⟩ := h.col_ok i _ (List.getElem?_eq_getElem hi)
  obtain ⟨b2, _, g1, g2, _⟩ := h.col_ok j _ (List.getElem?_eq_getElem hj)
  have hbb : b1 = b2 := two_pow_inj (h1.symm.trans (heq.trans g1))
  subst hbb
  rw [h2] at g2
  have := Int.ofNat_inj.mp g2
  omega

/-- Every mask of a well-formed world is a 64-bit value. -/
theorem ColInv.mask_lt {world : freecs_world_t} (hc : ColInv world) {a : Nat}
    {arch : freecs_archetype_t} (ha : world.archetypes[a]? = some arch) :
    arch.mask < 2 ^ 64 := by
  apply Nat.lt_pow_two_of_testBit
  intro i hi
  cases hb : arch.mask.testBit i with
  | false => rfl
  | true =>
    have := (hc.mask_reg a arch ha i hb).1
    omega

/-- The `type_info` array built by `freecs_add_component` fits the new mask. -/
theorem add_type_info {ts : List Nat} {arch : freecs_archetype_t} (hac : ArchCols ts arch)
    {k : Nat} (hk : k < 64) (hm : arch.mask.testBit k = false) {size : Nat}
    (hsize : size = ts.getD k 0) :
    TypeInfoFor ts (arch.mask ||| 2 ^ k)
      (arch.columns.map (fun col =>
        (⟨col.bit, col.elem_size, none, col.type_index⟩ : freecs_type_info_entry_t)) ++
        [⟨2 ^ k, size, none, k⟩]) ∧
    ¬ arch.columns.length + 1 > FREECS_MAX_COMPONENTS := by
  have hnotin : ∀ col ∈ arch.columns, col.bit ≠ 2 ^ k := by
    intro col hcol hbit
    obtain ⟨c, hc⟩ := List.getElem?_of_mem hcol
    obtain ⟨b, hb, h1, h2, _⟩ := hac.col_ok c col hc
    have hbb : b = k := two_pow_inj (h1.symm.trans hbit)
    subst hbb
    have := (hac.col_of_bit b hb (by rw [h2]; exact Int.natCast_nonneg _)).1
    rw [hm] at this
    cases this
  constructor
  · refine ⟨?_, ?_, ?_, ?_⟩
    · intro h0
      have : (arch.mask ||| 2 ^ k).testBit k = true := by
        rw [testBit_or_two_pow]; simp
      rw [h0] at this
      simp at this
    · simp only [List.map_append, List.map_map, List.map_cons, List.map_nil]
      rw [List.nodup_append]
      refine ⟨hac.bits_nodup, by simp, ?_⟩
      intro x hx hx2
      simp only [List.mem_singleton] at hx2
      subst hx2
      obtain ⟨col, hcol, hbit⟩ := List.mem_map.mp hx
      exact hnotin col hcol hbit
    · intro en hen
      rw [List.mem_append] at hen
      rcases hen with hen | hen
      · obtain ⟨col, hcol, rfl⟩ := List.mem_map.mp hen
        obtain ⟨c, hc⟩ := List.getElem?_of_mem hcol
        obtain ⟨b, hb, h1, h2, h3, _⟩ := hac.col_ok c col hc
        have htest := (hac.col_of_bit b hb (by rw [h2]; exact Int.natCast_nonneg _)).1
        exact ⟨b, hb, h1, by rw [testBit_or_two_pow, htest]; rfl, h3⟩
      · simp only [List.mem_singleton] at hen
        subst hen
        exact ⟨k, hk, rfl, by rw [testBit_or_two_pow]; simp, hsize⟩
    · intro b hb htest hz
      rw [testBit_or_two_pow] at htest
      by_cases hkb : k = b
      · subst hkb
        exact ⟨⟨2 ^ k, size, none, k⟩, by simp, rfl⟩
      · simp only [hkb, decide_False, Bool.or_false] at htest
        have hge := hac.bit_has_col b hb htest hz
        obtain ⟨_, col, hcol, hcolbit⟩ := hac.col_of_bit b hb hge
        refine ⟨⟨col.bit, col.elem_size, none, col.type_index⟩, ?_, hcolbit⟩
        rw [List.mem_append]
        left
        exact List.mem_map.mpr ⟨col, List.getElem?_mem hcol, rfl⟩
  · have := bits_length_le (arch.columns.map (fun col => col.bit)) hac.bits_nodup
      (by
        intro x hx
        obtain ⟨col, hcol, rfl⟩ := List.mem_map.mp hx
        obtain ⟨c, hc⟩ := List.getElem?_of_mem hcol
        obtain ⟨b, hb, h1, _⟩ := hac.col_ok c col hc
        exact ⟨b, hb, h1⟩) {k} (by
        intro i hi
        simp only [Finset.mem_singleton] at hi
        subst hi
        refine ⟨hk, ?_⟩
        intro hx
        obtain ⟨col, hcol, hbit⟩ := List.mem_map.mp hx
        exact hnotin col hcol hbit)
    simp only [List.length_map, Finset.card_singleton] at this
    simp only [FREECS_MAX_COMPONENTS]
    omega

/-- Resolution of the destination archetype of `freecs_add_component` in a
well-formed world: through the add edge when it is set, through
`find_or_create_archetype` (and the edge is then recorded) otherwise. -/
theorem add_target_wf {world : freecs_world_t} (hw : WellFormed world) {s : Nat}
    {arch : freecs_archetype_t} (harch : world.archetypes[s]? = some arch)
    {k : Nat} (hk : k < 64) (hreg : Registered world k) (hm : arch.mask.testBit k = false)
    {size : Nat} (hsize : size = world.type_sizes.getD k 0)
    (hb : world.archetypes.length + 1 < 2 ^ 31) (S : Nat → Prop) :
    ∃ w1 target to_arch from1,
      WellFormed w1 ∧ w1.locations = world.locations ∧
      w1.archetypes[target]? = some to_arch ∧ to_arch.mask = arch.mask ||| 2 ^ k ∧
      w1.archetypes[s]? = some from1 ∧ from1.mask = arch.mask ∧
      from1.entities = arch.entities ∧ from1.columns = arch.columns ∧
      from1.column_bits = arch.column_bits ∧ s ≠ target ∧
      w1.type_sizes = world.type_sizes ∧ w1.next_bit = world.next_bit ∧
      w1.free_entities = world.free_entities ∧
      w1.despawn_queue = world.despawn_queue ∧
      w1.archetypes.length ≤ world.archetypes.length + 1 ∧
      Frame world w1 S ∧ freecs_entity_count w1 = freecs_entity_count world ∧
      ((arch.add_edges.getD k (-1) < 0 ∧ ¬ arch.columns.length + 1 > FREECS_MAX_COMPONENTS ∧
          ∃ wf idx a,
            find_or_create_archetype world (arch.mask ||| 2 ^ k)
              (arch.columns.map (fun col =>
                (⟨col.bit, col.elem_size, none, col.type_index⟩ : freecs_type_info_entry_t)) ++
                [⟨2 ^ k, size, none, k⟩]) = some (wf, idx) ∧
            wf.archetypes[s]? = some a ∧
            w1 = { wf with
              archetypes := wf.archetypes.set s
                { a with add_edges := a.add_edges.set k (toI32 idx) } } ∧
            toI32 idx = (target : Int)) ∨
       (0 ≤ arch.add_edges.getD k (-1) ∧ w1 = world ∧
          arch.add_edges.getD k (-1) = (target : Int))) := by
  have hac := hw.cols.archs s arch harch
  have hne_mask : arch.mask ||| 2 ^ k ≠ arch.mask :=
    or_two_pow_ne (and_two_pow_eq_zero_of_testBit hm)
  by_cases hedge : arch.add_edges.getD k (-1) < 0
  · obtain ⟨hti, hlen⟩ := add_type_info hac hk hm hsize
    obtain ⟨wf, idx, at1, hfoc, hwf, hidx, hmask1, hidx31, hl, hfree, hts, hnb, hq, hlen1,
      hold, hframe, hcount⟩ := create_target_wf hw hti (by
        intro b hb
        rw [testBit_or_two_pow] at hb
        by_cases hkb : k = b
        · subst hkb; exact hreg
        · simp only [hkb, decide_False, Bool.or_false] at hb
          exact hw.cols.mask_reg s arch harch b hb) hb S
    obtain ⟨a, ha, hma, hea, hca, hba⟩ := hold s arch harch
    have hidx_ne : s ≠ idx := by
      intro heq
      rw [heq, hidx] at ha
      rw [← Option.some.inj ha, hmask1] at hma
      exact hne_mask hma
    have hg := hwf.struct.graph.set_add_edge ha hidx (by rw [hmask1, hma])
    obtain ⟨hw1, hframe1, hcount1⟩ := @WellFormed.edges_only wf hwf s a
      { a with add_edges := a.add_edges.set k (toI32 idx) } ha rfl rfl rfl rfl hg S
    refine ⟨_, idx, at1, { a with add_edges := a.add_edges.set k (toI32 idx) }, hw1, hl,
      ?_, hmask1, ?_, hma, hea, hca, hba, hidx_ne, hts, hnb, hfree, hq, ?_,
      hframe.trans hframe1, hcount1.trans hcount, Or.inl ⟨hedge, hlen, wf, idx, a, hfoc, ha,
        rfl, toI32_small hidx31⟩⟩
    · show (wf.archetypes.set s _)[idx]? = some at1
      rw [List.getElem?_set_ne hidx_ne]
      exact hidx
    · show (wf.archetypes.set s _)[s]? = some _
      rw [List.getElem?_set_self (List.getElem?_eq_some.mp ha).1]
    · show (wf.archetypes.set s _).length ≤ _
      rw [List.length_set]
      exact hlen1
  · have hge : 0 ≤ arch.add_edges.getD k (-1) := by omega
    obtain ⟨at1, hat1, hmask1⟩ := hw.struct.graph.add_edge s k arch harch hk hge
    have hidx_ne : s ≠ (arch.add_edges.getD k (-1)).toNat := by
      intro heq
      rw [← heq, harch] at hat1
      rw [← Option.some.inj hat1] at hmask1
      exact hne_mask hmask1.symm
    exact ⟨world, (arch.add_edges.getD k (-1)).toNat, at1, arch, hw, rfl, hat1, hmask1, harch,
      rfl, rfl, rfl, rfl, hidx_ne, rfl, rfl, rfl, rfl, by omega, Frame.refl _ _, rfl,
      Or.inr ⟨hge, rfl, (Int.toNat_of_nonneg hge).symm⟩⟩

theorem comp_view_congr {arch arch1 : freecs_archetype_t} (hc : arch1.columns = arch.columns)
    (hb : arch1.column_bits = arch.column_bits) (row bit : Nat) :
    comp_view arch1 row bit = comp_view arch row bit := by
  unfold comp_view
  rw [hc, hb]

/-- Function `freecs_add_component` in a well-formed world, for a live handle,
a registered bit `2^k` and the registered size: the call returns true, the
world stays well-formed, the handle is alive in an archetype whose mask is the
old mask with bit `k` set (the same archetype and row when the bit was already
set), its row shows the written bytes for bit `k` (when the size is not 0)
and what it showed before for every other bit, and every other live handle is
observed the same. -/
theorem add_component_wf {world : freecs_world_t} (hw : WellFormed world)
    {x : freecs_entity_t} {loc : freecs_entity_location_t}
    (hloc : world.locations[x.id]? = some loc) (hal : loc.alive = true)
    (hgen : loc.generation = x.generation) {arch : freecs_archetype_t}
    (harch : world.archetypes[loc.archetype_index]? = some arch)
    {k : Nat} (hk : k < 64) (hreg : Registered world k)
    {value : List Nat} {size : Nat} (hsize : size = world.type_sizes.getD k 0)
    (hcol : arch.mask.testBit k = true → 0 ≤ arch.column_bits.getD k (-1))
    (hval : size ≤ value.length) (hb : world.archetypes.length + 1 < 2 ^ 31) :
    ∃ world1 loc1 arch1,
      freecs_add_component world x (2 ^ k) value size = some (world1, true) ∧
      WellFormed world1 ∧ world1.locations[x.id]? = some loc1 ∧ loc1.alive = true ∧
      loc1.generation = x.generation ∧
      world1.archetypes[loc1.archetype_index]? = some arch1 ∧
      loc1.row < arch1.entities.length ∧ arch1.mask = arch.mask ||| 2 ^ k ∧
      (arch.mask.testBit k = true → loc1 = loc) ∧
      (size ≠ 0 → comp_view arch1 loc1.row (2 ^ k) = some (some (value.take size))) ∧
      (∀ b, b < 64 → b ≠ k →
        comp_view arch1 loc1.row (2 ^ b) = comp_view arch loc.row (2 ^ b)) ∧
      Frame world world1 (fun i => i = x.id) ∧
      freecs_entity_count world1 = freecs_entity_count world ∧
      world1.type_sizes = world.type_sizes ∧ world1.next_bit = world.next_bit ∧
      world1.free_entities = world.free_entities ∧
      world1.despawn_queue = world.despawn_queue ∧
      world1.locations.length = world.locations.length ∧
      world1.archetypes.length ≤ world.archetypes.length + 1 := by
  have hidlt : ¬ x.id ≥ world.locations.length := by
    have := (List.getElem?_eq_some.mp hloc).1
    omega
  have hbne : ∀ b, b ≠ k → freecs_bit_index (2 ^ b) ≠ some k ∨ ¬ b < 64 := by
    intro b hbk
    by_cases hb64 : b < 64
    · left
      rw [bit_index_two_pow b hb64]
      intro h
      exact hbk (Option.some.inj h)
    · right; exact hb64
  cases hm : arch.mask.testBit k with
  | true =>
    obtain ⟨world1, arch1, hwc, hw1, hl1, harch1, hmask1, hents1, hts, hnb, hfree, _, hq,
      hlen, hvk, hvo, hframe, hcount⟩ :=
      write_component_wf hw hloc hal harch hk (hcol hm) hsize hval
    obtain ⟨_, _, _, hrowlt⟩ := live_row hw.struct hloc hal
    have hrow1 : loc.row < arch1.entities.length := by
      obtain ⟨a0, ha0, _, hr0⟩ := live_row hw.struct hloc hal
      rw [harch] at ha0
      rw [← Option.some.inj ha0] at hr0
      rw [hents1]; exact hr0
    have hadd : freecs_add_component world x (2 ^ k) value size = some (world1, true) := by
      unfold freecs_add_component
      rw [if_neg hidlt]
      simp only [Option.bind_eq_bind, hloc, Option.some_bind, hal, hgen, Bool.not_true,
        bne_self_eq_false, Bool.or_self, Bool.false_eq_true, if_false,
        bit_index_two_pow k hk, harch, and_two_pow_ne_zero_of_testBit hm, ne_eq,
        not_false_eq_true, if_true, hwc]
    refine ⟨world1, loc, arch1, hadd, hw1, by rw [hl1]; exact hloc, hal, hgen, harch1, hrow1,
      by rw [hmask1, or_two_pow_of_testBit hm], fun _ => rfl, hvk, ?_, hframe, hcount, hts,
      hnb, hfree, hq, by rw [hl1], by omega⟩
    intro b hb64 hbk
    rcases hbne b hbk with h | h
    · exact hvo _ h
    · exact absurd hb64 h
  | false =>
    obtain ⟨w1, target, to_arch, from1, hw1, hl1, hto, htomask, hfrom1, hf1m, hf1e, hf1c,
      hf1b, hne, hts1, hnb1, hfree1, hq1, hlen1, hframe1, hcount1, hhow⟩ :=
      add_target_wf hw harch hk hreg hm hsize hb (fun i => i = x.id)
    have hloc1 : w1.locations[x.id]? = some loc := by rw [hl1]; exact hloc
    obtain ⟨w2, from_arch, to1, hmove, hw2, hfa, hrowlt, hloc2, hto1, hto1m, hto1e, hts2,
      hnb2, hfree2, _, hq2, hlen2, hllen2, hview_same, hview_new, hframe2, hcount2⟩ :=
      move_entity_wf hw1 hloc1 hal hgen hto hne
    rw [hfrom1] at hfa
    have := Option.some.inj hfa
    subst this
    have hstep : (if arch.add_edges.getD k (-1) < 0 then
          (if arch.columns.length + 1 > FREECS_MAX_COMPONENTS then none
          else
            (find_or_create_archetype world (arch.mask ||| 2 ^ k)
              (arch.columns.map (fun col =>
                (⟨col.bit, col.elem_size, none, col.type_index⟩ : freecs_type_info_entry_t)) ++
                [⟨2 ^ k, size, none, k⟩])).bind (fun p =>
              (p.1.archetypes[loc.archetype_index]?).bind (fun a =>
                some ({ p.1 with
                        archetypes := p.1.archetypes.set loc.archetype_index
                          { a with add_edges := a.add_edges.set k (toI32 p.2) } },
                    toI32 p.2))))
        else some (world, arch.add_edges.getD k (-1))) = some (w1, (target : Int)) := by
      rcases hhow with ⟨hedge, hlen, wf, idx, a, hfoc, ha, rfl, htgt⟩ | ⟨hedge, rfl, htgt⟩
      · rw [if_pos hedge, if_neg hlen, hfoc]
        simp only [Option.some_bind, ha, htgt]
      · rw [if_neg (by omega), htgt]
    have htest1 : to1.mask.testBit k = true := by
      rw [hto1m, htomask, testBit_or_two_pow]; simp
    have hrow2 : to_arch.entities.length < to1.entities.length := by
      rw [hto1e]; simp
    have hview_b : ∀ b, b < 64 → b ≠ k →
        comp_view to1 to_arch.entities.length (2 ^ b) = comp_view arch loc.row (2 ^ b) := by
      intro b hb64 hbk
      rw [hview_same b hb64 (by
        rw [hf1m, htomask, testBit_or_two_pow]
        simp [Ne.symm hbk])]
      exact comp_view_congr hf1c hf1b _ _
    by_cases hsz : size > 0
    · have hge2 := (hw2.cols.archs _ _ hto1).bit_has_col k hk htest1
        (by rw [hts2, hts1, ← hsize]; omega)
      obtain ⟨w3, arch3, hwc, hw3, hl3, harch3, hmask3, hents3, hts3, hnb3, hfree3, _, hq3,
        hlen3, hvk, hvo, hframe3, hcount3⟩ :=
        @write_component_wf w2 hw2 x ⟨target, to_arch.entities.length, x.generation, true⟩
          hloc2 rfl to1 hto1 k hk hge2 value size (by rw [hts2, hts1]; exact hsize) hval
      have hadd : freecs_add_component world x (2 ^ k) value size = some (w3, true) := by
        unfold freecs_add_component
        rw [if_neg hidlt]
        simp only [Option.bind_eq_bind, hloc, Option.some_bind, hal, hgen, Bool.not_true,
          bne_self_eq_false, Bool.or_self, Bool.false_eq_true, if_false,
          bit_index_two_pow k hk, harch, and_two_pow_eq_zero_of_testBit hm, ne_eq,
          not_true_eq_false]
        rw [hstep]
        simp only [Option.some_bind]
        rw [if_neg (by omega)]
        simp only [Int.toNat_ofNat, hmove, Option.some_bind, hsz, if_true, hwc]
      refine ⟨w3, ⟨target, to_arch.entities.length, x.generation, true⟩, arch3, hadd, hw3,
        by rw [hl3]; exact hloc2, rfl, rfl, harch3, by rw [hents3]; exact hrow2,
        by rw [hmask3, hto1m, htomask], (fun h => by cases h), hvk, ?_,
        (hframe1.trans hframe2).trans hframe3, by rw [hcount3, hcount2, hcount1],
        by rw [hts3, hts2, hts1], by rw [hnb3, hnb2, hnb1], by rw [hfree3, hfree2, hfree1],
        by rw [hq3, hq2, hq1], by rw [hl3, hllen2, hl1], by rw [hlen3, hlen2]; exact hlen1⟩
      intro b hb64 hbk
      rcases hbne b hbk with h | h
      · rw [hvo _ h]
        exact hview_b b hb64 hbk
      · exact absurd hb64 h
    · have hadd : freecs_add_component world x (2 ^ k) value size = some (w2, true) := by
        unfold freecs_add_component
        rw [if_neg hidlt]
        simp only [Option.bind_eq_bind, hloc, Option.some_bind, hal, hgen, Bool.not_true,
          bne_self_eq_false, Bool.or_self, Bool.false_eq_true, if_false,
          bit_index_two_pow k hk, harch, and_two_pow_eq_zero_of_testBit hm, ne_eq,
          not_true_eq_false]
        rw [hstep]
        simp only [Option.some_bind]
        rw [if_neg (by omega)]
        simp only [Int.toNat_ofNat, hmove, Option.some_bind, hsz, if_false]
      refine ⟨w2, ⟨target, to_arch.entities.length, x.generation, true⟩, to1, hadd, hw2,
        hloc2, rfl, rfl, hto1, hrow2, by rw [hto1m, htomask], (fun h => by cases h),
        (fun h => absurd (by omega) hsz), hview_b, hframe1.trans hframe2,
        by rw [hcount2, hcount1], by rw [hts2, hts1], by rw [hnb2, hnb1],
        by rw [hfree2, hfree1], by rw [hq2, hq1], by rw [hllen2, hl1],
        by rw [hlen2]; exact hlen1⟩

/-- The `type_info` array built by `freecs_remove_component` fits the new mask. -/
theorem remove_type_info {ts : List Nat} {arch : freecs_archetype_t} (hac : ArchCols ts arch)
    (hlt : arch.mask < 2 ^ 64) {k : Nat} (hk : k < 64)
    (hne : arch.mask &&& not64 (2 ^ k) ≠ 0) :
    TypeInfoFor ts (arch.mask &&& not64 (2 ^ k))
      ((arch.columns.filter (fun col => col.bit != 2 ^ k)).map (fun col =>
        (⟨col.bit, col.elem_size, none, col.type_index⟩ : freecs_type_info_entry_t))) ∧
    ¬ ((arch.columns.filter (fun col => col.bit != 2 ^ k)).map (fun col =>
        (⟨col.bit, col.elem_size, none, col.type_index⟩ :
          freecs_type_info_entry_t))).length > FREECS_MAX_COMPONENTS := by
  constructor
  · refine ⟨hne, ?_, ?_, ?_⟩
    · simp only [List.map_map]
      have hsub : List.Sublist
          ((arch.columns.filter (fun col => col.bit != 2 ^ k)).map (fun col => col.bit))
          (arch.columns.map (fun col => col.bit)) :=
        List.Sublist.map _ (List.filter_sublist _)
      exact hac.bits_nodup.sublist hsub
    · intro en hen
      obtain ⟨col, hcol, rfl⟩ := List.mem_map.mp hen
      rw [List.mem_filter] at hcol
      obtain ⟨hcol, hbne⟩ := hcol
      obtain ⟨c, hc⟩ := List.getElem?_of_mem hcol
      obtain ⟨b, hb, h1, h2, h3, _⟩ := hac.col_ok c col hc
      have htest := (hac.col_of_bit b hb (by rw [h2]; exact Int.natCast_nonneg _)).1
      have hkb : k ≠ b := by
        intro hkb
        subst hkb
        rw [h1] at hbne
        simp at hbne
      refine ⟨b, hb, h1, ?_, h3⟩
      rw [testBit_and_not64_two_pow hlt hk, htest]
      simp [hkb]
    · intro b hb htest hz
      rw [testBit_and_not64_two_pow hlt hk] at htest
      simp only [Bool.and_eq_true, Bool.not_eq_true', decide_eq_false_iff_not] at htest
      have hge := hac.bit_has_col b hb htest.1 hz
      obtain ⟨_, col, hcol, hcolbit⟩ := hac.col_of_bit b hb hge
      refine ⟨⟨col.bit, col.elem_size, none, col.type_index⟩, ?_, hcolbit⟩
      apply List.mem_map.mpr
      refine ⟨col, ?_, rfl⟩
      rw [List.mem_filter]
      refine ⟨List.getElem?_mem hcol, ?_⟩
      rw [hcolbit]
      simp only [bne_iff_ne, ne_eq]
      intro h
      exact htest.2 (two_pow_inj h).symm
  · have := bits_length_le (arch.columns.map (fun col => col.bit)) hac.bits_nodup
      (by
        intro x hx
        obtain ⟨col, hcol, rfl⟩ := List.mem_map.mp hx
        obtain ⟨c, hc⟩ := List.getElem?_of_mem hcol
        obtain ⟨b, hb, h1, _⟩ := hac.col_ok c col hc
        exact ⟨b, hb, h1⟩) ∅ (by simp)
    simp only [List.length_map, Finset.card_empty, Nat.add_zero] at this
    have hle := List.length_filter_le (fun col : freecs_component_column_t => col.bit != 2 ^ k)
      arch.columns
    simp only [List.length_map, FREECS_MAX_COMPONENTS]
    omega

/-- Resolution of the destination archetype of `freecs_remove_component` in a
well-formed world: through the remove edge when it is set, through
`find_or_create_archetype` (and the edge is then recorded) otherwise. -/
theorem remove_target_wf {world : freecs_world_t} (hw : WellFormed world) {s : Nat}
    {arch : freecs_archetype_t} (harch : world.archetypes[s]? = some arch)
    {k : Nat} (hk : k < 64) (hm : arch.mask.testBit k = true)
    (hne0 : arch.mask &&& not64 (2 ^ k) ≠ 0)
    (hb : world.archetypes.length + 1 < 2 ^ 31) (S : Nat → Prop) :
    ∃ w1 target to_arch from1,
      WellFormed w1 ∧ w1.locations = world.locations ∧
      w1.archetypes[target]? = some to_arch ∧
      to_arch.mask = arch.mask &&& not64 (2 ^ k) ∧
      w1.archetypes[s]? = some from1 ∧ from1.mask = arch.mask ∧
      from1.entities = arch.entities ∧ from1.columns = arch.columns ∧
      from1.column_bits = arch.column_bits ∧ s ≠ target ∧
      w1.type_sizes = world.type_sizes ∧ w1.next_bit = world.next_bit ∧
      w1.free_entities = world.free_entities ∧
      w1.despawn_queue = world.despawn_queue ∧
      w1.archetypes.length ≤ world.archetypes.length + 1 ∧
      Frame world w1 S ∧ freecs_entity_count w1 = freecs_entity_count world ∧
      ((arch.remove_edges.getD k (-1) < 0 ∧
          ¬ ((arch.columns.filter (fun col => col.bit != 2 ^ k)).map (fun col =>
            (⟨col.bit, col.elem_size, none, col.type_index⟩ :
              freecs_type_info_entry_t))).length > FREECS_MAX_COMPONENTS ∧
          ∃ wf idx a,
            find_or_create_archetype world (arch.mask &&& not64 (2 ^ k))
              ((arch.columns.filter (fun col => col.bit != 2 ^ k)).map (fun col =>
                (⟨col.bit, col.elem_size, none, col.type_index⟩ :
                  freecs_type_info_entry_t))) = some (wf, idx) ∧
            wf.archetypes[s]? = some a ∧
            w1 = { wf with
              archetypes := wf.archetypes.set s
                { a with remove_edges := a.remove_edges.set k (toI32 idx) } } ∧
            toI32 idx = (target : Int)) ∨
       (0 ≤ arch.remove_edges.getD k (-1) ∧ w1 = world ∧
          arch.remove_edges.getD k (-1) = (target : Int))) := by
  have hac := hw.cols.archs s arch harch
  have hmlt := hw.cols.mask_lt harch
  have hne_mask : arch.mask &&& not64 (2 ^ k) ≠ arch.mask :=
    and_not64_ne hk (and_two_pow_ne_zero_of_testBit hm)
  by_cases hedge : arch.remove_edges.getD k (-1) < 0
  · obtain ⟨hti, hlen⟩ := remove_type_info hac hmlt hk hne0
    obtain ⟨wf, idx, at1, hfoc, hwf, hidx, hmask1, hidx31, hl, hfree, hts, hnb, hq, hlen1,
      hold, hframe, hcount⟩ := create_target_wf hw hti (by
        intro b hb
        rw [testBit_and_not64_two_pow hmlt hk] at hb
        simp only [Bool.and_eq_true] at hb
        exact hw.cols.mask_reg s arch harch b hb.1) hb S
    obtain ⟨a, ha, hma, hea, hca, hba⟩ := hold s arch harch
    have hidx_ne : s ≠ idx := by
      intro heq
      rw [heq, hidx] at ha
      rw [← Option.some.inj ha, hmask1] at hma
      exact hne_mask hma
    have hg := hwf.struct.graph.set_remove_edge ha hidx (by rw [hmask1, hma])
    obtain ⟨hw1, hframe1, hcount1⟩ := @WellFormed.edges_only wf hwf s a
      { a with remove_edges := a.remove_edges.set k (toI32 idx) } ha rfl rfl rfl rfl hg S
    refine ⟨_, idx, at1, { a with remove_edges := a.remove_edges.set k (toI32 idx) }, hw1, hl,
      ?_, hmask1, ?_, hma, hea, hca, hba, hidx_ne, hts, hnb, hfree, hq, ?_,
      hframe.trans hframe1, hcount1.trans hcount, Or.inl ⟨hedge, hlen, wf, idx, a, hfoc, ha,
        rfl, toI32_small hidx31⟩⟩
    · show (wf.archetypes.set s _)[idx]? = some at1
      rw [List.getElem?_set_ne hidx_ne]
      exact hidx
    · show (wf.archetypes.set s _)[s]? = some _
      rw [List.getElem?_set_self (List.getElem?_eq_some.mp ha).1]
    · show (wf.archetypes.set s _).length ≤ _
      rw [List.length_set]
      exact hlen1
  · have hge : 0 ≤ arch.remove_edges.getD k (-1) := by omega
    obtain ⟨at1, hat1, hmask1⟩ := hw.struct.graph.remove_edge s k arch harch hk hge
    have hidx_ne : s ≠ (arch.remove_edges.getD k (-1)).toNat := by
      intro heq
      rw [← heq, harch] at hat1
      rw [← Option.some.inj hat1] at hmask1
      exact hne_mask hmask1.symm
    exact ⟨world, (arch.remove_edges.getD k (-1)).toNat, at1, arch, hw, rfl, hat1, hmask1,
      harch, rfl, rfl, rfl, rfl, hidx_ne, rfl, rfl, rfl, rfl, by omega, Frame.refl _ _, rfl,
      Or.inr ⟨hge, rfl, (Int.toNat_of_nonneg hge).symm⟩⟩

/-- Function `freecs_remove_component` in a well-formed world, for a live
handle that has bit `2^k` and at least one other component: the call returns
true, the world stays well-formed, the handle is alive in an archetype whose
mask is the old mask with bit `k` cleared, its row shows what it showed before
for every other bit, and every other live handle is observed the same. -/
theorem remove_component_wf {world : freecs_world_t} (hw : WellFormed world)
    {x : freecs_entity_t} {loc : freecs_entity_location_t}
    (hloc : world.locations[x.id]? = some loc) (hal : loc.alive = true)
    (hgen : loc.generation = x.generation) {arch : freecs_archetype_t}
    (harch : world.archetypes[loc.archetype_index]? = some arch)
    {k : Nat} (hk : k < 64) (hm : arch.mask.testBit k = true)
    (hne0 : arch.mask &&& not64 (2 ^ k) ≠ 0) (hb : world.archetypes.length + 1 < 2 ^ 31) :
    ∃ world1 loc1 arch1,
      freecs_remove_component world x (2 ^ k) = some (world1, true) ∧
      WellFormed world1 ∧ world1.locations[x.id]? = some loc1 ∧ loc1.alive = true ∧
      loc1.generation = x.generation ∧
      world1.archetypes[loc1.archetype_index]? = some arch1 ∧
      loc1.row < arch1.entities.length ∧ arch1.mask = arch.mask &&& not64 (2 ^ k) ∧
      (∀ b, b < 64 → b ≠ k →
        comp_view arch1 loc1.row (2 ^ b) = comp_view arch loc.row (2 ^ b)) ∧
      Frame world world1 (fun i => i = x.id) ∧
      freecs_entity_count world1 = freecs_entity_count world ∧
      world1.type_sizes = world.type_sizes ∧ world1.next_bit = world.next_bit ∧
      world1.free_entities = world.free_entities ∧
      world1.despawn_queue = world.despawn_queue ∧
      world1.locations.length = world.locations.length ∧
      world1.archetypes.length ≤ world.archetypes.length + 1 := by
  have hidlt : ¬ x.id ≥ world.locations.length := by
    have := (List.getElem?_eq_some.mp hloc).1
    omega
  have hmlt := hw.cols.mask_lt harch
  obtain ⟨w1, target, to_arch, from1, hw1, hl1, hto, htomask, hfrom1, hf1m, hf1e, hf1c,
    hf1b, hne, hts1, hnb1, hfree1, hq1, hlen1, hframe1, hcount1, hhow⟩ :=
    remove_target_wf hw harch hk hm hne0 hb (fun i => i = x.id)
  have hloc1 : w1.locations[x.id]? = some loc := by rw [hl1]; exact hloc
  obtain ⟨w2, from_arch, to1, hmove, hw2, hfa, hrowlt, hloc2, hto1, hto1m, hto1e, hts2,
    hnb2, hfree2, _, hq2, hlen2, hllen2, hview_same, hview_new, hframe2, hcount2⟩ :=
    move_entity_wf hw1 hloc1 hal hgen hto hne
  rw [hfrom1] at hfa
  have := Option.some.inj hfa
  subst this
  have hstep : (if arch.remove_edges.getD k (-1) < 0 then
        (if ((arch.columns.filter (fun col => col.bit != 2 ^ k)).map (fun col =>
            (⟨col.bit, col.elem_size, none, col.type_index⟩ :
              freecs_type_info_entry_t))).length > FREECS_MAX_COMPONENTS then none
        else
          (find_or_create_archetype world (arch.mask &&& not64 (2 ^ k))
            ((arch.columns.filter (fun col => col.bit != 2 ^ k)).map (fun col =>
              (⟨col.bit, col.elem_size, none, col.type_index⟩ :
                freecs_type_info_entry_t)))).bind (fun p =>
            (p.1.archetypes[loc.archetype_index]?).bind (fun a =>
              some ({ p.1 with
                      archetypes := p.1.archetypes.set loc.archetype_index
                        { a with remove_edges := a.remove_edges.set k (toI32 p.2) } },
                  toI32 p.2))))
      else some (world, arch.remove_edges.getD k (-1))) = some (w1, (target : Int)) := by
    rcases hhow with ⟨hedge, hlen, wf, idx, a, hfoc, ha, rfl, htgt⟩ | ⟨hedge, rfl, htgt⟩
    · rw [if_pos hedge, if_neg hlen, hfoc]
      simp only [Option.some_bind, ha, htgt]
    · rw [if_neg (by omega), htgt]
  have hrow2 : to_arch.entities.length < to1.entities.length := by
    rw [hto1e]; simp
  have hrem : freecs_remove_component world x (2 ^ k) = some (w2, true) := by
    unfold freecs_remove_component
    rw [if_neg hidlt]
    simp only [Option.bind_eq_bind, hloc, Option.some_bind, hal, hgen, Bool.not_true,
      bne_self_eq_false, Bool.or_self, Bool.false_eq_true, if_false,
      bit_index_two_pow k hk, harch, and_two_pow_ne_zero_of_testBit hm, hne0]
    rw [hstep]
    simp only [Option.some_bind]
    rw [if_neg (by omega)]
    simp only [Int.toNat_ofNat, hmove, Option.some_bind]
  refine ⟨w2, ⟨target, to_arch.entities.length, x.generation, true⟩, to1, hrem, hw2,
    hloc2, rfl, rfl, hto1, hrow2, by rw [hto1m, htomask], ?_, hframe1.trans hframe2,
    by rw [hcount2, hcount1], by rw [hts2, hts1], by rw [hnb2, hnb1],
    by rw [hfree2, hfree1], by rw [hq2, hq1], by rw [hllen2, hl1],
    by rw [hlen2]; exact hlen1⟩
  intro b hb64 hbk
  rw [hview_same b hb64 (by
    rw [hf1m, htomask, testBit_and_not64_two_pow hmlt hk]
    simp [Ne.symm hbk])]
  exact comp_view_congr hf1c hf1b _ _

/-- Function `freecs_remove_component` on the only component of a live handle
is `freecs_despawn` and returns true. -/
theorem remove_last_eq {world : freecs_world_t}
    {x : freecs_entity_t} {loc : freecs_entity_location_t}
    (hloc : world.locations[x.id]? = some loc) (hal : loc.alive = true)
    (hgen : loc.generation = x.generation) {arch : freecs_archetype_t}
    (harch : world.archetypes[loc.archetype_index]? = some arch)
    {k : Nat} (hk : k < 64) (hm : arch.mask.testBit k = true)
    (h0 : arch.mask &&& not64 (2 ^ k) = 0) {world1 : freecs_world_t} {ok : Bool}
    (hd : freecs_despawn world x = some (world1, ok)) :
    freecs_remove_component world x (2 ^ k) = some (world1, true) := by
  have hidlt : ¬ x.id ≥ world.locations.length := by
    have := (List.getElem?_eq_some.mp hloc).1
    omega
  unfold freecs_remove_component
  rw [if_neg hidlt]
  simp only [Option.bind_eq_bind, hloc, Option.some_bind, hal, hgen, Bool.not_true,
    bne_self_eq_false, Bool.or_self, Bool.false_eq_true, if_false,
    bit_index_two_pow k hk, harch, and_two_pow_ne_zero_of_testBit hm, h0, if_true, hd]

theorem is_alive_false_iff {world : freecs_world_t} {entity : freecs_entity_t} :
    freecs_is_alive world entity = false ↔
      (entity.id ≥ world.locations.length ∨
        ∃ loc, world.locations[entity.id]? = some loc ∧
          (!loc.alive || loc.generation != entity.generation) = true) := by
  unfold freecs_is_alive
  by_cases hge : entity.id ≥ world.locations.length
  · simp [hge]
  · rw [if_neg hge]
    have hlt : entity.id < world.locations.length := by omega
    rw [List.getElem?_eq_getElem hlt]
    simp only [ge_iff_le, Option.some.injEq, exists_eq_left']
    constructor
    · intro h
      right
      cases ha : (world.locations[entity.id]).alive <;> simp_all
    · intro h
      rcases h with h | h
      · omega
      · cases ha : (world.locations[entity.id]).alive <;> simp_all

theorem despawn_dead {world : freecs_world_t} {entity : freecs_entity_t}
    (h : freecs_is_alive world entity = false) :
    freecs_despawn world entity = some (world, false) := by
  unfold freecs_despawn
  rcases is_alive_false_iff.mp h with hge | ⟨loc, hloc, hdead⟩
  · rw [if_pos hge]
  · by_cases hge : entity.id ≥ world.locations.length
    · rw [if_pos hge]
    · rw [if_neg hge]
      simp only [Option.bind_eq_bind, hloc, Option.some_bind, hdead, if_true]

theorem get_dead {world : freecs_world_t} {entity : freecs_entity_t}
    (h : freecs_is_alive world entity = false) (bit : Nat) :
    freecs_get world entity bit = some Ptr.null := by
  unfold freecs_get
  rcases is_alive_false_iff.mp h with hge | ⟨loc, hloc, hdead⟩
  · rw [if_pos hge]
  · by_cases hge : entity.id ≥ world.locations.length
    · rw [if_pos hge]
    · rw [if_neg hge]
      simp only [Option.bind_eq_bind, hloc, Option.some_bind, hdead, if_true]

theorem set_dead {world : freecs_world_t} {entity : freecs_entity_t}
    (h : freecs_is_alive world entity = false) (bit : Nat) (value : List Nat) (size : Nat) :
    freecs_set world entity bit value size = some (world, false) := by
  unfold freecs_set
  rw [get_dead h bit]
  rfl

theorem has_dead {world : freecs_world_t} {entity : freecs_entity_t}
    (h : freecs_is_alive world entity = false) (bit : Nat) :
    freecs_has world entity bit = some false := by
  unfold freecs_has
  rcases is_alive_false_iff.mp h with hge | ⟨loc, hloc, hdead⟩
  · rw [if_pos hge]
  · by_cases hge : entity.id ≥ world.locations.length
    · rw [if_pos hge]
    · rw [if_neg hge]
      simp only [Option.bind_eq_bind, hloc, Option.some_bind, hdead, if_true]

theorem has_components_dead {world : freecs_world_t} {entity : freecs_entity_t}
    (h : freecs_is_alive world entity = false) (mask : Nat) :
    freecs_has_components world entity mask = some false := by
  unfold freecs_has_components
  rcases is_alive_false_iff.mp h with hge | ⟨loc, hloc, hdead⟩
  · rw [if_pos hge]
  · by_cases hge : entity.id ≥ world.locations.length
    · rw [if_pos hge]
    · rw [if_neg hge]
      simp only [Option.bind_eq_bind, hloc, Option.some_bind, hdead, if_true]

theorem component_mask_dead {world : freecs_world_t} {entity : freecs_entity_t}
    (h : freecs_is_alive world entity = false) :
    freecs_component_mask world entity = some (0, false) := by
  unfold freecs_component_mask
  rcases is_alive_false_iff.mp h with hge | ⟨loc, hloc, hdead⟩
  · rw [if_pos hge]
  · by_cases hge : entity.id ≥ world.locations.length
    · rw [if_pos hge]
    · rw [if_neg hge]
      simp only [Option.bind_eq_bind, hloc, Option.some_bind, hdead, if_true]

theorem add_component_dead {world : freecs_world_t} {entity : freecs_entity_t}
    (h : freecs_is_alive world entity = false) (bit : Nat) (value : List Nat) (size : Nat) :
    freecs_add_component world entity bit value size = some (world, false) := by
  unfold freecs_add_component
  rcases is_alive_false_iff.mp h with hge | ⟨loc, hloc, hdead⟩
  · rw [if_pos hge]
  · by_cases hge : entity.id ≥ world.locations.length
    · rw [if_pos hge]
    · rw [if_neg hge]
      simp only [Option.bind_eq_bind, hloc, Option.some_bind, hdead, if_true]

theorem remove_component_dead {world : freecs_world_t} {entity : freecs_entity_t}
    (h : freecs_is_alive world entity = false) (bit : Nat) :
    freecs_remove_component world entity bit = some (world, false) := by
  unfold freecs_remove_component
  rcases is_alive_false_iff.mp h with hge | ⟨loc, hloc, hdead⟩
  · rw [if_pos hge]
  · by_cases hge : entity.id ≥ world.locations.length
    · rw [if_pos hge]
    · rw [if_neg hge]
      simp only [Option.bind_eq_bind, hloc, Option.some_bind, hdead, if_true]

theorem ColInv.of_create : ColInv freecs_create_world :=
  ⟨Or.inr ⟨0, by omega, rfl⟩, fun a arch h => by simp [freecs_create_world] at h,
    fun a arch h => by simp [freecs_create_world] at h⟩

theorem WellFormed.at_start : WellFormed freecs_create_world :=
  ⟨StructInv.initial, ColInv.of_create⟩

/-- Function `freecs_register_component` hands out the bit `2^n` of the first
unregistered bit index `n` and records the size there. -/
theorem register_component_spec {world world1 : freecs_world_t} {size bit : Nat}
    (hc : ColInv world) (h : freecs_register_component world size = some (world1, bit)) :
    ∃ n, n < 64 ∧ world.next_bit = 2 ^ n ∧ bit = 2 ^ n ∧
      world1 = { world with
        next_bit := (2 ^ n * 2) % 2 ^ 64
        type_sizes := world.type_sizes.set n size } := by
  simp only [freecs_register_component, Option.bind_eq_bind, Option.bind_eq_some,
    Option.some.injEq, Prod.mk.injEq] at h
  obtain ⟨idx, hidx, hw, hbit⟩ := h
  rcases hc.next_bit_ok with h0 | ⟨n, hn, hnb⟩
  · rw [h0] at hidx
    have : freecs_bit_index 0 = none := by decide
    rw [this] at hidx
    cases hidx
  · rw [hnb, bit_index_two_pow n hn] at hidx
    have := Option.some.inj hidx
    subst this
    refine ⟨n, hn, hnb, by rw [← hbit, hnb], ?_⟩
    rw [← hw, hnb]

theorem ColInv.register_cols {world world1 : freecs_world_t} (hc : ColInv world)
    {size bit : Nat} (h : freecs_register_component world size = some (world1, bit)) :
    ColInv world1 := by
  obtain ⟨n, hn, hnb, _, rfl⟩ := register_component_spec hc h
  have hregne : ∀ b, Registered world b → b ≠ n := by
    intro b hb hbn
    subst hbn
    rcases hb.2 with h0 | hlt
    · rw [hnb] at h0
      have : 0 < 2 ^ b := Nat.two_pow_pos _
      omega
    · rw [hnb] at hlt
      omega
  have hsame : ∀ b, Registered world b → (world.type_sizes.set n size).getD b 0 =
      world.type_sizes.getD b 0 := by
    intro b hb
    rw [getD_set_eq, if_neg (fun hx => hregne b hb hx.1.symm)]
  refine ⟨?_, ?_, ?_⟩
  · show (2 ^ n * 2) % 2 ^ 64 = 0 ∨ ∃ m, m < 64 ∧ (2 ^ n * 2) % 2 ^ 64 = 2 ^ m
    by_cases h63 : n = 63
    · left
      subst h63
      rfl
    · right
      refine ⟨n + 1, by omega, ?_⟩
      rw [← Nat.pow_succ]
      apply Nat.mod_eq_of_lt
      exact Nat.pow_lt_pow_right (by omega) (by omega)
  · intro a arch ha b hb
    obtain ⟨hb64, hreg⟩ := hc.mask_reg a arch ha b hb
    refine ⟨hb64, ?_⟩
    show (2 ^ n * 2) % 2 ^ 64 = 0 ∨ 2 ^ b < (2 ^ n * 2) % 2 ^ 64
    have hbn : 2 ^ b < 2 ^ n := by
      rcases hreg with h0 | hlt
      · rw [hnb] at h0
        have : 0 < 2 ^ n := Nat.two_pow_pos _
        omega
      · rw [hnb] at hlt
        exact hlt
    by_cases h63 : n = 63
    · left
      subst h63
      rfl
    · right
      have : (2 ^ n * 2) % 2 ^ 64 = 2 ^ (n + 1) := by
        rw [← Nat.pow_succ]
        apply Nat.mod_eq_of_lt
        exact Nat.pow_lt_pow_right (by omega) (by omega)
      rw [this, Nat.pow_succ]
      omega
  · intro a arch ha
    have hac := hc.archs a arch ha
    have hmreg := hc.mask_reg a arch ha
    refine ⟨hac.mask_ne, hac.col_of_bit, ?_, ?_⟩
    · intro b hb hm hz
      apply hac.bit_has_col b hb hm
      rw [← hsame b (hmreg b hm)]
      exact hz
    · intro c col hcol
      obtain ⟨b, hb, h1, h2, h3, h4, h5, h6⟩ := hac.col_ok c col hcol
      have hm := (hac.col_of_bit b hb (by rw [h2]; exact Int.natCast_nonneg _)).1
      refine ⟨b, hb, h1, h2, ?_, h4, h5, h6⟩
      show col.elem_size = (world.type_sizes.set n size).getD b 0
      rw [hsame b (hmreg b hm)]
      exact h3

theorem write_column_spec {col col1 : freecs_component_column_t} {off size : Nat}
    {value : List Nat} (h : write_column col off value size = some col1) :
    size ≤ value.length ∧ off + size ≤ col.data.length ∧ col1.elem_size = col.elem_size ∧
      col1.bit = col.bit ∧ col1.type_index = col.type_index ∧
      col1.data_cap = col.data_cap ∧ col1.data.length = col.data.length := by
  unfold write_column at h
  by_cases hc : size ≤ value.length ∧ off + size ≤ col.data.length
  · rw [if_pos hc] at h
    have := Option.some.inj h
    subst this
    refine ⟨hc.1, hc.2, rfl, rfl, rfl, rfl, ?_⟩
    simp only [List.length_append, List.length_take, List.length_drop]
    omega
  · rw [if_neg hc] at h
    cases h

/-- Replacing one column by a column of the same shape keeps the column
invariant of the world. -/
theorem ColInv.set_col {world : freecs_world_t} (hc : ColInv world) {a c : Nat}
    {arch : freecs_archetype_t} {col col1 : freecs_component_column_t}
    (ha : world.archetypes[a]? = some arch) (hcol : arch.columns[c]? = some col)
    (h1 : col1.elem_size = col.elem_size) (h2 : col1.bit = col.bit)
    (h3 : col1.data_cap = col.data_cap) (h4 : col1.data.length = col.data.length) :
    ColInv { world with
      archetypes := world.archetypes.set a { arch with columns := arch.columns.set c col1 } } := by
  refine @ColInv.set_arch world _ hc a arch { arch with columns := arch.columns.set c col1 }
    ha rfl rfl ?_ rfl rfl
  refine (hc.archs a arch ha).update rfl rfl (by simp) ?_
  intro c2 col2 hc2
  obtain ⟨b, hb, g1, g2, g3, g4, g5, g6⟩ := (hc.archs a arch ha).col_ok c2 col2 hc2
  by_cases hcc : c = c2
  · subst hcc
    rw [hcol] at hc2
    have := Option.some.inj hc2
    subst this
    refine ⟨col1, ?_, h1, h2, ?_, ?_, ?_⟩
    · show (arch.columns.set c col1)[c]? = some col1
      exact List.getElem?_set_self (List.getElem?_eq_some.mp hcol).1
    · show col1.data.length = arch.entities.length * col1.elem_size
      rw [h4, h1, g4]
    · intro hz
      rw [h3] at hz
      have := g5 hz
      apply List.eq_nil_of_length_eq_zero
      rw [h4, this]; rfl
    · intro hz
      rw [h1] at hz
      rw [h3]; exact g6 hz
  · refine ⟨col2, ?_, rfl, rfl, g4, g5, g6⟩
    show (arch.columns.set c col1)[c2]? = some col2
    rw [List.getElem?_set_ne hcc]
    exact hc2

theorem ColInv.set_cols {world world1 : freecs_world_t} (hc : ColInv world)
    {entity : freecs_entity_t} {bit size : Nat} {value : List Nat} {ok : Bool}
    (h : freecs_set world entity bit value size = some (world1, ok)) : ColInv world1 := by
  unfold freecs_set at h
  cases hg : freecs_get world entity bit with
  | none => rw [hg] at h; simp at h
  | some p =>
    rw [hg] at h
    cases p with
    | null =>
      simp only [Option.bind_eq_bind, Option.some_bind, Option.some.injEq, Prod.mk.injEq] at h
      rw [← h.1]; exact hc
    | cell a c off =>
      simp only [Option.bind_eq_bind, Option.some_bind] at h
      cases ha : world.archetypes[a]? with
      | none => rw [ha] at h; simp at h
      | some arch =>
        rw [ha] at h
        simp only [Option.some_bind] at h
        cases hcol : arch.columns[c]? with
        | none => rw [hcol] at h; simp at h
        | some col =>
          rw [hcol] at h
          simp only [Option.some_bind] at h
          cases hw : write_column col off value size with
          | none => rw [hw] at h; simp at h
          | some col1 =>
            rw [hw] at h
            simp only [Option.some_bind, Option.some.injEq, Prod.mk.injEq] at h
            rw [← h.1]
            obtain ⟨_, _, w3, w4, _, w6, w7⟩ := write_column_spec hw
            exact hc.set_col ha hcol w3 w4 w6 w7

theorem WellFormed.set_wf {world world1 : freecs_world_t} (hw : WellFormed world)
    {entity : freecs_entity_t} {bit size : Nat} {value : List Nat} {ok : Bool}
    (h : freecs_set world entity bit value size = some (world1, ok)) : WellFormed world1 :=
  ⟨hw.struct.set h, hw.cols.set_cols h⟩

theorem two_pow_mod_64 {i : Nat} (hi : i < 64) : 2 ^ i % 2 ^ 64 = 2 ^ i :=
  Nat.mod_eq_of_lt (Nat.pow_lt_pow_right (by omega) hi)

theorem mem_batch_type_info {ts : List Nat} {mask : Nat} {en : freecs_type_info_entry_t} :
    en ∈ batch_type_info ts mask ↔
      ∃ i, i < 64 ∧ mask &&& 2 ^ i ≠ 0 ∧ ts.getD i 0 > 0 ∧
        en = ⟨2 ^ i, ts.getD i 0, none, i⟩ := by
  unfold batch_type_info
  rw [List.mem_filterMap]
  constructor
  · rintro ⟨i, hi, hf⟩
    rw [List.mem_range] at hi
    simp only [FREECS_MAX_COMPONENTS] at hi
    rw [two_pow_mod_64 hi] at hf
    by_cases h1 : mask &&& 2 ^ i ≠ 0
    · rw [if_pos h1] at hf
      by_cases h2 : ts.getD i 0 > 0
      · rw [if_pos h2] at hf
        exact ⟨i, hi, h1, h2, (Option.some.inj hf).symm⟩
      · rw [if_neg h2] at hf; cases hf
    · rw [if_neg h1] at hf; cases hf
  · rintro ⟨i, hi, h1, h2, rfl⟩
    refine ⟨i, by rw [List.mem_range]; exact hi, ?_⟩
    rw [two_pow_mod_64 hi, if_pos h1, if_pos h2]

/-- The `type_info` array built by `freecs_spawn_batch` fits the mask. -/
theorem batch_type_info_fits (ts : List Nat) {mask : Nat} (hm : mask ≠ 0) :
    TypeInfoFor ts mask (batch_type_info ts mask) := by
  refine ⟨hm, ?_, ?_, ?_⟩
  · unfold batch_type_info
    rw [List.map_filterMap]
    apply List.Nodup.filterMap _ (List.nodup_range _)
    intro i j b hi hj
    simp only [Option.mem_def] at hi hj
    have hlt : ∀ (n : Nat), (if mask &&& 2 ^ n % 2 ^ 64 ≠ 0 then
        (if ts.getD n 0 > 0 then
          some (⟨2 ^ n % 2 ^ 64, ts.getD n 0, none, n⟩ : freecs_type_info_entry_t)
        else none) else none).map (fun en => en.bit) = some b →
        b = 2 ^ n % 2 ^ 64 ∧ 2 ^ n % 2 ^ 64 ≠ 0 := by
      intro n hn
      by_cases h1 : mask &&& 2 ^ n % 2 ^ 64 ≠ 0
      · rw [if_pos h1] at hn
        by_cases h2 : ts.getD n 0 > 0
        · rw [if_pos h2] at hn
          simp only [Option.map_some', Option.some.injEq] at hn
          refine ⟨hn.symm, ?_⟩
          intro h0
          rw [h0] at h1
          simp at h1
        · rw [if_neg h2] at hn; cases hn
      · rw [if_neg h1] at hn; cases hn
    obtain ⟨hbi, hi0⟩ := hlt i hi
    obtain ⟨hbj, hj0⟩ := hlt j hj
    have hi64 : i < 64 := by
      by_contra hge
      apply hi0
      have : 2 ^ 64 ∣ 2 ^ i := Nat.pow_dvd_pow 2 (by omega)
      exact Nat.mod_eq_zero_of_dvd this
    have hj64 : j < 64 := by
      by_contra hge
      apply hj0
      have : 2 ^ 64 ∣ 2 ^ j := Nat.pow_dvd_pow 2 (by omega)
      exact Nat.mod_eq_zero_of_dvd this
    rw [two_pow_mod_64 hi64] at hbi
    rw [two_pow_mod_64 hj64] at hbj
    exact two_pow_inj (hbi.symm.trans hbj)
  · intro en hen
    obtain ⟨i, hi, h1, h2, rfl⟩ := mem_batch_type_info.mp hen
    exact ⟨i, hi, rfl, testBit_of_and_two_pow_ne_zero h1, rfl⟩
  · intro b hb htest hz
    exact ⟨⟨2 ^ b, ts.getD b 0, none, b⟩,
      mem_batch_type_info.mpr ⟨b, hb, and_two_pow_ne_zero_of_testBit htest, by omega, rfl⟩, rfl⟩

/-- One iteration of the entity loop of `freecs_spawn_batch` keeps the column
invariant when every column of non-zero element size has a buffer. -/
theorem ColInv.batch_row_cols {world world1 : freecs_world_t} (hc : ColInv world)
    {idx row : Nat} {entity : freecs_entity_t}
    (hcap : ∀ arch, world.archetypes[idx]? = some arch →
      ∀ col ∈ arch.columns, col.elem_size ≠ 0 → col.data_cap ≠ 0)
    (h : spawn_batch_row world idx row = some (world1, entity)) :
    ColInv world1 ∧ (∀ arch, world1.archetypes[idx]? = some arch →
      ∀ col ∈ arch.columns, col.elem_size ≠ 0 → col.data_cap ≠ 0) := by
  obtain ⟨w2, arch, hal, harch, hlt, rfl⟩ := spawn_batch_row_spec h
  obtain ⟨f1, f2, f3, _, _, _⟩ := alloc_entity_frame hal
  have hc2 : ColInv w2 := hc.same_cols f1 f2 f3
  have harch0 : world.archetypes[idx]? = some arch := by rw [← f1]; exact harch
  have hac := hc2.archs idx arch harch
  have hidx : idx < w2.archetypes.length := (List.getElem?_eq_some.mp harch).1
  constructor
  · refine @ColInv.set_arch w2 _ hc2 idx arch _ harch rfl rfl ?_ rfl rfl
    refine hac.update rfl rfl (by simp) ?_
    intro c col hcol
    obtain ⟨b, hb, g1, g2, g3, g4, g5, g6⟩ := hac.col_ok c col hcol
    refine ⟨{ col with data := col.data ++ List.replicate col.elem_size 0 }, ?_, rfl, rfl,
      ?_, ?_, g6⟩
    · show (arch.columns.map _)[c]? = _
      rw [List.getElem?_map, hcol]
      rfl
    · show (col.data ++ List.replicate col.elem_size 0).length =
        (arch.entities ++ [entity]).length * col.elem_size
      simp only [List.length_append, List.length_replicate, List.length_singleton]
      rw [g4, Nat.add_mul, Nat.one_mul]
    · intro hz
      have hz2 : col.data_cap = 0 := hz
      show col.data ++ List.replicate col.elem_size 0 = []
      have hes : col.elem_size = 0 := by
        by_contra hne
        exact hcap arch harch0 col (List.getElem?_mem hcol) hne hz2
      rw [g5 hz2, hes]
      rfl
  · intro arch1 harch1 col1 hcol1 hes
    have : (w2.archetypes.set idx
        { arch with
            entities := arch.entities ++ [entity]
            columns := arch.columns.map (fun col =>
              { col with data := col.data ++ List.replicate col.elem_size 0 }) })[idx]? =
        some arch1 := harch1
    rw [List.getElem?_set_self hidx] at this
    rw [← Option.some.inj this] at hcol1
    obtain ⟨col, hcol, rfl⟩ := List.mem_map.mp hcol1
    exact hcap arch harch0 col hcol hes

theorem ColInv.batch_loop_cols (count : Nat) :
    ∀ {world world1 : freecs_world_t} {idx row : Nat} {entities : List freecs_entity_t},
      ColInv world →
      (∀ arch, world.archetypes[idx]? = some arch →
        ∀ col ∈ arch.columns, col.elem_size ≠ 0 → col.data_cap ≠ 0) →
      spawn_batch_loop count world idx row = some (world1, entities) → ColInv world1 := by
  induction count with
  | zero =>
    intro world world1 idx row entities hc _ h
    simp only [spawn_batch_loop, Option.some.injEq, Prod.mk.injEq] at h
    rw [← h.1]; exact hc
  | succ n ih =>
    intro world world1 idx row entities hc hcap h
    unfold spawn_batch_loop at h
    cases hr : spawn_batch_row world idx row with
    | none => rw [hr] at h; simp at h
    | some p =>
      obtain ⟨wa, e⟩ := p
      rw [hr] at h
      simp only at h
      obtain ⟨hca, hcapa⟩ := hc.batch_row_cols hcap hr
      cases hl : spawn_batch_loop n wa idx (row + 1) with
      | none => rw [hl] at h; simp at h
      | some q =>
        obtain ⟨wb, es⟩ := q
        rw [hl] at h
        simp only [Option.some.injEq, Prod.mk.injEq] at h
        rw [← h.1]
        exact ih hca hcapa hl

theorem ColInv.batch_cols {world world1 : freecs_world_t} (hc : ColInv world)
    {mask count : Nat} {entities : List freecs_entity_t}
    (hreg : ∀ b, mask.testBit b = true → Registered world b)
    (h : freecs_spawn_batch world mask count = some (world1, entities)) : ColInv world1 := by
  unfold freecs_spawn_batch at h
  by_cases hm : mask = 0 ∨ count = 0
  · rw [if_pos hm] at h
    simp only [Option.some.injEq, Prod.mk.injEq] at h
    rw [← h.1]; exact hc
  · rw [if_neg hm] at h
    simp only at h
    by_cases hl : (batch_type_info world.type_sizes mask).length = 0
    · rw [if_pos hl] at h
      simp only [Option.some.injEq, Prod.mk.injEq] at h
      rw [← h.1]; exact hc
    · rw [if_neg hl] at h
      have hm0 : mask ≠ 0 := fun h0 => hm (Or.inl h0)
      have hcnt : count ≠ 0 := fun h0 => hm (Or.inr h0)
      cases hf : find_or_create_archetype world mask (batch_type_info world.type_sizes mask) with
      | none => rw [hf] at h; simp at h
      | some p =>
        obtain ⟨w1, idx⟩ := p
        rw [hf] at h
        simp only at h
        obtain ⟨hc1, hts1, hnb1⟩ := hc.create_cols (batch_type_info_fits _ hm0) hreg hf
        cases ha : w1.archetypes[idx]? with
        | none => rw [ha] at h; simp at h
        | some arch =>
          rw [ha] at h
          simp only at h
          have hac := hc1.archs idx arch ha
          have hidx : idx < w1.archetypes.length := (List.getElem?_eq_some.mp ha).1
          refine ColInv.batch_loop_cols count ?_ ?_ h
          · refine @ColInv.set_arch w1 _ hc1 idx arch _ ha rfl rfl ?_ rfl rfl
            refine hac.update rfl rfl (by simp) ?_
            intro c col hcol
            obtain ⟨b, hb, g1, g2, g3, g4, g5, g6⟩ := hac.col_ok c col hcol
            refine ⟨{ col with
                data_cap := ensure_capacity_u8 col.data_cap
                  (col.data.length + count * col.elem_size) }, ?_, rfl, rfl, g4, ?_, ?_⟩
            · show (arch.columns.map _)[c]? = _
              rw [List.getElem?_map, hcol]
              rfl
            · intro hz
              have hz2 : ensure_capacity_u8 col.data_cap
                  (col.data.length + count * col.elem_size) = 0 := hz
              show col.data = []
              by_cases hes : col.elem_size = 0
              · apply List.eq_nil_of_length_eq_zero
                rw [g4, hes]; simp
              · exact absurd hz2 (ensure_capacity_pos (by
                  have : 0 < count * col.elem_size := Nat.mul_pos (by omega) (by omega)
                  omega))
            · intro hz
              have hz2 : col.elem_size = 0 := hz
              show ensure_capacity_u8 col.data_cap
                (col.data.length + count * col.elem_size) = 0
              have hd0 : col.data = [] := List.eq_nil_of_length_eq_zero (by rw [g4, hz2]; simp)
              rw [hz2, g6 hz2, hd0]
              exact ensure_capacity_zero 0
          · intro arch1 harch1 col1 hcol1 hes
            have : (w1.archetypes.set idx
                { arch with
                    columns := arch.columns.map (fun col =>
                      { col with
                          data_cap := ensure_capacity_u8 col.data_cap
                            (col.data.length + count * col.elem_size) }) })[idx]? =
                some arch1 := harch1
            rw [List.getElem?_set_self hidx] at this
            rw [← Option.some.inj this] at hcol1
            obtain ⟨col, hcol, rfl⟩ := List.mem_map.mp hcol1
            show ensure_capacity_u8 col.data_cap
              (col.data.length + count * col.elem_size) ≠ 0
            apply ensure_capacity_pos
            have hes2 : col.elem_size ≠ 0 := hes
            have : 0 < count * col.elem_size := Nat.mul_pos (by omega) (by omega)
            omega

/-- Swap-remove changes neither the liveness nor the generation of any slot. -/
theorem RowRemoved.same_liveness {world world2 : freecs_world_t} {a row : Nat}
    {arch arch2 : freecs_archetype_t} {last : freecs_entity_t}
    (h : RowRemoved world world2 a row arch arch2 last) (hs : StructInv world) (j : Nat) :
    (world2.locations[j]?).map (fun l => (l.alive, l.generation)) =
      (world.locations[j]?).map (fun l => (l.alive, l.generation)) := by
  rw [h.locs]
  by_cases hlt : row < arch.entities.length - 1
  · rw [if_pos hlt]
    have hslot := hs.ent.slot a (arch.entities.length - 1) arch.entities last
      (ents_get h.src) h.last_eq
    by_cases hj : last.id = j
    · subst hj
      rw [List.getElem?_set_self (List.getElem?_eq_some.mp hslot).1, hslot]
      rfl
    · rw [List.getElem?_set_ne hj]
  · rw [if_neg hlt]

theorem is_alive_congr {world world2 : freecs_world_t} {y : freecs_entity_t}
    (hlen : world2.locations.length = world.locations.length)
    (h : (world2.locations[y.id]?).map (fun l => (l.alive, l.generation)) =
      (world.locations[y.id]?).map (fun l => (l.alive, l.generation))) :
    freecs_is_alive world2 y = freecs_is_alive world y := by
  unfold freecs_is_alive
  rw [hlen]
  by_cases hge : y.id ≥ world.locations.length
  · rw [if_pos hge, if_pos hge]
  · rw [if_neg hge, if_neg hge]
    cases h1 : world.locations[y.id]? with
    | none =>
      rw [h1] at h
      cases h2 : world2.locations[y.id]? with
      | none => rfl
      | some l2 => rw [h2] at h; simp at h
    | some l1 =>
      rw [h1] at h
      cases h2 : world2.locations[y.id]? with
      | none => rw [h2] at h; simp at h
      | some l2 =>
        rw [h2] at h
        simp only [Option.map_some', Option.some.injEq, Prod.mk.injEq] at h
        simp only [h.1, h.2]

/-- One call of `freecs_despawn` in a well-formed world: it returns whether the
handle was alive; the world stays well-formed; afterwards a handle is alive
exactly when it was alive before and is not the despawned one; the other live
handles are observed the same; the entity count drops by one when the handle
was alive. -/
theorem despawn_step {world world1 : freecs_world_t} (hw : WellFormed world)
    {e : freecs_entity_t} {ok : Bool} (h : freecs_despawn world e = some (world1, ok)) :
    WellFormed world1 ∧ ok = freecs_is_alive world e ∧
      (∀ y, freecs_is_alive world1 y =
        (freecs_is_alive world y && !(freecs_is_alive world e && decide (y = e)))) ∧
      Frame world world1 (fun i => i = e.id ∧ freecs_is_alive world e = true) ∧
      freecs_entity_count world1 + (if freecs_is_alive world e then 1 else 0) =
        freecs_entity_count world ∧
      world1.despawn_queue = world.despawn_queue ∧
      world1.type_sizes = world.type_sizes ∧ world1.next_bit = world.next_bit ∧
      world1.archetypes.length = world.archetypes.length ∧
      world1.locations.length = world.locations.length := by
  cases hlive : freecs_is_alive world e with
  | false =>
    rw [despawn_dead hlive] at h
    simp only [Option.some.injEq, Prod.mk.injEq] at h
    obtain ⟨rfl, rfl⟩ := h
    refine ⟨hw, rfl, ?_, Frame.refl _ _, by simp, rfl, rfl, rfl, rfl, rfl⟩
    intro y
    simp
  | true =>
    obtain ⟨loc, hloc, hal, hgen⟩ := is_alive_iff.mp hlive
    obtain ⟨world2, arch, arch2, last, hrr, hent, hdes, hwf⟩ := despawn_live hw hloc hal hgen
    rw [hdes] at h
    simp only [Option.some.injEq, Prod.mk.injEq] at h
    obtain ⟨rfl, rfl⟩ := h
    have hid : e.id < world2.locations.length := by
      rw [hrr.locs_length]
      exact (List.getElem?_eq_some.mp hloc).1
    have hrowlt : loc.row < arch.entities.length := (List.getElem?_eq_some.mp hent).1
    refine ⟨hwf, rfl, ?_, ?_, ?_, hrr.queue_eq, hrr.sizes_eq, hrr.next_bit_eq, ?_, ?_⟩
    · intro y
      by_cases hy : y.id = e.id
      · have hfalse : freecs_is_alive { world2 with
            locations := world2.locations.set e.id
              ⟨loc.archetype_index, loc.row, (e.generation + 1) % 2 ^ 32, false⟩
            free_entities := world.free_entities ++
              [⟨e.id, (e.generation + 1) % 2 ^ 32⟩] } y = false := by
          refine @is_alive_false_of_loc _ _ ⟨loc.archetype_index, loc.row,
            (e.generation + 1) % 2 ^ 32, false⟩ ?_ (Or.inl rfl)
          rw [hy]
          simp only [List.getElem?_set_self hid]
        rw [hfalse]
        cases hyl : freecs_is_alive world y with
        | false => rfl
        | true =>
          obtain ⟨ly, hyloc, _, hygen⟩ := is_alive_iff.mp hyl
          rw [hy, hloc] at hyloc
          have := Option.some.inj hyloc
          subst this
          have hye : y = e := by
            cases y; cases e
            simp only at hy hygen hgen
            subst hy
            rw [← hygen, hgen]
          simp [hye]
      · have hne : y ≠ e := fun h => hy (by rw [h])
        have h1 : freecs_is_alive { world2 with
            locations := world2.locations.set e.id
              ⟨loc.archetype_index, loc.row, (e.generation + 1) % 2 ^ 32, false⟩
            free_entities := world.free_entities ++
              [⟨e.id, (e.generation + 1) % 2 ^ 32⟩] } y = freecs_is_alive world y := by
          apply is_alive_congr
          · show (world2.locations.set e.id _).length = _
            rw [List.length_set, hrr.locs_length]
          · show ((world2.locations.set e.id _)[y.id]?).map _ = _
            rw [List.getElem?_set_ne (Ne.symm hy)]
            exact hrr.same_liveness hw.struct y.id
        rw [h1]
        simp [hne]
    · intro x hx hxlive
      have hxne : x.id ≠ e.id := fun h => hx ⟨h, rfl⟩
      obtain ⟨lx, hxloc, hxal, hxgen⟩ := is_alive_iff.mp hxlive
      obtain ⟨lx2, archx, archx2, f1, f2, f3, f4, f5, f6, f7, f8, f9, f10⟩ :=
        hrr.frame hw hloc hal rfl hxne hxloc hxal
      have hloc1 : (world2.locations.set e.id
          ⟨loc.archetype_index, loc.row, (e.generation + 1) % 2 ^ 32, false⟩)[x.id]? =
            some lx2 := by
        rw [List.getElem?_set_ne (Ne.symm hxne)]
        exact f1
      have h6 : ({ world2 with
            locations := world2.locations.set e.id
              ⟨loc.archetype_index, loc.row, (e.generation + 1) % 2 ^ 32, false⟩
            free_entities := world.free_entities ++
              [⟨e.id, (e.generation + 1) % 2 ^ 32⟩] } :
            freecs_world_t).archetypes[lx2.archetype_index]? = some archx2 := by
        rw [f4]; exact f6
      exact observe_of_view hw.cols hwf.cols hxloc hxal hxgen hloc1 f2 f3 f5 h6 f7 f8 f9 f10
    · have hcount := @entity_count_set world { world2 with
          locations := world2.locations.set e.id
            ⟨loc.archetype_index, loc.row, (e.generation + 1) % 2 ^ 32, false⟩
          free_entities := world.free_entities ++
            [⟨e.id, (e.generation + 1) % 2 ^ 32⟩] } loc.archetype_index arch arch2
        hrr.src hrr.dst
      have hlen := hrr.ents_length
      simp only [if_true]
      omega
    · show world2.archetypes.length = _
      rw [hrr.dst, List.length_set]
    · show (world2.locations.set e.id _).length = _
      rw [List.length_set, hrr.locs_length]

theorem add_component_keeps {world world1 : freecs_world_t} (hw : WellFormed world)
    {e : freecs_entity_t} {k : Nat} {value : List Nat} {size : Nat} {ok : Bool}
    (hreg : Registered world k) (hsize : size = world.type_sizes.getD k 0)
    (hb : world.archetypes.length + 1 < 2 ^ 31)
    (h : freecs_add_component world e (2 ^ k) value size = some (world1, ok)) :
    WellFormed world1 := by
  cases hlive : freecs_is_alive world e with
  | false =>
    rw [add_component_dead hlive] at h
    simp only [Option.some.injEq, Prod.mk.injEq] at h
    rw [← h.1]; exact hw
  | true =>
    obtain ⟨loc, hloc, hal, hgen⟩ := is_alive_iff.mp hlive
    obtain ⟨arch, harch, _, _⟩ := live_row hw.struct hloc hal
    have hk := hreg.1
    have hfacts : (arch.mask.testBit k = true → 0 ≤ arch.column_bits.getD k (-1)) ∧
        size ≤ value.length := by
      rcases add_component_spec h with ⟨_, _, hd⟩ |
        ⟨_, loc', bit_idx, arch', hloc', _, _, hbi, harch', hcase⟩
      · rw [hlive] at hd; cases hd
      · rw [hloc] at hloc'
        have := Option.some.inj hloc'
        subst this
        rw [harch] at harch'
        have := Option.some.inj harch'
        subst this
        rw [bit_index_two_pow k hk] at hbi
        have := Option.some.inj hbi
        subst this
        rcases hcase with ⟨hm, hwc⟩ | ⟨hm, w1, target, w2, _, _, _, hfin⟩
        · obtain ⟨l2, a2, col, col1, hl2, ha2, hge, _, hwcol, _⟩ := write_component_spec hwc
          rw [hloc] at hl2
          have := Option.some.inj hl2
          subst this
          rw [harch] at ha2
          have := Option.some.inj ha2
          subst this
          exact ⟨fun _ => hge, (write_column_spec hwcol).1⟩
        · refine ⟨fun ht => ?_, ?_⟩
          · have := testBit_of_and_two_pow_eq_zero hm
            rw [ht] at this
            cases this
          · rcases hfin with ⟨_, hwc⟩ | ⟨h0, _⟩
            · obtain ⟨_, _, _, _, _, _, _, _, hwcol, _⟩ := write_component_spec hwc
              exact (write_column_spec hwcol).1
            · omega
    obtain ⟨w', _, _, hadd, hw', _⟩ :=
      add_component_wf hw hloc hal hgen harch hk hreg hsize hfacts.1 hfacts.2 hb
    rw [hadd] at h
    simp only [Option.some.injEq, Prod.mk.injEq] at h
    rw [← h.1]; exact hw'

theorem remove_component_absent {world : freecs_world_t}
    {x : freecs_entity_t} {loc : freecs_entity_location_t}
    (hloc : world.locations[x.id]? = some loc) (hal : loc.alive = true)
    (hgen : loc.generation = x.generation) {arch : freecs_archetype_t}
    (harch : world.archetypes[loc.archetype_index]? = some arch)
    {k : Nat} (hk : k < 64) (hm : arch.mask.testBit k = false) :
    freecs_remove_component world x (2 ^ k) = some (world, false) := by
  have hidlt : ¬ x.id ≥ world.locations.length := by
    have := (List.getElem?_eq_some.mp hloc).1
    omega
  unfold freecs_remove_component
  rw [if_neg hidlt]
  simp only [Option.bind_eq_bind, hloc, Option.some_bind, hal, hgen, Bool.not_true,
    bne_self_eq_false, Bool.or_self, Bool.false_eq_true, if_false,
    bit_index_two_pow k hk, harch, and_two_pow_eq_zero_of_testBit hm, if_true]

theorem remove_component_keeps {world world1 : freecs_world_t} (hw : WellFormed world)
    {e : freecs_entity_t} {k : Nat} {ok : Bool} (hk : k < 64)
    (hb : world.archetypes.length + 1 < 2 ^ 31)
    (h : freecs_remove_component world e (2 ^ k) = some (world1, ok)) :
    WellFormed world1 := by
  cases hlive : freecs_is_alive world e with
  | false =>
    rw [remove_component_dead hlive] at h
    simp only [Option.some.injEq, Prod.mk.injEq] at h
    rw [← h.1]; exact hw
  | true =>
    obtain ⟨loc, hloc, hal, hgen⟩ := is_alive_iff.mp hlive
    obtain ⟨arch, harch, _, _⟩ := live_row hw.struct hloc hal
    cases hm : arch.mask.testBit k with
    | false =>
      rw [remove_component_absent hloc hal hgen harch hk hm] at h
      simp only [Option.some.injEq, Prod.mk.injEq] at h
      rw [← h.1]; exact hw
    | true =>
      by_cases h0 : arch.mask &&& not64 (2 ^ k) = 0
      · obtain ⟨world2, _, _, _, _, _, hdes, hwf⟩ := despawn_live hw hloc hal hgen
        rw [remove_last_eq hloc hal hgen harch hk hm h0 hdes] at h
        simp only [Option.some.injEq, Prod.mk.injEq] at h
        rw [← h.1]; exact hwf
      · obtain ⟨w', _, _, hrem, hw', _⟩ :=
          remove_component_wf hw hloc hal hgen harch hk hm h0 hb
        rw [hrem] at h
        simp only [Option.some.injEq, Prod.mk.injEq] at h
        rw [← h.1]; exact hw'

theorem despawn_batch_keeps (entities : List freecs_entity_t) :
    ∀ {world world1 : freecs_world_t} {n : Nat}, WellFormed world →
      freecs_despawn_batch world entities = some (world1, n) → WellFormed world1 := by
  induction entities with
  | nil =>
    intro world world1 n hw h
    simp only [freecs_despawn_batch, Option.some.injEq, Prod.mk.injEq] at h
    rw [← h.1]; exact hw
  | cons e rest ih =>
    intro world world1 n hw h
    unfold freecs_despawn_batch at h
    cases hd : freecs_despawn world e with
    | none => rw [hd] at h; simp at h
    | some p =>
      obtain ⟨wa, ok⟩ := p
      rw [hd] at h
      simp only [Option.bind_eq_bind, Option.some_bind] at h
      cases hr : freecs_despawn_batch wa rest with
      | none => rw [hr] at h; simp at h
      | some q =>
        obtain ⟨wb, m⟩ := q
        rw [hr] at h
        simp only [Option.some_bind, Option.some.injEq, Prod.mk.injEq] at h
        rw [← h.1]
        exact ih (despawn_step hw hd).1 hr

theorem apply_despawns_loop_keeps (entities : List freecs_entity_t) :
    ∀ {world world1 : freecs_world_t}, WellFormed world →
      apply_despawns_loop entities world = some world1 → WellFormed world1 := by
  induction entities with
  | nil =>
    intro world world1 hw h
    simp only [apply_despawns_loop, Option.some.injEq] at h
    rw [← h]; exact hw
  | cons e rest ih =>
    intro world world1 hw h
    unfold apply_despawns_loop at h
    cases hd : freecs_despawn world e with
    | none => rw [hd] at h; simp at h
    | some p =>
      obtain ⟨wa, ok⟩ := p
      rw [hd] at h
      simp only [Option.bind_eq_bind, Option.some_bind] at h
      exact ih (despawn_step hw hd).1 h

/-- Every state built by contract-respecting calls is well-formed. -/
theorem Built.well_formed {world : freecs_world_t} (h : Built world) : WellFormed world := by
  induction h with
  | create => exact WellFormed.at_start
  | register_component world world1 size bit _ hr ih =>
    exact ⟨ih.struct.register_component hr, ih.cols.register_cols hr⟩
  | spawn world world1 mask entries entity _ he hb1 hb2 hs ih =>
    obtain ⟨w', e', _, _, hsp, hw', _⟩ := spawn_wf ih he hb1 hb2
    rw [hsp] at hs
    simp only [Option.some.injEq, Prod.mk.injEq] at hs
    rw [← hs.1]; exact hw'
  | spawn_batch world world1 mask count entities _ hreg hs hb ih =>
    exact ⟨ih.struct.spawn_batch hs hb, ih.cols.batch_cols hreg hs⟩
  | despawn world world1 entity ok _ hd ih => exact (despawn_step ih hd).1
  | despawn_batch world world1 entities n _ hd ih => exact despawn_batch_keeps entities ih hd
  | add_component world world1 entity k value size ok _ hreg hsize hb ha ih =>
    exact add_component_keeps ih hreg hsize hb ha
  | remove_component world world1 entity k ok _ hk hb hr ih =>
    exact remove_component_keeps ih hk hb hr
  | set world world1 entity bit value size ok _ hs ih => exact ih.set_wf hs
  | get_matching_archetypes world world1 mask exclude result _ hq ih =>
    refine ⟨ih.struct.get_matching_archetypes hq, ?_⟩
    unfold freecs_get_matching_archetypes at hq
    simp only at hq
    cases hf : cache_find world.query_cache (mask ||| exclude <<< 32 % 2 ^ 64) with
    | some idx =>
      rw [hf] at hq
      simp only at hq
      cases he : world.query_cache[idx]? with
      | none => rw [he] at hq; simp at hq
      | some entry =>
        rw [he] at hq
        simp only [Option.some.injEq, Prod.mk.injEq] at hq
        rw [← hq.1]; exact ih.cols
    | none =>
      rw [hf] at hq
      simp only [Option.some.injEq, Prod.mk.injEq] at hq
      rw [← hq.1]
      exact ih.cols.same_cols rfl rfl rfl
  | queue_despawn world entity _ ih =>
    exact ⟨ih.struct.congr rfl rfl rfl rfl rfl rfl, ih.cols.same_cols rfl rfl rfl⟩
  | apply_despawns world world1 _ ha ih =>
    unfold freecs_apply_despawns at ha
    cases hl : apply_despawns_loop world.despawn_queue world with
    | none => rw [hl] at ha; simp at ha
    | some wa =>
      rw [hl] at ha
      simp only [Option.bind_eq_bind, Option.some_bind, Option.some.injEq] at ha
      have hwa := apply_despawns_loop_keeps _ ih hl
      rw [← ha]
      exact ⟨hwa.struct.congr rfl rfl rfl rfl rfl rfl, hwa.cols.same_cols rfl rfl rfl⟩

theorem testBit_lt_of_lt {m n b : Nat} (hm : m < 2 ^ n) (hb : m.testBit b = true) : b < n := by
  by_contra hge
  have : m.testBit b = false := by
    apply Nat.testBit_lt_two_pow
    calc m < 2 ^ n := hm
      _ ≤ 2 ^ b := Nat.pow_le_pow_right (by omega) (by omega)
  rw [this] at hb
  cases hb

set_option maxRecDepth 100000 in
theorem world_reg_built : Built world_reg :=
  Built.register_component world_reg0 world_reg 1 2
    (Built.register_component freecs_create_world world_reg0 2 1 Built.create
      (by decide)) (by decide)

theorem EntriesFor.of_same {world world1 : freecs_world_t} {mask : Nat}
    {entries : List freecs_type_info_entry_t} (h : EntriesFor world mask entries)
    (hts : world1.type_sizes = world.type_sizes) (hnb : world1.next_bit = world.next_bit) :
    EntriesFor world1 mask entries :=
  ⟨h.mask_ne, fun b hb => ⟨(h.mask_reg b hb).1, by rw [hnb]; exact (h.mask_reg b hb).2⟩,
    h.nodup, fun en hen => by rw [hts]; exact h.bit_ok en hen, h.covers, h.data_ok⟩

set_option maxRecDepth 100000 in
theorem entries_one_fit (d : List Nat) (hd : 2 ≤ d.length) :
    EntriesFor world_reg 1 [⟨1, 2, some d, 0⟩] := by
  refine ⟨by decide, ?_, by simp, ?_, ?_, ?_⟩
  · intro b hb
    have hb1 : b < 1 := testBit_lt_of_lt (n := 1) (by decide) hb
    have : b = 0 := by omega
    subst this
    exact ⟨by decide, Or.inr (by decide)⟩
  · intro en hen
    simp only [List.mem_singleton] at hen
    subst hen
    exact ⟨0, by decide, rfl, by decide, show 2 = world_reg.type_sizes.getD 0 0 by decide⟩
  · intro b hb
    have hb1 : b < 1 := testBit_lt_of_lt (n := 1) (by decide) hb
    have : b = 0 := by omega
    subst this
    exact ⟨⟨1, 2, some d, 0⟩, by simp, rfl⟩
  · intro en hen d2 hd2
    simp only [List.mem_singleton] at hen
    subst hen
    simp only [Option.some.injEq] at hd2
    subst hd2
    exact hd

set_option maxRecDepth 100000 in
theorem entries_both_fit (d1 d2 : List Nat) (hd1 : 2 ≤ d1.length) (hd2 : 1 ≤ d2.length) :
    EntriesFor world_reg 3 [⟨1, 2, some d1, 0⟩, ⟨2, 1, some d2, 1⟩] := by
  refine ⟨by decide, ?_, by simp, ?_, ?_, ?_⟩
  · intro b hb
    have hb1 : b < 2 := testBit_lt_of_lt (n := 2) (by decide) hb
    have : b = 0 ∨ b = 1 := by omega
    rcases this with rfl | rfl
    · exact ⟨by decide, Or.inr (by decide)⟩
    · exact ⟨by decide, Or.inr (by decide)⟩
  · intro en hen
    simp only [List.mem_cons, List.mem_singleton, List.mem_nil_iff, or_false] at hen
    rcases hen with rfl | rfl
    · exact ⟨0, by decide, rfl, by decide, show 2 = world_reg.type_sizes.getD 0 0 by decide⟩
    · exact ⟨1, by decide, rfl, by decide, show 1 = world_reg.type_sizes.getD 1 0 by decide⟩
  · intro b hb
    have hb1 : b < 2 := testBit_lt_of_lt (n := 2) (by decide) hb
    have : b = 0 ∨ b = 1 := by omega
    rcases this with rfl | rfl
    · exact ⟨⟨1, 2, some d1, 0⟩, by simp, rfl⟩
    · exact ⟨⟨2, 1, some d2, 1⟩, by simp, rfl⟩
  · intro en hen d hd
    simp only [List.mem_cons, List.mem_singleton, List.mem_nil_iff, or_false] at hen
    rcases hen with rfl | rfl
    · simp only [Option.some.injEq] at hd
      subst hd
      exact hd1
    · simp only [Option.some.injEq] at hd
      subst hd
      exact hd2

set_option maxRecDepth 100000 in
theorem world_one_built : Built world_one :=
  Built.spawn world_reg world_one 1 [⟨1, 2, some [7, 8], 0⟩] ⟨0, 0⟩ world_reg_built
    (entries_one_fit [7, 8] (by decide)) (by decide) (by decide) (by decide)

set_option maxRecDepth 100000 in
theorem world_two_built : Built world_two :=
  Built.spawn world_one world_two 1 [⟨1, 2, some [17, 18], 0⟩] ⟨1, 0⟩ world_one_built
    ((entries_one_fit [17, 18] (by decide)).of_same (by decide) (by decide))
    (by decide) (by decide) (by decide)

set_option maxRecDepth 100000 in
theorem world_three_built : Built world_three :=
  Built.spawn world_two world_three 3 [⟨1, 2, some [27, 28], 0⟩, ⟨2, 1, some [9], 1⟩] ⟨2, 0⟩
    world_two_built
    ((entries_both_fit [27, 28] [9] (by decide) (by decide)).of_same (by decide) (by decide))
    (by decide) (by decide) (by decide)

/-- Claim C9.  Despawn effect and frame: in a well-formed world, despawning a
live handle `h` returns true; afterwards `h` is not alive, the entity count is
one less, and every other live entity (the one swapped into the row of `h`
included) is still alive with the same component mask and, for every bit, the
same result of `freecs_get` (null or the same bytes). -/
theorem despawn_effect_and_frame (world : freecs_world_t) (hw : WellFormed world)
    (h : freecs_entity_t) (hlive : freecs_is_alive world h = true) :
    ∃ world1, freecs_despawn world h = some (world1, true) ∧
      freecs_is_alive world1 h = false ∧
      freecs_entity_count world1 + 1 = freecs_entity_count world ∧
      ∀ x, x ≠ h → freecs_is_alive world x = true →
        freecs_is_alive world1 x = true ∧
        freecs_component_mask world1 x = freecs_component_mask world x ∧
        ∀ bit, get_bytes world1 x bit = get_bytes world x bit := by
  obtain ⟨loc, hloc, hal, hgen⟩ := is_alive_iff.mp hlive
  obtain ⟨world2, arch, arch2, last, hrr, hent, hdes, hwf⟩ := despawn_live hw hloc hal hgen
  have hid : h.id < world2.locations.length := by
    rw [hrr.locs_length]
    rcases Nat.lt_or_ge h.id world.locations.length with hlt | hge
    · exact hlt
    · rw [List.getElem?_eq_none hge] at hloc; cases hloc
  refine ⟨_, hdes, ?_, ?_, ?_⟩
  · refine @is_alive_false_of_loc _ _ ⟨loc.archetype_index, loc.row,
      (h.generation + 1) % 2 ^ 32, false⟩ ?_ (Or.inl rfl)
    simp only [List.getElem?_set_self hid]
  · have hcount := @entity_count_set world { world2 with
        locations := world2.locations.set h.id
          ⟨loc.archetype_index, loc.row, (h.generation + 1) % 2 ^ 32, false⟩
        free_entities := world.free_entities ++
          [⟨h.id, (h.generation + 1) % 2 ^ 32⟩] } loc.archetype_index arch arch2
      hrr.src hrr.dst
    have hlen := hrr.ents_length
    have hpos : loc.row < arch.entities.length := by
      rcases Nat.lt_or_ge loc.row arch.entities.length with hlt | hge
      · exact hlt
      · rw [List.getElem?_eq_none hge] at hent; cases hent
    omega
  · intro x hx hxlive
    obtain ⟨lx, hxloc, hxal, hxgen⟩ := is_alive_iff.mp hxlive
    have hne : x.id ≠ h.id := by
      intro heq
      apply hx
      rw [heq, hloc] at hxloc
      have := Option.some.inj hxloc
      subst this
      cases x; cases h
      simp only at heq hxgen hgen
      subst heq
      rw [← hxgen, hgen]
    obtain ⟨lx2, archx, archx2, f1, f2, f3, f4, f5, f6, f7, f8, f9, f10⟩ :=
      hrr.frame hw hloc hal rfl hne hxloc hxal
    have hloc1 : (world2.locations.set h.id
        ⟨loc.archetype_index, loc.row, (h.generation + 1) % 2 ^ 32, false⟩)[x.id]? =
          some lx2 := by
      rw [List.getElem?_set_ne (Ne.symm hne)]
      exact f1
    have hgen2 : lx2.generation = x.generation := f3.trans hxgen
    refine ⟨is_alive_iff.mpr ⟨lx2, hloc1, f2, hgen2⟩, ?_, ?_⟩
    · rw [component_mask_live hxloc hxal hxgen f5]
      rw [@component_mask_live _ _ _ archx2 hloc1 f2 hgen2 (by rw [f4]; exact f6), f7]
    · intro bit
      rw [get_bytes_live hxloc hxal hxgen f5 (hw.cols.archs _ _ f5) f8 bit]
      rw [@get_bytes_live _ _ _ archx2 hloc1 f2 hgen2 (by rw [f4]; exact f6)
        (hwf.cols.archs lx2.archetype_index archx2 (by rw [f4]; exact f6)) f9 bit]
      exact f10 bit

set_option maxRecDepth 100000 in
/-- Witness of C9 in `world_three`: the handle `(0, 0)` of row 0 is despawned,
the handle `(1, 0)` is swapped into its row. -/
theorem despawn_effect_and_frame_witness :
    ∃ world1, freecs_despawn world_three ⟨0, 0⟩ = some (world1, true) ∧
      freecs_is_alive world1 ⟨0, 0⟩ = false ∧
      freecs_entity_count world1 + 1 = freecs_entity_count world_three ∧
      ∀ x, x ≠ ⟨0, 0⟩ → freecs_is_alive world_three x = true →
        freecs_is_alive world1 x = true ∧
        freecs_component_mask world1 x = freecs_component_mask world_three x ∧
        ∀ bit, get_bytes world1 x bit = get_bytes world_three x bit :=
  despawn_effect_and_frame world_three world_three_built.well_formed ⟨0, 0⟩ (by decide)

/-- Claim C10.  Generational reuse: in a well-formed world, despawning a live
handle `A` returns true, and every spawn that follows immediately and creates
an entity returns `B` with the id of `A` and the generation of `A` plus one
modulo `2^32`; then `A` is not alive, `B` is alive, and `freecs_get` on `A`
is null for every bit. -/
theorem generational_reuse (world : freecs_world_t) (hw : WellFormed world)
    (A : freecs_entity_t) (hlive : freecs_is_alive world A = true) :
    ∃ world1, freecs_despawn world A = some (world1, true) ∧
      ∀ (mask : Nat) (entries : List freecs_type_info_entry_t) (world2 : freecs_world_t)
        (B : freecs_entity_t), ¬ (entries.length = 0 ∨ mask = 0) →
        freecs_spawn world1 mask entries = some (world2, B) →
        B.id = A.id ∧ B.generation = (A.generation + 1) % 2 ^ 32 ∧
        freecs_is_alive world2 A = false ∧ freecs_is_alive world2 B = true ∧
        ∀ bit, freecs_get world2 A bit = some Ptr.null := by
  obtain ⟨loc, hloc, hal, hgen⟩ := is_alive_iff.mp hlive
  obtain ⟨world2, arch, arch2, last, hrr, hent, hdes, hwf⟩ := despawn_live hw hloc hal hgen
  have hAgen : A.generation < 2 ^ 32 := by
    rw [← hgen]; exact hw.struct.ent.gen_bound _ _ hloc
  refine ⟨_, hdes, ?_⟩
  intro mask entries w3 B hm hsp
  obtain ⟨w1, idx, archd, w2, arch1, hfoc, hidx, halloc, hse, hlt, hw3⟩ := spawn_spec hsp hm
  have hfree : w1.free_entities = world.free_entities ++
      [⟨A.id, (A.generation + 1) % 2 ^ 32⟩] := by
    rcases find_or_create_cases _ _ _ _ _ hfoc with ⟨rfl, _⟩ | ⟨_, _, arch0, _, rfl⟩ <;> rfl
  have hB : B = ⟨A.id, (A.generation + 1) % 2 ^ 32⟩ := by
    rcases alloc_entity_cases w1 with ⟨e, he, hal2⟩ | ⟨he, _⟩
    · rw [hal2] at halloc
      have hBe : e = B := (Prod.mk.inj halloc).2
      rw [hfree] at he
      have := List.append_inj_right' he (by simp)
      simp only [List.cons.injEq, and_true] at this
      rw [← hBe, ← this]
    · rw [hfree] at he
      simp at he
  have hloc3 : w3.locations[A.id]? =
      some ⟨toU32 idx, toU32 archd.entities.length, (A.generation + 1) % 2 ^ 32, true⟩ := by
    rw [hw3]
    simp only
    have : B.id = A.id := by rw [hB]
    rw [this] at hlt ⊢
    rw [List.getElem?_set_self hlt, hB]
  have hgne : (A.generation + 1) % 2 ^ 32 ≠ A.generation := by
    omega
  refine ⟨by rw [hB], by rw [hB], ?_, ?_, ?_⟩
  · exact is_alive_false_of_loc hloc3 (Or.inr hgne)
  · refine is_alive_iff.mpr
      ⟨⟨toU32 idx, toU32 archd.entities.length, (A.generation + 1) % 2 ^ 32, true⟩,
        ?_, rfl, ?_⟩
    · rw [hB]; exact hloc3
    · rw [hB]
  · intro bit
    exact get_null_of_stale hloc3 (Or.inr hgne) bit

set_option maxRecDepth 100000 in
/-- Witness of C10 in `world_one`, for the handle `(0, 0)`. -/
theorem generational_reuse_witness :
    ∃ world1, freecs_despawn world_one ⟨0, 0⟩ = some (world1, true) ∧
      ∀ (mask : Nat) (entries : List freecs_type_info_entry_t) (world2 : freecs_world_t)
        (B : freecs_entity_t), ¬ (entries.length = 0 ∨ mask = 0) →
        freecs_spawn world1 mask entries = some (world2, B) →
        B.id = (⟨0, 0⟩ : freecs_entity_t).id ∧
        B.generation = ((⟨0, 0⟩ : freecs_entity_t).generation + 1) % 2 ^ 32 ∧
        freecs_is_alive world2 ⟨0, 0⟩ = false ∧ freecs_is_alive world2 B = true ∧
        ∀ bit, freecs_get world2 ⟨0, 0⟩ bit = some Ptr.null :=
  generational_reuse world_one world_one_built.well_formed ⟨0, 0⟩ (by decide)

/-- Claim C11.  Dead-handle operations fail without effect: for a handle that
is not live (id out of range, slot not alive, or generation mismatch),
`freecs_get` returns null, `freecs_set`, `freecs_has`, `freecs_has_components`,
`freecs_add_component`, `freecs_remove_component` and `freecs_despawn` return
false, `freecs_component_mask` returns `(0, false)`, and every call that
returns a world returns the world it was given. -/
theorem dead_handle_operations (world : freecs_world_t) (h : freecs_entity_t)
    (hdead : freecs_is_alive world h = false) (bit mask size : Nat) (value : List Nat) :
    freecs_get world h bit = some Ptr.null ∧
    freecs_set world h bit value size = some (world, false) ∧
    freecs_has world h bit = some false ∧
    freecs_has_components world h mask = some false ∧
    freecs_add_component world h bit value size = some (world, false) ∧
    freecs_remove_component world h bit = some (world, false) ∧
    freecs_despawn world h = some (world, false) ∧
    freecs_component_mask world h = some (0, false) :=
  ⟨get_dead hdead bit, set_dead hdead bit value size, has_dead hdead bit,
    has_components_dead hdead mask, add_component_dead hdead bit value size,
    remove_component_dead hdead bit, despawn_dead hdead, component_mask_dead hdead⟩

set_option maxRecDepth 100000 in
/-- Witness of C11 in `world_one`, for the stale handle `(0, 1)`. -/
theorem dead_handle_operations_witness :
    freecs_get world_one ⟨0, 1⟩ 1 = some Ptr.null ∧
    freecs_set world_one ⟨0, 1⟩ 1 [1, 2] 2 = some (world_one, false) ∧
    freecs_has world_one ⟨0, 1⟩ 1 = some false ∧
    freecs_has_components world_one ⟨0, 1⟩ 1 = some false ∧
    freecs_add_component world_one ⟨0, 1⟩ 1 [1, 2] 2 = some (world_one, false) ∧
    freecs_remove_component world_one ⟨0, 1⟩ 1 = some (world_one, false) ∧
    freecs_despawn world_one ⟨0, 1⟩ = some (world_one, false) ∧
    freecs_component_mask world_one ⟨0, 1⟩ = some (0, false) :=
  dead_handle_operations world_one ⟨0, 1⟩ (by decide) 1 1 2 [1, 2]

/-- Claim C17.  Rejected spawn: `freecs_spawn` with `mask == 0` or without
entries returns `FREECS_ENTITY_NIL`, which is `(0, 0)`, and the world it was
given, unchanged in every field. -/
theorem rejected_spawn (world : freecs_world_t) (mask : Nat)
    (entries : List freecs_type_info_entry_t) (h : mask = 0 ∨ entries.length = 0) :
    freecs_spawn world mask entries = some (world, FREECS_ENTITY_NIL) ∧
      FREECS_ENTITY_NIL = ⟨0, 0⟩ := by
  refine ⟨?_, rfl⟩
  unfold freecs_spawn
  rw [if_pos (Or.symm h)]

set_option maxRecDepth 100000 in
/-- Witness of C17 in `world_one`, with mask 0 and one entry. -/
theorem rejected_spawn_witness :
    freecs_spawn world_one 0 [⟨1, 2, some [7, 8], 0⟩] = some (world_one, FREECS_ENTITY_NIL) ∧
      FREECS_ENTITY_NIL = ⟨0, 0⟩ :=
  rejected_spawn world_one 0 [⟨1, 2, some [7, 8], 0⟩] (Or.inl rfl)

/-- Claim C13.  Column length invariant: in every state built from
`freecs_create_world` by `freecs_register_component`, `freecs_spawn` whose
entries list each bit of the mask once with the registered size,
`freecs_spawn_batch`, `freecs_despawn`, `freecs_add_component` with the
registered size, `freecs_remove_component` (and the other calls of `Built`),
every column of every archetype holds `entities_len * elem_size` bytes. -/
theorem column_length_invariant (world : freecs_world_t) (h : Built world) (a c : Nat)
    (arch : freecs_archetype_t) (col : freecs_component_column_t)
    (ha : world.archetypes[a]? = some arch) (hc : arch.columns[c]? = some col) :
    col.data.length = arch.entities.length * col.elem_size := by
  obtain ⟨_, _, _, _, _, h5, _⟩ := (h.well_formed.cols.archs a arch ha).col_ok c col hc
  exact h5

set_option maxRecDepth 100000 in
/-- Witness of C13 in `world_three`: column 0 of archetype 0 (two entities,
two-byte component). -/
theorem column_length_invariant_witness :
    (((world_three.archetypes.getD 0 (new_archetype 0)).columns.getD 0
        ⟨[], 0, 0, 0, 0⟩).data.length =
      (world_three.archetypes.getD 0 (new_archetype 0)).entities.length *
        ((world_three.archetypes.getD 0 (new_archetype 0)).columns.getD 0
          ⟨[], 0, 0, 0, 0⟩).elem_size) ∧
      (world_three.archetypes.getD 0 (new_archetype 0)).entities.length = 2 :=
  ⟨column_length_invariant world_three world_three_built 0 0
    (world_three.archetypes.getD 0 (new_archetype 0))
    ((world_three.archetypes.getD 0 (new_archetype 0)).columns.getD 0 ⟨[], 0, 0, 0, 0⟩)
    (by decide) (by decide), by decide⟩

set_option maxRecDepth 100000 in
theorem world_three_reachable : Reachable world_three :=
  Reachable.spawn world_two world_three 3 [⟨1, 2, some [27, 28], 0⟩, ⟨2, 1, some [9], 1⟩]
    ⟨2, 0⟩
    (Reachable.spawn world_one world_two 1 [⟨1, 2, some [17, 18], 0⟩] ⟨1, 0⟩
      world_one_reachable (by decide) ⟨by decide, by decide⟩)
    (by decide) ⟨by decide, by decide⟩

/-- Function `find_or_create_archetype` appends an archetype exactly when no
archetype has the mask yet. -/
theorem find_or_create_length {world world1 : freecs_world_t} (hg : GraphInv world)
    {mask idx : Nat} {ti : List freecs_type_info_entry_t}
    (h : find_or_create_archetype world mask ti = some (world1, idx)) :
    world1.archetypes.length = world.archetypes.length +
      (if world.archetypes.any (fun arch => arch.mask == mask) then 0 else 1) := by
  rcases find_or_create_cases _ _ _ _ _ h with ⟨hw, i, entry, hi, he, hv⟩ |
    ⟨hn, _, arch0, _, hw⟩
  · rw [hw]
    obtain ⟨arch, ha, hm⟩ := hg.find hi he hv
    have : world.archetypes.any (fun arch => arch.mask == mask) = true := by
      rw [List.any_eq_true]
      exact ⟨arch, List.getElem?_mem ha, by simp [hm]⟩
    rw [this]
    rfl
  · rw [hw]
    have : world.archetypes.any (fun arch => arch.mask == mask) = false := by
      rw [List.any_eq_false]
      intro arch harch
      obtain ⟨i, hi⟩ := List.getElem?_of_mem harch
      have := hg.no_mask hn i arch hi
      simp [this]
    rw [this]
    simp

/-- Claim C14.  Archetype uniqueness: in every reachable state no two
archetypes have the same mask, `archetype_index` has exactly one entry per
archetype, entry `i` being `(archetypes[i].mask, [i])`, and resolving a mask
through `find_or_create_archetype` (as spawn, spawn_batch, add_component and
remove_component do) appends an archetype exactly when the mask is new, so
that `archetypes_len` is the number of distinct masks resolved so far. -/
theorem archetype_uniqueness (world : freecs_world_t) (h : Reachable world) :
    (∀ (i j : Nat) (a1 a2 : freecs_archetype_t), world.archetypes[i]? = some a1 →
      world.archetypes[j]? = some a2 → a1.mask = a2.mask → i = j) ∧
    world.archetype_index.length = world.archetypes.length ∧
    (∀ (i : Nat) (arch : freecs_archetype_t), world.archetypes[i]? = some arch →
      world.archetype_index[i]? = some ⟨arch.mask, [i]⟩) ∧
    (∀ (mask idx : Nat) (ti : List freecs_type_info_entry_t) (world1 : freecs_world_t),
      find_or_create_archetype world mask ti = some (world1, idx) →
      world1.archetypes.length = world.archetypes.length +
        (if world.archetypes.any (fun arch => arch.mask == mask) then 0 else 1)) := by
  have hg := h.struct_inv.graph
  refine ⟨hg.mask_inj, hg.index_len, ?_, fun mask idx ti world1 hf => find_or_create_length hg hf⟩
  intro i arch ha
  have hi : i < world.archetype_index.length := by
    rw [hg.index_len]
    exact (List.getElem?_eq_some.mp ha).1
  obtain ⟨hv, arch', ha', hk⟩ := hg.index_entry i _ (List.getElem?_eq_getElem hi)
  rw [ha] at ha'
  rw [← Option.some.inj ha'] at hk
  rw [List.getElem?_eq_getElem hi]
  congr 1
  cases hx : world.archetype_index[i] with
  | mk key value =>
    rw [hx] at hv hk
    simp only at hv hk
    rw [hv, hk]

set_option maxRecDepth 100000 in
/-- Witness of C14 in `world_three`: two archetypes, of masks 1 and 3; resolving
the new mask 2 appends a third archetype, resolving mask 3 again appends none. -/
theorem archetype_uniqueness_witness :
    world_three.archetypes.map (fun arch => arch.mask) = [1, 3] ∧
    world_three.archetype_index = [⟨1, [0]⟩, ⟨3, [1]⟩] ∧
    ((find_or_create_archetype world_three 2 [⟨2, 1, none, 1⟩]).map
      (fun p => (p.1.archetypes.length, p.2))) = some (3, 2) ∧
    ((find_or_create_archetype world_three 3 [⟨1, 2, none, 0⟩, ⟨2, 1, none, 1⟩]).map
      (fun p => (p.1.archetypes.length, p.2))) = some (2, 1) ∧
    ((∀ (i j : Nat) (a1 a2 : freecs_archetype_t), world_three.archetypes[i]? = some a1 →
      world_three.archetypes[j]? = some a2 → a1.mask = a2.mask → i = j) ∧
    world_three.archetype_index.length = world_three.archetypes.length ∧
    (∀ (i : Nat) (arch : freecs_archetype_t), world_three.archetypes[i]? = some arch →
      world_three.archetype_index[i]? = some ⟨arch.mask, [i]⟩) ∧
    (∀ (mask idx : Nat) (ti : List freecs_type_info_entry_t) (world1 : freecs_world_t),
      find_or_create_archetype world_three mask ti = some (world1, idx) →
      world1.archetypes.length = world_three.archetypes.length +
        (if world_three.archetypes.any (fun arch => arch.mask == mask) then 0 else 1))) :=
  ⟨by decide, by decide, by decide, by decide,
    archetype_uniqueness world_three world_three_reachable⟩

set_option maxRecDepth 100000 in
/-- Counterexample to C18 as stated: the first spawn in a world without
entities returns the handle `(0, 0)`, which is `FREECS_ENTITY_NIL`, and this
handle is alive afterwards. -/
theorem first_spawn_returns_nil :
    freecs_spawn world_reg 1 [⟨1, 2, some [7, 8], 0⟩] = some (world_one, FREECS_ENTITY_NIL) ∧
      freecs_is_alive world_one FREECS_ENTITY_NIL = true ∧ Reachable world_reg := by
  refine ⟨by decide, by decide, world_reg_reachable⟩

theorem find_or_create_count {world world1 : freecs_world_t} {mask idx : Nat}
    {ti : List freecs_type_info_entry_t}
    (h : find_or_create_archetype world mask ti = some (world1, idx)) :
    freecs_entity_count world1 = freecs_entity_count world ∧
      world1.free_entities = world.free_entities ∧
      world1.next_entity_id = world.next_entity_id := by
  rcases find_or_create_cases _ _ _ _ _ h with ⟨hw, _⟩ | ⟨_, _, arch0, h0, hw⟩
  · rw [hw]
    exact ⟨rfl, rfl, rfl⟩
  · rw [hw]
    refine ⟨?_, rfl, rfl⟩
    rw [entity_count_ents, entity_count_ents]
    have : ents { world with
        archetypes := (world.archetypes ++ [arch0]).map
          (wire_all world.type_sizes mask world.archetypes.length
            (List.range FREECS_MAX_COMPONENTS))
        archetype_index := world.archetype_index ++ [⟨mask, [world.archetypes.length]⟩]
        query_cache := update_query_cache world.query_cache mask world.archetypes.length } =
        ents world ++ [[]] := by
      simp only [ents, List.map_map, List.map_append, List.map_cons, List.map_nil]
      congr 1
      · apply List.map_congr_left
        intro X _
        exact (wire_all_spec _ _ _ _ X).2.1
      · simp only [Function.comp, (wire_all_spec _ _ _ _ arch0).2.1,
          (add_columns_spec _ _ _ h0).2.1, new_archetype]
    rw [this, List.foldl_append]
    rfl

/-- A successful spawn in a world with an empty free list returns the handle
`(next_entity_id, 0)`, keeps the free list empty, advances `next_entity_id`
and adds one entity. -/
theorem spawn_fresh {world world1 : freecs_world_t} {mask : Nat}
    {entries : List freecs_type_info_entry_t} {entity : freecs_entity_t}
    (hfree : world.free_entities = [])
    (hm : ¬ (entries.length = 0 ∨ mask = 0))
    (h : freecs_spawn world mask entries = some (world1, entity)) :
    entity = ⟨world.next_entity_id, 0⟩ ∧ world1.free_entities = [] ∧
      world1.next_entity_id = (world.next_entity_id + 1) % 2 ^ 32 ∧
      freecs_entity_count world1 = freecs_entity_count world + 1 := by
  obtain ⟨w1, idx, arch, w2, arch1, hfoc, hidx, halloc, hse, hlt, hw⟩ := spawn_spec h hm
  obtain ⟨hc1, hf1, hn1⟩ := find_or_create_count hfoc
  obtain ⟨_, s2, _⟩ := spawn_entries_spec _ _ _ hse
  obtain ⟨f1, _⟩ := alloc_entity_frame halloc
  have hcount : freecs_entity_count world1 = freecs_entity_count world + 1 := by
    have h1 := @entity_count_set w2 world1 idx arch arch1 (by rw [f1]; exact hidx)
      (by rw [hw])
    have h2 : freecs_entity_count w2 = freecs_entity_count w1 := by
      unfold freecs_entity_count
      rw [f1]
    have h3 : arch1.entities.length = arch.entities.length + 1 := by
      rw [s2]; simp
    omega
  rcases alloc_entity_cases w1 with ⟨e, he, _⟩ | ⟨_, hal⟩
  · rw [hf1, hfree] at he
    simp at he
  · rw [hal] at halloc
    simp only [Prod.mk.injEq] at halloc
    obtain ⟨hw2, he⟩ := halloc
    refine ⟨by rw [← he, hn1], ?_, ?_, hcount⟩
    · rw [hw, ← hw2]
      show (ensure_entity_slot _ _).free_entities = []
      unfold ensure_entity_slot
      split
      · show w1.free_entities = []
        rw [hf1, hfree]
      · show w1.free_entities = []
        rw [hf1, hfree]
    · rw [hw, ← hw2]
      show (ensure_entity_slot _ _).next_entity_id = _
      unfold ensure_entity_slot
      split
      · show (w1.next_entity_id + 1) % 2 ^ 32 = _
        rw [hn1]
      · show (w1.next_entity_id + 1) % 2 ^ 32 = _
        rw [hn1]

theorem set_archetype_counters {world world1 : freecs_world_t} {a : Nat}
    {arch arch1 : freecs_archetype_t} (ha : world.archetypes[a]? = some arch)
    (hw : world1 = { world with archetypes := world.archetypes.set a arch1 })
    (he : arch1.entities = arch.entities) :
    world1.free_entities = world.free_entities ∧
      world1.next_entity_id = world.next_entity_id ∧
      freecs_entity_count world1 = freecs_entity_count world := by
  subst hw
  refine ⟨rfl, rfl, ?_⟩
  have := @entity_count_set world { world with archetypes := world.archetypes.set a arch1 } a
    arch arch1 ha rfl
  rw [he] at this
  omega

theorem write_component_counters {world world1 : freecs_world_t} {id bit_idx size : Nat}
    {value : List Nat} (h : write_component world id bit_idx value size = some world1) :
    world1.free_entities = world.free_entities ∧
      world1.next_entity_id = world.next_entity_id ∧
      freecs_entity_count world1 = freecs_entity_count world := by
  obtain ⟨loc, arch, col, col1, _, harch, _, _, _, hw⟩ := write_component_spec h
  exact set_archetype_counters harch hw rfl

theorem remove_row_counters {world world1 : freecs_world_t} {a row : Nat}
    (h : remove_row world a row = some world1) :
    world1.free_entities = world.free_entities ∧
      world1.next_entity_id = world.next_entity_id ∧
      freecs_entity_count world1 + 1 = freecs_entity_count world := by
  obtain ⟨arch, last, columns2, harch, hlast, hcase⟩ := remove_row_spec h
  have hpos : 0 < arch.entities.length := by
    by_contra hc
    have h0 : arch.entities.length = 0 := by omega
    rw [List.getElem?_eq_none (by omega)] at hlast
    cases hlast
  rcases hcase with ⟨_, lloc, columns1, _, _, _, hw⟩ | ⟨_, _, hw⟩
  · subst hw
    refine ⟨rfl, rfl, ?_⟩
    have := @entity_count_set world
      { world with
          archetypes := world.archetypes.set a
            { arch with
                entities := (arch.entities.set row last).dropLast
                columns := columns2 }
          locations := world.locations.set last.id { lloc with row := toU32 row } } a arch
      { arch with entities := (arch.entities.set row last).dropLast, columns := columns2 }
      harch rfl
    simp only [List.length_dropLast, List.length_set] at this
    omega
  · subst hw
    refine ⟨rfl, rfl, ?_⟩
    have := @entity_count_set world
      { world with
          archetypes := world.archetypes.set a
            { arch with entities := arch.entities.dropLast, columns := columns2 } } a arch
      { arch with entities := arch.entities.dropLast, columns := columns2 } harch rfl
    simp only [List.length_dropLast] at this
    omega

theorem move_entity_counters {world world1 : freecs_world_t} {entity : freecs_entity_t}
    {from_idx from_row to_idx : Nat}
    (h : move_entity world entity from_idx from_row to_idx = some world1) :
    world1.free_entities = world.free_entities ∧
      world1.next_entity_id = world.next_entity_id ∧
      freecs_entity_count world1 = freecs_entity_count world := by
  obtain ⟨from_arch, to_arch, columns, w2, _, hto, _, hrm, _, hw⟩ := move_entity_spec h
  obtain ⟨r1, r2, r3⟩ := remove_row_counters hrm
  have hc := @entity_count_set world
    { world with
        archetypes := world.archetypes.set to_idx
          { to_arch with entities := to_arch.entities ++ [entity], columns := columns } }
    to_idx to_arch
    { to_arch with entities := to_arch.entities ++ [entity], columns := columns } hto rfl
  simp only [List.length_append, List.length_singleton] at hc
  subst hw
  refine ⟨r1, r2, ?_⟩
  show freecs_entity_count { w2 with locations := _ } = _
  have : freecs_entity_count { w2 with
      locations := w2.locations.set entity.id
        ⟨toU32 to_idx, toU32 to_arch.entities.length, entity.generation, true⟩ } =
      freecs_entity_count w2 := rfl
  rw [this]
  omega

theorem add_component_counters {world world1 : freecs_world_t} {entity : freecs_entity_t}
    {bit size : Nat} {value : List Nat} {ok : Bool}
    (h : freecs_add_component world entity bit value size = some (world1, ok)) :
    world1.free_entities = world.free_entities ∧
      world1.next_entity_id = world.next_entity_id ∧
      freecs_entity_count world1 = freecs_entity_count world := by
  rcases add_component_spec h with ⟨_, rfl, _⟩ | ⟨_, loc, bit_idx, arch, _, _, _, _, harch, hcase⟩
  · exact ⟨rfl, rfl, rfl⟩
  · rcases hcase with ⟨_, hw⟩ | ⟨_, w1, target, w2, hstep, _, hmove, hfin⟩
    · exact write_component_counters hw
    · have h1 : w1.free_entities = world.free_entities ∧
          w1.next_entity_id = world.next_entity_id ∧
          freecs_entity_count w1 = freecs_entity_count world := by
        rcases hstep with ⟨_, _, wf, idx, a, hf, ha, hw1, _⟩ | ⟨_, hw1, _⟩
        · obtain ⟨c1, c2, c3⟩ := find_or_create_count hf
          obtain ⟨d1, d2, d3⟩ := set_archetype_counters ha hw1 rfl
          exact ⟨d1.trans c2, d2.trans c3, d3.trans c1⟩
        · rw [hw1]
          exact ⟨rfl, rfl, rfl⟩
      obtain ⟨m1, m2, m3⟩ := move_entity_counters hmove
      have h2 : w2.free_entities = world.free_entities ∧
          w2.next_entity_id = world.next_entity_id ∧
          freecs_entity_count w2 = freecs_entity_count world :=
        ⟨m1.trans h1.1, m2.trans h1.2.1, m3.trans h1.2.2⟩
      rcases hfin with ⟨_, hw3⟩ | ⟨_, rfl⟩
      · obtain ⟨n1, n2, n3⟩ := write_component_counters hw3
        exact ⟨n1.trans h2.1, n2.trans h2.2.1, n3.trans h2.2.2⟩
      · exact h2

theorem despawn_kills {world world1 : freecs_world_t} {entity : freecs_entity_t} {ok : Bool}
    (h : freecs_despawn world entity = some (world1, ok)) :
    freecs_is_alive world1 entity = false := by
  rcases despawn_spec h with ⟨_, rfl, hd⟩ | ⟨_, loc, world2, loc1, _, _, _, _, hloc1, hw⟩
  · exact hd
  · subst hw
    rw [is_alive_false_iff]
    right
    refine ⟨{ loc1 with alive := false, generation := (loc1.generation + 1) % 2 ^ 32 }, ?_, rfl⟩
    show (world2.locations.set entity.id _)[entity.id]? = _
    rw [List.getElem?_set_eq_of_lt _ (List.getElem?_eq_some.mp hloc1).1]

theorem remove_component_counters {world world1 : freecs_world_t} {entity : freecs_entity_t}
    {bit : Nat} {ok : Bool}
    (h : freecs_remove_component world entity bit = some (world1, ok))
    (hkeep : ok = false ∨ freecs_is_alive world1 entity = true) :
    world1.free_entities = world.free_entities ∧
      world1.next_entity_id = world.next_entity_id ∧
      freecs_entity_count world1 = freecs_entity_count world := by
  rcases remove_component_spec h with ⟨_, rfl, _⟩ |
    ⟨hok, loc, bit_idx, arch, _, _, _, _, harch, _, hcase⟩
  · exact ⟨rfl, rfl, rfl⟩
  · rcases hcase with ⟨_, ok1, hd⟩ | ⟨_, w1, target, hstep, _, hmove⟩
    · have hdead := despawn_kills hd
      rcases hkeep with hf | hal
      · rw [hok] at hf; cases hf
      · rw [hdead] at hal; cases hal
    · have h1 : w1.free_entities = world.free_entities ∧
          w1.next_entity_id = world.next_entity_id ∧
          freecs_entity_count w1 = freecs_entity_count world := by
        rcases hstep with ⟨_, _, wf, idx, a, hf, ha, hw1, _⟩ | ⟨_, hw1, _⟩
        · obtain ⟨c1, c2, c3⟩ := find_or_create_count hf
          obtain ⟨d1, d2, d3⟩ := set_archetype_counters ha hw1 rfl
          exact ⟨d1.trans c2, d2.trans c3, d3.trans c1⟩
        · rw [hw1]
          exact ⟨rfl, rfl, rfl⟩
      obtain ⟨m1, m2, m3⟩ := move_entity_counters hmove
      exact ⟨m1.trans h1.1, m2.trans h1.2.1, m3.trans h1.2.2⟩

theorem set_counters {world world1 : freecs_world_t} {entity : freecs_entity_t}
    {bit size : Nat} {value : List Nat} {ok : Bool}
    (h : freecs_set world entity bit value size = some (world1, ok)) :
    world1.free_entities = world.free_entities ∧
      world1.next_entity_id = world.next_entity_id ∧
      freecs_entity_count world1 = freecs_entity_count world := by
  unfold freecs_set at h
  simp only [Option.bind_eq_bind, Option.bind_eq_some] at h
  obtain ⟨p, _, h⟩ := h
  cases p with
  | null =>
    simp only [Option.some.injEq, Prod.mk.injEq] at h
    rw [← h.1]
    exact ⟨rfl, rfl, rfl⟩
  | cell a c off =>
    simp only [Option.bind_eq_some, Option.some.injEq, Prod.mk.injEq] at h
    obtain ⟨arch, harch, col, _, col1, _, hw, _⟩ := h
    exact set_archetype_counters harch hw.symm rfl

theorem alloc_entity_fresh {world w2 : freecs_world_t} {entity : freecs_entity_t}
    (hfree : world.free_entities = []) (h : alloc_entity world = (w2, entity)) :
    entity = ⟨world.next_entity_id, 0⟩ ∧ w2.free_entities = [] ∧
      w2.next_entity_id = (world.next_entity_id + 1) % 2 ^ 32 ∧
      w2.archetypes = world.archetypes := by
  rcases alloc_entity_cases world with ⟨e, he, _⟩ | ⟨_, hal⟩
  · rw [hfree] at he
    simp at he
  · rw [hal] at h
    simp only [Prod.mk.injEq] at h
    obtain ⟨hw2, he⟩ := h
    refine ⟨he.symm, ?_, ?_, ?_⟩
    · rw [← hw2]
      unfold ensure_entity_slot
      split <;> exact hfree
    · rw [← hw2]
      unfold ensure_entity_slot
      split <;> rfl
    · rw [← hw2]
      unfold ensure_entity_slot
      split <;> rfl

theorem spawn_batch_loop_counters (count : Nat) :
    ∀ {world world1 : freecs_world_t} {idx row k : Nat} {entities : List freecs_entity_t},
      world.free_entities = [] → world.next_entity_id = k % 2 ^ 32 →
      spawn_batch_loop count world idx row = some (world1, entities) →
      world1.free_entities = [] ∧
        world1.next_entity_id = (k + entities.length) % 2 ^ 32 ∧
        freecs_entity_count world1 = freecs_entity_count world + entities.length ∧
        ∀ e ∈ entities, e.generation = 0 := by
  induction count with
  | zero =>
    intro world world1 idx row k entities hfree hnext h
    simp only [spawn_batch_loop, Option.some.injEq, Prod.mk.injEq] at h
    obtain ⟨rfl, rfl⟩ := h
    refine ⟨hfree, hnext, rfl, ?_⟩
    intro e he; cases he
  | succ count ih =>
    intro world world1 idx row k entities hfree hnext h
    unfold spawn_batch_loop at h
    cases hr : spawn_batch_row world idx row with
    | none => rw [hr] at h; simp at h
    | some p =>
      obtain ⟨wa, entity⟩ := p
      rw [hr] at h
      simp only at h
      cases hl : spawn_batch_loop count wa idx (row + 1) with
      | none => rw [hl] at h; simp at h
      | some q =>
        obtain ⟨wb, es⟩ := q
        rw [hl] at h
        simp only [Option.some.injEq, Prod.mk.injEq] at h
        obtain ⟨rfl, rfl⟩ := h
        obtain ⟨w2, arch, halloc, harch, _, hwa⟩ := spawn_batch_row_spec hr
        obtain ⟨a1, a2, a3, a4⟩ := alloc_entity_fresh hfree halloc
        have hwa_free : wa.free_entities = [] := by rw [hwa]; exact a2
        have hwa_next : wa.next_entity_id = (k + 1) % 2 ^ 32 := by
          rw [hwa]
          show w2.next_entity_id = _
          rw [a3, hnext]
          omega
        have hwa_count : freecs_entity_count wa = freecs_entity_count world + 1 := by
          have hc := @entity_count_set w2 wa idx arch
            { arch with
                entities := arch.entities ++ [entity]
                columns := arch.columns.map (fun col =>
                  { col with data := col.data ++ List.replicate col.elem_size 0 }) }
            harch (by rw [hwa])
          simp only [List.length_append, List.length_singleton] at hc
          have h2 : freecs_entity_count w2 = freecs_entity_count world := by
            unfold freecs_entity_count
            rw [a4]
          omega
        obtain ⟨i1, i2, i3, i4⟩ := ih hwa_free hwa_next hl
        refine ⟨i1, ?_, ?_, ?_⟩
        · rw [i2, List.length_cons]
          congr 1
          omega
        · rw [i3, hwa_count, List.length_cons]
          omega
        · intro e he
          rcases List.mem_cons.mp he with rfl | he
          · rw [a1]
          · exact i4 e he

theorem spawn_batch_counters {world world1 : freecs_world_t} {mask count k : Nat}
    {entities : List freecs_entity_t} (hfree : world.free_entities = [])
    (hnext : world.next_entity_id = k % 2 ^ 32)
    (h : freecs_spawn_batch world mask count = some (world1, entities)) :
    world1.free_entities = [] ∧
      world1.next_entity_id = (k + entities.length) % 2 ^ 32 ∧
      freecs_entity_count world1 = freecs_entity_count world + entities.length := by
  unfold freecs_spawn_batch at h
  split at h
  · simp only [Option.some.injEq, Prod.mk.injEq] at h
    obtain ⟨rfl, rfl⟩ := h
    exact ⟨hfree, hnext, rfl⟩
  · simp only at h
    split at h
    · simp only [Option.some.injEq, Prod.mk.injEq] at h
      obtain ⟨rfl, rfl⟩ := h
      exact ⟨hfree, hnext, rfl⟩
    · cases hf : find_or_create_archetype world mask (batch_type_info world.type_sizes mask) with
      | none => rw [hf] at h; simp at h
      | some p =>
        obtain ⟨w1, idx⟩ := p
        rw [hf] at h
        simp only at h
        cases ha : w1.archetypes[idx]? with
        | none => rw [ha] at h; simp at h
        | some arch =>
          rw [ha] at h
          simp only at h
          obtain ⟨c1, c2, c3⟩ := find_or_create_count hf
          obtain ⟨l1, l2, l3, _⟩ := spawn_batch_loop_counters count (k := k)
            (by exact c2.trans hfree) (by exact c3.trans hnext) h
          have d3 := (@set_archetype_counters w1 _ idx arch
            { arch with
                columns := arch.columns.map (fun col =>
                  { col with
                      data_cap := ensure_capacity_u8 col.data_cap
                        (col.data.length + count * col.elem_size) }) } ha rfl rfl).2.2
          exact ⟨l1, l2, by rw [l3, d3, c1]⟩

theorem NoDespawnRun.counters {k : Nat} {world : freecs_world_t} (h : NoDespawnRun k world) :
    world.free_entities = [] ∧ world.next_entity_id = k % 2 ^ 32 ∧
      freecs_entity_count world = k := by
  induction h with
  | create => exact ⟨rfl, rfl, rfl⟩
  | register_component k world world1 size bit _ hr ih =>
    simp only [freecs_register_component, Option.bind_eq_bind, Option.bind_eq_some,
      Option.some.injEq, Prod.mk.injEq] at hr
    obtain ⟨idx, _, hw, _⟩ := hr
    rw [← hw]
    exact ih
  | spawn k world world1 mask entries entity _ hm hs ih =>
    obtain ⟨_, s2, s3, s4⟩ := spawn_fresh ih.1 hm hs
    refine ⟨s2, ?_, by rw [s4, ih.2.2]⟩
    rw [s3, ih.2.1]
    omega
  | get_matching_archetypes k world world1 mask exclude result _ hq ih =>
    unfold freecs_get_matching_archetypes at hq
    simp only at hq
    cases hf : cache_find world.query_cache (mask ||| exclude <<< 32 % 2 ^ 64) with
    | some idx =>
      rw [hf] at hq
      simp only at hq
      cases he : world.query_cache[idx]? with
      | none => rw [he] at hq; simp at hq
      | some entry =>
        rw [he] at hq
        simp only [Option.some.injEq, Prod.mk.injEq] at hq
        rw [← hq.1]; exact ih
    | none =>
      rw [hf] at hq
      simp only [Option.some.injEq, Prod.mk.injEq] at hq
      rw [← hq.1]
      exact ih
  | queue_despawn k world entity _ ih => exact ih
  | spawn_batch k world world1 mask count entities _ hb ih =>
    obtain ⟨l1, l2, l3⟩ := spawn_batch_counters ih.1 ih.2.1 hb
    exact ⟨l1, l2, by rw [l3, ih.2.2]⟩
  | add_component k world world1 entity bit value size ok _ ha ih =>
    obtain ⟨c1, c2, c3⟩ := add_component_counters ha
    exact ⟨c1.trans ih.1, c2.trans ih.2.1, c3.trans ih.2.2⟩
  | remove_component k world world1 entity bit ok _ hr hkeep ih =>
    obtain ⟨c1, c2, c3⟩ := remove_component_counters hr hkeep
    exact ⟨c1.trans ih.1, c2.trans ih.2.1, c3.trans ih.2.2⟩
  | set k world world1 entity bit value size ok _ hs ih =>
    obtain ⟨c1, c2, c3⟩ := set_counters hs
    exact ⟨c1.trans ih.1, c2.trans ih.2.1, c3.trans ih.2.2⟩
  | despawn_refused k world world1 entity _ hd ih =>
    rcases despawn_spec hd with ⟨_, rfl, _⟩ | ⟨hok, _⟩
    · exact ih
    · cases hok
  | column_bytes k world world1 _ he ih =>
    obtain ⟨_, f2, f3, _⟩ := erase_bytes_fields he
    refine ⟨f2.trans ih.1, f3.trans ih.2.1, ?_⟩
    rw [entity_count_ents, ← ih.2.2, entity_count_ents]
    unfold ents
    rw [erase_bytes_map he (fun arch => arch.entities) (fun _ => rfl)]

/-- Claim C19, amended to count every created entity.  In a world reached from
`freecs_create_world` without any despawn, in which `n < 2^32` entities have
been created so far (by `freecs_spawn` and `freecs_spawn_batch`), the next
successful `freecs_spawn` returns the handle `(id = n, generation = 0)` and
`freecs_entity_count` is `n + 1` afterwards; when only `freecs_spawn` creates
entities, `n + 1` is the number `k` of the spawn, the handle is `(k - 1, 0)`
and the first spawn returns `(0, 0)` with `entity_count == 1`. -/
theorem fresh_world_handles (n : Nat) (world : freecs_world_t) (h : NoDespawnRun n world)
    (hn : n < 2 ^ 32) (mask : Nat) (entries : List freecs_type_info_entry_t)
    (world1 : freecs_world_t) (entity : freecs_entity_t)
    (hm : ¬ (entries.length = 0 ∨ mask = 0))
    (hs : freecs_spawn world mask entries = some (world1, entity)) :
    entity = ⟨n, 0⟩ ∧ freecs_entity_count world1 = n + 1 ∧
      freecs_entity_count world = n ∧ NoDespawnRun (n + 1) world1 := by
  obtain ⟨c1, c2, c3⟩ := h.counters
  obtain ⟨s1, _, _, s4⟩ := spawn_fresh c1 hm hs
  refine ⟨?_, by rw [s4, c3], c3, NoDespawnRun.spawn n world world1 mask entries entity h hm hs⟩
  rw [s1, c2, Nat.mod_eq_of_lt hn]

set_option maxRecDepth 100000 in
theorem world_reg_no_despawn : NoDespawnRun 0 world_reg :=
  NoDespawnRun.register_component 0 world_reg0 world_reg 1 2
    (NoDespawnRun.register_component 0 freecs_create_world world_reg0 2 1 NoDespawnRun.create
      (by decide)) (by decide)

set_option maxRecDepth 100000 in
/-- Witness of C19: after `freecs_spawn_batch` of two entities in `world_reg`,
the first `freecs_spawn` returns `(2, 0)` and leaves three entities; in
`world_reg` itself the first spawn returns `(0, 0)` and leaves one. -/
theorem fresh_world_handles_witness :
    ((⟨2, 0⟩ : freecs_entity_t) = ⟨2, 0⟩ ∧ freecs_entity_count world_batch_three = 2 + 1 ∧
      freecs_entity_count world_batch_two = 2 ∧ NoDespawnRun (2 + 1) world_batch_three) ∧
    ((⟨0, 0⟩ : freecs_entity_t) = ⟨0, 0⟩ ∧ freecs_entity_count world_one = 0 + 1 ∧
      freecs_entity_count world_reg = 0 ∧ NoDespawnRun (0 + 1) world_one) :=
  ⟨fresh_world_handles 2 world_batch_two
      (NoDespawnRun.spawn_batch 0 world_reg world_batch_two 1 2 [⟨0, 0⟩, ⟨1, 0⟩]
        world_reg_no_despawn (by decide))
      (by decide) 1 [⟨1, 2, some [7, 8], 0⟩] world_batch_three ⟨2, 0⟩ (by decide) (by decide),
    fresh_world_handles 0 world_reg world_reg_no_despawn (by decide) 1
      [⟨1, 2, some [7, 8], 0⟩] world_one ⟨0, 0⟩ (by decide) (by decide)⟩

set_option maxRecDepth 100000 in
/-- Counterexample to C19 as stated: in `world_reg`, where no despawn has
happened, `freecs_spawn_batch(mask 1, count 2)` creates the entities `(0, 0)`
and `(1, 0)`; the first successful `freecs_spawn` then returns `(2, 0)`, not
`(0, 0)`, and `freecs_entity_count` is 3 afterwards, not 1. -/
theorem first_spawn_after_batch :
    freecs_spawn_batch world_reg 1 2 = some (world_batch_two, [⟨0, 0⟩, ⟨1, 0⟩]) ∧
    world_batch_two.free_entities = [] ∧
    freecs_spawn world_batch_two 1 [⟨1, 2, some [7, 8], 0⟩] =
      some (world_batch_three, ⟨2, 0⟩) ∧
    freecs_entity_count world_batch_three = 3 := by
  decide

theorem two_pow_and_not64 {k : Nat} (hk : k < 64) : 2 ^ k &&& not64 (2 ^ k) = 0 := by
  apply Nat.eq_of_testBit_eq
  intro b
  rw [testBit_and_not64_two_pow (Nat.pow_lt_pow_right (by omega) hk) hk, Nat.testBit_two_pow]
  by_cases hb : k = b <;> simp [hb]

/-- Claim C20.  Removing the last component despawns: in a well-formed world,
for a live handle `h` whose component mask is exactly the single bit `2^k`,
`freecs_remove_component(h, 2^k)` returns true; afterwards `h` is not alive,
the generation of its slot is the old one plus one (modulo `2^32`), the pair
`(h.id, new generation)` is on the free list, and no archetype was created, in
particular none of mask 0. -/
theorem remove_last_component_despawns (world : freecs_world_t) (hw : WellFormed world)
    (h : freecs_entity_t) (k : Nat) (hk : k < 64)
    (hmask : freecs_component_mask world h = some (2 ^ k, true)) :
    ∃ world1, freecs_remove_component world h (2 ^ k) = some (world1, true) ∧
      freecs_is_alive world1 h = false ∧
      (∃ loc1, world1.locations[h.id]? = some loc1 ∧
        loc1.generation = (h.generation + 1) % 2 ^ 32 ∧ loc1.alive = false) ∧
      (⟨h.id, (h.generation + 1) % 2 ^ 32⟩ : freecs_entity_t) ∈ world1.free_entities ∧
      world1.archetypes.length = world.archetypes.length ∧
      ∀ arch ∈ world1.archetypes, arch.mask ≠ 0 := by
  have hlive : freecs_is_alive world h = true := by
    cases hl : freecs_is_alive world h with
    | true => rfl
    | false =>
      rw [component_mask_dead hl] at hmask
      simp at hmask
  obtain ⟨loc, hloc, hal, hgen⟩ := is_alive_iff.mp hlive
  obtain ⟨arch, harch, _, _⟩ := live_row hw.struct hloc hal
  rw [component_mask_live hloc hal hgen harch] at hmask
  simp only [Option.some.injEq, Prod.mk.injEq, and_true] at hmask
  have hm : arch.mask.testBit k = true := by
    rw [hmask, Nat.testBit_two_pow]; simp
  have h0 : arch.mask &&& not64 (2 ^ k) = 0 := by
    rw [hmask]; exact two_pow_and_not64 hk
  obtain ⟨world2, arch0, arch2, last, hrr, hent, hdes, hwf⟩ := despawn_live hw hloc hal hgen
  have hid : h.id < world2.locations.length := by
    rw [hrr.locs_length]
    exact (List.getElem?_eq_some.mp hloc).1
  have hl1 : (world2.locations.set h.id
      ⟨loc.archetype_index, loc.row, (h.generation + 1) % 2 ^ 32, false⟩)[h.id]? =
      some ⟨loc.archetype_index, loc.row, (h.generation + 1) % 2 ^ 32, false⟩ :=
    List.getElem?_set_self hid
  refine ⟨_, remove_last_eq hloc hal hgen harch hk hm h0 hdes, ?_, ⟨_, hl1, rfl, rfl⟩, ?_, ?_,
    ?_⟩
  · exact is_alive_false_of_loc hl1 (Or.inl rfl)
  · show _ ∈ world.free_entities ++ [_]
    simp
  · show world2.archetypes.length = _
    rw [hrr.dst, List.length_set]
  · intro a ha
    obtain ⟨i, hi⟩ := List.getElem?_of_mem ha
    exact (hwf.cols.archs i a hi).mask_ne

set_option maxRecDepth 100000 in
/-- Witness of C20 in `world_one`: the handle `(0, 0)` has component 1 only. -/
theorem remove_last_component_despawns_witness :
    ∃ world1, freecs_remove_component world_one ⟨0, 0⟩ (2 ^ 0) = some (world1, true) ∧
      freecs_is_alive world1 ⟨0, 0⟩ = false ∧
      (∃ loc1, world1.locations[(⟨0, 0⟩ : freecs_entity_t).id]? = some loc1 ∧
        loc1.generation = ((⟨0, 0⟩ : freecs_entity_t).generation + 1) % 2 ^ 32 ∧
        loc1.alive = false) ∧
      (⟨(⟨0, 0⟩ : freecs_entity_t).id,
        ((⟨0, 0⟩ : freecs_entity_t).generation + 1) % 2 ^ 32⟩ : freecs_entity_t) ∈
          world1.free_entities ∧
      world1.archetypes.length = world_one.archetypes.length ∧
      ∀ arch ∈ world1.archetypes, arch.mask ≠ 0 :=
  remove_last_component_despawns world_one world_one_built.well_formed ⟨0, 0⟩ 0 (by decide)
    (by decide)

theorem get_bytes_null_iff {world : freecs_world_t} {x : freecs_entity_t} {bit : Nat} :
    get_bytes world x bit = some none ↔ freecs_get world x bit = some Ptr.null := by
  unfold get_bytes
  cases hg : freecs_get world x bit with
  | none => simp
  | some p =>
    cases p with
    | null => simp
    | cell a c off =>
      simp only [Option.some.injEq]
      constructor
      · intro h
        cases ha : world.archetypes[a]? with
        | none => rw [ha] at h; simp at h
        | some arch =>
          rw [ha] at h
          simp only at h
          cases hc : arch.columns[c]? with
          | none => rw [hc] at h; simp at h
          | some col =>
            rw [hc] at h
            simp only at h
            cases hr : read_bytes world (Ptr.cell a c off) col.elem_size with
            | none => rw [hr] at h; simp at h
            | some bytes => rw [hr] at h; simp at h
      · intro h
        cases h

theorem get_bytes_some_cell {world : freecs_world_t} {x : freecs_entity_t} {bit : Nat}
    {v : List Nat} (h : get_bytes world x bit = some (some v)) :
    ∃ a c off, freecs_get world x bit = some (Ptr.cell a c off) := by
  unfold get_bytes at h
  cases hg : freecs_get world x bit with
  | none => rw [hg] at h; simp at h
  | some p =>
    cases p with
    | null => rw [hg] at h; simp at h
    | cell a c off => exact ⟨a, c, off, rfl⟩

theorem and_two_pow_bne (m k : Nat) : (m &&& 2 ^ k != 0) = m.testBit k := by
  cases hb : m.testBit k with
  | true =>
    have := and_two_pow_ne_zero_of_testBit hb
    simp [this]
  | false =>
    have := and_two_pow_eq_zero_of_testBit hb
    simp [this]

/-- What the read functions return for a live handle of a well-formed world
and a single bit `2^k`. -/
theorem observe_live {world : freecs_world_t} (hw : WellFormed world) {x : freecs_entity_t}
    (hlive : freecs_is_alive world x = true) :
    ∃ loc arch, world.locations[x.id]? = some loc ∧ loc.alive = true ∧
      loc.generation = x.generation ∧
      world.archetypes[loc.archetype_index]? = some arch ∧ loc.row < arch.entities.length ∧
      freecs_component_mask world x = some (arch.mask, true) ∧
      (∀ k, freecs_has world x (2 ^ k) = some (arch.mask.testBit k)) ∧
      (∀ bit, get_bytes world x bit = comp_view arch loc.row bit) := by
  obtain ⟨loc, hloc, hal, hgen⟩ := is_alive_iff.mp hlive
  obtain ⟨arch, harch, _, hrow⟩ := live_row hw.struct hloc hal
  refine ⟨loc, arch, hloc, hal, hgen, harch, hrow, component_mask_live hloc hal hgen harch,
    ?_, get_bytes_live hloc hal hgen harch (hw.cols.archs _ _ harch) hrow⟩
  intro k
  rw [has_live hloc hal hgen harch, and_two_pow_bne]

/-- Claim C12, amended to components of non-zero size.  In every state built by
contract-respecting calls, for every live handle `h` and every registered bit
`2^k` whose registered size is not 0, `freecs_get(h, 2^k)` is null if and only
if bit `k` is not in the mask of the archetype of `h`, that is, if and only if
`freecs_has(h, 2^k)` is false. -/
theorem get_null_iff_absent (world : freecs_world_t) (hb : Built world)
    (h : freecs_entity_t) (hlive : freecs_is_alive world h = true) (k : Nat)
    (hk : Registered world k) (hz : world.type_sizes.getD k 0 ≠ 0) :
    ∃ m, freecs_component_mask world h = some (m, true) ∧
      freecs_has world h (2 ^ k) = some (m.testBit k) ∧
      (freecs_get world h (2 ^ k) = some Ptr.null ↔ m.testBit k = false) ∧
      (freecs_get world h (2 ^ k) = some Ptr.null ↔
        freecs_has world h (2 ^ k) = some false) := by
  have hw := hb.well_formed
  obtain ⟨loc, arch, hloc, hal, hgen, harch, hrow, hmask, hhas, hget⟩ := observe_live hw hlive
  have hac := hw.cols.archs _ _ harch
  have hiff : freecs_get world h (2 ^ k) = some Ptr.null ↔ arch.mask.testBit k = false := by
    rw [← get_bytes_null_iff, hget]
    cases hm : arch.mask.testBit k with
    | false => simp [comp_view_absent hac hk.1 hm]
    | true =>
      obtain ⟨c, col, _, _, _, _, _, _, hv⟩ := comp_view_present hac hk.1 hm hz hrow
      simp [hv]
  refine ⟨arch.mask, hmask, hhas k, hiff, ?_⟩
  rw [hiff, hhas k]
  simp

set_option maxRecDepth 100000 in
/-- Witness of C12 in `world_three`: the handle `(0, 0)` has component 1 only;
bit `2^1` (component 2, one byte) is absent and its pointer is null. -/
theorem get_null_iff_absent_witness :
    ∃ m, freecs_component_mask world_three ⟨0, 0⟩ = some (m, true) ∧
      freecs_has world_three ⟨0, 0⟩ (2 ^ 1) = some (m.testBit 1) ∧
      (freecs_get world_three ⟨0, 0⟩ (2 ^ 1) = some Ptr.null ↔ m.testBit 1 = false) ∧
      (freecs_get world_three ⟨0, 0⟩ (2 ^ 1) = some Ptr.null ↔
        freecs_has world_three ⟨0, 0⟩ (2 ^ 1) = some false) :=
  get_null_iff_absent world_three world_three_built ⟨0, 0⟩ (by decide) 1
    ⟨by decide, Or.inr (by decide)⟩ (by decide)

theorem entries_pair_fit (world : freecs_world_t) (s1 s2 : Nat)
    (hs1 : world.type_sizes.getD 0 0 = s1) (hs2 : world.type_sizes.getD 1 0 = s2)
    (hnb : world.next_bit = 4) (d1 d2 : List Nat) (hd1 : s1 ≤ d1.length)
    (hd2 : s2 ≤ d2.length) :
    EntriesFor world 3 [⟨1, s1, some d1, 0⟩, ⟨2, s2, some d2, 1⟩] := by
  refine ⟨by decide, ?_, by simp, ?_, ?_, ?_⟩
  · intro b hb
    have hb1 : b < 2 := testBit_lt_of_lt (n := 2) (by decide) hb
    have : b = 0 ∨ b = 1 := by omega
    rcases this with rfl | rfl
    · exact ⟨by decide, Or.inr (by rw [hnb]; decide)⟩
    · exact ⟨by decide, Or.inr (by rw [hnb]; decide)⟩
  · intro en hen
    simp only [List.mem_cons, List.mem_singleton, List.mem_nil_iff, or_false] at hen
    rcases hen with rfl | rfl
    · exact ⟨0, by decide, rfl, by decide, hs1.symm⟩
    · exact ⟨1, by decide, rfl, by decide, hs2.symm⟩
  · intro b hb
    have hb1 : b < 2 := testBit_lt_of_lt (n := 2) (by decide) hb
    have : b = 0 ∨ b = 1 := by omega
    rcases this with rfl | rfl
    · exact ⟨⟨1, s1, some d1, 0⟩, by simp, rfl⟩
    · exact ⟨⟨2, s2, some d2, 1⟩, by simp, rfl⟩
  · intro en hen d hd
    simp only [List.mem_cons, List.mem_singleton, List.mem_nil_iff, or_false] at hen
    rcases hen with rfl | rfl
    · simp only [Option.some.injEq] at hd
      subst hd
      exact hd1
    · simp only [Option.some.injEq] at hd
      subst hd
      exact hd2

set_option maxRecDepth 100000 in
theorem world_tag_reg_built : Built world_tag_reg :=
  Built.register_component
    ((register_sizes [2] freecs_create_world).getD freecs_create_world) world_tag_reg 0 2
    (Built.register_component freecs_create_world
      ((register_sizes [2] freecs_create_world).getD freecs_create_world) 2 1 Built.create
      (by decide)) (by decide)

set_option maxRecDepth 100000 in
theorem world_tag_one_built : Built world_tag_one :=
  Built.spawn world_tag_reg world_tag_one 3 [⟨1, 2, some [7, 8], 0⟩, ⟨2, 0, some [], 1⟩] ⟨0, 0⟩
    world_tag_reg_built
    (entries_pair_fit world_tag_reg 2 0 (by decide) (by decide) (by decide) [7, 8] []
      (by decide) (by decide))
    (by decide) (by decide) (by decide)

set_option maxRecDepth 100000 in
/-- Counterexample to C12 as stated (sizes including 0): in `world_tag_one`,
built by registering a two-byte and a zero-size component and spawning one
entity with both, the zero-size bit 2 is in the mask of the live handle
`(0, 0)` and `freecs_has` is true, yet `freecs_get` returns null. -/
theorem zero_size_get_is_null :
    Built world_tag_one ∧ freecs_is_alive world_tag_one ⟨0, 0⟩ = true ∧
      freecs_component_mask world_tag_one ⟨0, 0⟩ = some (3, true) ∧
      freecs_has world_tag_one ⟨0, 0⟩ 2 = some true ∧
      freecs_get world_tag_one ⟨0, 0⟩ 2 = some Ptr.null :=
  ⟨world_tag_one_built, by decide, by decide, by decide, by decide⟩

/-- Claim C1, amended to worlds built by contract-respecting calls and to
entries of non-zero size.  For every such world and every `freecs_spawn` whose
entries list each bit of the mask exactly once with its registered size, the
call returns a live handle `h` whose mask is `mask`; for every entry with a
non-null payload and a non-zero size `freecs_get(h, entry.bit)` is non-null and
the `elem_size` bytes it addresses are the first `size` bytes of the payload;
for every entry of size 0 `freecs_get(h, entry.bit)` is null. -/
theorem spawn_get_round_trip (world : freecs_world_t) (hb : Built world) (mask : Nat)
    (entries : List freecs_type_info_entry_t) (he : EntriesFor world mask entries)
    (hb1 : world.locations.length + 1 < 2 ^ 32) (hb2 : world.archetypes.length + 1 < 2 ^ 31) :
    ∃ world1 h, freecs_spawn world mask entries = some (world1, h) ∧
      freecs_is_alive world1 h = true ∧
      freecs_component_mask world1 h = some (mask, true) ∧
      (∀ en ∈ entries, ∀ d, en.data = some d → en.size ≠ 0 →
        (∃ a c off, freecs_get world1 h en.bit = some (Ptr.cell a c off)) ∧
        get_bytes world1 h en.bit = some (some (d.take en.size))) ∧
      ∀ en ∈ entries, en.size = 0 →
        freecs_get world1 h en.bit = some Ptr.null := by
  obtain ⟨world1, h, loc, arch1, hsp, hw1, hloc, hal, hgen, harch, hmask, hrow, hts, _, hview⟩ :=
    spawn_wf hb.well_formed he hb1 hb2
  refine ⟨world1, h, hsp, is_alive_iff.mpr ⟨loc, hloc, hal, hgen⟩, ?_, ?_, ?_⟩
  · rw [component_mask_live hloc hal hgen harch, hmask]
  · intro en hen d hd hsz
    have hbytes := entry_bytes_data hd (he.data_ok en hen d hd)
    have hget : get_bytes world1 h en.bit = some (some (d.take en.size)) := by
      rw [get_bytes_live hloc hal hgen harch (hw1.cols.archs _ _ harch) (by omega)]
      exact hview en hen hsz _ hbytes
    exact ⟨get_bytes_some_cell hget, hget⟩
  · intro en hen hsz
    obtain ⟨b, hb64, hbit, _, hsize⟩ := he.bit_ok en hen
    have hget : get_bytes world1 h en.bit = some none := by
      rw [get_bytes_live hloc hal hgen harch (hw1.cols.archs _ _ harch) (by omega), hbit]
      exact comp_view_zero_size (hw1.cols.archs _ _ harch) hb64
        (by rw [hts, ← hsize]; exact hsz) loc.row
    exact get_bytes_null_iff.mp hget

set_option maxRecDepth 100000 in
/-- Witness of C1 in `world_tag_reg` (a two-byte component at bit 1, a
zero-size component at bit 2): spawn of one entity with component 1 = `[7, 8]`
and the zero-size component. -/
theorem spawn_get_round_trip_witness :
    ∃ world1 h, freecs_spawn world_tag_reg 3 [⟨1, 2, some [7, 8], 0⟩, ⟨2, 0, some [], 1⟩] =
        some (world1, h) ∧
      freecs_is_alive world1 h = true ∧
      freecs_component_mask world1 h = some (3, true) ∧
      (∀ en ∈ [(⟨1, 2, some [7, 8], 0⟩ : freecs_type_info_entry_t), ⟨2, 0, some [], 1⟩], ∀ d,
        en.data = some d → en.size ≠ 0 →
        (∃ a c off, freecs_get world1 h en.bit = some (Ptr.cell a c off)) ∧
        get_bytes world1 h en.bit = some (some (d.take en.size))) ∧
      ∀ en ∈ [(⟨1, 2, some [7, 8], 0⟩ : freecs_type_info_entry_t), ⟨2, 0, some [], 1⟩],
        en.size = 0 → freecs_get world1 h en.bit = some Ptr.null :=
  spawn_get_round_trip world_tag_reg world_tag_reg_built 3
    [⟨1, 2, some [7, 8], 0⟩, ⟨2, 0, some [], 1⟩]
    (entries_pair_fit world_tag_reg 2 0 (by decide) (by decide) (by decide) [7, 8] []
      (by decide) (by decide))
    (by decide) (by decide)

set_option maxRecDepth 100000 in
/-- Counterexample to C1 as stated: in the world `world_tag_reg`, built by
registering a two-byte component (bit 1) and a zero-size component (bit 2),
`freecs_spawn` with mask 3 lists both bits once, each with a non-null payload
and its registered size; it returns the live handle `(0, 0)`, and
`freecs_get` of the zero-size component is null: a component of size 0 has
no bytes and its column buffer is never allocated. -/
theorem zero_size_spawn_get_is_null :
    Built world_tag_reg ∧
      freecs_spawn world_tag_reg 3 [⟨1, 2, some [7, 8], 0⟩, ⟨2, 0, some [], 1⟩] =
        some (world_tag_one, ⟨0, 0⟩) ∧
      freecs_is_alive world_tag_one ⟨0, 0⟩ = true ∧
      freecs_get world_tag_one ⟨0, 0⟩ 1 = some (Ptr.cell 0 0 0) ∧
      freecs_get world_tag_one ⟨0, 0⟩ 2 = some Ptr.null :=
  ⟨world_tag_reg_built, by decide, by decide, by decide, by decide⟩

set_option maxRecDepth 100000 in
/-- Aftermath of a spawn that omits a bit of its mask.  `world_sparse` is
reached by a spawn with mask 3 that lists component 1 only, which creates the
archetype of mask 3 with a single column; the next spawn with mask 3 lists
both components once, with non-null payloads of the registered sizes, and
returns the live handle `(1, 0)`, but `freecs_get` of component 2 is null. -/
theorem sparse_archetype_get_is_null :
    Reachable world_sparse ∧
      freecs_spawn world_sparse 3 [⟨1, 2, some [7, 8], 0⟩, ⟨2, 1, some [9], 1⟩] =
        some (world_sparse_two, ⟨1, 0⟩) ∧
      freecs_is_alive world_sparse_two ⟨1, 0⟩ = true ∧
      freecs_get world_sparse_two ⟨1, 0⟩ 2 = some Ptr.null :=
  ⟨Reachable.spawn world_reg world_sparse 3 [⟨1, 2, some [1, 2], 0⟩] ⟨0, 0⟩
      world_reg_reachable (by decide) ⟨by decide, by decide⟩,
    by decide, by decide, by decide⟩

/-- Function `freecs_set` on a live handle whose archetype has an allocated
column for bit index `k` is the payload write of `freecs_add_component`. -/
theorem set_eq_write {world : freecs_world_t} {x : freecs_entity_t}
    {loc : freecs_entity_location_t} (hloc : world.locations[x.id]? = some loc)
    (hal : loc.alive = true) (hgen : loc.generation = x.generation)
    {arch : freecs_archetype_t} (harch : world.archetypes[loc.archetype_index]? = some arch)
    {k c : Nat} (hk : k < 64) (hidx : arch.column_bits.getD k (-1) = (c : Int))
    {col : freecs_component_column_t} (hcol : arch.columns[c]? = some col)
    (hcap : col.data_cap ≠ 0) (value : List Nat) (size : Nat) :
    freecs_set world x (2 ^ k) value size =
      (write_component world x.id k value size).bind (fun w => some (w, true)) := by
  have hidlt : ¬ x.id ≥ world.locations.length := by
    have := (List.getElem?_eq_some.mp hloc).1
    omega
  have hget : freecs_get world x (2 ^ k) =
      some (Ptr.cell loc.archetype_index c (loc.row * col.elem_size)) := by
    unfold freecs_get
    rw [if_neg hidlt]
    simp only [Option.bind_eq_bind, hloc, Option.some_bind, hal, hgen, Bool.not_true,
      bne_self_eq_false, Bool.or_self, Bool.false_eq_true, if_false, harch,
      bit_index_two_pow k hk, hidx]
    rw [if_neg (by omega), Int.toNat_ofNat, hcol]
    simp only [Option.some_bind, elem_addr, hcap, if_false]
  unfold freecs_set write_component
  rw [hget]
  simp only [Option.bind_eq_bind, Option.some_bind, hloc, harch, hidx]
  rw [if_neg (by omega), Int.toNat_ofNat, hcol]
  simp only [Option.some_bind]
  cases write_column col (loc.row * col.elem_size) value size <;> rfl

/-- Claim C15, amended to components of non-zero size.  In a well-formed
world, for a live handle `h` with component mask `m`: when bit `k` is in `m`,
its registered size is not 0 and `size` is that size (the element size of the
column), `freecs_set(h, 2^k, v, size)` returns true, afterwards
`freecs_get(h, 2^k)` addresses the first `size` bytes of `v`, every other
component of `h` and every component of every other live handle is unchanged;
when bit `k` is not in `m`, `freecs_set` returns false and the world is the
one it was given. -/
theorem set_get_round_trip (world : freecs_world_t) (hw : WellFormed world)
    (h : freecs_entity_t) (m : Nat) (hmask : freecs_component_mask world h = some (m, true))
    (k : Nat) (hk : k < 64) (value : List Nat) (size : Nat) :
    (m.testBit k = true → world.type_sizes.getD k 0 ≠ 0 →
      size = world.type_sizes.getD k 0 → size ≤ value.length →
      ∃ world1, freecs_set world h (2 ^ k) value size = some (world1, true) ∧
        get_bytes world1 h (2 ^ k) = some (some (value.take size)) ∧
        (∀ j, j < 64 → j ≠ k → get_bytes world1 h (2 ^ j) = get_bytes world h (2 ^ j)) ∧
        Frame world world1 (fun i => i = h.id)) ∧
    (m.testBit k = false → freecs_set world h (2 ^ k) value size = some (world, false)) := by
  have hlive : freecs_is_alive world h = true := by
    cases hl : freecs_is_alive world h with
    | true => rfl
    | false =>
      rw [component_mask_dead hl] at hmask
      simp at hmask
  obtain ⟨loc, arch, hloc, hal, hgen, harch, hrow, hmask2, hhas, hget⟩ := observe_live hw hlive
  rw [hmask2] at hmask
  simp only [Option.some.injEq, Prod.mk.injEq, and_true] at hmask
  subst hmask
  have hac := hw.cols.archs _ _ harch
  constructor
  · intro hm hz hsize hval
    obtain ⟨c, col, hidx, hcol, _, _, _, hcap, _⟩ := comp_view_present hac hk hm hz hrow
    have hge : 0 ≤ arch.column_bits.getD k (-1) := by rw [hidx]; exact Int.natCast_nonneg _
    obtain ⟨world1, arch1, hwc, hw1, hl1, harch1, _, hents1, _, _, _, _, _, _, hvk, hvo,
      hframe, _⟩ := write_component_wf hw hloc hal harch hk hge hsize hval
    have hloc1 : world1.locations[h.id]? = some loc := by rw [hl1]; exact hloc
    have hrow1 : loc.row < arch1.entities.length := by rw [hents1]; exact hrow
    have hget1 : ∀ bit, get_bytes world1 h bit = comp_view arch1 loc.row bit :=
      get_bytes_live hloc1 hal hgen harch1 (hw1.cols.archs _ _ harch1) hrow1
    refine ⟨world1, ?_, ?_, ?_, hframe⟩
    · rw [set_eq_write hloc hal hgen harch hk hidx hcol hcap, hwc]
      rfl
    · rw [hget1]
      exact hvk (by omega)
    · intro j hj hjk
      rw [hget1, hget]
      apply hvo
      rw [bit_index_two_pow j hj]
      intro heq
      exact hjk (Option.some.inj heq)
  · intro hm
    have hnull : freecs_get world h (2 ^ k) = some Ptr.null := by
      rw [← get_bytes_null_iff, hget]
      exact comp_view_absent hac hk hm _
    unfold freecs_set
    rw [hnull]
    rfl

set_option maxRecDepth 100000 in
/-- Witness of C15 in `world_three`: the handle `(2, 0)` has components 1 and 2;
component 1 (two bytes) is set to `[5, 6]`; the handle `(0, 0)` has no
component 2. -/
theorem set_get_round_trip_witness :
    (∃ world1, freecs_set world_three ⟨2, 0⟩ (2 ^ 0) [5, 6] 2 = some (world1, true) ∧
        get_bytes world1 ⟨2, 0⟩ (2 ^ 0) = some (some (([5, 6] : List Nat).take 2)) ∧
        (∀ j, j < 64 → j ≠ 0 →
          get_bytes world1 ⟨2, 0⟩ (2 ^ j) = get_bytes world_three ⟨2, 0⟩ (2 ^ j)) ∧
        Frame world_three world1 (fun i => i = (⟨2, 0⟩ : freecs_entity_t).id)) ∧
    freecs_set world_three ⟨0, 0⟩ (2 ^ 1) [5] 1 = some (world_three, false) :=
  ⟨(set_get_round_trip world_three world_three_built.well_formed ⟨2, 0⟩ 3 (by decide) 0
      (by decide) [5, 6] 2).1 (by decide) (by decide) (by decide) (by decide),
    (set_get_round_trip world_three world_three_built.well_formed ⟨0, 0⟩ 1 (by decide) 1
      (by decide) [5] 1).2 (by decide)⟩

set_option maxRecDepth 100000 in
/-- Counterexample to C15 as stated: in `world_tag_one` the zero-size bit 2 is
present on the live handle `(0, 0)` and its column has element size 0, yet
`freecs_set` with size 0 returns false. -/
theorem zero_size_set_returns_false :
    freecs_has world_tag_one ⟨0, 0⟩ 2 = some true ∧
      (world_tag_one.archetypes.map (fun arch =>
        arch.columns.map (fun col => (col.bit, col.elem_size)))) = [[(1, 2), (2, 0)]] ∧
      freecs_set world_tag_one ⟨0, 0⟩ 2 [] 0 = some (world_tag_one, false) :=
  ⟨by decide, by decide, by decide⟩

theorem MasksKept.id_kept (world : freecs_world_t) : MasksKept world world :=
  fun _ X h => ⟨X, h, rfl⟩

theorem MasksKept.comp {w1 w2 w3 : freecs_world_t} (h12 : MasksKept w1 w2)
    (h23 : MasksKept w2 w3) : MasksKept w1 w3 := by
  intro i X hX
  obtain ⟨X1, h1, m1⟩ := h12 i X hX
  obtain ⟨X2, h2, m2⟩ := h23 i X1 h1
  exact ⟨X2, h2, m2.trans m1⟩

theorem MasksKept.of_set {world world1 : freecs_world_t} {a : Nat}
    {arch arch1 : freecs_archetype_t} (ha : world.archetypes[a]? = some arch)
    (h : world1.archetypes = world.archetypes.set a arch1) (hm : arch1.mask = arch.mask) :
    MasksKept world world1 := by
  intro i X hX
  rw [h]
  by_cases hi : a = i
  · subst hi
    rw [ha] at hX
    rw [← Option.some.inj hX]
    exact ⟨arch1, List.getElem?_set_self (List.getElem?_eq_some.mp ha).1, hm⟩
  · exact ⟨X, by rw [List.getElem?_set_ne hi]; exact hX, rfl⟩

theorem remove_row_masks {world world1 : freecs_world_t} {a row : Nat}
    (h : remove_row world a row = some world1) : MasksKept world world1 := by
  obtain ⟨arch, last, columns2, harch, _, hcases⟩ := remove_row_spec h
  rcases hcases with ⟨_, lloc, columns1, _, _, _, hw⟩ | ⟨_, _, hw⟩
  · refine MasksKept.of_set harch (by rw [hw]) ?_
    rfl
  · refine MasksKept.of_set harch (by rw [hw]) ?_
    rfl

theorem move_entity_masks {world world1 : freecs_world_t} {entity : freecs_entity_t}
    {from_idx from_row to_idx : Nat}
    (h : move_entity world entity from_idx from_row to_idx = some world1) :
    MasksKept world world1 := by
  obtain ⟨from_arch, to_arch, columns, w2, _, hto, _, hrm, _, hw⟩ := move_entity_spec h
  have h1 : MasksKept world { world with
      archetypes := world.archetypes.set to_idx
        { to_arch with entities := to_arch.entities ++ [entity], columns := columns } } :=
    @MasksKept.of_set world _ to_idx to_arch
      { to_arch with entities := to_arch.entities ++ [entity], columns := columns } hto rfl rfl
  have h2 := remove_row_masks hrm
  have h3 : MasksKept w2 world1 := by
    intro i X hX
    rw [hw]
    exact ⟨X, hX, rfl⟩
  exact (h1.comp h2).comp h3

theorem write_component_masks {world world1 : freecs_world_t} {id bit_idx size : Nat}
    {value : List Nat} (h : write_component world id bit_idx value size = some world1) :
    MasksKept world world1 := by
  obtain ⟨loc, arch, col, col1, _, harch, _, _, _, hw⟩ := write_component_spec h
  refine MasksKept.of_set harch (by rw [hw]) ?_
  rfl

theorem find_or_create_masks {world world1 : freecs_world_t} {mask idx : Nat}
    {ti : List freecs_type_info_entry_t}
    (h : find_or_create_archetype world mask ti = some (world1, idx)) :
    MasksKept world world1 := by
  intro i X hX
  obtain ⟨X1, h1, h2, _⟩ := find_or_create_old h hX
  exact ⟨X1, h1, h2⟩

theorem add_component_masks {world world1 : freecs_world_t} {entity : freecs_entity_t}
    {bit size : Nat} {value : List Nat} {ok : Bool}
    (h : freecs_add_component world entity bit value size = some (world1, ok)) :
    MasksKept world world1 := by
  rcases add_component_spec h with ⟨_, hw, _⟩ |
    ⟨_, loc, bit_idx, arch, hloc, _, _, _, harch, hcase⟩
  · rw [hw]; exact MasksKept.id_kept _
  · rcases hcase with ⟨_, hwc⟩ | ⟨_, w1, target, w2, hstep, _, hmove, hfin⟩
    · exact write_component_masks hwc
    · have h1 : MasksKept world w1 := by
        rcases hstep with ⟨_, _, wf, idx, a, hf, ha, hw1, _⟩ | ⟨_, hw1, _⟩
        · have := find_or_create_masks hf
          refine this.comp ?_
          refine MasksKept.of_set ha (by rw [hw1]) ?_
          rfl
        · rw [hw1]; exact MasksKept.id_kept _
      have h2 := move_entity_masks hmove
      rcases hfin with ⟨_, hwc⟩ | ⟨_, hw⟩
      · exact (h1.comp h2).comp (write_component_masks hwc)
      · rw [hw]; exact h1.comp h2

theorem despawn_masks {world world1 : freecs_world_t} {entity : freecs_entity_t} {ok : Bool}
    (h : freecs_despawn world entity = some (world1, ok)) : MasksKept world world1 := by
  rcases despawn_spec h with ⟨_, hw, _⟩ | ⟨_, loc, world2, loc1, _, _, _, hrm, _, hw⟩
  · rw [hw]; exact MasksKept.id_kept _
  · refine (remove_row_masks hrm).comp ?_
    intro i X hX
    rw [hw]
    exact ⟨X, hX, rfl⟩

theorem remove_component_masks {world world1 : freecs_world_t} {entity : freecs_entity_t}
    {bit : Nat} {ok : Bool}
    (h : freecs_remove_component world entity bit = some (world1, ok)) :
    MasksKept world world1 := by
  rcases remove_component_spec h with ⟨_, hw, _⟩ |
    ⟨_, loc, bit_idx, arch, hloc, _, _, _, harch, _, hcase⟩
  · rw [hw]; exact MasksKept.id_kept _
  · rcases hcase with ⟨_, ok1, hd⟩ | ⟨_, w1, target, hstep, _, hmove⟩
    · exact despawn_masks hd
    · have h1 : MasksKept world w1 := by
        rcases hstep with ⟨_, _, wf, idx, a, hf, ha, hw1, _⟩ | ⟨_, hw1, _⟩
        · have := find_or_create_masks hf
          refine this.comp ?_
          refine MasksKept.of_set ha (by rw [hw1]) ?_
          rfl
        · rw [hw1]; exact MasksKept.id_kept _
      exact h1.comp (move_entity_masks hmove)

/-- What a returning `freecs_add_component` on a live handle tells about its
arguments: when the bit is already in the mask the archetype has a column for
it, and the payload has at least `size` bytes. -/
theorem add_success_facts {world world1 : freecs_world_t} {e : freecs_entity_t} {k : Nat}
    {value : List Nat} {size : Nat} {ok : Bool} (hk : k < 64)
    {loc : freecs_entity_location_t} (hloc : world.locations[e.id]? = some loc)
    {arch : freecs_archetype_t} (harch : world.archetypes[loc.archetype_index]? = some arch)
    (hlive : freecs_is_alive world e = true)
    (h : freecs_add_component world e (2 ^ k) value size = some (world1, ok)) :
    (arch.mask.testBit k = true → 0 ≤ arch.column_bits.getD k (-1)) ∧
      size ≤ value.length := by
  rcases add_component_spec h with ⟨_, _, hd⟩ |
    ⟨_, loc', bit_idx, arch', hloc', _, _, hbi, harch', hcase⟩
  · rw [hlive] at hd; cases hd
  · rw [hloc] at hloc'
    have := Option.some.inj hloc'
    subst this
    rw [harch] at harch'
    have := Option.some.inj harch'
    subst this
    rw [bit_index_two_pow k hk] at hbi
    have := Option.some.inj hbi
    subst this
    rcases hcase with ⟨hm, hwc⟩ | ⟨hm, w1, target, w2, _, _, _, hfin⟩
    · obtain ⟨l2, a2, col, col1, hl2, ha2, hge, _, hwcol, _⟩ := write_component_spec hwc
      rw [hloc] at hl2
      have := Option.some.inj hl2
      subst this
      rw [harch] at ha2
      have := Option.some.inj ha2
      subst this
      exact ⟨fun _ => hge, (write_column_spec hwcol).1⟩
    · refine ⟨fun ht => ?_, ?_⟩
      · have := testBit_of_and_two_pow_eq_zero hm
        rw [ht] at this
        cases this
      · rcases hfin with ⟨_, hwc⟩ | ⟨h0, _⟩
        · obtain ⟨_, _, _, _, _, _, _, _, hwcol, _⟩ := write_component_spec hwc
          exact (write_column_spec hwcol).1
        · omega

/-- Claim C7.  Structural moves preserve every other component by value: in a
well-formed world (columns of the registered sizes), after a successful
`freecs_add_component(h, 2^k, ..)` with the registered size, or a
`freecs_remove_component(h, 2^k)` that returned true and left `h` alive, the
result of `freecs_get(x, c)` (null or the bytes addressed) is unchanged for
every live handle `x` other than `h` and every bit `c` (the handle swapped
into the old row of `h` included), and for `h` itself and every single bit
`c = 2^j` other than `2^k`. -/
theorem structural_moves_frame (world : freecs_world_t) (hw : WellFormed world)
    (h : freecs_entity_t) (hlive : freecs_is_alive world h = true) (k : Nat) (hk : k < 64)
    (hb : world.archetypes.length + 1 < 2 ^ 31) :
    (∀ (value : List Nat) (size : Nat) (world1 : freecs_world_t),
      Registered world k → size = world.type_sizes.getD k 0 →
      freecs_add_component world h (2 ^ k) value size = some (world1, true) →
      Frame world world1 (fun i => i = h.id) ∧
        ∀ j, j < 64 → j ≠ k →
          get_bytes world1 h (2 ^ j) = get_bytes world h (2 ^ j)) ∧
    (∀ (world1 : freecs_world_t),
      freecs_remove_component world h (2 ^ k) = some (world1, true) →
      freecs_is_alive world1 h = true →
      Frame world world1 (fun i => i = h.id) ∧
        ∀ j, j < 64 → j ≠ k →
          get_bytes world1 h (2 ^ j) = get_bytes world h (2 ^ j)) := by
  obtain ⟨loc, arch, hloc, hal, hgen, harch, hrow, _, _, hget⟩ := observe_live hw hlive
  constructor
  · intro value size world1 hreg hsize hadd
    obtain ⟨hcol, hval⟩ := add_success_facts hk hloc harch hlive hadd
    obtain ⟨w', loc1, arch1, hadd', hw1, hloc1, hal1, hgen1, harch1, hrow1, _, _, _, hvo,
      hframe, _⟩ := add_component_wf hw hloc hal hgen harch hk hreg hsize hcol hval hb
    rw [hadd'] at hadd
    simp only [Option.some.injEq, Prod.mk.injEq, and_true] at hadd
    subst hadd
    refine ⟨hframe, ?_⟩
    intro j hj hjk
    rw [get_bytes_live hloc1 hal1 hgen1 harch1 (hw1.cols.archs _ _ harch1) hrow1, hget]
    exact hvo j hj hjk
  · intro world1 hrem hlive1
    cases hm : arch.mask.testBit k with
    | false =>
      rw [remove_component_absent hloc hal hgen harch hk hm] at hrem
      simp at hrem
    | true =>
      by_cases h0 : arch.mask &&& not64 (2 ^ k) = 0
      · exfalso
        obtain ⟨world2, _, _, _, hrr, _, hdes, hwf⟩ := despawn_live hw hloc hal hgen
        rw [remove_last_eq hloc hal hgen harch hk hm h0 hdes] at hrem
        simp only [Option.some.injEq, Prod.mk.injEq, and_true] at hrem
        have hdead := (despawn_step hw hdes).2.2.1 h
        rw [hrem, hlive1, hlive] at hdead
        simp at hdead
      · obtain ⟨w', loc1, arch1, hrem', hw1, hloc1, hal1, hgen1, harch1, hrow1, _, hvo,
          hframe, _⟩ := remove_component_wf hw hloc hal hgen harch hk hm h0 hb
        rw [hrem'] at hrem
        simp only [Option.some.injEq, Prod.mk.injEq, and_true] at hrem
        subst hrem
        refine ⟨hframe, ?_⟩
        intro j hj hjk
        rw [get_bytes_live hloc1 hal1 hgen1 harch1 (hw1.cols.archs _ _ harch1) hrow1, hget]
        exact hvo j hj hjk

set_option maxRecDepth 100000 in
/-- Witness of C7 in `world_three`: component 2 is added to the handle `(0, 0)`
(the handle `(1, 0)` is swapped into its row), and component 2 is removed from
the handle `(2, 0)`. -/
theorem structural_moves_frame_witness :
    (Frame world_three world_three_added (fun i => i = (⟨0, 0⟩ : freecs_entity_t).id) ∧
      ∀ j, j < 64 → j ≠ 1 →
        get_bytes world_three_added ⟨0, 0⟩ (2 ^ j) = get_bytes world_three ⟨0, 0⟩ (2 ^ j)) ∧
    (Frame world_three world_three_removed (fun i => i = (⟨2, 0⟩ : freecs_entity_t).id) ∧
      ∀ j, j < 64 → j ≠ 1 →
        get_bytes world_three_removed ⟨2, 0⟩ (2 ^ j) =
          get_bytes world_three ⟨2, 0⟩ (2 ^ j)) :=
  ⟨(structural_moves_frame world_three world_three_built.well_formed ⟨0, 0⟩ (by decide) 1
      (by decide) (by decide)).1 [5] 1 world_three_added ⟨by decide, Or.inr (by decide)⟩
      (by decide) (by decide),
    (structural_moves_frame world_three world_three_built.well_formed ⟨2, 0⟩ (by decide) 1
      (by decide) (by decide)).2 world_three_removed (by decide) (by decide)⟩

theorem or_and_not64_two_pow {m k : Nat} (hm : m < 2 ^ 64) (hk : k < 64)
    (hb : m.testBit k = false) : (m ||| 2 ^ k) &&& not64 (2 ^ k) = m := by
  have hlt : m ||| 2 ^ k < 2 ^ 64 :=
    Nat.or_lt_two_pow hm (Nat.pow_lt_pow_right (by omega) hk)
  apply Nat.eq_of_testBit_eq
  intro b
  rw [testBit_and_not64_two_pow hlt hk, testBit_or_two_pow]
  by_cases hkb : k = b
  · subst hkb
    simp [hb]
  · simp [hkb]

/-- Claim C8.  Add then remove returns the entity to its original archetype:
in a well-formed world, for a live handle `h` with mask `m` and a registered
bit `2^k` not in `m`, `freecs_add_component(h, 2^k, v, size)` with the
registered size followed by `freecs_remove_component(h, 2^k)` both return
true; afterwards `freecs_has(h, 2^k)` is false, the component mask of `h` is
`m`, and the slot of `h` names the archetype index it named before the add. -/
theorem add_then_remove_returns (world : freecs_world_t) (hw : WellFormed world)
    (h : freecs_entity_t) (m : Nat) (hmask : freecs_component_mask world h = some (m, true))
    (k : Nat) (hreg : Registered world k) (hnot : m.testBit k = false)
    (value : List Nat) (size : Nat) (hsize : size = world.type_sizes.getD k 0)
    (hval : size ≤ value.length) (hb : world.archetypes.length + 2 < 2 ^ 31) :
    ∃ world1 world2,
      freecs_add_component world h (2 ^ k) value size = some (world1, true) ∧
      freecs_remove_component world1 h (2 ^ k) = some (world2, true) ∧
      freecs_has world2 h (2 ^ k) = some false ∧
      freecs_component_mask world2 h = some (m, true) ∧
      (world2.locations[h.id]?).map (fun l => l.archetype_index) =
        (world.locations[h.id]?).map (fun l => l.archetype_index) := by
  have hlive : freecs_is_alive world h = true := by
    cases hl : freecs_is_alive world h with
    | true => rfl
    | false =>
      rw [component_mask_dead hl] at hmask
      simp at hmask
  obtain ⟨loc, arch, hloc, hal, hgen, harch, hrow, hmask2, _, _⟩ := observe_live hw hlive
  rw [hmask2] at hmask
  simp only [Option.some.injEq, Prod.mk.injEq, and_true] at hmask
  subst hmask
  have hk := hreg.1
  have hmlt := hw.cols.mask_lt harch
  have hac := hw.cols.archs _ _ harch
  obtain ⟨w1, loc1, arch1, hadd, hw1, hloc1, hal1, hgen1, harch1, hrow1, hmask1, _, _, _, _,
    _, _, _, _, _, _, hlen1⟩ :=
    add_component_wf hw hloc hal hgen harch hk hreg hsize
      (fun ht => by rw [hnot] at ht; cases ht) hval (by omega)
  have hback : arch1.mask &&& not64 (2 ^ k) = arch.mask := by
    rw [hmask1]; exact or_and_not64_two_pow hmlt hk hnot
  obtain ⟨w2, loc2, arch2, hrem, hw2, hloc2, hal2, hgen2, harch2, hrow2, hmask2', _⟩ :=
    remove_component_wf hw1 hloc1 hal1 hgen1 harch1 hk
      (by rw [hmask1, testBit_or_two_pow]; simp)
      (by rw [hback]; exact hac.mask_ne) (by omega)
  have hm2 : arch2.mask = arch.mask := hmask2'.trans hback
  obtain ⟨X, hX, hXm⟩ := (add_component_masks hadd).comp (remove_component_masks hrem)
    loc.archetype_index arch harch
  have hidx : loc2.archetype_index = loc.archetype_index :=
    hw2.struct.graph.mask_inj _ _ arch2 X harch2 hX (hm2.trans hXm.symm)
  refine ⟨w1, w2, hadd, hrem, ?_, ?_, ?_⟩
  · rw [has_live hloc2 hal2 hgen2 harch2, and_two_pow_bne, hm2, hnot]
  · rw [component_mask_live hloc2 hal2 hgen2 harch2, hm2]
  · rw [hloc2, hloc]
    simp only [Option.map_some', hidx]

set_option maxRecDepth 100000 in
/-- Witness of C8 in `world_three`: the handle `(0, 0)` has mask 1; component 2
(bit `2^1`) is added and removed again. -/
theorem add_then_remove_returns_witness :
    ∃ world1 world2,
      freecs_add_component world_three ⟨0, 0⟩ (2 ^ 1) [5] 1 = some (world1, true) ∧
      freecs_remove_component world1 ⟨0, 0⟩ (2 ^ 1) = some (world2, true) ∧
      freecs_has world2 ⟨0, 0⟩ (2 ^ 1) = some false ∧
      freecs_component_mask world2 ⟨0, 0⟩ = some (1, true) ∧
      (world2.locations[(⟨0, 0⟩ : freecs_entity_t).id]?).map (fun l => l.archetype_index) =
        (world_three.locations[(⟨0, 0⟩ : freecs_entity_t).id]?).map
          (fun l => l.archetype_index) :=
  add_then_remove_returns world_three world_three_built.well_formed ⟨0, 0⟩ 1 (by decide) 1
    ⟨by decide, Or.inr (by decide)⟩ (by decide) [5] 1 (by decide) (by decide) (by decide)

/-- Add round trip for components of non-zero size.  In a well-formed world,
for a live handle `h` with mask `m` and a registered bit `2^k` whose registered
size is not 0, `freecs_add_component(h, 2^k, v, size)` with that size returns
true; afterwards `freecs_has(h, 2^k)` holds, the component mask of `h` is
`m | 2^k`, and `freecs_get(h, 2^k)` addresses the first `size` bytes of `v`.
A second `freecs_add_component(h, 2^k, w, size)` returns true and overwrites in
place: `freecs_get(h, 2^k)` addresses the bytes of `w`, and the slot of `h`
(archetype index, row, generation) and its mask are unchanged. -/
theorem add_round_trip (world : freecs_world_t) (hw : WellFormed world)
    (h : freecs_entity_t) (m : Nat) (hmask : freecs_component_mask world h = some (m, true))
    (k : Nat) (hreg : Registered world k) (value : List Nat) (size : Nat)
    (hsize : size = world.type_sizes.getD k 0) (hnz : size ≠ 0) (hval : size ≤ value.length)
    (hb : world.archetypes.length + 2 < 2 ^ 31) :
    ∃ world1, freecs_add_component world h (2 ^ k) value size = some (world1, true) ∧
      freecs_has world1 h (2 ^ k) = some true ∧
      freecs_component_mask world1 h = some (m ||| 2 ^ k, true) ∧
      get_bytes world1 h (2 ^ k) = some (some (value.take size)) ∧
      ∀ value2 : List Nat, size ≤ value2.length →
        ∃ world2, freecs_add_component world1 h (2 ^ k) value2 size = some (world2, true) ∧
          get_bytes world2 h (2 ^ k) = some (some (value2.take size)) ∧
          world2.locations[h.id]? = world1.locations[h.id]? ∧
          freecs_component_mask world2 h = some (m ||| 2 ^ k, true) := by
  have hlive : freecs_is_alive world h = true := by
    cases hl : freecs_is_alive world h with
    | true => rfl
    | false =>
      rw [component_mask_dead hl] at hmask
      simp at hmask
  obtain ⟨loc, arch, hloc, hal, hgen, harch, hrow, hmask2, _, _⟩ := observe_live hw hlive
  rw [hmask2] at hmask
  simp only [Option.some.injEq, Prod.mk.injEq, and_true] at hmask
  subst hmask
  have hk := hreg.1
  have hac := hw.cols.archs _ _ harch
  obtain ⟨w1, loc1, arch1, hadd, hw1, hloc1, hal1, hgen1, harch1, hrow1, hmask1, _, hvk, _, _,
    _, hts1, hnb1, _, _, _, hlen1⟩ :=
    add_component_wf hw hloc hal hgen harch hk hreg hsize
      (fun ht => hac.bit_has_col k hk ht (by rw [← hsize]; exact hnz)) hval (by omega)
  have htest1 : arch1.mask.testBit k = true := by
    rw [hmask1, testBit_or_two_pow]; simp
  have hac1 := hw1.cols.archs _ _ harch1
  have hz1 : w1.type_sizes.getD k 0 ≠ 0 := by rw [hts1, ← hsize]; exact hnz
  refine ⟨w1, hadd, ?_, ?_, ?_, ?_⟩
  · rw [has_live hloc1 hal1 hgen1 harch1, and_two_pow_bne, htest1]
  · rw [component_mask_live hloc1 hal1 hgen1 harch1, hmask1]
  · rw [get_bytes_live hloc1 hal1 hgen1 harch1 hac1 hrow1]
    exact hvk hnz
  · intro value2 hval2
    obtain ⟨w2, loc2, arch2, hadd2, hw2, hloc2, hal2, hgen2, harch2, hrow2, hmask2', hsame,
      hvk2, _⟩ :=
      add_component_wf hw1 hloc1 hal1 hgen1 harch1 hk ⟨hk, by rw [hnb1]; exact hreg.2⟩
        (by rw [hts1]; exact hsize) (fun ht => hac1.bit_has_col k hk ht hz1) hval2 (by omega)
    refine ⟨w2, hadd2, ?_, ?_, ?_⟩
    · rw [get_bytes_live hloc2 hal2 hgen2 harch2 (hw2.cols.archs _ _ harch2) hrow2]
      exact hvk2 hnz
    · rw [hloc2, hloc1, hsame htest1]
    · rw [component_mask_live hloc2 hal2 hgen2 harch2, hmask2', hmask1,
        or_two_pow_of_testBit (by rw [← hmask1]; exact htest1)]

set_option maxRecDepth 100000 in
/-- Witness of C6 in `world_three`: component 2 (bit `2^1`, one byte) is added
to the handle `(0, 0)` of mask 1. -/
theorem add_round_trip_witness :
    ∃ world1, freecs_add_component world_three ⟨0, 0⟩ (2 ^ 1) [5] 1 = some (world1, true) ∧
      freecs_has world1 ⟨0, 0⟩ (2 ^ 1) = some true ∧
      freecs_component_mask world1 ⟨0, 0⟩ = some (1 ||| 2 ^ 1, true) ∧
      get_bytes world1 ⟨0, 0⟩ (2 ^ 1) = some (some (([5] : List Nat).take 1)) ∧
      ∀ value2 : List Nat, 1 ≤ value2.length →
        ∃ world2, freecs_add_component world1 ⟨0, 0⟩ (2 ^ 1) value2 1 = some (world2, true) ∧
          get_bytes world2 ⟨0, 0⟩ (2 ^ 1) = some (some (value2.take 1)) ∧
          world2.locations[(⟨0, 0⟩ : freecs_entity_t).id]? =
            world1.locations[(⟨0, 0⟩ : freecs_entity_t).id]? ∧
          freecs_component_mask world2 ⟨0, 0⟩ = some (1 ||| 2 ^ 1, true) :=
  add_round_trip world_three world_three_built.well_formed ⟨0, 0⟩ 1 (by decide) 1
    ⟨by decide, Or.inr (by decide)⟩ [5] 1 (by decide) (by decide) (by decide) (by decide)

set_option maxRecDepth 100000 in
theorem world_tag_batch_built : Built world_tag_batch :=
  Built.spawn_batch world_tag_reg world_tag_batch 3 1 [⟨0, 0⟩] world_tag_reg_built
    (by
      intro b hb
      have hb1 : b < 2 := testBit_lt_of_lt (n := 2) (by decide) hb
      have : b = 0 ∨ b = 1 := by omega
      rcases this with rfl | rfl
      · exact ⟨by decide, Or.inr (by decide)⟩
      · exact ⟨by decide, Or.inr (by decide)⟩)
    (by decide) ⟨by decide, by decide⟩

set_option maxRecDepth 100000 in
/-- Claim C6 fails on the code for a registered bit of size 0 that the handle
already has.  `world_tag_batch` is built by registering a two-byte and a
zero-size component and calling `freecs_spawn_batch` with both bits, which
creates the archetype of mask 3 with a column for the two-byte component only
(`column_bits[1] = -1`).  The handle `(0, 0)` is alive and has the zero-size
bit 2; `freecs_get` checks `col_idx < 0` and returns null, but the in-place
branch of `freecs_add_component`, called with that bit and the registered size
0, indexes the column array at `column_bits[1] = -1` without a check: the call
has no defined result, where the claim says it returns true.  In
`world_tag_one`, where the same archetype was created by `freecs_spawn` with
an entry for the zero-size component and so has a column for it, the same
call returns true and changes nothing. -/
theorem zero_size_add_in_place_undefined :
    Built world_tag_batch ∧ freecs_is_alive world_tag_batch ⟨0, 0⟩ = true ∧
      freecs_component_mask world_tag_batch ⟨0, 0⟩ = some (3, true) ∧
      world_tag_batch.type_sizes.getD 1 0 = 0 ∧
      (world_tag_batch.archetypes.map (fun arch => arch.column_bits.take 2)) = [[0, -1]] ∧
      freecs_get world_tag_batch ⟨0, 0⟩ 2 = some Ptr.null ∧
      freecs_add_component world_tag_batch ⟨0, 0⟩ 2 [] 0 = none ∧
      freecs_add_component world_tag_one ⟨0, 0⟩ 2 [] 0 = some (world_tag_one, true) :=
  ⟨world_tag_batch_built, by decide, by decide, by decide, by decide, by decide, by decide,
    by decide⟩

/-- Two live handles of one slot are the same handle. -/
theorem live_same_id {world : freecs_world_t} {x y : freecs_entity_t}
    (hx : freecs_is_alive world x = true) (hy : freecs_is_alive world y = true)
    (hid : x.id = y.id) : x = y := by
  obtain ⟨lx, hlx, _, hgx⟩ := is_alive_iff.mp hx
  obtain ⟨ly, hly, _, hgy⟩ := is_alive_iff.mp hy
  rw [hid, hly] at hlx
  simp only [Option.some.injEq] at hlx
  subst hlx
  cases x; cases y
  simp only at hid hgx hgy
  subst hid
  rw [← hgx, ← hgy]

/-- Number of distinct handles of `queue` that are alive in `world`. -/
theorem live_card_cons (p : freecs_entity_t → Bool) (e : freecs_entity_t)
    (rest : List freecs_entity_t) :
    ((rest.filter (fun h => p h && !decide (h = e))).toFinset).card + (if p e then 1 else 0) =
      (((e :: rest).filter p).toFinset).card := by
  have herase : (rest.filter (fun h => p h && !decide (h = e))).toFinset =
      ((rest.filter p).toFinset).erase e := by
    ext a
    simp only [List.mem_toFinset, List.mem_filter, Bool.and_eq_true, Bool.not_eq_true',
      decide_eq_false_iff_not, Finset.mem_erase]
    tauto
  rw [herase]
  by_cases hp : p e = true
  · rw [if_pos hp, List.filter_cons_of_pos hp, List.toFinset_cons]
    have hins : insert e ((rest.filter p).toFinset) =
        insert e (((rest.filter p).toFinset).erase e) := by
      ext a
      simp only [Finset.mem_insert, Finset.mem_erase]
      tauto
    rw [hins, Finset.card_insert_of_not_mem (Finset.not_mem_erase e _)]
  · have hne : e ∉ (rest.filter p).toFinset := by
      simp only [List.mem_toFinset, List.mem_filter, not_and]
      intro _
      exact hp
    rw [if_neg hp, List.filter_cons_of_neg hp, Finset.erase_eq_of_not_mem hne]
    rfl

/-- The loop of `freecs_apply_despawns` returns in a well-formed world; it
kills exactly the queued handles, keeps every other live handle observably the
same, and lowers the entity count by the number of distinct live queued
handles. -/
theorem apply_despawns_loop_spec (queue : List freecs_entity_t) :
    ∀ {world : freecs_world_t}, WellFormed world →
      ∃ world1, apply_despawns_loop queue world = some world1 ∧ WellFormed world1 ∧
        (∀ y, freecs_is_alive world1 y = (freecs_is_alive world y && !decide (y ∈ queue))) ∧
        Frame world world1
          (fun i => ∃ h ∈ queue, h.id = i ∧ freecs_is_alive world h = true) ∧
        freecs_entity_count world1 +
            ((queue.filter (fun h => freecs_is_alive world h)).toFinset).card =
          freecs_entity_count world ∧
        world1.type_sizes = world.type_sizes ∧ world1.next_bit = world.next_bit ∧
        world1.archetypes.length = world.archetypes.length ∧
        world1.locations.length = world.locations.length := by
  induction queue with
  | nil =>
    intro world hw
    refine ⟨world, rfl, hw, ?_, Frame.refl _ _, ?_, rfl, rfl, rfl, rfl⟩
    · intro y; simp
    · simp
  | cons e rest ih =>
    intro world hw
    have hd : ∃ wa ok, freecs_despawn world e = some (wa, ok) := by
      cases hlive : freecs_is_alive world e with
      | false => exact ⟨_, _, despawn_dead hlive⟩
      | true =>
        obtain ⟨loc, hloc, hal, hgen⟩ := is_alive_iff.mp hlive
        obtain ⟨_, _, _, _, _, _, hdes, _⟩ := despawn_live hw hloc hal hgen
        exact ⟨_, _, hdes⟩
    obtain ⟨wa, ok, hd⟩ := hd
    obtain ⟨hwa, _, hal1, hfr1, hcnt1, _, hts1, hnb1, hlen1, hll1⟩ := despawn_step hw hd
    obtain ⟨w1, hloop, hw1, hal2, hfr2, hcnt2, hts2, hnb2, hlen2, hll2⟩ := ih hwa
    have hal1' : ∀ y, freecs_is_alive wa y = (freecs_is_alive world y && !decide (y = e)) := by
      intro y
      rw [hal1 y]
      by_cases hye : y = e
      · subst hye
        cases freecs_is_alive world y <;> simp
      · simp [hye]
    refine ⟨w1, ?_, hw1, ?_, ?_, ?_, hts2.trans hts1, hnb2.trans hnb1, hlen2.trans hlen1,
      hll2.trans hll1⟩
    · unfold apply_despawns_loop
      rw [hd]
      simp only [Option.bind_eq_bind, Option.some_bind]
      exact hloop
    · intro y
      rw [hal2 y, hal1' y]
      simp only [List.mem_cons, Bool.decide_or, Bool.not_or, Bool.and_assoc]
    · refine Frame.trans (Frame.mono hfr1 ?_) (Frame.mono hfr2 ?_)
      · rintro i ⟨hi, hlive⟩
        exact ⟨e, List.mem_cons_self _ _, hi.symm, hlive⟩
      · rintro i ⟨h, hh, hi, hlive⟩
        refine ⟨h, List.mem_cons_of_mem _ hh, hi, ?_⟩
        rw [hal1' h] at hlive
        simp only [Bool.and_eq_true] at hlive
        exact hlive.1
    · have hfilter : rest.filter (fun h => freecs_is_alive wa h) =
          rest.filter (fun h => freecs_is_alive world h && !decide (h = e)) := by
        congr 1
        funext h
        exact hal1' h
      rw [hfilter] at hcnt2
      have hc := live_card_cons (fun h => freecs_is_alive world h) e rest
      simp only at hc
      omega

/-- Claim C16.  Deferred despawn, in a well-formed world.  `freecs_queue_despawn(h)`
appends `h` to the pending queue and changes no other field of the world, so
`freecs_is_alive`, `freecs_entity_count`, the component masks and the result of
`freecs_get` (null or the bytes addressed) are the same for every handle, and
the world stays well-formed.  `freecs_apply_despawns` returns; afterwards the
queue is empty, every queued handle is dead, every live handle that was not
queued is still alive with the same mask and the same `freecs_get` results,
and the entity count has dropped by the number of distinct live handles that
were queued. -/
theorem deferred_despawn (world : freecs_world_t) (hw : WellFormed world) :
    (∀ h : freecs_entity_t,
      (freecs_queue_despawn world h).despawn_queue = world.despawn_queue ++ [h] ∧
      { freecs_queue_despawn world h with despawn_queue := world.despawn_queue } = world ∧
      WellFormed (freecs_queue_despawn world h) ∧
      freecs_entity_count (freecs_queue_despawn world h) = freecs_entity_count world ∧
      ∀ x : freecs_entity_t,
        freecs_is_alive (freecs_queue_despawn world h) x = freecs_is_alive world x ∧
        freecs_component_mask (freecs_queue_despawn world h) x =
          freecs_component_mask world x ∧
        ∀ bit, freecs_get (freecs_queue_despawn world h) x bit = freecs_get world x bit ∧
          get_bytes (freecs_queue_despawn world h) x bit = get_bytes world x bit) ∧
    ∃ world1, freecs_apply_despawns world = some world1 ∧ world1.despawn_queue = [] ∧
      (∀ q ∈ world.despawn_queue, freecs_is_alive world1 q = false) ∧
      (∀ x : freecs_entity_t, freecs_is_alive world x = true → x ∉ world.despawn_queue →
        freecs_is_alive world1 x = true ∧
        freecs_component_mask world1 x = freecs_component_mask world x ∧
        ∀ bit, get_bytes world1 x bit = get_bytes world x bit) ∧
      freecs_entity_count world1 +
          ((world.despawn_queue.filter (fun q => freecs_is_alive world q)).toFinset).card =
        freecs_entity_count world := by
  constructor
  · intro h
    exact ⟨rfl, rfl, ⟨hw.struct.congr rfl rfl rfl rfl rfl rfl, hw.cols.same_cols rfl rfl rfl⟩,
      rfl, fun x => ⟨rfl, rfl, fun bit => ⟨rfl, rfl⟩⟩⟩
  · obtain ⟨wa, hloop, hwa, hal, hfr, hcnt, _⟩ :=
      apply_despawns_loop_spec world.despawn_queue hw
    have hframe : Frame world { wa with despawn_queue := [] }
        (fun i => ∃ h ∈ world.despawn_queue, h.id = i ∧ freecs_is_alive world h = true) :=
      fun x hx hlive => hfr x hx hlive
    refine ⟨{ wa with despawn_queue := [] }, ?_, rfl, ?_, ?_, hcnt⟩
    · unfold freecs_apply_despawns
      rw [hloop]
      rfl
    · intro q hq
      show freecs_is_alive wa q = false
      rw [hal q]
      simp [hq]
    · intro x hlive hx
      refine hframe x ?_ hlive
      rintro ⟨h, hh, hid, hhl⟩
      exact hx (live_same_id hhl hlive hid ▸ hh)

set_option maxRecDepth 100000 in
/-- Witness of C16: in `world_three` the handle `(0, 0)` is queued twice and the
dead handle `(7, 0)` once. -/
theorem deferred_despawn_witness :
    (∀ h : freecs_entity_t,
      (freecs_queue_despawn world_three_queued h).despawn_queue =
        world_three_queued.despawn_queue ++ [h] ∧
      { freecs_queue_despawn world_three_queued h with
        despawn_queue := world_three_queued.despawn_queue } = world_three_queued ∧
      WellFormed (freecs_queue_despawn world_three_queued h) ∧
      freecs_entity_count (freecs_queue_despawn world_three_queued h) =
        freecs_entity_count world_three_queued ∧
      ∀ x : freecs_entity_t,
        freecs_is_alive (freecs_queue_despawn world_three_queued h) x =
          freecs_is_alive world_three_queued x ∧
        freecs_component_mask (freecs_queue_despawn world_three_queued h) x =
          freecs_component_mask world_three_queued x ∧
        ∀ bit, freecs_get (freecs_queue_despawn world_three_queued h) x bit =
            freecs_get world_three_queued x bit ∧
          get_bytes (freecs_queue_despawn world_three_queued h) x bit =
            get_bytes world_three_queued x bit) ∧
    ∃ world1, freecs_apply_despawns world_three_queued = some world1 ∧
      world1.despawn_queue = [] ∧
      (∀ q ∈ world_three_queued.despawn_queue, freecs_is_alive world1 q = false) ∧
      (∀ x : freecs_entity_t, freecs_is_alive world_three_queued x = true →
        x ∉ world_three_queued.despawn_queue →
        freecs_is_alive world1 x = true ∧
        freecs_component_mask world1 x = freecs_component_mask world_three_queued x ∧
        ∀ bit, get_bytes world1 x bit = get_bytes world_three_queued x bit) ∧
      freecs_entity_count world1 +
          ((world_three_queued.despawn_queue.filter
            (fun q => freecs_is_alive world_three_queued q)).toFinset).card =
        freecs_entity_count world_three_queued :=
  deferred_despawn world_three_queued
    (Built.queue_despawn _ _ (Built.queue_despawn _ _
      (Built.queue_despawn _ _ world_three_built))).well_formed

/-- Claim C21.  In a well-formed world, `freecs_remove_component(h, 2^k)`
returns; it returns false if and only if the handle is not alive or the bit is
not in the mask of the archetype of `h` (`(arch->mask & bit) == 0`), and
whenever it returns false the world is unchanged. -/
theorem remove_component_false_iff (world : freecs_world_t) (hw : WellFormed world)
    (h : freecs_entity_t) (k : Nat) (hk : k < 64)
    (hb : world.archetypes.length + 1 < 2 ^ 31) :
    ∃ world1 ok, freecs_remove_component world h (2 ^ k) = some (world1, ok) ∧
      (ok = false ↔ (freecs_is_alive world h = false ∨
        ∃ m, freecs_component_mask world h = some (m, true) ∧ m &&& 2 ^ k = 0)) ∧
      (ok = false → world1 = world) := by
  cases hlive : freecs_is_alive world h with
  | false =>
    exact ⟨world, false, remove_component_dead hlive _, by simp, fun _ => rfl⟩
  | true =>
    obtain ⟨loc, arch, hloc, hal, hgen, harch, hrow, hmask, _, _⟩ := observe_live hw hlive
    cases hm : arch.mask.testBit k with
    | false =>
      refine ⟨world, false, remove_component_absent hloc hal hgen harch hk hm, ?_,
        fun _ => rfl⟩
      exact ⟨fun _ => Or.inr ⟨arch.mask, hmask, and_two_pow_eq_zero_of_testBit hm⟩,
        fun _ => rfl⟩
    | true =>
      have hnot : ¬ ∃ m, freecs_component_mask world h = some (m, true) ∧ m &&& 2 ^ k = 0 := by
        rintro ⟨m, hm1, hm2⟩
        rw [hmask] at hm1
        simp only [Option.some.injEq, Prod.mk.injEq, and_true] at hm1
        subst hm1
        exact and_two_pow_ne_zero_of_testBit hm hm2
      by_cases h0 : arch.mask &&& not64 (2 ^ k) = 0
      · obtain ⟨_, _, _, _, _, _, hdes, _⟩ := despawn_live hw hloc hal hgen
        refine ⟨_, true, remove_last_eq hloc hal hgen harch hk hm h0 hdes, ?_, ?_⟩
        · constructor
          · intro hf; cases hf
          · rintro (hf | hf)
            · cases hf
            · exact absurd hf hnot
        · intro hf; cases hf
      · obtain ⟨w1, _, _, hrem, _⟩ := remove_component_wf hw hloc hal hgen harch hk hm h0 hb
        refine ⟨w1, true, hrem, ?_, ?_⟩
        · constructor
          · intro hf; cases hf
          · rintro (hf | hf)
            · cases hf
            · exact absurd hf hnot
        · intro hf; cases hf

set_option maxRecDepth 100000 in
/-- Witness of C21 in `world_three`, for the handle `(0, 0)` of mask 1 and the
bit `2^1`. -/
theorem remove_component_false_iff_witness :
    ∃ world1 ok, freecs_remove_component world_three ⟨0, 0⟩ (2 ^ 1) = some (world1, ok) ∧
      (ok = false ↔ (freecs_is_alive world_three ⟨0, 0⟩ = false ∨
        ∃ m, freecs_component_mask world_three ⟨0, 0⟩ = some (m, true) ∧ m &&& 2 ^ 1 = 0)) ∧
      (ok = false → world1 = world_three) :=
  remove_component_false_iff world_three world_three_built.well_formed ⟨0, 0⟩ 1 (by decide)
    (by decide)

/-- Claim C26.  Edge invariant: in every reachable state, for every archetype
`X` and bit index `b < 64`, if `X.edges.add_edges[b] >= 0` it is a valid
archetype index whose mask equals `X.mask | (1 << b)`, and if
`X.edges.remove_edges[b] >= 0` it is a valid archetype index whose mask equals
`X.mask & ~(1 << b)`. -/
theorem edge_invariant (world : freecs_world_t) (h : Reachable world)
    (a : Nat) (X : freecs_archetype_t) (ha : world.archetypes[a]? = some X)
    (b : Nat) (hb : b < 64) :
    (0 ≤ X.add_edges.getD b (-1) →
      (X.add_edges.getD b (-1)).toNat < world.archetypes.length ∧
      ∃ Y, world.archetypes[(X.add_edges.getD b (-1)).toNat]? = some Y ∧
        Y.mask = X.mask ||| 2 ^ b) ∧
    (0 ≤ X.remove_edges.getD b (-1) →
      (X.remove_edges.getD b (-1)).toNat < world.archetypes.length ∧
      ∃ Y, world.archetypes[(X.remove_edges.getD b (-1)).toNat]? = some Y ∧
        Y.mask = X.mask &&& not64 (2 ^ b)) := by
  have hg := h.struct_inv.graph
  constructor
  · intro he
    obtain ⟨Y, hY, hmask⟩ := hg.add_edge a b X ha hb he
    exact ⟨(List.getElem?_eq_some.mp hY).1, Y, hY, hmask⟩
  · intro he
    obtain ⟨Y, hY, hmask⟩ := hg.remove_edge a b X ha hb he
    exact ⟨(List.getElem?_eq_some.mp hY).1, Y, hY, hmask⟩

set_option maxRecDepth 100000 in
/-- Witness of C26 in `world_three`: the archetype 0 (mask 1) and the bit index
1; its add edge leads to the archetype 1 of mask 3. -/
theorem edge_invariant_witness :
    (0 ≤ ((world_three.archetypes[0]?).getD (new_archetype 1)).add_edges.getD 1 (-1) →
      (((world_three.archetypes[0]?).getD (new_archetype 1)).add_edges.getD 1 (-1)).toNat <
          world_three.archetypes.length ∧
      ∃ Y, world_three.archetypes[
          (((world_three.archetypes[0]?).getD (new_archetype 1)).add_edges.getD 1 (-1)).toNat]? =
            some Y ∧
        Y.mask = ((world_three.archetypes[0]?).getD (new_archetype 1)).mask ||| 2 ^ 1) ∧
    (0 ≤ ((world_three.archetypes[0]?).getD (new_archetype 1)).remove_edges.getD 1 (-1) →
      (((world_three.archetypes[0]?).getD (new_archetype 1)).remove_edges.getD 1 (-1)).toNat <
          world_three.archetypes.length ∧
      ∃ Y, world_three.archetypes[
          (((world_three.archetypes[0]?).getD (new_archetype 1)).remove_edges.getD 1
            (-1)).toNat]? = some Y ∧
        Y.mask = ((world_three.archetypes[0]?).getD (new_archetype 1)).mask &&&
          not64 (2 ^ 1)) :=
  edge_invariant world_three world_three_reachable 0
    ((world_three.archetypes[0]?).getD (new_archetype 1)) (by decide) 1 (by decide)

theorem CellsInv.same {world world1 : freecs_world_t} (h : CellsInv world)
    (hw : world1.archetypes = world.archetypes) : CellsInv world1 := by
  intro X hX
  rw [hw] at hX
  exact h X hX

theorem CellsInv.set_cells {world world1 : freecs_world_t} (h : CellsInv world) {i : Nat}
    {a a1 : freecs_archetype_t} (ha : world.archetypes[i]? = some a)
    (hw : world1.archetypes = world.archetypes.set i a1)
    (h1 : a1.add_edges.length = a.add_edges.length)
    (h2 : a1.remove_edges.length = a.remove_edges.length) : CellsInv world1 := by
  intro X hX
  rw [hw] at hX
  rcases List.mem_or_eq_of_mem_set hX with hX | hX
  · exact h X hX
  · subst hX
    rw [h1, h2]
    exact h a (List.getElem?_mem ha)

theorem CellsInv.create_cells {world world1 : freecs_world_t} (h : CellsInv world)
    {mask idx : Nat} {ti : List freecs_type_info_entry_t}
    (hf : find_or_create_archetype world mask ti = some (world1, idx)) : CellsInv world1 := by
  rcases find_or_create_cases _ _ _ _ _ hf with ⟨rfl, _⟩ | ⟨_, _, arch0, hcols, rfl⟩
  · exact h
  · intro X hX
    simp only [List.mem_map] at hX
    obtain ⟨X0, hX0, rfl⟩ := hX
    obtain ⟨_, _, _, _, l1, l2, _⟩ := wire_all_spec world.type_sizes mask
      world.archetypes.length (List.range FREECS_MAX_COMPONENTS) X0
    rw [l1, l2]
    rcases List.mem_append.mp hX0 with hX0 | hX0
    · exact h X0 hX0
    · rw [List.mem_singleton] at hX0
      subst hX0
      obtain ⟨_, _, hadd0, hrem0⟩ := add_columns_spec _ _ _ hcols
      rw [hadd0, hrem0]
      exact ⟨List.length_replicate _ _, List.length_replicate _ _⟩

theorem CellsInv.remove_row_cells {world world1 : freecs_world_t} (h : CellsInv world)
    {a row : Nat} (hr : remove_row world a row = some world1) : CellsInv world1 := by
  obtain ⟨arch, last, columns2, harch, _, ⟨_, lloc, columns1, _, _, _, rfl⟩ | ⟨_, _, rfl⟩⟩ :=
    remove_row_spec hr
  · exact h.set_cells harch rfl rfl rfl
  · exact h.set_cells harch rfl rfl rfl

theorem CellsInv.despawn_cells {world world1 : freecs_world_t} (h : CellsInv world)
    {entity : freecs_entity_t} {ok : Bool}
    (hd : freecs_despawn world entity = some (world1, ok)) : CellsInv world1 := by
  rcases despawn_spec hd with ⟨_, rfl, _⟩ | ⟨_, loc, w2, loc1, _, _, _, hr, _, rfl⟩
  · exact h
  · exact (h.remove_row_cells hr).same rfl

theorem CellsInv.spawn_cells {world world1 : freecs_world_t} (h : CellsInv world) {mask : Nat}
    {entries : List freecs_type_info_entry_t} {entity : freecs_entity_t}
    (hs : freecs_spawn world mask entries = some (world1, entity)) : CellsInv world1 := by
  by_cases hm : entries.length = 0 ∨ mask = 0
  · unfold freecs_spawn at hs
    rw [if_pos hm] at hs
    simp only [Option.some.injEq, Prod.mk.injEq] at hs
    rw [← hs.1]
    exact h
  · obtain ⟨w1, idx, arch, w2, arch1, hf, harch, hal, hent, _, rfl⟩ := spawn_spec hs hm
    obtain ⟨f1, _⟩ := alloc_entity_archetypes hal
    obtain ⟨_, _, e1, e2, _⟩ := spawn_entries_spec _ _ _ hent
    have h2 : CellsInv w2 := (h.create_cells hf).same f1
    exact h2.set_cells (by rw [f1]; exact harch) rfl (by rw [e1]) (by rw [e2])

theorem CellsInv.batch_row_cells {world world1 : freecs_world_t} (h : CellsInv world)
    {idx row : Nat} {entity : freecs_entity_t}
    (hr : spawn_batch_row world idx row = some (world1, entity)) : CellsInv world1 := by
  obtain ⟨w2, arch, hal, harch, _, rfl⟩ := spawn_batch_row_spec hr
  obtain ⟨f1, _⟩ := alloc_entity_archetypes hal
  exact (h.same f1).set_cells harch rfl rfl rfl

theorem CellsInv.batch_loop_cells (count : Nat) :
    ∀ {world world1 : freecs_world_t} {idx row : Nat} {entities : List freecs_entity_t},
      CellsInv world → spawn_batch_loop count world idx row = some (world1, entities) →
      CellsInv world1 := by
  induction count with
  | zero =>
    intro world world1 idx row entities h hl
    simp only [spawn_batch_loop, Option.some.injEq, Prod.mk.injEq] at hl
    rw [← hl.1]
    exact h
  | succ n ih =>
    intro world world1 idx row entities h hl
    unfold spawn_batch_loop at hl
    cases hr : spawn_batch_row world idx row with
    | none => rw [hr] at hl; simp at hl
    | some p =>
      obtain ⟨w1, e⟩ := p
      rw [hr] at hl
      simp only at hl
      cases hl2 : spawn_batch_loop n w1 idx (row + 1) with
      | none => rw [hl2] at hl; simp at hl
      | some q =>
        obtain ⟨w2, es⟩ := q
        rw [hl2] at hl
        simp only [Option.some.injEq, Prod.mk.injEq] at hl
        rw [← hl.1]
        exact ih (h.batch_row_cells hr) hl2

theorem CellsInv.batch_cells {world world1 : freecs_world_t} (h : CellsInv world)
    {mask count : Nat} {entities : List freecs_entity_t}
    (hs : freecs_spawn_batch world mask count = some (world1, entities)) :
    CellsInv world1 := by
  unfold freecs_spawn_batch at hs
  split at hs
  · simp only [Option.some.injEq, Prod.mk.injEq] at hs
    rw [← hs.1]
    exact h
  · simp only at hs
    split at hs
    · simp only [Option.some.injEq, Prod.mk.injEq] at hs
      rw [← hs.1]
      exact h
    · cases hf : find_or_create_archetype world mask (batch_type_info world.type_sizes mask) with
      | none => rw [hf] at hs; simp at hs
      | some p =>
        obtain ⟨w1, idx⟩ := p
        rw [hf] at hs
        simp only at hs
        cases ha : w1.archetypes[idx]? with
        | none => rw [ha] at hs; simp at hs
        | some arch =>
          rw [ha] at hs
          simp only at hs
          refine CellsInv.batch_loop_cells count ?_ hs
          exact (h.create_cells hf).set_cells ha rfl rfl rfl

theorem CellsInv.move_cells {world world1 : freecs_world_t} (h : CellsInv world)
    {entity : freecs_entity_t} {from_idx from_row to_idx : Nat}
    (hm : move_entity world entity from_idx from_row to_idx = some world1) :
    CellsInv world1 := by
  obtain ⟨from_arch, to_arch, columns, w2, _, hto, _, hr, _, rfl⟩ := move_entity_spec hm
  have h1 : CellsInv { world with
      archetypes := world.archetypes.set to_idx
        { to_arch with entities := to_arch.entities ++ [entity], columns := columns } } :=
    h.set_cells hto rfl rfl rfl
  exact (h1.remove_row_cells hr).same rfl

theorem CellsInv.write_cells {world world1 : freecs_world_t} (h : CellsInv world)
    {id bit_idx size : Nat} {value : List Nat}
    (hw : write_component world id bit_idx value size = some world1) : CellsInv world1 := by
  obtain ⟨loc, arch, col, col1, _, harch, _, _, _, rfl⟩ := write_component_spec hw
  exact h.set_cells harch rfl rfl rfl

theorem CellsInv.add_cells {world world1 : freecs_world_t} (h : CellsInv world)
    {entity : freecs_entity_t} {bit size : Nat} {value : List Nat} {ok : Bool}
    (ha : freecs_add_component world entity bit value size = some (world1, ok)) :
    CellsInv world1 := by
  rcases add_component_spec ha with ⟨_, rfl, _⟩ |
    ⟨_, loc, bit_idx, arch, _, _, _, _, _, ⟨_, hw⟩ | ⟨_, w1, target, w2, hfind, _, hmove, hwrite⟩⟩
  · exact h
  · exact h.write_cells hw
  · have h1 : CellsInv w1 := by
      rcases hfind with ⟨_, _, wf, idx, a, hf, hwa, rfl, _⟩ | ⟨_, rfl, _⟩
      · exact (h.create_cells hf).set_cells hwa rfl (List.length_set _ _ _) rfl
      · exact h
    have h2 := h1.move_cells hmove
    rcases hwrite with ⟨_, hw⟩ | ⟨_, rfl⟩
    · exact h2.write_cells hw
    · exact h2

theorem CellsInv.remove_cells {world world1 : freecs_world_t} (h : CellsInv world)
    {entity : freecs_entity_t} {bit : Nat} {ok : Bool}
    (hr : freecs_remove_component world entity bit = some (world1, ok)) :
    CellsInv world1 := by
  rcases remove_component_spec hr with ⟨_, rfl, _⟩ |
    ⟨_, loc, bit_idx, arch, _, _, _, _, _, _, ⟨_, ok1, hd⟩ | ⟨_, w1, target, hfind, _, hmove⟩⟩
  · exact h
  · exact h.despawn_cells hd
  · have h1 : CellsInv w1 := by
      rcases hfind with ⟨_, _, wf, idx, a, hf, hwa, rfl, _⟩ | ⟨_, rfl, _⟩
      · exact (h.create_cells hf).set_cells hwa rfl rfl (List.length_set _ _ _)
      · exact h
    exact h1.move_cells hmove

theorem CellsInv.set_value_cells {world world1 : freecs_world_t} (h : CellsInv world)
    {entity : freecs_entity_t} {bit size : Nat} {value : List Nat} {ok : Bool}
    (hs : freecs_set world entity bit value size = some (world1, ok)) : CellsInv world1 := by
  unfold freecs_set at hs
  simp only [Option.bind_eq_bind, Option.bind_eq_some] at hs
  obtain ⟨p, _, hs⟩ := hs
  cases p with
  | null =>
    simp only [Option.some.injEq, Prod.mk.injEq] at hs
    rw [← hs.1]
    exact h
  | cell a c off =>
    simp only [Option.bind_eq_some, Option.some.injEq, Prod.mk.injEq] at hs
    obtain ⟨arch, harch, col, _, col1, _, rfl, _⟩ := hs
    exact h.set_cells harch rfl rfl rfl

theorem CellsInv.despawn_batch_cells (entities : List freecs_entity_t) :
    ∀ {world world1 : freecs_world_t} {n : Nat}, CellsInv world →
      freecs_despawn_batch world entities = some (world1, n) → CellsInv world1 := by
  induction entities with
  | nil =>
    intro world world1 n h hd
    simp only [freecs_despawn_batch, Option.some.injEq, Prod.mk.injEq] at hd
    rw [← hd.1]
    exact h
  | cons e rest ih =>
    intro world world1 n h hd
    simp only [freecs_despawn_batch, Option.bind_eq_bind, Option.bind_eq_some,
      Option.some.injEq, Prod.mk.injEq] at hd
    obtain ⟨⟨w1, ok⟩, h1, ⟨w2, d⟩, h2, rfl, _⟩ := hd
    exact ih (h.despawn_cells h1) h2

theorem CellsInv.apply_loop_cells (queue : List freecs_entity_t) :
    ∀ {world world1 : freecs_world_t}, CellsInv world →
      apply_despawns_loop queue world = some world1 → CellsInv world1 := by
  induction queue with
  | nil =>
    intro world world1 h hd
    simp only [apply_despawns_loop, Option.some.injEq] at hd
    rw [← hd]
    exact h
  | cons e rest ih =>
    intro world world1 h hd
    simp only [apply_despawns_loop, Option.bind_eq_bind, Option.bind_eq_some] at hd
    obtain ⟨⟨w1, ok⟩, h1, h2⟩ := hd
    exact ih (h.despawn_cells h1) h2

/-- In every reachable world the edge tables have `FREECS_MAX_COMPONENTS`
cells. -/
theorem Reachable.cells_inv {world : freecs_world_t} (h : Reachable world) :
    CellsInv world := by
  induction h with
  | create => intro X hX; cases hX
  | register_component w w1 size bit _ h ih =>
    simp only [freecs_register_component, Option.bind_eq_bind, Option.bind_eq_some,
      Option.some.injEq, Prod.mk.injEq] at h
    obtain ⟨idx, _, rfl, _⟩ := h
    exact ih.same rfl
  | spawn w w1 mask entries e _ h hb ih => exact ih.spawn_cells h
  | spawn_batch w w1 mask count es _ h hb ih => exact ih.batch_cells h
  | despawn w w1 e ok _ h ih => exact ih.despawn_cells h
  | despawn_batch w w1 es d _ h ih => exact CellsInv.despawn_batch_cells _ ih h
  | add_component w w1 e bit v size ok _ hbit h hb ih => exact ih.add_cells h
  | remove_component w w1 e bit ok _ hbit h hb ih => exact ih.remove_cells h
  | set w w1 e bit v size ok _ h ih => exact ih.set_value_cells h
  | get_matching_archetypes w w1 m x r _ h ih =>
    unfold freecs_get_matching_archetypes at h
    simp only at h
    split at h
    · split at h
      · simp at h
      · simp only [Option.some.injEq, Prod.mk.injEq] at h
        rw [← h.1]
        exact ih
    · simp only [Option.some.injEq, Prod.mk.injEq] at h
      rw [← h.1]
      exact ih.same rfl
  | queue_despawn w e _ ih => exact ih.same rfl
  | apply_despawns w w1 _ h ih =>
    simp only [freecs_apply_despawns, Option.bind_eq_bind, Option.bind_eq_some,
      Option.some.injEq] at h
    obtain ⟨wa, h1, rfl⟩ := h
    exact (CellsInv.apply_loop_cells _ ih h1).same rfl
  | column_bytes w w1 _ h ih =>
    intro X hX
    have hmap := erase_bytes_map h
      (fun arch => (arch.add_edges.length, arch.remove_edges.length)) (fun _ => rfl)
    have hmem : (X.add_edges.length, X.remove_edges.length) ∈
        w.archetypes.map (fun arch => (arch.add_edges.length, arch.remove_edges.length)) := by
      rw [← hmap]
      exact List.mem_map_of_mem _ hX
    obtain ⟨Y, hY, hYX⟩ := List.mem_map.mp hmem
    have := ih Y hY
    simp only [Prod.mk.injEq] at hYX
    rw [← hYX.1, ← hYX.2]
    exact this

/-- The edge loop sets the add edge of bit index `b` of an archetype whose mask
with bit `b` set is `mask`, when `b` is among the wired bit indices and has a
non-zero registered size. -/
theorem wire_all_add_set (ts : List Nat) (mask n b : Nat) (hts : ts.getD b 0 ≠ 0) (bs : List Nat) :
    ∀ X : freecs_archetype_t, X.mask ||| 2 ^ b % 2 ^ 64 = mask → b < X.add_edges.length →
      (b ∈ bs ∨ X.add_edges.getD b (-1) = toI32 n) →
      (wire_all ts mask n bs X).add_edges.getD b (-1) = toI32 n := by
  induction bs with
  | nil =>
    intro X _ _ h
    rcases h with h | h
    · cases h
    · exact h
  | cons c rest ih =>
    intro X hm hlen h
    have hstep : wire_all ts mask n (c :: rest) X =
        wire_all ts mask n rest (if ts.getD c 0 = 0 then X else wire_edges mask n c X) := rfl
    rw [hstep]
    obtain ⟨hmask, _, _, _, hadd, _⟩ := wire_edges_spec mask n c X
    by_cases hc : ts.getD c 0 = 0
    · rw [if_pos hc]
      refine ih X hm hlen ?_
      rcases h with h | h
      · rcases List.mem_cons.mp h with h | h
        · subst h; exact absurd hc hts
        · exact Or.inl h
      · exact Or.inr h
    · rw [if_neg hc]
      refine ih _ (by rw [hmask]; exact hm) ?_ ?_
      · rw [hadd]; split
        · rw [List.length_set]; exact hlen
        · exact hlen
      · by_cases hcb : c = b
        · subst hcb
          right
          rw [hadd, if_pos hm, getD_set_eq, if_pos ⟨rfl, hlen⟩]
        · rcases h with h | h
          · rcases List.mem_cons.mp h with h | h
            · exact absurd h.symm hcb
            · exact Or.inl h
          · right
            rw [hadd]
            split
            · rw [getD_set_eq, if_neg (fun hh => hcb hh.1)]; exact h
            · exact h

/-- The edge loop sets the remove edge of bit index `b` of an archetype whose
mask with bit `b` cleared is `mask`, when `b` is among the wired bit indices
and has a non-zero registered size. -/
theorem wire_all_remove_set (ts : List Nat) (mask n b : Nat) (hts : ts.getD b 0 ≠ 0)
    (bs : List Nat) :
    ∀ X : freecs_archetype_t, X.mask &&& not64 (2 ^ b % 2 ^ 64) = mask →
      b < X.remove_edges.length →
      (b ∈ bs ∨ X.remove_edges.getD b (-1) = toI32 n) →
      (wire_all ts mask n bs X).remove_edges.getD b (-1) = toI32 n := by
  induction bs with
  | nil =>
    intro X _ _ h
    rcases h with h | h
    · cases h
    · exact h
  | cons c rest ih =>
    intro X hm hlen h
    have hstep : wire_all ts mask n (c :: rest) X =
        wire_all ts mask n rest (if ts.getD c 0 = 0 then X else wire_edges mask n c X) := rfl
    rw [hstep]
    obtain ⟨hmask, _, _, _, _, hrem⟩ := wire_edges_spec mask n c X
    by_cases hc : ts.getD c 0 = 0
    · rw [if_pos hc]
      refine ih X hm hlen ?_
      rcases h with h | h
      · rcases List.mem_cons.mp h with h | h
        · subst h; exact absurd hc hts
        · exact Or.inl h
      · exact Or.inr h
    · rw [if_neg hc]
      refine ih _ (by rw [hmask]; exact hm) ?_ ?_
      · rw [hrem]; split
        · rw [List.length_set]; exact hlen
        · exact hlen
      · by_cases hcb : c = b
        · subst hcb
          right
          rw [hrem, if_pos hm, getD_set_eq, if_pos ⟨rfl, hlen⟩]
        · rcases h with h | h
          · rcases List.mem_cons.mp h with h | h
            · exact absurd h.symm hcb
            · exact Or.inl h
          · right
            rw [hrem]
            split
            · rw [getD_set_eq, if_neg (fun hh => hcb hh.1)]; exact h
            · exact h

/-- Cross-wiring at the creation of an archetype, for a world with fewer than
`2^31` archetypes whose edge tables have `FREECS_MAX_COMPONENTS` cells. -/
theorem create_wires_edges (world world1 : freecs_world_t) (mask idx : Nat)
    (ti : List freecs_type_info_entry_t)
    (hmiss : cache_find world.archetype_index mask = none)
    (h : find_or_create_archetype world mask ti = some (world1, idx))
    (hlen : world.archetypes.length < 2 ^ 31)
    (hcells : ∀ X ∈ world.archetypes, X.add_edges.length = FREECS_MAX_COMPONENTS ∧
      X.remove_edges.length = FREECS_MAX_COMPONENTS) :
    idx = world.archetypes.length ∧ world1.archetypes.length = world.archetypes.length + 1 ∧
    (∃ A, world1.archetypes[idx]? = some A ∧ A.mask = mask) ∧
    (∀ (i : Nat) (X : freecs_archetype_t), world.archetypes[i]? = some X →
      ∃ X1, world1.archetypes[i]? = some X1 ∧ X1.mask = X.mask) ∧
    ∀ (i : Nat) (X : freecs_archetype_t), world1.archetypes[i]? = some X →
      ∀ b, b < 64 → world.type_sizes.getD b 0 ≠ 0 →
        (X.mask ||| 2 ^ b = mask → X.add_edges.getD b (-1) = (idx : Int)) ∧
        (X.mask &&& not64 (2 ^ b) = mask → X.remove_edges.getD b (-1) = (idx : Int)) := by
  rcases find_or_create_cases world world1 mask idx ti h with ⟨_, i, entry, hf, _⟩ | hc
  · rw [hmiss] at hf; cases hf
  · obtain ⟨_, hidx, arch0, hcols, hw1⟩ := hc
    obtain ⟨hm0, _, hadd0, hrem0⟩ := add_columns_spec _ _ _ hcols
    have harchs : world1.archetypes = (world.archetypes ++ [arch0]).map
        (wire_all world.type_sizes mask world.archetypes.length
          (List.range FREECS_MAX_COMPONENTS)) := by rw [hw1]
    have hcells0 : ∀ X ∈ world.archetypes ++ [arch0],
        X.add_edges.length = FREECS_MAX_COMPONENTS ∧
          X.remove_edges.length = FREECS_MAX_COMPONENTS := by
      intro X hX
      rcases List.mem_append.mp hX with hX | hX
      · exact hcells X hX
      · rw [List.mem_singleton] at hX
        subst hX
        rw [hadd0, hrem0]
        exact ⟨List.length_replicate _ _, List.length_replicate _ _⟩
    refine ⟨hidx, ?_, ?_, ?_, ?_⟩
    · rw [harchs, List.length_map, List.length_append, List.length_singleton]
    · refine ⟨wire_all world.type_sizes mask world.archetypes.length
        (List.range FREECS_MAX_COMPONENTS) arch0, ?_, ?_⟩
      · rw [harchs, List.getElem?_map, hidx, List.getElem?_append_right (le_refl _),
          Nat.sub_self]
        rfl
      · rw [(wire_all_spec _ _ _ _ _).1]; exact hm0
    · intro i X hX
      refine ⟨wire_all world.type_sizes mask world.archetypes.length
        (List.range FREECS_MAX_COMPONENTS) X, ?_, (wire_all_spec _ _ _ _ X).1⟩
      rw [harchs, List.getElem?_map,
        List.getElem?_append_left (List.getElem?_eq_some.mp hX).1, hX]
      rfl
    · intro i X hX b hb hts
      rw [harchs, List.getElem?_map] at hX
      cases hX0 : (world.archetypes ++ [arch0])[i]? with
      | none => rw [hX0] at hX; cases hX
      | some X0 =>
        rw [hX0] at hX
        simp only [Option.map_some', Option.some.injEq] at hX
        subst hX
        obtain ⟨hl1, hl2⟩ := hcells0 X0 (List.getElem?_mem hX0)
        have hbr : b ∈ List.range FREECS_MAX_COMPONENTS := List.mem_range.mpr hb
        rw [(wire_all_spec _ _ _ _ X0).1, hidx, ← toI32_small hlen]
        constructor
        · intro hm
          exact wire_all_add_set _ _ _ _ hts _ X0 (by rw [two_pow_mod_64 hb]; exact hm)
            (by rw [hl1]; exact hb) (Or.inl hbr)
        · intro hm
          exact wire_all_remove_set _ _ _ _ hts _ X0 (by rw [two_pow_mod_64 hb]; exact hm)
            (by rw [hl2]; exact hb) (Or.inl hbr)

/-- Claim C27, amended to bit indices of non-zero registered size.  When
`find_or_create_archetype` creates a new archetype `A` for `mask` in a
reachable world (no archetype of that mask is indexed), `A` is appended at
the index `archetypes_len`, every archetype keeps its index and mask, and
afterwards, for every archetype `X` (the new one included) and every bit index
`b < 64` with `type_sizes[b] != 0`: `X.mask | (1 << b) == mask` implies
`X.edges.add_edges[b] ==` index of `A`, and `X.mask & ~(1 << b) == mask`
implies `X.edges.remove_edges[b] ==` index of `A`. -/
theorem creation_cross_wiring (world world1 : freecs_world_t) (mask idx : Nat)
    (ti : List freecs_type_info_entry_t) (hr : Reachable world)
    (hmiss : cache_find world.archetype_index mask = none)
    (h : find_or_create_archetype world mask ti = some (world1, idx)) :
    idx = world.archetypes.length ∧ world1.archetypes.length = world.archetypes.length + 1 ∧
    (∃ A, world1.archetypes[idx]? = some A ∧ A.mask = mask) ∧
    (∀ (i : Nat) (X : freecs_archetype_t), world.archetypes[i]? = some X →
      ∃ X1, world1.archetypes[i]? = some X1 ∧ X1.mask = X.mask) ∧
    ∀ (i : Nat) (X : freecs_archetype_t), world1.archetypes[i]? = some X →
      ∀ b, b < 64 → world.type_sizes.getD b 0 ≠ 0 →
        (X.mask ||| 2 ^ b = mask → X.add_edges.getD b (-1) = (idx : Int)) ∧
        (X.mask &&& not64 (2 ^ b) = mask → X.remove_edges.getD b (-1) = (idx : Int)) :=
  create_wires_edges world world1 mask idx ti hmiss h hr.struct_inv.graph.arch_bound
    hr.cells_inv

set_option maxRecDepth 100000 in
/-- Witness of C27: in `world_one` (one archetype, of mask 1) the archetype of
mask 3 is created. -/
theorem creation_cross_wiring_witness :
    (1 : Nat) = world_one.archetypes.length ∧
    world_one_created.archetypes.length = world_one.archetypes.length + 1 ∧
    (∃ A, world_one_created.archetypes[1]? = some A ∧ A.mask = 3) ∧
    (∀ (i : Nat) (X : freecs_archetype_t), world_one.archetypes[i]? = some X →
      ∃ X1, world_one_created.archetypes[i]? = some X1 ∧ X1.mask = X.mask) ∧
    ∀ (i : Nat) (X : freecs_archetype_t), world_one_created.archetypes[i]? = some X →
      ∀ b, b < 64 → world_one.type_sizes.getD b 0 ≠ 0 →
        (X.mask ||| 2 ^ b = 3 → X.add_edges.getD b (-1) = ((1 : Nat) : Int)) ∧
        (X.mask &&& not64 (2 ^ b) = 3 → X.remove_edges.getD b (-1) = ((1 : Nat) : Int)) :=
  creation_cross_wiring world_one world_one_created 3 1 [⟨1, 2, none, 0⟩, ⟨2, 1, none, 1⟩]
    world_one_reachable (by decide) (by decide)

set_option maxRecDepth 100000 in
/-- Counterexample to C27 as stated (every bit index): in `world_tag_p`, with a
two-byte component (bit index 0) and a zero-size component (bit index 1) and
one archetype of mask 1, `find_or_create_archetype` creates the archetype of
mask 3 at index 1.  The existing archetype has `1 | (1 << 1) == 3`, but its
`add_edges[1]` is still `-1`: the edge loop skips bit indices whose registered
size is 0. -/
theorem zero_size_bit_is_not_wired :
    Reachable world_tag_p ∧
    cache_find world_tag_p.archetype_index 3 = none ∧
    world_tag_p.archetypes.map (fun X => X.mask) = [1] ∧
    world_tag_p.type_sizes.getD 1 0 = 0 ∧
    (find_or_create_archetype world_tag_p 3 [⟨1, 2, none, 0⟩]).map
        (fun r => (r.2, r.1.archetypes.map
          (fun X => (X.mask, X.mask ||| 2 ^ 1, X.add_edges.getD 1 (-1))))) =
      some (1, [(1, 3, -1), (3, 3, -1)]) :=
  ⟨Reachable.spawn world_tag_reg world_tag_p 1 [⟨1, 2, some [7, 8], 0⟩] ⟨0, 0⟩
      (Reachable.register_component world_reg0 world_tag_reg 0 2
        (Reachable.register_component freecs_create_world world_reg0 2 1 Reachable.create
          (by decide)) (by decide))
      (by decide) ⟨by decide, by decide⟩,
    by decide, by decide, by decide, by decide⟩

set_option maxRecDepth 100000 in
/-- Claim C22 fails on the code.  With 33 registered components and one entity
holding component 33, the query `(required = 0, excluded = 2^32)` is cached
under the key `0 | (2^32 << 32) = 0` (the shift drops the bit) with the empty
answer; the empty query `(0, 0)` then hits that entry and returns no index
although there is one archetype, and `freecs_query_count(0, 0)` is 0 while
`freecs_entity_count` is 1.  Without the first query the empty query returns
`[0]` and the two counts agree. -/
theorem empty_query_misses_archetype :
    scenario_empty_query = some ([], 1, 0, 1) ∧
      scenario_empty_query_alone = some ([0], 1, 1, 1) := by
  decide

set_option maxRecDepth 100000 in
/-- Claim C25 on the code.  A spawn with mask 3 that lists component 1 only
does not zero-default component 2 (one byte): when the call creates the
archetype (`world_reg`), the archetype gets no column for bit 2 and
`freecs_get(h, 2)` is null although `freecs_has(h, 2)` is true; when the
archetype of mask 3 already has both columns (`world_three`), the column of
bit 2 is not extended (`entities_len` is 2, its `data_len` stays 1) and
`freecs_get(h, 2)` addresses a byte behind `data_len`.  An entry with
`data == NULL` does yield zero bytes. -/
theorem omitted_entry_not_zero_defaulted :
    spawn_view world_reg 3 [⟨1, 2, some [1, 2], 0⟩] 2 =
      some ⟨⟨0, 0⟩, some true, some Ptr.null, some none, [(1, [(2, 2)])]⟩ ∧
    spawn_view world_three 3 [⟨1, 2, some [1, 2], 0⟩] 2 =
      some ⟨⟨3, 0⟩, some true, some (Ptr.cell 1 1 1), none,
        [(2, [(2, 4)]), (2, [(2, 4), (1, 1)])]⟩ ∧
    spawn_view world_three 3 [⟨1, 2, some [1, 2], 0⟩, ⟨2, 1, none, 1⟩] 2 =
      some ⟨⟨3, 0⟩, some true, some (Ptr.cell 1 1 1), some (some [0]),
        [(2, [(2, 4)]), (2, [(2, 4), (1, 2)])]⟩ := by
  decide

theorem apply_commands_loop_append (cs : List freecs_command_t) (c : freecs_command_t) :
    ∀ world : freecs_world_t, apply_commands_loop (cs ++ [c]) world =
      (apply_commands_loop cs world).bind (fun w => apply_command w c) := by
  induction cs with
  | nil =>
    intro world
    simp only [List.nil_append, apply_commands_loop, Option.some_bind]
    cases apply_command world c <;> rfl
  | cons d rest ih =>
    intro world
    simp only [List.cons_append, apply_commands_loop]
    cases apply_command world d with
    | none => rfl
    | some w1 => exact ih w1

/-- Claim C29, amended to what `freecs_apply_commands` does.  A command queued
by `freecs_queue_add_components` or `freecs_queue_remove_components` is
recorded and dropped at replay: applying the buffer with the command appended
gives the same result (world and emptied buffer, or no result) as applying
the buffer without it; with no other command queued the world is returned
unchanged and the buffer is empty. -/
theorem queued_add_remove_are_dropped (world : freecs_world_t)
    (buffer : freecs_command_buffer_t) (e : freecs_entity_t) (m : Nat) :
    freecs_apply_commands world (freecs_queue_add_components buffer e m) =
      freecs_apply_commands world buffer ∧
    freecs_apply_commands world (freecs_queue_remove_components buffer e m) =
      freecs_apply_commands world buffer ∧
    freecs_apply_commands world
        (freecs_queue_add_components freecs_create_command_buffer e m) =
      some (world, freecs_create_command_buffer) ∧
    freecs_apply_commands world
        (freecs_queue_remove_components freecs_create_command_buffer e m) =
      some (world, freecs_create_command_buffer) := by
  refine ⟨?_, ?_, rfl, rfl⟩
  · unfold freecs_apply_commands freecs_queue_add_components
    simp only [apply_commands_loop_append]
    cases apply_commands_loop buffer.commands world <;> rfl
  · unfold freecs_apply_commands freecs_queue_remove_components
    simp only [apply_commands_loop_append]
    cases apply_commands_loop buffer.commands world <;> rfl

set_option maxRecDepth 100000 in
/-- Counterexample to C29 as stated: in `world_three` the live handle `(0, 0)`
has mask 1 and the live handle `(2, 0)` has mask 3, and bit 2 is registered.
After `freecs_queue_add_components(buf, (0, 0), 2)` and
`freecs_apply_commands(buf)` the handle `(0, 0)` still does not have
component 2; after `freecs_queue_remove_components(buf, (2, 0), 2)` and
`freecs_apply_commands(buf)` the handle `(2, 0)` still has it. -/
theorem queued_add_is_not_applied :
    freecs_is_alive world_three ⟨0, 0⟩ = true ∧ freecs_is_alive world_three ⟨2, 0⟩ = true ∧
    world_three.next_bit = 4 ∧
    (freecs_apply_commands world_three
        (freecs_queue_add_components freecs_create_command_buffer ⟨0, 0⟩ 2)).map
      (fun r => (freecs_has_components r.1 ⟨0, 0⟩ 2, r.2.commands.length)) =
        some (some false, 0) ∧
    (freecs_apply_commands world_three
        (freecs_queue_remove_components freecs_create_command_buffer ⟨2, 0⟩ 2)).map
      (fun r => (freecs_has_components r.1 ⟨2, 0⟩ 2, r.2.commands.length)) =
        some (some true, 0) := by
  decide

theorem has_tag_loop_iff (l : List freecs_tag_entry_t) (e : freecs_entity_t) :
    has_tag_loop l e = true ↔ ∃ en ∈ l, en.entity = e := by
  induction l with
  | nil => simp [has_tag_loop]
  | cons a rest ih =>
    unfold has_tag_loop
    by_cases h : a.entity.id = e.id ∧ a.entity.generation = e.generation
    · rw [if_pos h]
      simp only [List.mem_cons, exists_eq_or_imp, true_iff]
      left
      cases ha : a.entity
      cases e
      rw [ha] at h
      simp only at h
      rw [h.1, h.2]
    · rw [if_neg h, ih]
      simp only [List.mem_cons, exists_eq_or_imp]
      constructor
      · exact fun h1 => Or.inr h1
      · rintro (h1 | h1)
        · exact absurd ⟨by rw [h1], by rw [h1]⟩ h
        · exact h1

theorem tag_overwrite_none (l : List freecs_tag_entry_t) (e : freecs_entity_t) :
    tag_overwrite l e = none ↔ ∀ en ∈ l, en.entity.id ≠ e.id := by
  induction l with
  | nil => simp [tag_overwrite]
  | cons a rest ih =>
    unfold tag_overwrite
    by_cases h : a.entity.id = e.id
    · rw [if_pos h]
      constructor
      · intro h1; cases h1
      · intro h1
        exact absurd h (h1 a (List.mem_cons_self _ _))
    · rw [if_neg h]
      cases hr : tag_overwrite rest e with
      | none =>
        simp only [List.mem_cons, forall_eq_or_imp, true_iff]
        exact ⟨h, ih.mp hr⟩
      | some r =>
        constructor
        · intro h1; cases h1
        · intro h1
          rw [ih.mpr (fun en hen => h1 en (List.mem_cons_of_mem _ hen))] at hr
          cases hr

theorem tag_overwrite_some (l : List freecs_tag_entry_t) (e : freecs_entity_t) :
    ∀ l1, tag_overwrite l e = some l1 →
      l1.map (fun en => en.entity.id) = l.map (fun en => en.entity.id) ∧
      l1.length = l.length ∧ (∃ en ∈ l, en.entity.id = e.id) ∧
      (∃ en ∈ l1, en.entity = e) ∧ tag_overwrite l1 e = some l1 := by
  induction l with
  | nil => intro l1 h; simp [tag_overwrite] at h
  | cons a rest ih =>
    intro l1 h
    unfold tag_overwrite at h
    by_cases hid : a.entity.id = e.id
    · rw [if_pos hid] at h
      simp only [Option.some.injEq] at h
      subst h
      refine ⟨?_, rfl, ⟨a, List.mem_cons_self _ _, hid⟩,
        ⟨_, List.mem_cons_self _ _, rfl⟩, ?_⟩
      · simp only [List.map_cons, hid]
      · unfold tag_overwrite
        rw [if_pos rfl]
    · rw [if_neg hid] at h
      cases hr : tag_overwrite rest e with
      | none => rw [hr] at h; cases h
      | some r =>
        rw [hr] at h
        simp only [Option.some.injEq] at h
        subst h
        obtain ⟨h1, h2, ⟨en, hen, hen2⟩, ⟨en1, hen1, hen3⟩, h5⟩ := ih r hr
        refine ⟨?_, ?_, ⟨en, List.mem_cons_of_mem _ hen, hen2⟩,
          ⟨en1, List.mem_cons_of_mem _ hen1, hen3⟩, ?_⟩
        · simp only [List.map_cons, h1]
        · simp only [List.length_cons, h2]
        · unfold tag_overwrite
          rw [if_neg hid, h5]

theorem tag_overwrite_append (l : List freecs_tag_entry_t) (e : freecs_entity_t) (m : Nat)
    (h : ∀ en ∈ l, en.entity.id ≠ e.id) :
    tag_overwrite (l ++ [⟨e, m⟩]) e = some (l ++ [⟨e, m⟩]) := by
  induction l with
  | nil =>
    simp only [List.nil_append]
    unfold tag_overwrite
    rw [if_pos rfl]
  | cons a rest ih =>
    simp only [List.cons_append]
    unfold tag_overwrite
    rw [if_neg (h a (List.mem_cons_self _ _)),
      ih (fun en hen => h en (List.mem_cons_of_mem _ hen))]

theorem tag_find_some (l : List freecs_tag_entry_t) (id : Nat) :
    ∀ (i0 i : Nat), tag_find l id i0 = some i →
      i0 ≤ i ∧ i - i0 < l.length := by
  induction l with
  | nil => intro i0 i h; simp [tag_find] at h
  | cons a rest ih =>
    intro i0 i h
    unfold tag_find at h
    by_cases hid : a.entity.id = id
    · rw [if_pos hid] at h
      simp only [Option.some.injEq] at h
      subst h
      simp
    · rw [if_neg hid] at h
      obtain ⟨h1, h2⟩ := ih _ _ h
      simp only [List.length_cons]
      omega

/-- Swap-remove keeps a duplicate-free list duplicate-free. -/
theorem nodup_swap_remove {α β : Type} (f : α → β) (l : List α) (i : Nat) (last : α)
    (hi : i < l.length) (hlast : l.getLast? = some last) (hn : (l.map f).Nodup) :
    (((l.set i last).dropLast).map f).Nodup := by
  have hne : l ≠ [] := by
    intro h; rw [h] at hi; simp at hi
  obtain ⟨init, hl⟩ : ∃ init, l = init ++ [last] := by
    refine ⟨l.dropLast, ?_⟩
    have h1 := List.dropLast_append_getLast hne
    have h2 : l.getLast hne = last := by
      rw [List.getLast?_eq_getLast _ hne] at hlast
      exact Option.some.inj hlast
    rw [h2] at h1
    exact h1.symm
  subst hl
  rw [List.map_append, List.nodup_append] at hn
  obtain ⟨hn1, _, hdis⟩ := hn
  by_cases hlt : i < init.length
  · rw [List.set_append_left _ _ hlt, List.dropLast_concat, List.map_set]
    have hnot : f last ∉ init.map f := by
      intro hmem
      exact hdis hmem (by simp)
    rw [List.nodup_iff_getElem?_ne_getElem?] at hn1 ⊢
    intro a b hab hb
    rw [List.length_set] at hb
    simp only [List.getElem?_set, List.length_map]
    have ha : a < (init.map f).length := by omega
    have hget : ∀ c, c < (init.map f).length → (init.map f)[c]? ≠ some (f last) := by
      intro c hc hc2
      exact hnot (List.getElem?_mem hc2)
    by_cases h1 : i = a
    · have h2 : i ≠ b := by omega
      rw [if_pos h1, if_neg h2]
      simp only [List.length_map] at ha
      rw [if_pos (by omega)]
      exact fun hh => hget b hb hh.symm
    · rw [if_neg h1]
      by_cases h2 : i = b
      · rw [if_pos h2]
        simp only [List.length_map] at hb
        rw [if_pos (by omega)]
        exact hget a ha
      · rw [if_neg h2]
        exact hn1 a b hab hb
  · have hi2 : i = init.length := by
      simp only [List.length_append, List.length_singleton] at hi
      omega
    subst hi2
    rw [List.set_append_right _ _ (le_refl _), Nat.sub_self]
    simp only [List.set_cons_zero, List.dropLast_concat]
    exact hn1

theorem TagsInv.set_cell {tags : freecs_tags_t} (h : TagsInv tags) (t : Nat)
    (entries : List freecs_tag_entry_t)
    (hn : (entries.map (fun en => en.entity.id)).Nodup) :
    TagsInv { tags with storage := tags.storage.set t entries } := by
  refine ⟨by simp only [List.length_set]; exact h.cells, ?_⟩
  intro s es hs
  simp only [List.getElem?_set] at hs
  split at hs
  · split at hs
    · simp only [Option.some.injEq] at hs
      subst hs
      exact hn
    · cases hs
  · exact h.ids_nodup s es hs

theorem getD_cell {tags : freecs_tags_t} (t : Nat) :
    (∃ entries, tags.storage[t]? = some entries ∧ tags.storage.getD t [] = entries) ∨
      (tags.storage[t]? = none ∧ tags.storage.getD t [] = []) := by
  cases h : tags.storage[t]? with
  | none => right; exact ⟨rfl, by simp [List.getD_eq_getElem?_getD, h]⟩
  | some es => left; exact ⟨es, rfl, by simp [List.getD_eq_getElem?_getD, h]⟩

theorem TagsInv.cell_nodup {tags : freecs_tags_t} (h : TagsInv tags) (t : Nat) :
    ((tags.storage.getD t []).map (fun en => en.entity.id)).Nodup := by
  rcases @getD_cell tags t with ⟨es, h1, h2⟩ | ⟨_, h2⟩
  · rw [h2]; exact h.ids_nodup t es h1
  · rw [h2]; exact List.nodup_nil

theorem TagsInv.add_tag {tags : freecs_tags_t} (h : TagsInv tags) (t : Int)
    (e : freecs_entity_t) : TagsInv (freecs_add_tag tags t e) := by
  unfold freecs_add_tag
  split
  · exact h
  · simp only
    cases ho : tag_overwrite (tags.storage.getD t.toNat []) e with
    | some l1 =>
      simp only
      refine h.set_cell _ _ ?_
      rw [(tag_overwrite_some _ _ _ ho).1]
      exact h.cell_nodup _
    | none =>
      simp only
      refine h.set_cell _ _ ?_
      rw [List.map_append, List.nodup_append]
      refine ⟨h.cell_nodup _, by simp, ?_⟩
      intro a ha hb
      simp only [List.map_cons, List.map_nil, List.mem_singleton] at hb
      subst hb
      obtain ⟨en, hen, hen2⟩ := List.mem_map.mp ha
      exact (tag_overwrite_none _ _).mp ho en hen hen2

theorem TagsInv.remove_tag {tags : freecs_tags_t} (h : TagsInv tags) (t : Int)
    (e : freecs_entity_t) : TagsInv (freecs_remove_tag tags t e) := by
  unfold freecs_remove_tag
  split
  · exact h
  · simp only
    cases hf : tag_find (tags.storage.getD t.toNat []) e.id 0 with
    | none => exact h
    | some i =>
      simp only
      cases hl : (tags.storage.getD t.toNat []).getLast? with
      | none => exact h
      | some last =>
        simp only
        refine h.set_cell _ _ ?_
        have hi := (tag_find_some _ _ _ _ hf).2
        exact nodup_swap_remove _ _ _ _ (by simpa using hi) hl (h.cell_nodup _)

theorem TagsInv.clear_loop (e : freecs_entity_t) (is : List Nat) :
    ∀ {tags : freecs_tags_t}, TagsInv tags →
      TagsInv (is.foldl (fun t i => freecs_remove_tag t (i : Int) e) tags) := by
  induction is with
  | nil => intro tags h; exact h
  | cons i rest ih =>
    intro tags h
    exact ih (h.remove_tag _ _)

theorem TagsReachable.tags_inv {tags : freecs_tags_t} (h : TagsReachable tags) :
    TagsInv tags := by
  induction h with
  | create =>
    refine ⟨List.length_replicate _ _, ?_⟩
    intro s es hs
    have := List.getElem?_mem hs
    rw [freecs_create_tags] at this
    rw [List.eq_of_mem_replicate this]
    exact List.nodup_nil
  | register_tag tags tags1 id _ hr ih =>
    unfold freecs_register_tag at hr
    split at hr
    · cases hr
    · simp only [Option.some.injEq, Prod.mk.injEq] at hr
      rw [← hr.1]
      exact ⟨ih.cells, ih.ids_nodup⟩
  | add_tag tags t e _ ih => exact ih.add_tag t e
  | remove_tag tags t e _ ih => exact ih.remove_tag t e
  | clear_entity_tags tags e _ ih => exact TagsInv.clear_loop e _ ih

theorem add_tag_cell {tags : freecs_tags_t} (t : Int) (ht0 : 0 ≤ t)
    (ht : t < (FREECS_MAX_TAGS : Int)) (e : freecs_entity_t) :
    ∃ l1, freecs_add_tag tags t e = { tags with storage := tags.storage.set t.toNat l1 } ∧
      (tag_overwrite (tags.storage.getD t.toNat []) e = some l1 ∨
        (tag_overwrite (tags.storage.getD t.toNat []) e = none ∧
          l1 = tags.storage.getD t.toNat [] ++ [⟨e, 0⟩])) := by
  unfold freecs_add_tag
  rw [if_neg (by omega)]
  simp only
  cases ho : tag_overwrite (tags.storage.getD t.toNat []) e with
  | some l1 => exact ⟨l1, rfl, Or.inl rfl⟩
  | none => exact ⟨_, rfl, Or.inr ⟨rfl, rfl⟩⟩

/-- Claim C30.  In a tag store reachable from `freecs_create_tags`, for a tag
id `0 <= t < FREECS_MAX_TAGS` and an entity `e`: after `freecs_add_tag(t, e)`,
`freecs_has_tag(t, e)` is true; `freecs_tag_count(t)` is unchanged when an
entry with the id of `e` was stored and grows by 1 otherwise; adding the tag a
second time changes nothing; no entry array holds two entries with the same
entity id (before and after); and the count and the membership of every
other tag are unchanged. -/
theorem add_tag_idempotent (tags : freecs_tags_t) (h : TagsReachable tags) (t : Int)
    (ht0 : 0 ≤ t) (ht : t < (FREECS_MAX_TAGS : Int)) (e : freecs_entity_t) :
    freecs_has_tag (freecs_add_tag tags t e) t e = true ∧
    ((∃ en ∈ tags.storage.getD t.toNat [], en.entity.id = e.id) →
      freecs_tag_count (freecs_add_tag tags t e) t = freecs_tag_count tags t) ∧
    ((∀ en ∈ tags.storage.getD t.toNat [], en.entity.id ≠ e.id) →
      freecs_tag_count (freecs_add_tag tags t e) t = freecs_tag_count tags t + 1) ∧
    freecs_add_tag (freecs_add_tag tags t e) t e = freecs_add_tag tags t e ∧
    (∀ (s : Nat) (entries : List freecs_tag_entry_t),
      (tags.storage[s]? = some entries ∨
        (freecs_add_tag tags t e).storage[s]? = some entries) →
      (entries.map (fun en => en.entity.id)).Nodup) ∧
    (∀ t2 : Int, t2 ≠ t →
      freecs_tag_count (freecs_add_tag tags t e) t2 = freecs_tag_count tags t2 ∧
      ∀ x, freecs_has_tag (freecs_add_tag tags t e) t2 x = freecs_has_tag tags t2 x) := by
  have hinv := h.tags_inv
  have hinv1 := hinv.add_tag t e
  obtain ⟨l1, hadd, hcase⟩ := @add_tag_cell tags t ht0 ht e
  have htn : t.toNat < tags.storage.length := by
    rw [hinv.cells]
    unfold FREECS_MAX_TAGS at ht ⊢
    omega
  have hrange : ¬ (t < 0 ∨ t ≥ (FREECS_MAX_TAGS : Int)) := by omega
  have hcell : (freecs_add_tag tags t e).storage.getD t.toNat [] = l1 := by
    rw [hadd]
    simp only
    rw [getD_set_eq, if_pos ⟨rfl, htn⟩]
  have hover : tag_overwrite l1 e = some l1 := by
    rcases hcase with ho | ⟨ho, hl1⟩
    · exact (tag_overwrite_some _ _ _ ho).2.2.2.2
    · rw [hl1]
      exact tag_overwrite_append _ _ _ ((tag_overwrite_none _ _).mp ho)
  refine ⟨?_, ?_, ?_, ?_, ?_, ?_⟩
  · unfold freecs_has_tag
    rw [if_neg hrange, hcell, has_tag_loop_iff]
    exact (tag_overwrite_some _ _ _ hover).2.2.2.1
  · intro hex
    unfold freecs_tag_count
    rw [if_neg hrange, if_neg hrange, hcell]
    rcases hcase with ho | ⟨ho, _⟩
    · exact (tag_overwrite_some _ _ _ ho).2.1
    · obtain ⟨en, hen, hid⟩ := hex
      exact absurd hid ((tag_overwrite_none _ _).mp ho en hen)
  · intro hall
    unfold freecs_tag_count
    rw [if_neg hrange, if_neg hrange, hcell]
    rcases hcase with ho | ⟨_, hl1⟩
    · obtain ⟨en, hen, hid⟩ := (tag_overwrite_some _ _ _ ho).2.2.1
      exact absurd hid (hall en hen)
    · rw [hl1, List.length_append, List.length_singleton]
  · obtain ⟨l2, hadd2, hcase2⟩ := @add_tag_cell (freecs_add_tag tags t e) t ht0 ht e
    rw [hcell, hover] at hcase2
    have hl2 : l2 = l1 := by
      rcases hcase2 with h2 | ⟨h2, _⟩
      · exact (Option.some.inj h2).symm
      · cases h2
    rw [hadd2, hl2, hadd]
    simp only [List.set_set]
  · intro s entries hs
    rcases hs with hs | hs
    · exact hinv.ids_nodup s entries hs
    · exact hinv1.ids_nodup s entries hs
  · intro t2 ht2
    have hcell2 : ¬ (t2 < 0 ∨ t2 ≥ (FREECS_MAX_TAGS : Int)) →
        (freecs_add_tag tags t e).storage.getD t2.toNat [] = tags.storage.getD t2.toNat [] := by
      intro hr2
      rw [hadd]
      simp only
      rw [getD_set_eq, if_neg]
      rintro ⟨h1, _⟩
      apply ht2
      omega
    constructor
    · unfold freecs_tag_count
      by_cases hr2 : t2 < 0 ∨ t2 ≥ (FREECS_MAX_TAGS : Int)
      · rw [if_pos hr2, if_pos hr2]
      · rw [if_neg hr2, if_neg hr2, hcell2 hr2]
    · intro x
      unfold freecs_has_tag
      by_cases hr2 : t2 < 0 ∨ t2 ≥ (FREECS_MAX_TAGS : Int)
      · rw [if_pos hr2, if_pos hr2]
      · rw [if_neg hr2, if_neg hr2, hcell2 hr2]

/-- Witness of C30: in the store where the entity `(4, 0)` carries tag 2, the
tag is added to the handle `(4, 1)` of the same id. -/
theorem add_tag_idempotent_witness :
    freecs_has_tag (freecs_add_tag (freecs_add_tag freecs_create_tags 2 ⟨4, 0⟩) 2 ⟨4, 1⟩) 2
      ⟨4, 1⟩ = true ∧
    freecs_tag_count (freecs_add_tag (freecs_add_tag freecs_create_tags 2 ⟨4, 0⟩) 2 ⟨4, 1⟩) 2 =
      freecs_tag_count (freecs_add_tag freecs_create_tags 2 ⟨4, 0⟩) 2 :=
  have h := add_tag_idempotent (freecs_add_tag freecs_create_tags 2 ⟨4, 0⟩)
    (TagsReachable.add_tag _ _ _ TagsReachable.create) 2 (by decide) (by decide) ⟨4, 1⟩
  ⟨h.1, h.2.1 ⟨⟨⟨4, 0⟩, 0⟩, by decide, rfl⟩⟩

theorem CacheKept.rfl_kept (world : freecs_world_t) : CacheKept world world := ⟨rfl, rfl⟩

theorem CacheKept.then {w1 w2 w3 : freecs_world_t} (h12 : CacheKept w1 w2)
    (h23 : CacheKept w2 w3) : CacheKept w1 w3 :=
  ⟨h23.1.trans h12.1, h23.2.trans h12.2⟩

theorem CacheInv.kept {world world1 : freecs_world_t} (h : CacheInv world)
    (hk : CacheKept world world1) : CacheInv world1 := by
  intro entry he
  rw [hk.1] at he
  rw [hk.2]
  exact h entry he

theorem CacheInv.create_kept {world world1 : freecs_world_t} (h : CacheInv world)
    {mask idx : Nat} {ti : List freecs_type_info_entry_t}
    (hf : find_or_create_archetype world mask ti = some (world1, idx)) : CacheInv world1 := by
  rcases find_or_create_cases _ _ _ _ _ hf with ⟨rfl, _⟩ | ⟨_, _, arch0, _, rfl⟩
  · exact h
  · intro entry he
    simp only [update_query_cache, List.mem_map] at he
    obtain ⟨e0, he0, hcase⟩ := he
    obtain ⟨hp, hr⟩ := h e0 he0
    simp only [List.length_map, List.length_append, List.length_singleton]
    split at hcase
    · subst hcase
      simp only
      constructor
      · rw [List.pairwise_append]
        refine ⟨hp, List.pairwise_singleton _ _, ?_⟩
        intro a ha b hb
        rw [List.mem_singleton] at hb
        subst hb
        exact hr a ha
      · intro i hi
        rcases List.mem_append.mp hi with hi | hi
        · exact Nat.lt_succ_of_lt (hr i hi)
        · rw [List.mem_singleton] at hi
          omega
    · subst hcase
      exact ⟨hp, fun i hi => Nat.lt_succ_of_lt (hr i hi)⟩

theorem remove_row_kept {world world1 : freecs_world_t} {a row : Nat}
    (h : remove_row world a row = some world1) : CacheKept world world1 := by
  obtain ⟨arch, last, columns2, _, _, ⟨_, lloc, columns1, _, _, _, rfl⟩ | ⟨_, _, rfl⟩⟩ :=
    remove_row_spec h
  · exact ⟨rfl, by simp⟩
  · exact ⟨rfl, by simp⟩

theorem despawn_kept {world world1 : freecs_world_t} {entity : freecs_entity_t} {ok : Bool}
    (h : freecs_despawn world entity = some (world1, ok)) : CacheKept world world1 := by
  rcases despawn_spec h with ⟨_, rfl, _⟩ | ⟨_, loc, w2, loc1, _, _, _, hr, _, rfl⟩
  · exact CacheKept.rfl_kept _
  · exact (remove_row_kept hr).then ⟨rfl, rfl⟩

theorem alloc_entity_kept {world world1 : freecs_world_t} {e : freecs_entity_t}
    (hal : alloc_entity world = (world1, e)) : CacheKept world world1 := by
  rcases alloc_entity_cases world with ⟨e1, _, h1⟩ | ⟨_, h1⟩
  · rw [h1] at hal
    simp only [Prod.mk.injEq] at hal
    rw [← hal.1]
    exact ⟨rfl, rfl⟩
  · rw [h1] at hal
    simp only [Prod.mk.injEq] at hal
    rw [← hal.1]
    unfold ensure_entity_slot
    split
    · exact ⟨rfl, rfl⟩
    · exact ⟨rfl, rfl⟩

theorem CacheInv.spawn_kept {world world1 : freecs_world_t} (h : CacheInv world) {mask : Nat}
    {entries : List freecs_type_info_entry_t} {entity : freecs_entity_t}
    (hs : freecs_spawn world mask entries = some (world1, entity)) : CacheInv world1 := by
  by_cases hm : entries.length = 0 ∨ mask = 0
  · unfold freecs_spawn at hs
    rw [if_pos hm] at hs
    simp only [Option.some.injEq, Prod.mk.injEq] at hs
    rw [← hs.1]
    exact h
  · obtain ⟨w1, idx, arch, w2, arch1, hf, _, hal, _, _, rfl⟩ := spawn_spec hs hm
    refine ((h.create_kept hf).kept (alloc_entity_kept hal)).kept ⟨rfl, ?_⟩
    simp

theorem spawn_batch_row_kept {world world1 : freecs_world_t} {idx row : Nat}
    {entity : freecs_entity_t} (h : spawn_batch_row world idx row = some (world1, entity)) :
    CacheKept world world1 := by
  obtain ⟨w2, arch, hal, _, _, rfl⟩ := spawn_batch_row_spec h
  exact (alloc_entity_kept hal).then ⟨rfl, by simp⟩

theorem spawn_batch_loop_kept (count : Nat) :
    ∀ {world world1 : freecs_world_t} {idx row : Nat} {entities : List freecs_entity_t},
      spawn_batch_loop count world idx row = some (world1, entities) →
      CacheKept world world1 := by
  induction count with
  | zero =>
    intro world world1 idx row entities h
    simp only [spawn_batch_loop, Option.some.injEq, Prod.mk.injEq] at h
    rw [← h.1]
    exact CacheKept.rfl_kept _
  | succ n ih =>
    intro world world1 idx row entities h
    unfold spawn_batch_loop at h
    cases hr : spawn_batch_row world idx row with
    | none => rw [hr] at h; simp at h
    | some p =>
      obtain ⟨w1, e⟩ := p
      rw [hr] at h
      simp only at h
      cases hl : spawn_batch_loop n w1 idx (row + 1) with
      | none => rw [hl] at h; simp at h
      | some q =>
        obtain ⟨w2, es⟩ := q
        rw [hl] at h
        simp only [Option.some.injEq, Prod.mk.injEq] at h
        rw [← h.1]
        exact (spawn_batch_row_kept hr).then (ih hl)

theorem CacheInv.batch_kept {world world1 : freecs_world_t} (h : CacheInv world)
    {mask count : Nat} {entities : List freecs_entity_t}
    (hs : freecs_spawn_batch world mask count = some (world1, entities)) :
    CacheInv world1 := by
  unfold freecs_spawn_batch at hs
  split at hs
  · simp only [Option.some.injEq, Prod.mk.injEq] at hs
    rw [← hs.1]
    exact h
  · simp only at hs
    split at hs
    · simp only [Option.some.injEq, Prod.mk.injEq] at hs
      rw [← hs.1]
      exact h
    · cases hf : find_or_create_archetype world mask (batch_type_info world.type_sizes mask) with
      | none => rw [hf] at hs; simp at hs
      | some p =>
        obtain ⟨w1, idx⟩ := p
        rw [hf] at hs
        simp only at hs
        cases ha : w1.archetypes[idx]? with
        | none => rw [ha] at hs; simp at hs
        | some arch =>
          rw [ha] at hs
          simp only at hs
          have hk := spawn_batch_loop_kept _ hs
          have hk0 : CacheKept w1 world1 :=
            ⟨hk.1, by rw [hk.2]; simp⟩
          exact (h.create_kept hf).kept hk0

theorem move_entity_kept {world world1 : freecs_world_t} {entity : freecs_entity_t}
    {from_idx from_row to_idx : Nat}
    (h : move_entity world entity from_idx from_row to_idx = some world1) :
    CacheKept world world1 := by
  obtain ⟨from_arch, to_arch, columns, w2, _, _, _, hr, _, rfl⟩ := move_entity_spec h
  obtain ⟨h1, h2⟩ := remove_row_kept hr
  exact ⟨h1, by simpa using h2⟩

theorem write_component_kept {world world1 : freecs_world_t} {id bit_idx size : Nat}
    {value : List Nat} (h : write_component world id bit_idx value size = some world1) :
    CacheKept world world1 := by
  obtain ⟨loc, arch, col, col1, _, _, _, _, _, rfl⟩ := write_component_spec h
  exact ⟨rfl, by simp⟩

theorem CacheInv.add_kept {world world1 : freecs_world_t} (h : CacheInv world)
    {entity : freecs_entity_t} {bit size : Nat} {value : List Nat} {ok : Bool}
    (ha : freecs_add_component world entity bit value size = some (world1, ok)) :
    CacheInv world1 := by
  rcases add_component_spec ha with ⟨_, rfl, _⟩ |
    ⟨_, loc, bit_idx, arch, _, _, _, _, _, ⟨_, hw⟩ | ⟨_, w1, target, w2, hfind, _, hmove, hwrite⟩⟩
  · exact h
  · exact h.kept (write_component_kept hw)
  · have h1 : CacheInv w1 := by
      rcases hfind with ⟨_, _, wf, idx, a, hf, _, rfl, _⟩ | ⟨_, rfl, _⟩
      · exact (h.create_kept hf).kept ⟨rfl, by simp⟩
      · exact h
    have h2 := h1.kept (move_entity_kept hmove)
    rcases hwrite with ⟨_, hw⟩ | ⟨_, rfl⟩
    · exact h2.kept (write_component_kept hw)
    · exact h2

theorem CacheInv.remove_kept {world world1 : freecs_world_t} (h : CacheInv world)
    {entity : freecs_entity_t} {bit : Nat} {ok : Bool}
    (hr : freecs_remove_component world entity bit = some (world1, ok)) :
    CacheInv world1 := by
  rcases remove_component_spec hr with ⟨_, rfl, _⟩ |
    ⟨_, loc, bit_idx, arch, _, _, _, _, _, _, ⟨_, ok1, hd⟩ | ⟨_, w1, target, hfind, _, hmove⟩⟩
  · exact h
  · exact h.kept (despawn_kept hd)
  · have h1 : CacheInv w1 := by
      rcases hfind with ⟨_, _, wf, idx, a, hf, _, rfl, _⟩ | ⟨_, rfl, _⟩
      · exact (h.create_kept hf).kept ⟨rfl, by simp⟩
      · exact h
    exact h1.kept (move_entity_kept hmove)

theorem CacheInv.get_matching {world world1 : freecs_world_t} (h : CacheInv world)
    {mask exclude : Nat} {result : List Nat}
    (hq : freecs_get_matching_archetypes world mask exclude = some (world1, result)) :
    CacheInv world1 := by
  unfold freecs_get_matching_archetypes at hq
  simp only at hq
  split at hq
  · split at hq
    · simp at hq
    · simp only [Option.some.injEq, Prod.mk.injEq] at hq
      rw [← hq.1]
      exact h
  · simp only [Option.some.injEq, Prod.mk.injEq] at hq
    rw [← hq.1]
    intro entry he
    simp only [List.mem_append, List.mem_singleton] at he
    rcases he with he | he
    · exact h entry he
    · subst he
      refine ⟨matching_from_sorted _ _ _ _, ?_⟩
      intro i hi
      simp only at hi
      rw [matching_from_mem] at hi
      obtain ⟨_, arch, harch, _⟩ := hi
      exact (List.getElem?_eq_some.mp harch).1

theorem CacheInv.set_kept {world world1 : freecs_world_t} (h : CacheInv world)
    {entity : freecs_entity_t} {bit size : Nat} {value : List Nat} {ok : Bool}
    (hs : freecs_set world entity bit value size = some (world1, ok)) : CacheInv world1 := by
  unfold freecs_set at hs
  simp only [Option.bind_eq_bind, Option.bind_eq_some] at hs
  obtain ⟨p, _, hs⟩ := hs
  cases p with
  | null =>
    simp only [Option.some.injEq, Prod.mk.injEq] at hs
    rw [← hs.1]
    exact h
  | cell a c off =>
    simp only [Option.bind_eq_some, Option.some.injEq, Prod.mk.injEq] at hs
    obtain ⟨arch, harch, col, _, col1, _, rfl, _⟩ := hs
    exact h.kept ⟨rfl, by simp⟩

theorem despawn_batch_kept (entities : List freecs_entity_t) :
    ∀ {world world1 : freecs_world_t} {n : Nat},
      freecs_despawn_batch world entities = some (world1, n) → CacheKept world world1 := by
  induction entities with
  | nil =>
    intro world world1 n h
    simp only [freecs_despawn_batch, Option.some.injEq, Prod.mk.injEq] at h
    rw [← h.1]
    exact CacheKept.rfl_kept _
  | cons e rest ih =>
    intro world world1 n h
    simp only [freecs_despawn_batch, Option.bind_eq_bind, Option.bind_eq_some,
      Option.some.injEq, Prod.mk.injEq] at h
    obtain ⟨⟨w1, ok⟩, h1, ⟨w2, d⟩, h2, rfl, _⟩ := h
    exact (despawn_kept h1).then (ih h2)

theorem apply_despawns_loop_kept (queue : List freecs_entity_t) :
    ∀ {world world1 : freecs_world_t},
      apply_despawns_loop queue world = some world1 → CacheKept world world1 := by
  induction queue with
  | nil =>
    intro world world1 h
    simp only [apply_despawns_loop, Option.some.injEq] at h
    rw [← h]
    exact CacheKept.rfl_kept _
  | cons e rest ih =>
    intro world world1 h
    simp only [apply_despawns_loop, Option.bind_eq_bind, Option.bind_eq_some] at h
    obtain ⟨⟨w1, ok⟩, h1, h2⟩ := h
    exact (despawn_kept h1).then (ih h2)

/-- Every reachable world satisfies the query-cache invariant. -/
theorem Reachable.cache_inv {world : freecs_world_t} (h : Reachable world) :
    CacheInv world := by
  induction h with
  | create => intro entry he; cases he
  | register_component w w1 size bit _ h ih =>
    simp only [freecs_register_component, Option.bind_eq_bind, Option.bind_eq_some,
      Option.some.injEq, Prod.mk.injEq] at h
    obtain ⟨idx, _, rfl, _⟩ := h
    exact ih.kept ⟨rfl, rfl⟩
  | spawn w w1 mask entries e _ h hb ih => exact ih.spawn_kept h
  | spawn_batch w w1 mask count es _ h hb ih => exact ih.batch_kept h
  | despawn w w1 e ok _ h ih => exact ih.kept (despawn_kept h)
  | despawn_batch w w1 es d _ h ih => exact ih.kept (despawn_batch_kept _ h)
  | add_component w w1 e bit v size ok _ hbit h hb ih => exact ih.add_kept h
  | remove_component w w1 e bit ok _ hbit h hb ih => exact ih.remove_kept h
  | set w w1 e bit v size ok _ h ih => exact ih.set_kept h
  | get_matching_archetypes w w1 m x r _ h ih => exact ih.get_matching h
  | queue_despawn w e _ ih => exact ih.kept ⟨rfl, rfl⟩
  | apply_despawns w w1 _ h ih =>
    simp only [freecs_apply_despawns, Option.bind_eq_bind, Option.bind_eq_some,
      Option.some.injEq] at h
    obtain ⟨wa, h1, rfl⟩ := h
    exact ih.kept ((apply_despawns_loop_kept _ h1).then ⟨rfl, rfl⟩)
  | column_bytes w w1 _ h ih =>
    exact ih.kept ⟨(erase_bytes_fields h).2.2.2.2.1, erase_bytes_length h⟩

theorem cache_find_from_append_miss (cache : List freecs_cache_entry_t) (key : Nat)
    (value : List Nat) :
    ∀ i0, cache_find_from cache key i0 = none →
      cache_find_from (cache ++ [⟨key, value⟩]) key i0 = some (i0 + cache.length) := by
  induction cache with
  | nil =>
    intro i0 _
    simp [cache_find_from]
  | cons e rest ih =>
    intro i0 h
    unfold cache_find_from at h
    simp only [List.cons_append]
    unfold cache_find_from
    split at h
    · cases h
    · rename_i hne
      rw [if_neg hne, ih _ h]
      simp only [List.length_cons]
      congr 1
      omega

/-- A query answers, and a repeated query answers the same list without
changing the world again. -/
theorem get_matching_returns (world : freecs_world_t) (mask exclude : Nat) :
    ∃ world1 list, freecs_get_matching_archetypes world mask exclude = some (world1, list) ∧
      world1.archetypes = world.archetypes ∧
      freecs_get_matching_archetypes world1 mask exclude = some (world1, list) ∧
      (CacheInv world → CacheInv world1 ∧ list.Pairwise (fun x y => x < y) ∧
        ∀ i ∈ list, i < world.archetypes.length) := by
  cases hf : cache_find world.query_cache (mask ||| (exclude <<< 32) % 2 ^ 64) with
  | some idx =>
    obtain ⟨e, he, _⟩ := cache_find_some hf
    have hq : freecs_get_matching_archetypes world mask exclude = some (world, e.value) := by
      unfold freecs_get_matching_archetypes
      simp only [hf, he]
    refine ⟨world, e.value, hq, rfl, hq, ?_⟩
    intro hc
    exact ⟨hc, hc e (List.getElem?_mem he)⟩
  | none =>
    have hq : freecs_get_matching_archetypes world mask exclude =
        some ({ world with
                  query_cache := world.query_cache ++
                    [⟨mask ||| (exclude <<< 32) % 2 ^ 64,
                      matching_from world.archetypes mask exclude 0⟩] },
          matching_from world.archetypes mask exclude 0) := by
      unfold freecs_get_matching_archetypes
      simp only [hf]
    refine ⟨_, _, hq, rfl, ?_, ?_⟩
    · have := cache_find_from_append_miss world.query_cache _
        (matching_from world.archetypes mask exclude 0) 0 hf
      simp only [Nat.zero_add] at this
      unfold freecs_get_matching_archetypes
      unfold cache_find
      simp only [this]
      rw [List.getElem?_append_right (le_refl _), Nat.sub_self]
      rfl
    · intro hc
      have hmem : ∀ i ∈ matching_from world.archetypes mask exclude 0,
          i < world.archetypes.length := by
        intro i hi
        rw [matching_from_mem] at hi
        obtain ⟨_, arch, harch, _⟩ := hi
        exact (List.getElem?_eq_some.mp harch).1
      refine ⟨?_, matching_from_sorted _ _ _ _, hmem⟩
      intro entry hen
      simp only [List.mem_append, List.mem_singleton] at hen
      rcases hen with hen | hen
      · exact hc entry hen
      · subst hen
        exact ⟨matching_from_sorted _ _ _ _, hmem⟩

theorem query_count_loop_eq (archetypes : List freecs_archetype_t) (list : List Nat)
    (hr : ∀ i ∈ list, i < archetypes.length) :
    ∀ count, query_count_loop archetypes list count =
      some (count + (list.map (fun i =>
        (((archetypes[i]?).map (fun arch => arch.entities)).getD []).length)).sum) := by
  induction list with
  | nil => intro count; simp [query_count_loop]
  | cons i rest ih =>
    intro count
    unfold query_count_loop
    obtain ⟨arch, harch⟩ : ∃ arch, archetypes[i]? = some arch :=
      ⟨_, List.getElem?_eq_getElem (hr i (List.mem_cons_self _ _))⟩
    simp only [harch]
    rw [ih (fun j hj => hr j (List.mem_cons_of_mem _ hj))]
    simp only [List.map_cons, List.sum_cons, harch, Option.map_some', Option.getD_some]
    congr 1
    omega

theorem query_entities_loop_eq (archetypes : List freecs_archetype_t) (list : List Nat)
    (hr : ∀ i ∈ list, i < archetypes.length) :
    ∀ out, query_entities_loop archetypes list out =
      some (out ++ (list.map (fun i =>
        ((archetypes[i]?).map (fun arch => arch.entities)).getD [])).flatten) := by
  induction list with
  | nil => intro out; simp [query_entities_loop]
  | cons i rest ih =>
    intro out
    unfold query_entities_loop
    obtain ⟨arch, harch⟩ : ∃ arch, archetypes[i]? = some arch :=
      ⟨_, List.getElem?_eq_getElem (hr i (List.mem_cons_self _ _))⟩
    simp only [harch]
    rw [ih (fun j hj => hr j (List.mem_cons_of_mem _ hj))]
    simp only [List.map_cons, List.flatten_cons, harch, Option.map_some', Option.getD_some,
      List.append_assoc]

/-- Rows of distinct archetypes hold distinct handles, and no archetype holds
a handle twice. -/
theorem rows_nodup {world : freecs_world_t} (hs : StructInv world) (list : List Nat)
    (hp : list.Pairwise (fun x y => x < y)) :
    ((list.map (archetype_rows world)).flatten).Nodup := by
  have hslot : ∀ (a r : Nat) (e : freecs_entity_t), (archetype_rows world a)[r]? = some e →
      world.locations[e.id]? = some ⟨a, r, e.generation, true⟩ := by
    intro a r e he
    unfold archetype_rows at he
    cases harch : world.archetypes[a]? with
    | none => rw [harch] at he; simp at he
    | some arch =>
      rw [harch] at he
      simp only [Option.map_some', Option.getD_some] at he
      refine hs.ent.slot a r arch.entities e ?_ he
      simp only [ents, List.getElem?_map, harch, Option.map_some']
  rw [List.nodup_flatten]
  constructor
  · intro l hl
    obtain ⟨a, _, rfl⟩ := List.mem_map.mp hl
    rw [List.nodup_iff_getElem?_ne_getElem?]
    intro i j hij hj heq
    obtain ⟨e, he⟩ : ∃ e, (archetype_rows world a)[j]? = some e :=
      ⟨_, List.getElem?_eq_getElem hj⟩
    have h1 := hslot a j e he
    rw [← heq] at he
    have h2 := hslot a i e he
    rw [h1] at h2
    simp only [Option.some.injEq, freecs_entity_location_t.mk.injEq] at h2
    omega
  · rw [List.pairwise_map]
    refine hp.imp ?_
    intro a b hab
    intro e h1 h2
    obtain ⟨r1, hr1⟩ := List.getElem?_of_mem h1
    obtain ⟨r2, hr2⟩ := List.getElem?_of_mem h2
    have g1 := hslot a r1 e hr1
    have g2 := hslot b r2 e hr2
    rw [g1] at g2
    simp only [Option.some.injEq, freecs_entity_location_t.mk.injEq] at g2
    omega

/-- Claim C23.  In every reachable state, for every query `(required, excluded)`:
`freecs_get_matching_archetypes` returns a strictly increasing list of
archetype indices (no archetype twice); `freecs_query_count` returns the sum
of `entities_len` over that list; `freecs_query_entities` returns the
concatenation, in list order and row order, of the `entities` arrays of the
listed archetypes; that array holds no handle twice and its length is the
query count. -/
theorem query_enumerates_once (world : freecs_world_t) (h : Reachable world)
    (mask exclude : Nat) :
    ∃ world1 list, freecs_get_matching_archetypes world mask exclude = some (world1, list) ∧
      list.Pairwise (fun x y => x < y) ∧ (∀ i ∈ list, i < world.archetypes.length) ∧
      freecs_query_count world mask exclude =
        some (world1, (list.map (fun i => (archetype_rows world i).length)).sum) ∧
      freecs_query_entities world mask exclude =
        some (world1, (list.map (archetype_rows world)).flatten) ∧
      ((list.map (archetype_rows world)).flatten).Nodup ∧
      ((list.map (archetype_rows world)).flatten).length =
        (list.map (fun i => (archetype_rows world i).length)).sum := by
  obtain ⟨world1, list, hq, harchs, hq2, hc⟩ := get_matching_returns world mask exclude
  obtain ⟨_, hp, hr⟩ := hc h.cache_inv
  have hr1 : ∀ i ∈ list, i < world1.archetypes.length := by rw [harchs]; exact hr
  have hcount : freecs_query_count world mask exclude =
      some (world1, (list.map (fun i => (archetype_rows world i).length)).sum) := by
    unfold freecs_query_count
    simp only [hq]
    rw [query_count_loop_eq _ _ hr1 0, harchs]
    simp only [Nat.zero_add]
    rfl
  have hlen : ((list.map (archetype_rows world)).flatten).length =
      (list.map (fun i => (archetype_rows world i).length)).sum := by
    rw [List.length_flatten, List.map_map]
    rfl
  refine ⟨world1, list, hq, hp, hr, hcount, ?_, rows_nodup h.struct_inv list hp, hlen⟩
  unfold freecs_query_entities
  simp only [hcount]
  split
  · rename_i h0
    rw [← hlen] at h0
    rw [List.length_eq_zero.mp h0]
  · simp only [hq2]
    rw [query_entities_loop_eq _ _ hr1 [], harchs]
    simp only [List.nil_append]
    have : (list.map (fun i =>
        ((world.archetypes[i]?).map (fun arch => arch.entities)).getD [])) =
        list.map (archetype_rows world) := rfl
    rw [this, if_pos hlen]

set_option maxRecDepth 100000 in
/-- Witness of C23 in `world_three` with the query `(required = 1, excluded = 0)`. -/
theorem query_enumerates_once_witness :
    ∃ world1 list, freecs_get_matching_archetypes world_three 1 0 = some (world1, list) ∧
      list.Pairwise (fun x y => x < y) ∧ (∀ i ∈ list, i < world_three.archetypes.length) ∧
      freecs_query_count world_three 1 0 =
        some (world1, (list.map (fun i => (archetype_rows world_three i).length)).sum) ∧
      freecs_query_entities world_three 1 0 =
        some (world1, (list.map (archetype_rows world_three)).flatten) ∧
      ((list.map (archetype_rows world_three)).flatten).Nodup ∧
      ((list.map (archetype_rows world_three)).flatten).length =
        (list.map (fun i => (archetype_rows world_three i).length)).sum :=
  query_enumerates_once world_three world_three_reachable 1 0

/-- Column after `count` zero rows were appended. -/
theorem zero_rows_add (col : freecs_component_column_t) (n : Nat) :
    ({ ({ col with data := col.data ++ List.replicate col.elem_size 0 } :
        freecs_component_column_t) with
      data := (col.data ++ List.replicate col.elem_size 0) ++
        List.replicate (n * col.elem_size) 0 } : freecs_component_column_t) =
    { col with data := col.data ++ List.replicate ((n + 1) * col.elem_size) 0 } := by
  have : (n + 1) * col.elem_size = col.elem_size + n * col.elem_size := by
    rw [Nat.add_mul, Nat.one_mul, Nat.add_comm]
  rw [this, List.replicate_add, List.append_assoc]

/-- Shape of the world after the entity loop of `freecs_spawn_batch`: the
returned handles were appended to the entity vector of the archetype, in
order, and `count` zero rows to each of its columns. -/
theorem spawn_batch_loop_shape (count : Nat) :
    ∀ {world world1 : freecs_world_t} {idx row : Nat} {entities : List freecs_entity_t}
      {arch : freecs_archetype_t},
      spawn_batch_loop count world idx row = some (world1, entities) →
      world.archetypes[idx]? = some arch →
      entities.length = count ∧
      world1.archetypes[idx]? = some { arch with
        entities := arch.entities ++ entities
        columns := arch.columns.map (fun col =>
          { col with data := col.data ++ List.replicate (count * col.elem_size) 0 }) } ∧
      freecs_entity_count world1 = freecs_entity_count world + count ∧
      world1.type_sizes = world.type_sizes := by
  induction count with
  | zero =>
    intro world world1 idx row entities arch h harch
    simp only [spawn_batch_loop, Option.some.injEq, Prod.mk.injEq] at h
    obtain ⟨rfl, rfl⟩ := h
    refine ⟨rfl, ?_, rfl, rfl⟩
    rw [harch]
    congr 1
    obtain ⟨m, en, cols, cb, ae, re⟩ := arch
    simp only [List.append_nil, Nat.zero_mul, List.replicate_zero,
      freecs_archetype_t.mk.injEq, true_and, and_true]
    conv_lhs => rw [← List.map_id cols]
    apply List.map_congr_left
    intro col _
    rfl
  | succ n ih =>
    intro world world1 idx row entities arch h harch
    unfold spawn_batch_loop at h
    cases hr : spawn_batch_row world idx row with
    | none => rw [hr] at h; simp at h
    | some p =>
      obtain ⟨wa, e⟩ := p
      rw [hr] at h
      simp only at h
      cases hl : spawn_batch_loop n wa idx (row + 1) with
      | none => rw [hl] at h; simp at h
      | some q =>
        obtain ⟨wb, es⟩ := q
        rw [hl] at h
        simp only [Option.some.injEq, Prod.mk.injEq] at h
        obtain ⟨rfl, rfl⟩ := h
        obtain ⟨w2, arch2, hal, harch2, hlt, hwa⟩ := spawn_batch_row_spec hr
        obtain ⟨f1, f2, _⟩ := alloc_entity_frame hal
        rw [f1, harch] at harch2
        have := Option.some.inj harch2
        subst this
        have hidx : idx < w2.archetypes.length := by
          rw [f1]; exact (List.getElem?_eq_some.mp harch).1
        have harcha : wa.archetypes[idx]? = some { arch with
            entities := arch.entities ++ [e]
            columns := arch.columns.map (fun col =>
              { col with data := col.data ++ List.replicate col.elem_size 0 }) } := by
          rw [hwa]
          exact List.getElem?_set_self hidx
        obtain ⟨g1, g2, g3, g4⟩ := ih hl harcha
        refine ⟨by simp [g1], ?_, ?_, ?_⟩
        · rw [g2]
          simp only [List.append_assoc, List.singleton_append, List.map_map,
            Option.some.injEq, freecs_archetype_t.mk.injEq, true_and, and_true]
          apply List.map_congr_left
          intro col _
          exact zero_rows_add col n
        · rw [g3]
          have hc := @entity_count_set w2 wa idx arch _ (by rw [f1]; exact harch)
            (by rw [hwa])
          simp only [List.length_append, List.length_singleton] at hc
          have hc2 : freecs_entity_count w2 = freecs_entity_count world := by
            unfold freecs_entity_count
            rw [f1]
          omega
        · rw [g4, hwa]
          exact f2

/-- The entity loop of `freecs_spawn_batch` returns in a structurally sound
world with room for `count` more slots; the structural invariant holds
afterwards and at most `count` slots were added. -/
theorem spawn_batch_loop_some (count : Nat) :
    ∀ {world : freecs_world_t} {idx row : Nat} {arch : freecs_archetype_t},
      StructInv world → world.archetypes[idx]? = some arch → arch.entities.length = row →
      world.locations.length + count < 2 ^ 32 →
      ∃ world1 entities, spawn_batch_loop count world idx row = some (world1, entities) ∧
        StructInv world1 ∧ world1.locations.length ≤ world.locations.length + count ∧
        world1.archetypes.length = world.archetypes.length := by
  induction count with
  | zero =>
    intro world idx row arch hs _ _ _
    exact ⟨world, [], rfl, hs, le_refl _, rfl⟩
  | succ n ih =>
    intro world idx row arch hs harch hrow hb
    cases hal : alloc_entity world with
    | mk w2 e =>
      obtain ⟨f1, _, _, _, _, f6⟩ := alloc_entity_frame hal
      have hlen2 : w2.locations.length ≤ world.locations.length + 1 := by
        rw [hs.next_id] at f6
        simpa using f6
      obtain ⟨hlim, hnext, _, _, hgen⟩ := alloc_limbo hs hal (by omega)
      have harch2 : w2.archetypes[idx]? = some arch := by rw [f1]; exact harch
      have hrowdef : spawn_batch_row world idx row = some
          ({ w2 with
              archetypes := w2.archetypes.set idx
                { arch with
                    entities := arch.entities ++ [e]
                    columns := arch.columns.map (fun col =>
                      { col with data := col.data ++ List.replicate col.elem_size 0 }) }
              locations := w2.locations.set e.id
                ⟨toU32 idx, toU32 row, e.generation, true⟩ }, e) := by
        unfold spawn_batch_row
        rw [hal]
        simp only [harch2, if_pos hlim.in_range]
      have hone : spawn_batch_loop 1 world idx row = some
          ({ w2 with
              archetypes := w2.archetypes.set idx
                { arch with
                    entities := arch.entities ++ [e]
                    columns := arch.columns.map (fun col =>
                      { col with data := col.data ++ List.replicate col.elem_size 0 }) }
              locations := w2.locations.set e.id
                ⟨toU32 idx, toU32 row, e.generation, true⟩ }, [e]) := by
        unfold spawn_batch_loop
        rw [hrowdef]
        rfl
      have hs1 := StructInv.spawn_batch_loop hs ⟨arch, harch, hrow⟩ hone
        (by simp only [List.length_set]; omega)
      have hidx : idx < w2.archetypes.length := (List.getElem?_eq_some.mp harch2).1
      obtain ⟨world1, es, hl, hs2, hlen, hal2⟩ := @ih _ idx (row + 1) _ hs1
        (List.getElem?_set_self hidx) (by simp [hrow])
        (by simp only [List.length_set]; omega)
      refine ⟨world1, e :: es, ?_, hs2, ?_, ?_⟩
      · unfold spawn_batch_loop
        rw [hrowdef]
        simp only [hl]
      · simp only [List.length_set] at hlen
        omega
      · rw [hal2]
        simp only [List.length_set]
        rw [f1]

theorem row_bytes_zero_rows (col : freecs_component_column_t) (rows n i : Nat)
    (hlen : col.data.length = rows * col.elem_size) (hi : i < n) :
    row_bytes { col with data := col.data ++ List.replicate (n * col.elem_size) 0 }
      (rows + i) = List.replicate col.elem_size 0 := by
  unfold row_bytes
  simp only
  have h1 : (rows + i) * col.elem_size = col.data.length + i * col.elem_size := by
    rw [Nat.add_mul, hlen]
  rw [h1, ← List.drop_drop, List.drop_left, List.drop_replicate, List.take_replicate]
  congr 1
  have : i * col.elem_size + col.elem_size ≤ n * col.elem_size := by
    have := Nat.mul_le_mul_right col.elem_size (Nat.succ_le_of_lt hi)
    rw [Nat.succ_mul] at this
    exact this
  omega

theorem has_components_live {world : freecs_world_t} {x : freecs_entity_t}
    {loc : freecs_entity_location_t} {arch : freecs_archetype_t}
    (hloc : world.locations[x.id]? = some loc) (hal : loc.alive = true)
    (hgen : loc.generation = x.generation)
    (harch : world.archetypes[loc.archetype_index]? = some arch) (mask : Nat) :
    freecs_has_components world x mask = some (arch.mask &&& mask == mask) := by
  have hlt : ¬ x.id ≥ world.locations.length := by
    have := (List.getElem?_eq_some.mp hloc).1
    omega
  unfold freecs_has_components
  rw [if_neg hlt]
  simp only [Option.bind_eq_bind, hloc, Option.some_bind, hal, hgen, Bool.not_true,
    bne_self_eq_false, Bool.or_self, Bool.false_eq_true, if_false, harch]

/-- Claim C24.  Batch spawn, in a well-formed world with room for `n` more
slots and one more archetype: for a non-zero mask whose bits are all
registered with a non-zero size and `n > 0`, `freecs_spawn_batch(mask, n)`
returns `n` pairwise distinct handles (`*out_count = n`); each of them is
alive, `freecs_has_components(h, mask)` is true and every component of the
mask reads as `elem_size` zero bytes; `freecs_entity_count` has grown by `n`,
and the world is still well-formed. -/
theorem spawn_batch_effect (world : freecs_world_t) (hw : WellFormed world) (mask n : Nat)
    (hm : mask ≠ 0)
    (hreg : ∀ b, mask.testBit b = true → Registered world b ∧ world.type_sizes.getD b 0 ≠ 0)
    (hn : 0 < n) (hb1 : world.locations.length + n < 2 ^ 32)
    (hb2 : world.archetypes.length + 1 < 2 ^ 31) :
    ∃ world1 entities, freecs_spawn_batch world mask n = some (world1, entities) ∧
      WellFormed world1 ∧ entities.length = n ∧ entities.Nodup ∧
      (∀ h ∈ entities, freecs_is_alive world1 h = true ∧
        freecs_has_components world1 h mask = some true ∧
        ∀ b, mask.testBit b = true →
          get_bytes world1 h (2 ^ b) =
            some (some (List.replicate (world.type_sizes.getD b 0) 0))) ∧
      freecs_entity_count world1 = freecs_entity_count world + n := by
  have hne : (batch_type_info world.type_sizes mask).length ≠ 0 := by
    obtain ⟨b, hb⟩ := Nat.ne_zero_implies_bit_true hm
    obtain ⟨hr, hz⟩ := hreg b hb
    intro h0
    have hmem : (⟨2 ^ b, world.type_sizes.getD b 0, none, b⟩ : freecs_type_info_entry_t) ∈
        batch_type_info world.type_sizes mask :=
      mem_batch_type_info.mpr ⟨b, hr.1, and_two_pow_ne_zero_of_testBit hb,
        Nat.pos_of_ne_zero hz, rfl⟩
    rw [List.length_eq_zero.mp h0] at hmem
    cases hmem
  have hbits : ∀ en ∈ batch_type_info world.type_sizes mask, ∃ b, b < 64 ∧ en.bit = 2 ^ b := by
    intro en hen
    obtain ⟨i, hi, _, _, rfl⟩ := mem_batch_type_info.mp hen
    exact ⟨i, hi, rfl⟩
  obtain ⟨w1, idx, hf⟩ := find_or_create_some hw.struct mask _ hbits
  have hlen1 : w1.archetypes.length < 2 ^ 31 := by
    have := find_or_create_length hw.struct.graph hf
    split at this <;> omega
  obtain ⟨hs1, ⟨arch, harch, hmask⟩, hlocs, _, _⟩ := hw.struct.find_or_create hf hlen1
  obtain ⟨hc1, hts1, hnb1⟩ := hw.cols.create_cols (batch_type_info_fits _ hm)
    (fun b hb => (hreg b hb).1) hf
  have hidx : idx < w1.archetypes.length := (List.getElem?_eq_some.mp harch).1
  have hsc : StructInv { w1 with
      archetypes := w1.archetypes.set idx
        { arch with
            columns := arch.columns.map (fun col =>
              { col with
                  data_cap := ensure_capacity_u8 col.data_cap
                    (col.data.length + n * col.elem_size) }) } } := by
    refine hs1.congr rfl ?_ rfl rfl rfl ?_
    · show List.map (fun a => a.entities) (w1.archetypes.set idx _) =
        List.map (fun a => a.entities) w1.archetypes
      exact map_set_of_eq _ _ _ arch _ harch rfl
    · show List.map graph_of (w1.archetypes.set idx _) = List.map graph_of w1.archetypes
      exact map_set_of_eq _ _ _ arch _ harch rfl
  have harchc : ({ w1 with
      archetypes := w1.archetypes.set idx
        { arch with
            columns := arch.columns.map (fun col =>
              { col with
                  data_cap := ensure_capacity_u8 col.data_cap
                    (col.data.length + n * col.elem_size) }) } } : freecs_world_t).archetypes[idx]? =
      some { arch with
          columns := arch.columns.map (fun col =>
            { col with
                data_cap := ensure_capacity_u8 col.data_cap
                  (col.data.length + n * col.elem_size) }) } :=
    List.getElem?_set_self hidx
  obtain ⟨world1, entities, hl, hs2, _, halen⟩ := spawn_batch_loop_some n hsc harchc rfl
    (by show w1.locations.length + n < 2 ^ 32; rw [hlocs]; exact hb1)
  have hspawn : freecs_spawn_batch world mask n = some (world1, entities) := by
    unfold freecs_spawn_batch
    rw [if_neg (by omega)]
    simp only
    rw [if_neg hne]
    simp only [hf, harch]
    exact hl
  have hc2 : ColInv world1 := hw.cols.batch_cols (fun b hb => (hreg b hb).1) hspawn
  obtain ⟨g1, g2, g3, g4⟩ := spawn_batch_loop_shape n hl harchc
  have hts : world1.type_sizes = world.type_sizes := by rw [g4]; exact hts1
  have hslot : ∀ (i : Nat) (h : freecs_entity_t), entities[i]? = some h →
      world1.locations[h.id]? =
        some ⟨idx, arch.entities.length + i, h.generation, true⟩ := by
    intro i h hi
    refine hs2.ent.slot idx (arch.entities.length + i) (arch.entities ++ entities) h ?_ ?_
    · simp only [ents, List.getElem?_map, g2, Option.map_some']
    · rw [List.getElem?_append_right (Nat.le_add_right _ _), Nat.add_sub_cancel_left]
      exact hi
  refine ⟨world1, entities, hspawn, ⟨hs2, hc2⟩, g1, ?_, ?_, ?_⟩
  · rw [List.nodup_iff_getElem?_ne_getElem?]
    intro i j hij hj heq
    obtain ⟨h, hh⟩ : ∃ h, entities[j]? = some h := ⟨_, List.getElem?_eq_getElem hj⟩
    have h1 := hslot j h hh
    rw [← heq] at hh
    have h2 := hslot i h hh
    rw [h1] at h2
    simp only [Option.some.injEq, freecs_entity_location_t.mk.injEq] at h2
    omega
  · intro h hh
    obtain ⟨i, hi⟩ := List.getElem?_of_mem hh
    have hloc := hslot i h hi
    have hilt : i < n := by
      rw [← g1]
      exact (List.getElem?_eq_some.mp hi).1
    have hrow : arch.entities.length + i <
        (arch.entities ++ entities).length := by
      rw [List.length_append, g1]; omega
    refine ⟨is_alive_iff.mpr ⟨_, hloc, rfl, rfl⟩, ?_, ?_⟩
    · rw [has_components_live hloc rfl rfl g2]
      simp only [hmask, Nat.and_self, beq_self_eq_true]
    · intro b hb
      obtain ⟨hr, hz⟩ := hreg b hb
      have hac := hc2.archs idx _ g2
      rw [get_bytes_live hloc rfl rfl g2 hac hrow]
      obtain ⟨c, col, _, hcol, _, hes, _, _, hview⟩ := comp_view_present hac hr.1
        (show (arch.mask).testBit b = true by rw [hmask]; exact hb)
        (by rw [hts]; exact hz) hrow
      rw [hview]
      simp only [List.getElem?_map] at hcol
      cases hc0 : arch.columns[c]? with
      | none => rw [hc0] at hcol; cases hcol
      | some col0 =>
        rw [hc0] at hcol
        simp only [Option.map_some', Option.some.injEq] at hcol
        subst hcol
        obtain ⟨_, _, _, _, _, hdl, _, _⟩ := (hc1.archs idx arch harch).col_ok c col0 hc0
        have hes0 : col0.elem_size = world.type_sizes.getD b 0 := by
          rw [← hts]; exact hes
        have := row_bytes_zero_rows
          { col0 with
              data_cap := ensure_capacity_u8 col0.data_cap
                (col0.data.length + n * col0.elem_size) }
          arch.entities.length n i hdl hilt
        simp only at this
        rw [this, hes0]
  · rw [g3]
    have h1 : freecs_entity_count { w1 with
        archetypes := w1.archetypes.set idx
          { arch with
              columns := arch.columns.map (fun col =>
                { col with
                    data_cap := ensure_capacity_u8 col.data_cap
                      (col.data.length + n * col.elem_size) }) } } =
        freecs_entity_count w1 := by
      apply entity_count_congr
      show List.map (fun a => a.entities) (w1.archetypes.set idx _) =
        List.map (fun a => a.entities) w1.archetypes
      exact map_set_of_eq _ _ _ arch _ harch rfl
    rw [h1, (find_or_create_count hf).1]

set_option maxRecDepth 100000 in
/-- Witness of C24: two entities with both components are batch-spawned in
`world_three`. -/
theorem spawn_batch_effect_witness :
    ∃ world1 entities, freecs_spawn_batch world_three 3 2 = some (world1, entities) ∧
      WellFormed world1 ∧ entities.length = 2 ∧ entities.Nodup ∧
      (∀ h ∈ entities, freecs_is_alive world1 h = true ∧
        freecs_has_components world1 h 3 = some true ∧
        ∀ b, (3 : Nat).testBit b = true →
          get_bytes world1 h (2 ^ b) =
            some (some (List.replicate (world_three.type_sizes.getD b 0) 0))) ∧
      freecs_entity_count world1 = freecs_entity_count world_three + 2 :=
  spawn_batch_effect world_three world_three_built.well_formed 3 2 (by decide)
    (by
      intro b hb
      have hb1 : b < 2 := testBit_lt_of_lt (n := 2) (by decide) hb
      have : b = 0 ∨ b = 1 := by omega
      rcases this with rfl | rfl
      · exact ⟨⟨by decide, Or.inr (by decide)⟩, by decide⟩
      · exact ⟨⟨by decide, Or.inr (by decide)⟩, by decide⟩)
    (by decide) (by decide) (by decide)

theorem entry_bytes_norm (e : freecs_type_info_entry_t) :
    entry_bytes (norm_entry e) = entry_bytes e := by
  unfold norm_entry
  cases hb : entry_bytes e with
  | none =>
    unfold entry_bytes at hb ⊢
    simp only [Option.getD_none, List.length_nil]
    cases hd : e.data with
    | none => rw [hd] at hb; simp at hb
    | some d =>
      rw [hd] at hb
      simp only at hb
      split at hb
      · rename_i hpos
        rw [if_pos hpos, if_neg (by omega)]
      · cases hb
  | some bytes =>
    have hlen : bytes.length = e.size := by
      unfold entry_bytes at hb
      cases hd : e.data with
      | none =>
        rw [hd] at hb
        simp only [Option.some.injEq] at hb
        rw [← hb, List.length_replicate]
      | some d =>
        rw [hd] at hb
        simp only at hb
        split at hb
        · split at hb
          · simp only [Option.some.injEq] at hb
            rw [← hb, List.length_take]
            omega
          · cases hb
        · simp only [Option.some.injEq] at hb
          rw [← hb, List.length_replicate]
    unfold entry_bytes
    simp only [Option.getD_some]
    split
    · rw [if_pos (by omega), ← hlen, List.take_length]
    · rename_i hz
      have hz0 : e.size = 0 := by omega
      rw [hz0] at hlen ⊢
      rw [List.length_eq_zero.mp hlen]
      rfl

theorem add_columns_forget (es : List freecs_type_info_entry_t) :
    ∀ a : freecs_archetype_t,
      (add_columns a es).map forget_arch = add_columns (forget_arch a) (es.map norm_entry) := by
  induction es with
  | nil => intro a; rfl
  | cons e rest ih =>
    intro a
    simp only [List.map_cons]
    unfold add_columns
    have hbit : (norm_entry e).bit = e.bit := rfl
    rw [hbit]
    cases freecs_bit_index e.bit with
    | none => rfl
    | some bi =>
      simp only
      rw [ih]
      congr 1
      simp only [forget_arch, List.map_append, List.map_cons, List.map_nil, List.length_map,
        forget_col, norm_entry]

theorem wire_edges_forget (m n c : Nat) (X : freecs_archetype_t) :
    forget_arch (wire_edges m n c X) = wire_edges m n c (forget_arch X) := by
  unfold wire_edges forget_arch
  simp only
  split <;> split <;> rfl

theorem cross_wire_forget (ts : List Nat) (m n : Nat) (archs : List freecs_archetype_t) :
    (cross_wire ts m n archs).map forget_arch = cross_wire ts m n (archs.map forget_arch) := by
  unfold cross_wire
  generalize List.range FREECS_MAX_COMPONENTS = bs
  induction bs generalizing archs with
  | nil => rfl
  | cons b rest ih =>
    simp only [List.foldl_cons]
    rw [ih]
    congr 1
    split
    · rfl
    · simp only [List.map_map]
      apply List.map_congr_left
      intro X _
      exact wire_edges_forget m n b X

theorem find_or_create_forget (w : freecs_world_t) (m : Nat)
    (es : List freecs_type_info_entry_t) :
    (find_or_create_archetype w m es).map (Prod.map forget_type_index id) =
      find_or_create_archetype (forget_type_index w) m (es.map norm_entry) := by
  unfold find_or_create_archetype
  have h1 : (forget_type_index w).archetype_index = w.archetype_index := rfl
  rw [h1]
  cases cache_find w.archetype_index m with
  | some idx =>
    simp only
    cases w.archetype_index[idx]? with
    | none => rfl
    | some entry =>
      simp only
      cases entry.value[0]? with
      | none => rfl
      | some a => rfl
  | none =>
    simp only
    have h2 : add_columns (new_archetype m) (es.map norm_entry) =
        (add_columns (new_archetype m) es).map forget_arch := by
      rw [add_columns_forget]
      rfl
    rw [h2]
    cases add_columns (new_archetype m) es with
    | none => rfl
    | some arch =>
      simp only [Option.map_some', Prod.map, id, forget_type_index, List.length_map,
        Option.some.injEq, Prod.mk.injEq, and_true, freecs_world_t.mk.injEq, true_and]
      rw [cross_wire_forget, List.map_append]
      rfl

theorem alloc_entity_forget (w : freecs_world_t) :
    Prod.map forget_type_index id (alloc_entity w) = alloc_entity (forget_type_index w) := by
  unfold alloc_entity
  have h1 : (forget_type_index w).free_entities = w.free_entities := rfl
  rw [h1]
  cases w.free_entities.getLast? with
  | some e => rfl
  | none =>
    simp only [Prod.map, id]
    unfold ensure_entity_slot
    simp only [forget_type_index]
    split <;> rfl

theorem spawn_entry_forget (a : freecs_archetype_t) (e : freecs_type_info_entry_t) :
    (spawn_entry a e).map forget_arch = spawn_entry (forget_arch a) (norm_entry e) := by
  unfold spawn_entry
  have hbit : (norm_entry e).bit = e.bit := rfl
  have hsize : (norm_entry e).size = e.size := rfl
  rw [hbit, entry_bytes_norm, hsize]
  cases freecs_bit_index e.bit with
  | none => rfl
  | some bi =>
    simp only
    have hcb : (forget_arch a).column_bits = a.column_bits := rfl
    rw [hcb]
    split
    · have hcols : (forget_arch a).columns = a.columns.map forget_col := rfl
      rw [hcols, List.getElem?_map]
      cases a.columns[(a.column_bits.getD bi (-1)).toNat]? with
      | none => rfl
      | some col =>
        simp only [Option.map_some']
        cases entry_bytes e with
        | none => rfl
        | some bytes =>
          simp only [Option.map_some', forget_arch, List.map_set, forget_col]
    · rfl

theorem spawn_entries_forget (es : List freecs_type_info_entry_t) :
    ∀ a : freecs_archetype_t,
      (spawn_entries a es).map forget_arch =
        spawn_entries (forget_arch a) (es.map norm_entry) := by
  induction es with
  | nil => intro a; rfl
  | cons e rest ih =>
    intro a
    simp only [List.map_cons]
    unfold spawn_entries
    rw [← spawn_entry_forget]
    cases spawn_entry a e with
    | none => rfl
    | some a1 =>
      simp only [Option.map_some']
      exact ih a1

theorem forget_archetypes_get (w : freecs_world_t) (i : Nat) :
    (forget_type_index w).archetypes[i]? = (w.archetypes[i]?).map forget_arch := by
  simp only [forget_type_index, List.getElem?_map]

theorem spawn_forget (w : freecs_world_t) (m : Nat) (es : List freecs_type_info_entry_t) :
    (freecs_spawn w m es).map (Prod.map forget_type_index id) =
      freecs_spawn (forget_type_index w) m (es.map norm_entry) := by
  unfold freecs_spawn
  simp only [List.length_map]
  split
  · rfl
  · rw [← find_or_create_forget]
    cases find_or_create_archetype w m es with
    | none => rfl
    | some p =>
      obtain ⟨w1, idx⟩ := p
      simp only [Option.map_some', Prod.map, id]
      rw [forget_archetypes_get]
      cases w1.archetypes[idx]? with
      | none => rfl
      | some arch =>
        simp only [Option.map_some']
        rw [← alloc_entity_forget]
        cases alloc_entity w1 with
        | mk w2 e =>
          simp only [Prod.map, id]
          have h1 : spawn_entries
              { forget_arch arch with entities := (forget_arch arch).entities ++ [e] }
              (es.map norm_entry) =
              (spawn_entries { arch with entities := arch.entities ++ [e] } es).map
                forget_arch := by
            rw [spawn_entries_forget]
            rfl
          rw [h1]
          cases spawn_entries { arch with entities := arch.entities ++ [e] } es with
          | none => rfl
          | some arch1 =>
            simp only [Option.map_some']
            have h2 : (forget_type_index w2).locations = w2.locations := rfl
            rw [h2]
            split
            · simp only [Option.map_some', Prod.map, id, forget_type_index, List.map_set,
                forget_arch]
            · rfl

theorem mapOpt_map {α β : Type} (f : α → Option α) (g : α → β) (f1 : β → Option β)
    (h : ∀ x, (f x).map g = f1 (g x)) (l : List α) :
    (mapOpt f l).map (List.map g) = mapOpt f1 (l.map g) := by
  induction l with
  | nil => rfl
  | cons x rest ih =>
    simp only [List.map_cons]
    unfold mapOpt
    rw [← h x]
    cases f x with
    | none => rfl
    | some y =>
      simp only [Option.map_some']
      rw [← ih]
      cases mapOpt f rest with
      | none => rfl
      | some ys => rfl

theorem copy_row_forget (d s : Nat) (col : freecs_component_column_t) :
    (copy_row d s col).map forget_col = copy_row d s (forget_col col) := by
  unfold copy_row forget_col
  simp only
  split
  · split <;> rfl
  · rfl

theorem pop_row_forget (col : freecs_component_column_t) :
    (pop_row col).map forget_col = pop_row (forget_col col) := by
  unfold pop_row forget_col
  simp only
  split
  · split <;> rfl
  · rfl

theorem remove_row_forget (w : freecs_world_t) (a row : Nat) :
    (remove_row w a row).map forget_type_index = remove_row (forget_type_index w) a row := by
  unfold remove_row
  simp only [Option.bind_eq_bind]
  rw [forget_archetypes_get]
  cases w.archetypes[a]? with
  | none => rfl
  | some arch =>
    simp only [Option.some_bind, Option.map_some']
    have hent : (forget_arch arch).entities = arch.entities := rfl
    have hcols : (forget_arch arch).columns = arch.columns.map forget_col := rfl
    have hlocs : (forget_type_index w).locations = w.locations := rfl
    rw [hent, hcols, hlocs]
    split
    · rfl
    · split
      · cases arch.entities[arch.entities.length - 1]? with
        | none => rfl
        | some last =>
          simp only [Option.some_bind]
          cases w.locations[last.id]? with
          | none => rfl
          | some loc =>
            simp only [Option.some_bind]
            rw [← mapOpt_map _ _ _ (copy_row_forget row (arch.entities.length - 1))]
            cases mapOpt (copy_row row (arch.entities.length - 1)) arch.columns with
            | none => rfl
            | some cols1 =>
              simp only [Option.some_bind, Option.map_some']
              rw [← mapOpt_map _ _ _ pop_row_forget]
              cases mapOpt pop_row cols1 with
              | none => rfl
              | some cols2 =>
                simp only [Option.some_bind, Option.map_some', forget_type_index, List.map_set,
                  forget_arch]
      · simp only [Option.some_bind]
        rw [hcols, ← mapOpt_map _ _ _ pop_row_forget]
        cases mapOpt pop_row arch.columns with
        | none => rfl
        | some cols2 =>
          simp only [Option.some_bind, Option.map_some', forget_type_index, List.map_set,
            forget_arch]

theorem despawn_forget (w : freecs_world_t) (e : freecs_entity_t) :
    (freecs_despawn w e).map (Prod.map forget_type_index id) =
      freecs_despawn (forget_type_index w) e := by
  unfold freecs_despawn
  have hlocs : (forget_type_index w).locations = w.locations := rfl
  rw [hlocs]
  split
  · rfl
  · simp only [Option.bind_eq_bind]
    cases w.locations[e.id]? with
    | none => rfl
    | some loc =>
      simp only [Option.some_bind]
      split
      · rfl
      · rw [← remove_row_forget]
        cases remove_row w loc.archetype_index loc.row with
        | none => rfl
        | some w1 =>
          simp only [Option.some_bind, Option.map_some']
          have hl1 : (forget_type_index w1).locations = w1.locations := rfl
          rw [hl1]
          cases w1.locations[e.id]? with
          | none => rfl
          | some loc1 => rfl

theorem is_alive_forget (w : freecs_world_t) (x : freecs_entity_t) :
    freecs_is_alive (forget_type_index w) x = freecs_is_alive w x := rfl

theorem component_mask_forget (w : freecs_world_t) (x : freecs_entity_t) :
    freecs_component_mask (forget_type_index w) x = freecs_component_mask w x := by
  unfold freecs_component_mask
  have hlocs : (forget_type_index w).locations = w.locations := rfl
  rw [hlocs]
  split
  · rfl
  · simp only [Option.bind_eq_bind]
    cases w.locations[x.id]? with
    | none => rfl
    | some loc =>
      simp only [Option.some_bind]
      split
      · rfl
      · rw [forget_archetypes_get]
        cases w.archetypes[loc.archetype_index]? with
        | none => rfl
        | some arch => rfl

theorem get_forget (w : freecs_world_t) (x : freecs_entity_t) (bit : Nat) :
    freecs_get (forget_type_index w) x bit = freecs_get w x bit := by
  unfold freecs_get
  have hlocs : (forget_type_index w).locations = w.locations := rfl
  rw [hlocs]
  split
  · rfl
  · simp only [Option.bind_eq_bind]
    cases w.locations[x.id]? with
    | none => rfl
    | some loc =>
      simp only [Option.some_bind]
      split
      · rfl
      · rw [forget_archetypes_get]
        cases w.archetypes[loc.archetype_index]? with
        | none => rfl
        | some arch =>
          simp only [Option.map_some', Option.some_bind]
          cases freecs_bit_index bit with
          | none => rfl
          | some bi =>
            simp only [Option.some_bind]
            have hcb : (forget_arch arch).column_bits = arch.column_bits := rfl
            have hcols : (forget_arch arch).columns = arch.columns.map forget_col := rfl
            rw [hcb, hcols, List.getElem?_map]
            split
            · rfl
            · cases arch.columns[(arch.column_bits.getD bi (-1)).toNat]? with
              | none => rfl
              | some col => rfl

theorem get_bytes_forget (w : freecs_world_t) (x : freecs_entity_t) (bit : Nat) :
    get_bytes (forget_type_index w) x bit = get_bytes w x bit := by
  unfold get_bytes
  rw [get_forget]
  cases freecs_get w x bit with
  | none => rfl
  | some p =>
    cases p with
    | null => rfl
    | cell a c off =>
      simp only
      rw [forget_archetypes_get]
      cases harch : w.archetypes[a]? with
      | none => rfl
      | some arch =>
        simp only [Option.map_some']
        have hcols : (forget_arch arch).columns = arch.columns.map forget_col := rfl
        rw [hcols, List.getElem?_map]
        cases hcol : arch.columns[c]? with
        | none => rfl
        | some col =>
          simp only [Option.map_some']
          have hes : (forget_col col).elem_size = col.elem_size := rfl
          rw [hes]
          have hread : read_bytes (forget_type_index w) (Ptr.cell a c off) col.elem_size =
              read_bytes w (Ptr.cell a c off) col.elem_size := by
            unfold read_bytes
            split
            · rfl
            · simp only [Option.bind_eq_bind]
              rw [forget_archetypes_get, harch]
              simp only [Option.map_some', Option.some_bind, hcols, List.getElem?_map, hcol]
              rfl
          rw [hread]

theorem written_bytes_map_some (l : List Nat) : written_bytes (l.map some) = l := by
  induction l with
  | nil => rfl
  | cons a rest ih =>
    simp only [List.map_cons, written_bytes, ih]

theorem queue_spawn_bytes_some {e : freecs_type_info_entry_t} {d : List Nat}
    {piece : List (Option Nat)} (hd : e.data = some d)
    (h : queue_spawn_bytes e = some piece) :
    piece.length = e.size ∧
      (e.size > 0 → e.size ≤ d.length ∧ piece = (d.take e.size).map some) := by
  unfold queue_spawn_bytes at h
  rw [hd] at h
  simp only at h
  split at h
  · split at h
    · simp only [Option.some.injEq] at h
      subst h
      refine ⟨?_, fun _ => ⟨by assumption, rfl⟩⟩
      rw [List.length_map, List.length_take]
      omega
    · cases h
  · simp only [Option.some.injEq] at h
    subst h
    exact ⟨List.length_replicate _ _, fun hp => by omega⟩

theorem norm_entry_eq {e e1 : freecs_type_info_entry_t} (hb : e1.bit = e.bit)
    (hs : e1.size = e.size) (hbytes : entry_bytes e1 = entry_bytes e) :
    norm_entry e1 = norm_entry e := by
  unfold norm_entry
  rw [hb, hs, hbytes]

/-- The entries rebuilt from a queued spawn command store the same bits, sizes
and bytes as the entries that were queued. -/
theorem rebuild_entries_queued (cmd : freecs_command_t) :
    ∀ (suf : List freecs_type_info_entry_t) (pre_sizes : List Nat)
      (pre_data : List (Option Nat)) (pieces : List (List (Option Nat))),
      mapOpt queue_spawn_bytes suf = some pieces →
      (∀ en ∈ suf, en.data ≠ none ∧ freecs_bit_index en.bit ≠ none) →
      cmd.component_sizes = pre_sizes ++ suf.map (fun en => en.size) →
      cmd.component_data = pre_data ++ pieces.flatten →
      pre_sizes.length + suf.length ≤ FREECS_MAX_COMPONENTS →
      ∃ suf1, rebuild_entries cmd (suf.map (fun en => en.bit)) pre_sizes.length
          pre_data.length = some suf1 ∧
        suf1.map norm_entry = suf.map norm_entry := by
  intro suf
  induction suf with
  | nil =>
    intro _ _ _ _ _ _ _ _
    exact ⟨[], rfl, rfl⟩
  | cons e rest ih =>
    intro pre_sizes pre_data pieces hq hen hsz hdat hlen
    unfold mapOpt at hq
    cases hp : queue_spawn_bytes e with
    | none => rw [hp] at hq; cases hq
    | some piece =>
      rw [hp] at hq
      simp only at hq
      cases hr : mapOpt queue_spawn_bytes rest with
      | none => rw [hr] at hq; cases hq
      | some pieces1 =>
        rw [hr] at hq
        simp only [Option.some.injEq] at hq
        subst hq
        obtain ⟨hdata, hbit⟩ := hen e (List.mem_cons_self _ _)
        obtain ⟨d, hd⟩ : ∃ d, e.data = some d := by
          cases h : e.data with
          | none => exact absurd h hdata
          | some d => exact ⟨d, rfl⟩
        obtain ⟨ti, hti⟩ : ∃ ti, freecs_bit_index e.bit = some ti := by
          cases h : freecs_bit_index e.bit with
          | none => exact absurd h hbit
          | some ti => exact ⟨ti, rfl⟩
        obtain ⟨hplen, hpos⟩ := queue_spawn_bytes_some hd hp
        simp only [List.length_cons] at hlen
        obtain ⟨suf1, hsuf1, hnorm⟩ := ih (pre_sizes ++ [e.size]) (pre_data ++ piece) pieces1 hr
          (fun en h => hen en (List.mem_cons_of_mem _ h))
          (by rw [hsz]; simp)
          (by rw [hdat]; simp)
          (by simp only [List.length_append, List.length_singleton]; omega)
        simp only [List.length_append, List.length_singleton, hplen] at hsuf1
        have hsize : cmd.component_sizes[pre_sizes.length]? = some e.size := by
          rw [hsz, List.getElem?_append_right (le_refl _), Nat.sub_self]
          simp
        refine ⟨{ bit := e.bit
                  size := e.size
                  data := if e.size > 0 then
                      some (written_bytes
                        ((cmd.component_data.drop pre_data.length).take e.size))
                    else none
                  type_index := ti } :: suf1, ?_, ?_⟩
        · simp only [List.map_cons]
          unfold rebuild_entries
          rw [if_neg (by omega)]
          simp only [hsize, hti, hsuf1]
        · simp only [List.map_cons, hnorm, List.cons.injEq, and_true]
          refine @norm_entry_eq e _ rfl rfl ?_
          have hslice : (cmd.component_data.drop pre_data.length).take e.size = piece := by
            rw [hdat, List.drop_left, List.flatten_cons, ← hplen, List.take_left]
          simp only [hslice]
          unfold entry_bytes
          simp only [hd]
          by_cases hz : e.size > 0
          · obtain ⟨hle, hpiece⟩ := hpos hz
            simp only [if_pos hz, hpiece, written_bytes_map_some, List.length_take,
              Nat.min_eq_left hle, le_refl, List.take_take, Nat.min_self, if_true, if_pos hle]
          · simp only [if_neg hz]

theorem apply_commands_loop_cons (cmd : freecs_command_t) (rest : List freecs_command_t)
    (world : freecs_world_t) :
    apply_commands_loop (cmd :: rest) world =
      (apply_command world cmd).bind (apply_commands_loop rest) := by
  conv_lhs => unfold apply_commands_loop
  cases apply_command world cmd <;> rfl

theorem queue_spawn_command {buffer b1 : freecs_command_buffer_t} {mask : Nat}
    {entries : List freecs_type_info_entry_t}
    (h : freecs_queue_spawn buffer mask entries = some b1)
    (hlen : entries.length ≤ FREECS_MAX_COMPONENTS)
    (hen : ∀ en ∈ entries, en.data ≠ none ∧ freecs_bit_index en.bit ≠ none) :
    ∃ cmd es1, b1.commands = buffer.commands ++ [cmd] ∧
      es1.map norm_entry = entries.map norm_entry ∧
      ∀ w, apply_command w cmd = (freecs_spawn w mask es1).map Prod.fst := by
  unfold freecs_queue_spawn at h
  cases hp : mapOpt queue_spawn_bytes entries with
  | none => rw [hp] at h; cases h
  | some pieces =>
    rw [hp] at h
    simp only [Option.some.injEq] at h
    subst h
    obtain ⟨es1, hes1, hnorm⟩ := rebuild_entries_queued
      { command_type := freecs_command_type_t.FREECS_CMD_SPAWN
        entity := ⟨0, 0⟩
        mask := mask
        component_data := pieces.flatten
        component_sizes := entries.map (fun entry => entry.size)
        component_bits := entries.map (fun entry => entry.bit) }
      entries [] [] pieces hp hen rfl rfl (by simpa using hlen)
    refine ⟨_, es1, rfl, hnorm, ?_⟩
    intro w
    unfold apply_command
    simp only [List.length_nil] at hes1
    simp only [hes1]
    cases freecs_spawn w mask es1 with
    | none => rfl
    | some p => rfl

theorem queue_despawn_command (buffer : freecs_command_buffer_t) (entity : freecs_entity_t) :
    ∃ cmd, (freecs_cmd_queue_despawn buffer entity).commands = buffer.commands ++ [cmd] ∧
      ∀ w, apply_command w cmd = (freecs_despawn w entity).map Prod.fst := by
  refine ⟨_, rfl, ?_⟩
  intro w
  unfold apply_command
  simp only
  cases freecs_despawn w entity with
  | none => rfl
  | some p => rfl

/-- Replay of the queued commands and direct execution of the calls lead,
from worlds that agree up to `type_index`, to worlds that agree up to
`type_index`, or both have no result. -/
theorem replay_simulates (calls : List queued_call_t) :
    ∀ (buffer buffer1 : freecs_command_buffer_t) (w1 w2 : freecs_world_t),
      queue_calls buffer calls = some buffer1 →
      (∀ mask entries, queued_call_t.spawn mask entries ∈ calls →
        entries.length ≤ FREECS_MAX_COMPONENTS ∧
          ∀ en ∈ entries, en.data ≠ none ∧ freecs_bit_index en.bit ≠ none) →
      forget_type_index w1 = forget_type_index w2 →
      ∃ cmds, buffer1.commands = buffer.commands ++ cmds ∧
        (apply_commands_loop cmds w1).map forget_type_index =
          (direct_execution w2 calls).map forget_type_index := by
  induction calls with
  | nil =>
    intro buffer buffer1 w1 w2 hq _ hw
    simp only [queue_calls, Option.some.injEq] at hq
    subst hq
    exact ⟨[], by simp, by simp [apply_commands_loop, direct_execution, hw]⟩
  | cons call rest ih =>
    intro buffer buffer1 w1 w2 hq hc hw
    cases call with
    | spawn mask entries =>
      simp only [queue_calls] at hq
      cases hqs : freecs_queue_spawn buffer mask entries with
      | none => rw [hqs] at hq; cases hq
      | some b1 =>
        rw [hqs] at hq
        simp only at hq
        obtain ⟨hlen, hen⟩ := hc mask entries (List.mem_cons_self _ _)
        obtain ⟨cmd, es1, hb1, hnorm, hcmd⟩ := queue_spawn_command hqs hlen hen
        have hkey : (freecs_spawn w1 mask es1).map (Prod.map forget_type_index id) =
            (freecs_spawn w2 mask entries).map (Prod.map forget_type_index id) := by
          rw [spawn_forget, spawn_forget, hnorm, hw]
        cases hs1 : freecs_spawn w1 mask es1 with
        | none =>
          rw [hs1] at hkey
          cases hs2 : freecs_spawn w2 mask entries with
          | some p => rw [hs2] at hkey; cases hkey
          | none =>
            obtain ⟨cmds, hcmds, _⟩ := ih b1 buffer1 w1 w2 hq
              (fun m es h => hc m es (List.mem_cons_of_mem _ h)) hw
            refine ⟨cmd :: cmds, by rw [hcmds, hb1]; simp, ?_⟩
            rw [apply_commands_loop_cons, hcmd, hs1]
            simp only [direct_execution, hs2]
            rfl
        | some p1 =>
          rw [hs1] at hkey
          cases hs2 : freecs_spawn w2 mask entries with
          | none => rw [hs2] at hkey; cases hkey
          | some p2 =>
            rw [hs2] at hkey
            simp only [Option.map_some', Option.some.injEq, Prod.map, id, Prod.mk.injEq]
              at hkey
            obtain ⟨cmds, hcmds, hsim⟩ := ih b1 buffer1 p1.1 p2.1 hq
              (fun m es h => hc m es (List.mem_cons_of_mem _ h)) hkey.1
            refine ⟨cmd :: cmds, by rw [hcmds, hb1]; simp, ?_⟩
            rw [apply_commands_loop_cons, hcmd, hs1]
            simp only [direct_execution, hs2, Option.map_some', Option.some_bind]
            exact hsim
    | despawn entity =>
      simp only [queue_calls] at hq
      obtain ⟨cmd, hb1, hcmd⟩ := queue_despawn_command buffer entity
      have hkey : (freecs_despawn w1 entity).map (Prod.map forget_type_index id) =
          (freecs_despawn w2 entity).map (Prod.map forget_type_index id) := by
        rw [despawn_forget, despawn_forget, hw]
      cases hs1 : freecs_despawn w1 entity with
      | none =>
        rw [hs1] at hkey
        cases hs2 : freecs_despawn w2 entity with
        | some p => rw [hs2] at hkey; cases hkey
        | none =>
          obtain ⟨cmds, hcmds, _⟩ := ih _ buffer1 w1 w2 hq
            (fun m es h => hc m es (List.mem_cons_of_mem _ h)) hw
          refine ⟨cmd :: cmds, by rw [hcmds, hb1]; simp, ?_⟩
          rw [apply_commands_loop_cons, hcmd, hs1]
          simp only [direct_execution, hs2]
          rfl
      | some p1 =>
        rw [hs1] at hkey
        cases hs2 : freecs_despawn w2 entity with
        | none => rw [hs2] at hkey; cases hkey
        | some p2 =>
          rw [hs2] at hkey
          simp only [Option.map_some', Option.some.injEq, Prod.map, id, Prod.mk.injEq]
            at hkey
          obtain ⟨cmds, hcmds, hsim⟩ := ih _ buffer1 p1.1 p2.1 hq
            (fun m es h => hc m es (List.mem_cons_of_mem _ h)) hkey.1
          refine ⟨cmd :: cmds, by rw [hcmds, hb1]; simp, ?_⟩
          rw [apply_commands_loop_cons, hcmd, hs1]
          simp only [direct_execution, hs2, Option.map_some', Option.some_bind]
          exact hsim

/-- Claim C28.  Command replay equals direct execution.  For a command buffer
that was filled, from empty, by queueing a sequence of spawns and despawns
(each spawn with at most `FREECS_MAX_COMPONENTS` entries, every entry with a
non-null payload and a non-zero bit), `freecs_apply_commands` has a result
exactly when calling `freecs_spawn` and `freecs_despawn` directly in insertion
order has one; the buffer is left with `commands_len == 0`, and the two
worlds agree in everything but the `type_index` fields of the columns: the
same handles are alive, with the same component masks and, for every bit, the
same result of `freecs_get` and the same bytes. -/
theorem command_replay_refines (world : freecs_world_t) (calls : List queued_call_t)
    (buffer : freecs_command_buffer_t)
    (hq : queue_calls freecs_create_command_buffer calls = some buffer)
    (hc : ∀ mask entries, queued_call_t.spawn mask entries ∈ calls →
      entries.length ≤ FREECS_MAX_COMPONENTS ∧
        ∀ en ∈ entries, en.data ≠ none ∧ freecs_bit_index en.bit ≠ none) :
    (freecs_apply_commands world buffer = none ↔ direct_execution world calls = none) ∧
    ∀ world1 buffer1, freecs_apply_commands world buffer = some (world1, buffer1) →
      buffer1.commands = [] ∧
      ∃ world2, direct_execution world calls = some world2 ∧
        forget_type_index world1 = forget_type_index world2 ∧
        ∀ x, freecs_is_alive world1 x = freecs_is_alive world2 x ∧
          freecs_component_mask world1 x = freecs_component_mask world2 x ∧
          ∀ bit, freecs_get world1 x bit = freecs_get world2 x bit ∧
            get_bytes world1 x bit = get_bytes world2 x bit := by
  obtain ⟨cmds, hcmds, hsim⟩ := replay_simulates calls freecs_create_command_buffer buffer
    world world hq hc rfl
  have hcm : buffer.commands = cmds := by
    rw [hcmds]
    rfl
  unfold freecs_apply_commands
  rw [hcm]
  constructor
  · cases h1 : apply_commands_loop cmds world with
    | none =>
      rw [h1] at hsim
      cases h2 : direct_execution world calls with
      | none => simp
      | some w2 => rw [h2] at hsim; cases hsim
    | some w1 =>
      rw [h1] at hsim
      cases h2 : direct_execution world calls with
      | none => rw [h2] at hsim; cases hsim
      | some w2 => simp
  · intro world1 buffer1 h
    cases h1 : apply_commands_loop cmds world with
    | none => rw [h1] at h; cases h
    | some w1 =>
      rw [h1] at h hsim
      simp only [Option.some.injEq, Prod.mk.injEq] at h
      obtain ⟨rfl, rfl⟩ := h
      refine ⟨rfl, ?_⟩
      cases h2 : direct_execution world calls with
      | none => rw [h2] at hsim; cases hsim
      | some w2 =>
        rw [h2] at hsim
        simp only [Option.map_some', Option.some.injEq] at hsim
        refine ⟨w2, rfl, hsim, ?_⟩
        intro x
        refine ⟨?_, ?_, ?_⟩
        · rw [← is_alive_forget w1, ← is_alive_forget w2, hsim]
        · rw [← component_mask_forget w1, ← component_mask_forget w2, hsim]
        · intro bit
          constructor
          · rw [← get_forget w1, ← get_forget w2, hsim]
          · rw [← get_bytes_forget w1, ← get_bytes_forget w2, hsim]

set_option maxRecDepth 100000 in
/-- Witness of C28: the three calls of `calls_three` are queued and replayed in
`world_reg`. -/
theorem command_replay_refines_witness :
    (freecs_apply_commands world_reg buffer_three = none ↔
      direct_execution world_reg calls_three = none) ∧
    ∀ world1 buffer1, freecs_apply_commands world_reg buffer_three = some (world1, buffer1) →
      buffer1.commands = [] ∧
      ∃ world2, direct_execution world_reg calls_three = some world2 ∧
        forget_type_index world1 = forget_type_index world2 ∧
        ∀ x, freecs_is_alive world1 x = freecs_is_alive world2 x ∧
          freecs_component_mask world1 x = freecs_component_mask world2 x ∧
          ∀ bit, freecs_get world1 x bit = freecs_get world2 x bit ∧
            get_bytes world1 x bit = get_bytes world2 x bit :=
  command_replay_refines world_reg calls_three buffer_three (by decide)
    (by
      intro mask entries hmem
      simp only [calls_three, List.mem_cons, queued_call_t.spawn.injEq, List.mem_singleton,
        List.mem_nil_iff, or_false] at hmem
      rcases hmem with ⟨_, rfl⟩ | h | ⟨_, rfl⟩
      · refine ⟨by decide, ?_⟩
        intro en hen
        rw [List.mem_singleton] at hen
        subst hen
        exact ⟨by decide, by decide⟩
      · cases h
      · refine ⟨by decide, ?_⟩
        intro en hen
        simp only [List.mem_cons, List.mem_singleton, List.mem_nil_iff, or_false] at hen
        rcases hen with rfl | rfl
        · exact ⟨by decide, by decide⟩
        · exact ⟨by decide, by decide⟩)

set_option maxRecDepth 100000 in
/-- The replay of `calls_three` in `world_reg` and the direct execution both
return, in worlds that differ (the stored `type_index` of a column) and that
agree once `type_index` is left out. -/
theorem replay_three_runs :
    (freecs_apply_commands world_reg buffer_three).isSome = true ∧
    (direct_execution world_reg calls_three).isSome = true ∧
    (freecs_apply_commands world_reg buffer_three).map Prod.fst ≠
      direct_execution world_reg calls_three ∧
    (freecs_apply_commands world_reg buffer_three).map (fun r => forget_type_index r.1) =
      (direct_execution world_reg calls_three).map forget_type_index := by
  decide

theorem bit_index_loop_trailing : ∀ (fuel bit count : Nat), bit ≠ 0 → bit < 2 ^ fuel →
    ∃ k, bit_index_loop fuel bit count = some (count + k) ∧ k < fuel ∧
      bit.testBit k = true ∧ ∀ j, j < k → bit.testBit j = false := by
  intro fuel
  induction fuel with
  | zero =>
    intro bit count h0 hlt
    simp at hlt
    omega
  | succ fuel ih =>
    intro bit count h0 hlt
    unfold bit_index_loop
    by_cases hodd : bit % 2 = 1
    · refine ⟨0, by simp [hodd], by omega, ?_, ?_⟩
      · rw [Nat.testBit_zero]; simp [hodd]
      · intro j hj; omega
    · rw [if_neg hodd]
      have h2 : bit / 2 ≠ 0 := by omega
      have hlt2 : bit / 2 < 2 ^ fuel := by
        rw [Nat.pow_succ] at hlt
        omega
      obtain ⟨k, hk, hkf, hbit, hlow⟩ := ih (bit / 2) (count + 1) h2 hlt2
      refine ⟨k + 1, ?_, by omega, ?_, ?_⟩
      · rw [hk]; congr 1; omega
      · rw [Nat.testBit_succ]; exact hbit
      · intro j hj
        cases j with
        | zero => rw [Nat.testBit_zero]; simp; omega
        | succ j => rw [Nat.testBit_succ]; exact hlow j (by omega)

/-- Claim C36: for every non-zero 64-bit value `freecs_bit_index` returns, and
the result `k` is the number of trailing zero bits: `k` is between 0 and 63,
bit `k` of the value is set and every lower bit is clear; in particular
`freecs_bit_index (1 << k) = k` for every `k` in `0 .. 63`. -/
theorem bit_index_trailing_zeros (bit : Nat) (h0 : bit ≠ 0) (h64 : bit < 2 ^ 64) :
    (∃ k, freecs_bit_index bit = some k ∧ k < 64 ∧ bit.testBit k = true ∧
      ∀ j, j < k → bit.testBit j = false) ∧
    ∀ k, k < 64 → freecs_bit_index ((1 <<< k) % 2 ^ 64) = some k := by
  constructor
  · obtain ⟨k, hk, hlt, hbit, hlow⟩ := bit_index_loop_trailing 64 bit 0 h0 h64
    refine ⟨k, ?_, hlt, hbit, hlow⟩
    unfold freecs_bit_index
    rw [hk, Nat.zero_add]
  · intro k hk
    have hp : (1 <<< k) % 2 ^ 64 = 2 ^ k := by
      rw [Nat.one_shiftLeft]
      exact Nat.mod_eq_of_lt (Nat.pow_lt_pow_right (by omega) hk)
    rw [hp]
    exact bit_index_two_pow k hk

theorem bit_index_trailing_zeros_witness :
    (∃ k, freecs_bit_index 40 = some k ∧ k < 64 ∧ (40 : Nat).testBit k = true ∧
      ∀ j, j < k → (40 : Nat).testBit j = false) ∧
    ∀ k, k < 64 → freecs_bit_index ((1 <<< k) % 2 ^ 64) = some k :=
  bit_index_trailing_zeros 40 (by decide) (by decide)

theorem register_step (world : freecs_world_t) (k size : Nat) (hk : k < 64)
    (hb : world.next_bit = 2 ^ k) :
    freecs_register_component world size =
      some ({ world with
                next_bit := 2 ^ (k + 1) % 2 ^ 64
                type_sizes := world.type_sizes.set k size }, 2 ^ k) := by
  unfold freecs_register_component
  simp only [hb, bit_index_two_pow k hk, Option.bind_eq_bind, Option.some_bind, Nat.pow_succ]

theorem register_all_spec : ∀ (sizes : List Nat) (world : freecs_world_t) (k : Nat),
    k + sizes.length ≤ 64 → world.next_bit = 2 ^ k % 2 ^ 64 → world.type_sizes.length = 64 →
    ∃ world1, register_all sizes world =
        some (world1, (List.range sizes.length).map fun i => 2 ^ (k + i)) ∧
      world1.type_sizes =
        world.type_sizes.take k ++ sizes ++ world.type_sizes.drop (k + sizes.length) ∧
      world1.next_bit = 2 ^ (k + sizes.length) % 2 ^ 64 := by
  intro sizes
  induction sizes with
  | nil =>
    intro world k _ hb _
    refine ⟨world, rfl, ?_, hb⟩
    simp
  | cons size rest ih =>
    intro world k hk hb hlen
    simp only [List.length_cons] at hk
    have hk64 : k < 64 := by omega
    have hb1 : world.next_bit = 2 ^ k := by
      rw [hb]
      exact Nat.mod_eq_of_lt (Nat.pow_lt_pow_right (by omega) hk64)
    obtain ⟨world2, hr, hts, hnb⟩ := ih
      { world with
          next_bit := 2 ^ (k + 1) % 2 ^ 64
          type_sizes := world.type_sizes.set k size } (k + 1) (by omega) rfl
      (by simp [hlen])
    refine ⟨world2, ?_, ?_, ?_⟩
    · unfold register_all
      rw [register_step world k size hk64 hb1]
      simp only [hr, List.length_cons, List.range_succ_eq_map, List.map_cons, List.map_map,
        Nat.add_zero]
      congr 3
      apply List.map_congr_left
      intro i _
      simp only [Function.comp]
      congr 1
      omega
    · rw [hts]
      simp only [List.length_cons]
      have h1 : (world.type_sizes.set k size).take (k + 1) = world.type_sizes.take k ++ [size] := by
        apply List.ext_getElem?
        intro i
        rcases Nat.lt_trichotomy i k with hi | hi | hi
        · rw [List.getElem?_take_of_lt (by omega), List.getElem?_set_ne (by omega),
            List.getElem?_append_left (by simp; omega), List.getElem?_take_of_lt hi]
        · subst hi
          rw [List.getElem?_take_of_lt (by omega), List.getElem?_set_eq_of_lt _ (by omega),
            List.getElem?_append_right (by simp)]
          simp [hlen, Nat.min_eq_left (Nat.le_of_lt hk64)]
        · rw [List.getElem?_eq_none (by simp; omega), List.getElem?_eq_none (by simp; omega)]
      have h2 : (world.type_sizes.set k size).drop (k + 1 + rest.length) =
          world.type_sizes.drop (k + (rest.length + 1)) := by
        rw [List.drop_set_of_lt _ _ (by omega)]
        congr 1
        omega
      rw [h1, h2]
      simp
    · rw [hnb]
      simp only [List.length_cons]
      congr 2
      omega

theorem bit_index_loop_zero : ∀ fuel count, bit_index_loop fuel 0 count = none := by
  intro fuel
  induction fuel with
  | zero => intro count; rfl
  | succ fuel ih =>
    intro count
    unfold bit_index_loop
    rw [if_neg (by decide)]
    exact ih (count + 1)

theorem two_pow_map_nodup (n : Nat) : ((List.range n).map fun k => 2 ^ k).Nodup := by
  apply List.Nodup.map _ (List.nodup_range n)
  intro a b hab
  exact Nat.pow_right_injective (Nat.le_refl 2) hab

/-- Claim C34: starting from `freecs_create_world`, a run of at most 64 calls of
`freecs_register_component` returns the masks `1 << 0, 1 << 1, ...` in order
(pairwise distinct powers of two) and leaves `type_sizes` holding the given
sizes in call order, the remaining cells still zero; the next call, if fewer
than 64 calls have been made, returns `1 << k` for the number `k` of calls so
far, records its size in `type_sizes[k]` and changes no other cell. -/
theorem registration_masks (sizes : List Nat) (h : sizes.length ≤ 64) :
    ∃ world, register_all sizes freecs_create_world =
        some (world, (List.range sizes.length).map fun k => 2 ^ k) ∧
      ((List.range sizes.length).map fun k => 2 ^ k).Nodup ∧
      world.type_sizes = sizes ++ List.replicate (64 - sizes.length) 0 ∧
      ∀ size, sizes.length < 64 →
        ∃ world1, freecs_register_component world size = some (world1, 2 ^ sizes.length) ∧
          world1.type_sizes[sizes.length]? = some size ∧
          ∀ j, j ≠ sizes.length → world1.type_sizes[j]? = world.type_sizes[j]? := by
  obtain ⟨world, hr, hts, hnb⟩ := register_all_spec sizes freecs_create_world 0 (by omega)
    (by simp [freecs_create_world]) (by simp [freecs_create_world, FREECS_MAX_COMPONENTS])
  simp only [Nat.zero_add, List.take_zero, List.nil_append] at hr hts hnb
  have hts1 : world.type_sizes = sizes ++ List.replicate (64 - sizes.length) 0 := by
    rw [hts]
    show sizes ++ (List.replicate 64 0).drop sizes.length = _
    rw [List.drop_replicate]
  refine ⟨world, hr, two_pow_map_nodup _, hts1, ?_⟩
  intro size hlt
  have hb : world.next_bit = 2 ^ sizes.length := by
    rw [hnb]
    exact Nat.mod_eq_of_lt (Nat.pow_lt_pow_right (by omega) hlt)
  refine ⟨_, register_step world sizes.length size hlt hb, ?_, ?_⟩
  · show (world.type_sizes.set sizes.length size)[sizes.length]? = some size
    rw [List.getElem?_set_eq_of_lt]
    rw [hts1]
    simp
    omega
  · intro j hj
    show (world.type_sizes.set sizes.length size)[j]? = world.type_sizes[j]?
    rw [List.getElem?_set_ne (Ne.symm hj)]

theorem registration_masks_witness :
    ∃ world, register_all [4, 0, 8] freecs_create_world =
        some (world, (List.range [4, 0, 8].length).map fun k => 2 ^ k) ∧
      ((List.range [4, 0, 8].length).map fun k => 2 ^ k).Nodup ∧
      world.type_sizes = [4, 0, 8] ++ List.replicate (64 - [4, 0, 8].length) 0 ∧
      ∀ size, [4, 0, 8].length < 64 →
        ∃ world1, freecs_register_component world size = some (world1, 2 ^ [4, 0, 8].length) ∧
          world1.type_sizes[[4, 0, 8].length]? = some size ∧
          ∀ j, j ≠ [4, 0, 8].length → world1.type_sizes[j]? = world.type_sizes[j]? :=
  registration_masks [4, 0, 8] (by decide)

/-- Claim C38: after 64 registrations in a fresh world `next_bit` is 0, and the
next call of `freecs_register_component` has no result for any size: the loop
of `freecs_bit_index` started on 0 has not returned after any number of
iterations. -/
theorem register_after_64_never_returns :
    (∃ world bits, register_all (List.replicate 64 1) freecs_create_world = some (world, bits) ∧
      world.next_bit = 0 ∧ ∀ size, freecs_register_component world size = none) ∧
    ∀ fuel count, bit_index_loop fuel 0 count = none := by
  refine ⟨?_, bit_index_loop_zero⟩
  obtain ⟨world, hr, _, hnb⟩ := register_all_spec (List.replicate 64 1) freecs_create_world 0
    (by simp) (by simp [freecs_create_world]) (by simp [freecs_create_world, FREECS_MAX_COMPONENTS])
  refine ⟨world, _, hr, ?_, ?_⟩
  · rw [hnb]
    simp
  · intro size
    have h0 : world.next_bit = 0 := by rw [hnb]; simp
    unfold freecs_register_component
    simp only [h0]
    have : freecs_bit_index 0 = none := bit_index_loop_zero 64 0
    simp [this]

theorem tag_find_none (l : List freecs_tag_entry_t) (id : Nat) :
    ∀ i0, tag_find l id i0 = none ↔ ∀ en ∈ l, en.entity.id ≠ id := by
  induction l with
  | nil => intro i0; simp [tag_find]
  | cons a rest ih =>
    intro i0
    unfold tag_find
    by_cases h : a.entity.id = id
    · rw [if_pos h]
      constructor
      · intro hh; cases hh
      · intro hh; exact absurd h (hh a (List.mem_cons_self _ _))
    · rw [if_neg h, ih (i0 + 1)]
      constructor
      · intro hh en hen
        rcases List.mem_cons.mp hen with rfl | hmem
        · exact h
        · exact hh en hmem
      · intro hh en hen
        exact hh en (List.mem_cons_of_mem _ hen)

theorem tag_find_some_id (l : List freecs_tag_entry_t) (id : Nat) :
    ∀ (i0 i : Nat), tag_find l id i0 = some i →
      ∃ en, l[i - i0]? = some en ∧ en.entity.id = id := by
  induction l with
  | nil => intro i0 i h; simp [tag_find] at h
  | cons a rest ih =>
    intro i0 i h
    unfold tag_find at h
    by_cases ha : a.entity.id = id
    · rw [if_pos ha] at h
      have := Option.some.inj h
      subst this
      exact ⟨a, by simp, ha⟩
    · rw [if_neg ha] at h
      obtain ⟨en, hen, hid⟩ := ih (i0 + 1) i h
      have hle := (tag_find_some rest id (i0 + 1) i h).1
      refine ⟨en, ?_, hid⟩
      have : i - i0 = (i - (i0 + 1)) + 1 := by omega
      rw [this, List.getElem?_cons_succ]
      exact hen

theorem swap_remove_mem {α β : Type} (f : α → β) (l : List α) (i : Nat) (last a : α)
    (hi : l[i]? = some a) (hlast : l.getLast? = some last) (hn : (l.map f).Nodup) :
    ((l.set i last).dropLast).length + 1 = l.length ∧
    ∀ x, x ∈ (l.set i last).dropLast ↔ x ∈ l ∧ f x ≠ f a := by
  have hne : l ≠ [] := by
    intro h; rw [h] at hi; simp at hi
  obtain ⟨init, hl⟩ : ∃ init, l = init ++ [last] := by
    refine ⟨l.dropLast, ?_⟩
    have h1 := List.dropLast_append_getLast hne
    have h2 : l.getLast hne = last := by
      rw [List.getLast?_eq_getLast _ hne] at hlast
      exact Option.some.inj hlast
    rw [h2] at h1
    exact h1.symm
  subst hl
  have hilt : i < (init ++ [last]).length := by
    by_contra hc
    rw [List.getElem?_eq_none (by omega)] at hi
    cases hi
  rw [List.map_append, List.nodup_append] at hn
  obtain ⟨hn1, _, hdis⟩ := hn
  have hnot : ∀ y ∈ init, f y ≠ f last := by
    intro y hy heq
    exact hdis (List.mem_map_of_mem f hy) (by simp [heq])
  by_cases hlt : i < init.length
  · rw [List.set_append_left _ _ hlt, List.dropLast_concat]
    rw [List.getElem?_append_left hlt] at hi
    refine ⟨by simp, ?_⟩
    intro x
    have hinj : ∀ j y, init[j]? = some y → f y = f a → j = i := by
      intro j y hj hfy
      by_contra hji
      have hjlt : j < init.length := by
        by_contra hc
        rw [List.getElem?_eq_none (by omega)] at hj
        cases hj
      rw [List.nodup_iff_getElem?_ne_getElem?] at hn1
      rcases Nat.lt_or_gt_of_ne hji with hlt1 | hlt1
      · apply hn1 j i hlt1 (by simpa using hlt)
        simp only [List.getElem?_map, hj, hi, Option.map_some', hfy]
      · apply hn1 i j hlt1 (by simpa using hjlt)
        simp only [List.getElem?_map, hj, hi, Option.map_some', hfy]
    constructor
    · intro hx
      obtain ⟨j, hj⟩ := List.getElem?_of_mem hx
      rw [List.getElem?_set] at hj
      by_cases hij : i = j
      · rw [if_pos hij, if_pos hlt] at hj
        have := Option.some.inj hj
        subst this
        exact ⟨by simp, fun heq => hnot a (List.getElem?_mem hi) heq.symm⟩
      · rw [if_neg hij] at hj
        refine ⟨List.mem_append_left _ (List.getElem?_mem hj), ?_⟩
        intro heq
        exact hij (hinj j x hj heq).symm
    · rintro ⟨hx, hfx⟩
      rcases List.mem_append.mp hx with hmem | hmem
      · obtain ⟨j, hj⟩ := List.getElem?_of_mem hmem
        have hji : i ≠ j := by
          intro hij
          subst hij
          rw [hi] at hj
          have := Option.some.inj hj
          subst this
          exact hfx rfl
        have hset : (init.set i last)[j]? = some x := by
          rw [List.getElem?_set, if_neg hji]
          exact hj
        exact List.getElem?_mem hset
      · simp only [List.mem_singleton] at hmem
        subst hmem
        have hset : (init.set i x)[i]? = some x := by
          rw [List.getElem?_set, if_pos rfl, if_pos hlt]
        exact List.getElem?_mem hset
  · have hi2 : i = init.length := by
      simp only [List.length_append, List.length_singleton] at hilt
      omega
    subst hi2
    rw [List.set_append_right _ _ (le_refl _), Nat.sub_self]
    simp only [List.set_cons_zero, List.dropLast_concat]
    rw [List.getElem?_append_right (le_refl _)] at hi
    simp only [Nat.sub_self, List.getElem?_cons_zero, Option.some.injEq] at hi
    subst hi
    refine ⟨by simp, ?_⟩
    intro x
    constructor
    · intro hx
      exact ⟨List.mem_append_left _ hx, hnot x hx⟩
    · rintro ⟨hx, hfx⟩
      rcases List.mem_append.mp hx with hmem | hmem
      · exact hmem
      · simp only [List.mem_singleton] at hmem
        subst hmem
        exact absurd rfl hfx

/-- Effect of `freecs_remove_tag` on the entry array of an in-range tag. -/
theorem remove_tag_cell {tags : freecs_tags_t} (hinv : TagsInv tags) (t : Int) (ht0 : 0 ≤ t)
    (ht : t < (FREECS_MAX_TAGS : Int)) (e : freecs_entity_t) :
    ((∀ en ∈ tags.storage.getD t.toNat [], en.entity.id ≠ e.id) ∧
      freecs_remove_tag tags t e = tags) ∨
    ∃ l1, freecs_remove_tag tags t e = { tags with storage := tags.storage.set t.toNat l1 } ∧
      l1.length + 1 = (tags.storage.getD t.toNat []).length ∧
      (∃ en ∈ tags.storage.getD t.toNat [], en.entity.id = e.id) ∧
      ∀ x, x ∈ l1 ↔ x ∈ tags.storage.getD t.toNat [] ∧ x.entity.id ≠ e.id := by
  unfold freecs_remove_tag
  rw [if_neg (by omega)]
  simp only
  cases hf : tag_find (tags.storage.getD t.toNat []) e.id 0 with
  | none => exact Or.inl ⟨(tag_find_none _ _ 0).mp hf, rfl⟩
  | some i =>
    right
    obtain ⟨a, ha, haid⟩ := tag_find_some_id _ _ _ _ hf
    simp only [Nat.sub_zero] at ha
    cases hl : (tags.storage.getD t.toNat []).getLast? with
    | none =>
      rw [List.getLast?_eq_none_iff] at hl
      rw [hl] at ha
      simp at ha
    | some last =>
      simp only
      have hsw := swap_remove_mem (fun en : freecs_tag_entry_t => en.entity.id) _ i last a ha hl
        (hinv.cell_nodup _)
      refine ⟨_, rfl, hsw.1, ⟨a, List.getElem?_mem ha, haid⟩, ?_⟩
      intro x
      have hx := hsw.2 x
      simp only [haid] at hx
      exact hx

theorem has_tag_loop_false (l : List freecs_tag_entry_t) (e : freecs_entity_t) :
    has_tag_loop l e = false ↔ ∀ en ∈ l, en.entity ≠ e := by
  rw [← Bool.not_eq_true, has_tag_loop_iff]
  constructor
  · intro h en hen heq
    exact h ⟨en, hen, heq⟩
  · rintro h ⟨en, hen, heq⟩
    exact h en hen heq

theorem has_tag_loop_congr (l l1 : List freecs_tag_entry_t) (x : freecs_entity_t)
    (h : ∀ en, en.entity = x → (en ∈ l1 ↔ en ∈ l)) :
    has_tag_loop l1 x = has_tag_loop l x := by
  rw [Bool.eq_iff_iff, has_tag_loop_iff, has_tag_loop_iff]
  constructor
  · rintro ⟨en, hen, heq⟩
    exact ⟨en, (h en heq).mp hen, heq⟩
  · rintro ⟨en, hen, heq⟩
    exact ⟨en, (h en heq).mpr hen, heq⟩

/-- Claim C32: for a tag id `t < 0` or `t >= FREECS_MAX_TAGS`, `freecs_add_tag`
and `freecs_remove_tag` return the tag store unchanged, `freecs_has_tag` is
false, `freecs_tag_count` is 0 and `freecs_query_tag` returns `NULL` with
`out_count == 0`. -/
theorem out_of_range_tag_inert (tags : freecs_tags_t) (t : Int)
    (h : t < 0 ∨ t ≥ (FREECS_MAX_TAGS : Int)) (e : freecs_entity_t) :
    freecs_add_tag tags t e = tags ∧ freecs_remove_tag tags t e = tags ∧
    freecs_has_tag tags t e = false ∧ freecs_tag_count tags t = 0 ∧
    freecs_query_tag tags t = (none, 0) := by
  refine ⟨?_, ?_, ?_, ?_, ?_⟩
  · unfold freecs_add_tag; rw [if_pos h]
  · unfold freecs_remove_tag; rw [if_pos h]
  · unfold freecs_has_tag; rw [if_pos h]
  · unfold freecs_tag_count; rw [if_pos h]
  · unfold freecs_query_tag; rw [if_pos h]

/-- Witness of C32: the tag ids 64 and -1 on a store where the entity `(4, 0)`
carries tag 2. -/
theorem out_of_range_tag_inert_witness :
    (freecs_add_tag (freecs_add_tag freecs_create_tags 2 ⟨4, 0⟩) 64 ⟨4, 0⟩ =
        freecs_add_tag freecs_create_tags 2 ⟨4, 0⟩ ∧
      freecs_remove_tag (freecs_add_tag freecs_create_tags 2 ⟨4, 0⟩) 64 ⟨4, 0⟩ =
        freecs_add_tag freecs_create_tags 2 ⟨4, 0⟩ ∧
      freecs_has_tag (freecs_add_tag freecs_create_tags 2 ⟨4, 0⟩) 64 ⟨4, 0⟩ = false ∧
      freecs_tag_count (freecs_add_tag freecs_create_tags 2 ⟨4, 0⟩) 64 = 0 ∧
      freecs_query_tag (freecs_add_tag freecs_create_tags 2 ⟨4, 0⟩) 64 = (none, 0)) ∧
    freecs_query_tag (freecs_add_tag freecs_create_tags 2 ⟨4, 0⟩) (-1) = (none, 0) :=
  ⟨out_of_range_tag_inert (freecs_add_tag freecs_create_tags 2 ⟨4, 0⟩) 64 (by decide) ⟨4, 0⟩,
    (out_of_range_tag_inert (freecs_add_tag freecs_create_tags 2 ⟨4, 0⟩) (-1) (by decide)
      ⟨4, 0⟩).2.2.2.2⟩

theorem remove_tag_getD {tags : freecs_tags_t} (hinv : TagsInv tags) (t : Int) (ht0 : 0 ≤ t)
    (ht : t < (FREECS_MAX_TAGS : Int)) (l1 : List freecs_tag_entry_t) :
    ({ tags with storage := tags.storage.set t.toNat l1 } : freecs_tags_t).storage.getD
      t.toNat [] = l1 := by
  have htn : t.toNat < tags.storage.length := by
    rw [hinv.cells]
    unfold FREECS_MAX_TAGS at ht ⊢
    omega
  simp only
  rw [getD_set_eq, if_pos ⟨rfl, htn⟩]

theorem remove_tag_other {tags : freecs_tags_t} (t t2 : Int) (ht2 : t2 ≠ t)
    (e : freecs_entity_t) (hr2 : ¬ (t2 < 0 ∨ t2 ≥ (FREECS_MAX_TAGS : Int))) :
    (freecs_remove_tag tags t e).storage.getD t2.toNat [] = tags.storage.getD t2.toNat [] := by
  unfold freecs_remove_tag
  split
  · rfl
  · simp only
    split
    · rfl
    · split
      · rfl
      · simp only
        rw [getD_set_eq, if_neg]
        rintro ⟨h1, _⟩
        apply ht2
        omega

/-- Claim C31.  In a tag store reachable from `freecs_create_tags`, for a tag
id `0 <= t < FREECS_MAX_TAGS` and an entity `e`: after `freecs_remove_tag(t, e)`
`freecs_has_tag(t, e)` is false; `freecs_tag_count(t)` has dropped by exactly 1
when an entry with the id of `e` was stored and the store is unchanged
otherwise; `freecs_has_tag(t, x)` is unchanged for every entity `x` of another
id, and count and membership of every other tag are unchanged; and while an
entry is stored under tag `t`, `freecs_has_tag(t, (id, g))` is false for its id
and every generation `g` other than the stored one. -/
theorem remove_tag_effect (tags : freecs_tags_t) (h : TagsReachable tags) (t : Int)
    (ht0 : 0 ≤ t) (ht : t < (FREECS_MAX_TAGS : Int)) (e : freecs_entity_t) :
    freecs_has_tag (freecs_remove_tag tags t e) t e = false ∧
    ((∃ en ∈ tags.storage.getD t.toNat [], en.entity.id = e.id) →
      freecs_tag_count (freecs_remove_tag tags t e) t + 1 = freecs_tag_count tags t) ∧
    ((∀ en ∈ tags.storage.getD t.toNat [], en.entity.id ≠ e.id) →
      freecs_remove_tag tags t e = tags) ∧
    (∀ x : freecs_entity_t, x.id ≠ e.id →
      freecs_has_tag (freecs_remove_tag tags t e) t x = freecs_has_tag tags t x) ∧
    (∀ t2 : Int, t2 ≠ t →
      freecs_tag_count (freecs_remove_tag tags t e) t2 = freecs_tag_count tags t2 ∧
      ∀ x, freecs_has_tag (freecs_remove_tag tags t e) t2 x = freecs_has_tag tags t2 x) ∧
    (∀ en ∈ tags.storage.getD t.toNat [], ∀ g : Nat, en.entity.generation ≠ g →
      freecs_has_tag tags t ⟨en.entity.id, g⟩ = false) := by
  have hinv := h.tags_inv
  have hrange : ¬ (t < 0 ∨ t ≥ (FREECS_MAX_TAGS : Int)) := by omega
  have hcase := remove_tag_cell hinv t ht0 ht e
  refine ⟨?_, ?_, ?_, ?_, ?_, ?_⟩
  · unfold freecs_has_tag
    rw [if_neg hrange, has_tag_loop_false]
    rcases hcase with ⟨hall, heq⟩ | ⟨l1, heq, _, _, hmem⟩
    · rw [heq]
      intro en hen he
      exact hall en hen (by rw [he])
    · rw [heq, remove_tag_getD hinv t ht0 ht]
      intro en hen he
      exact ((hmem en).mp hen).2 (by rw [he])
  · intro hex
    unfold freecs_tag_count
    rw [if_neg hrange, if_neg hrange]
    rcases hcase with ⟨hall, _⟩ | ⟨l1, heq, hlen, _, _⟩
    · obtain ⟨en, hen, hid⟩ := hex
      exact absurd hid (hall en hen)
    · rw [heq, remove_tag_getD hinv t ht0 ht]
      exact hlen
  · intro hall
    rcases hcase with ⟨_, heq⟩ | ⟨l1, _, _, ⟨en, hen, hid⟩, _⟩
    · exact heq
    · exact absurd hid (hall en hen)
  · intro x hx
    unfold freecs_has_tag
    rw [if_neg hrange, if_neg hrange]
    rcases hcase with ⟨_, heq⟩ | ⟨l1, heq, _, _, hmem⟩
    · rw [heq]
    · rw [heq, remove_tag_getD hinv t ht0 ht]
      apply has_tag_loop_congr
      intro en hen
      rw [hmem en]
      constructor
      · exact fun hh => hh.1
      · exact fun hh => ⟨hh, by rw [hen]; exact hx⟩
  · intro t2 ht2
    constructor
    · unfold freecs_tag_count
      by_cases hr2 : t2 < 0 ∨ t2 ≥ (FREECS_MAX_TAGS : Int)
      · rw [if_pos hr2, if_pos hr2]
      · rw [if_neg hr2, if_neg hr2, remove_tag_other t t2 ht2 e hr2]
    · intro x
      unfold freecs_has_tag
      by_cases hr2 : t2 < 0 ∨ t2 ≥ (FREECS_MAX_TAGS : Int)
      · rw [if_pos hr2, if_pos hr2]
      · rw [if_neg hr2, if_neg hr2, remove_tag_other t t2 ht2 e hr2]
  · intro en hen g hg
    unfold freecs_has_tag
    rw [if_neg hrange, has_tag_loop_false]
    intro en2 hen2 he2
    have hsame : en2 = en := by
      apply List.inj_on_of_nodup_map (hinv.cell_nodup t.toNat) hen2 hen
      rw [he2]
    rw [hsame] at he2
    apply hg
    rw [he2]

/-- Witness of C31: in the store where the entities `(4, 0)` and `(7, 3)` carry
tag 2, the tag is removed from `(4, 0)`. -/
theorem remove_tag_effect_witness :
    freecs_has_tag (freecs_remove_tag
      (freecs_add_tag (freecs_add_tag freecs_create_tags 2 ⟨4, 0⟩) 2 ⟨7, 3⟩) 2 ⟨4, 0⟩) 2
      ⟨4, 0⟩ = false ∧
    freecs_tag_count (freecs_remove_tag
      (freecs_add_tag (freecs_add_tag freecs_create_tags 2 ⟨4, 0⟩) 2 ⟨7, 3⟩) 2 ⟨4, 0⟩) 2 + 1 =
    freecs_tag_count (freecs_add_tag (freecs_add_tag freecs_create_tags 2 ⟨4, 0⟩) 2 ⟨7, 3⟩) 2 ∧
    freecs_has_tag (freecs_remove_tag
      (freecs_add_tag (freecs_add_tag freecs_create_tags 2 ⟨4, 0⟩) 2 ⟨7, 3⟩) 2 ⟨4, 0⟩) 2
      ⟨7, 3⟩ = true :=
  have h := remove_tag_effect (freecs_add_tag (freecs_add_tag freecs_create_tags 2 ⟨4, 0⟩) 2 ⟨7, 3⟩)
    (TagsReachable.add_tag _ _ _ (TagsReachable.add_tag _ _ _ TagsReachable.create)) 2
    (by decide) (by decide) ⟨4, 0⟩
  ⟨h.1, h.2.1 ⟨⟨⟨4, 0⟩, 0⟩, by decide, rfl⟩, (h.2.2.2.1 ⟨7, 3⟩ (by decide)).trans (by decide)⟩

/-- Claim C39.  In a tag store reachable from `freecs_create_tags`, for a tag
id `0 <= t < FREECS_MAX_TAGS` and a handle `(id, g)`: after
`freecs_remove_tag(t, (id, g))`, `freecs_has_tag(t, (id, g1))` is false for
every generation `g1`; so when the tag was held by `(id, g0)`, whatever `g0`,
the call removes that entry (the count drops by 1 and `(id, g0)` no longer has
the tag); and `freecs_add_tag(t, (id, g))` on a store where `(id, g0)` holds the
tag keeps the count, makes `(id, g)` hold the tag and leaves no entry of
another generation for that id. -/
theorem remove_tag_matches_id_only (tags : freecs_tags_t) (h : TagsReachable tags) (t : Int)
    (ht0 : 0 ≤ t) (ht : t < (FREECS_MAX_TAGS : Int)) (id g : Nat) :
    (∀ g1, freecs_has_tag (freecs_remove_tag tags t ⟨id, g⟩) t ⟨id, g1⟩ = false) ∧
    (∀ g0, freecs_has_tag tags t ⟨id, g0⟩ = true →
      freecs_tag_count (freecs_remove_tag tags t ⟨id, g⟩) t + 1 = freecs_tag_count tags t ∧
      freecs_has_tag (freecs_remove_tag tags t ⟨id, g⟩) t ⟨id, g0⟩ = false) ∧
    (∀ g0, freecs_has_tag tags t ⟨id, g0⟩ = true →
      freecs_tag_count (freecs_add_tag tags t ⟨id, g⟩) t = freecs_tag_count tags t ∧
      freecs_has_tag (freecs_add_tag tags t ⟨id, g⟩) t ⟨id, g⟩ = true ∧
      ∀ g1, g1 ≠ g → freecs_has_tag (freecs_add_tag tags t ⟨id, g⟩) t ⟨id, g1⟩ = false) := by
  have hinv := h.tags_inv
  have hrange : ¬ (t < 0 ∨ t ≥ (FREECS_MAX_TAGS : Int)) := by omega
  have hcase := remove_tag_cell hinv t ht0 ht ⟨id, g⟩
  have hfalse : ∀ g1, freecs_has_tag (freecs_remove_tag tags t ⟨id, g⟩) t ⟨id, g1⟩ = false := by
    intro g1
    unfold freecs_has_tag
    rw [if_neg hrange, has_tag_loop_false]
    rcases hcase with ⟨hall, heq⟩ | ⟨l1, heq, _, _, hmem⟩
    · rw [heq]
      intro en hen he
      exact hall en hen (by rw [he])
    · rw [heq, remove_tag_getD hinv t ht0 ht]
      intro en hen he
      exact ((hmem en).mp hen).2 (by rw [he])
  have hstored : ∀ g0, freecs_has_tag tags t ⟨id, g0⟩ = true →
      ∃ en ∈ tags.storage.getD t.toNat [], en.entity = ⟨id, g0⟩ := by
    intro g0 hg0
    unfold freecs_has_tag at hg0
    rw [if_neg hrange, has_tag_loop_iff] at hg0
    exact hg0
  refine ⟨hfalse, ?_, ?_⟩
  · intro g0 hg0
    obtain ⟨en, hen, he⟩ := hstored g0 hg0
    refine ⟨?_, hfalse g0⟩
    unfold freecs_tag_count
    rw [if_neg hrange, if_neg hrange]
    rcases hcase with ⟨hall, _⟩ | ⟨l1, heq, hlen, _, _⟩
    · exact absurd (by rw [he]) (hall en hen)
    · rw [heq, remove_tag_getD hinv t ht0 ht]
      exact hlen
  · intro g0 hg0
    obtain ⟨en, hen, he⟩ := hstored g0 hg0
    have hinv1 := hinv.add_tag t ⟨id, g⟩
    obtain ⟨l1, hadd, hc⟩ := @add_tag_cell tags t ht0 ht ⟨id, g⟩
    have hcell : (freecs_add_tag tags t ⟨id, g⟩).storage.getD t.toNat [] = l1 := by
      rw [hadd]
      exact remove_tag_getD hinv t ht0 ht l1
    have hover : tag_overwrite (tags.storage.getD t.toNat []) ⟨id, g⟩ = some l1 := by
      rcases hc with ho | ⟨ho, _⟩
      · exact ho
      · exact absurd (by rw [he]) ((tag_overwrite_none _ _).mp ho en hen)
    obtain ⟨_, hlen, _, ⟨en1, hen1, he1⟩, _⟩ := tag_overwrite_some _ _ _ hover
    refine ⟨?_, ?_, ?_⟩
    · unfold freecs_tag_count
      rw [if_neg hrange, if_neg hrange, hcell]
      exact hlen
    · unfold freecs_has_tag
      rw [if_neg hrange, hcell, has_tag_loop_iff]
      exact ⟨en1, hen1, he1⟩
    · intro g1 hg1
      unfold freecs_has_tag
      rw [if_neg hrange, hcell, has_tag_loop_false]
      intro en2 hen2 he2
      have hn := hinv1.cell_nodup t.toNat
      rw [hcell] at hn
      have hsame : en2 = en1 := by
        apply List.inj_on_of_nodup_map hn hen2 hen1
        rw [he2, he1]
      rw [hsame, he1] at he2
      apply hg1
      exact (congrArg freecs_entity_t.generation he2).symm

/-- Witness of C39: the entity `(4, 1)` carries tag 2; the stale handle `(4, 0)`
of the same slot removes it. -/
theorem remove_tag_matches_id_only_witness :
    freecs_has_tag (freecs_add_tag freecs_create_tags 2 ⟨4, 1⟩) 2 ⟨4, 1⟩ = true ∧
    freecs_tag_count (freecs_remove_tag (freecs_add_tag freecs_create_tags 2 ⟨4, 1⟩) 2 ⟨4, 0⟩) 2
      + 1 = freecs_tag_count (freecs_add_tag freecs_create_tags 2 ⟨4, 1⟩) 2 ∧
    freecs_has_tag (freecs_remove_tag (freecs_add_tag freecs_create_tags 2 ⟨4, 1⟩) 2 ⟨4, 0⟩) 2
      ⟨4, 1⟩ = false :=
  ⟨by decide,
    (remove_tag_matches_id_only (freecs_add_tag freecs_create_tags 2 ⟨4, 1⟩)
      (TagsReachable.add_tag _ _ _ TagsReachable.create) 2 (by decide) (by decide) 4 0).2.1 1
      (by decide)⟩

theorem send_events_spec : ∀ (events : List (List Nat)) (queue : freecs_event_queue_t),
    (∀ ev ∈ events, ev.length = queue.elem_size) →
    ∃ queue1, send_events queue events = some queue1 ∧
      queue1.data = queue.data ++ events.flatten ∧ queue1.elem_size = queue.elem_size := by
  intro events
  induction events with
  | nil =>
    intro queue _
    exact ⟨queue, rfl, by simp, rfl⟩
  | cons ev rest ih =>
    intro queue hlen
    have hev : ev.length = queue.elem_size := hlen ev (List.mem_cons_self _ _)
    unfold send_events freecs_send_event
    rw [if_pos (by omega)]
    simp only
    obtain ⟨queue1, hr, hd, hs⟩ := ih
      { queue with
          data_cap := ensure_capacity_u8 queue.data_cap (queue.data.length + queue.elem_size)
          data := queue.data ++ ev.take queue.elem_size }
      (fun e he => hlen e (List.mem_cons_of_mem _ he))
    refine ⟨queue1, hr, ?_, hs⟩
    rw [hd]
    simp only [List.flatten_cons, List.append_assoc]
    rw [← hev, List.take_length]

theorem flatten_length_const (s : Nat) : ∀ (events : List (List Nat)),
    (∀ ev ∈ events, ev.length = s) → events.flatten.length = events.length * s := by
  intro events
  induction events with
  | nil => intro _; simp
  | cons ev rest ih =>
    intro h
    rw [List.flatten_cons, List.length_append, h ev (List.mem_cons_self _ _),
      ih (fun e he => h e (List.mem_cons_of_mem _ he)), List.length_cons]
    rw [Nat.add_mul, Nat.one_mul, Nat.add_comm]

theorem flatten_slice (s : Nat) : ∀ (events : List (List Nat)) (i : Nat) (ev : List Nat),
    (∀ e ∈ events, e.length = s) → events[i]? = some ev →
    (events.flatten.drop (i * s)).take s = ev := by
  intro events
  induction events with
  | nil => intro i ev _ h; simp at h
  | cons e0 rest ih =>
    intro i ev hlen h
    have h0 : e0.length = s := hlen e0 (List.mem_cons_self _ _)
    cases i with
    | zero =>
      simp only [List.getElem?_cons_zero, Option.some.injEq] at h
      subst h
      simp only [Nat.zero_mul, List.drop_zero, List.flatten_cons]
      rw [← h0, List.take_left]
    | succ i =>
      simp only [List.getElem?_cons_succ] at h
      have hmul : (i + 1) * s = e0.length + i * s := by
        rw [Nat.add_mul, Nat.one_mul, h0, Nat.add_comm]
      rw [List.flatten_cons, hmul, List.drop_append]
      exact ih i ev (fun e he => hlen e (List.mem_cons_of_mem _ he)) h

/-- Claim C33.  For a queue created with `elem_size = s > 0` and events
`e1 .. en` of `s` bytes each, sending them in order to the empty queue
succeeds; then `freecs_event_count` and the count of `freecs_read_events` are
both `n`, the buffer is the concatenation of the payloads in send order, event
`i` occupying the bytes `[i*s, (i+1)*s)`; one more `freecs_send_event` raises
the count to `n + 1`, keeps the earlier bytes and appends the payload; and
after `freecs_clear_events` the count is 0. -/
theorem event_queue_fifo (s : Nat) (hs : 0 < s) (events : List (List Nat))
    (hlen : ∀ ev ∈ events, ev.length = s) :
    ∃ queue, send_events (freecs_create_event_queue s) events = some queue ∧
      freecs_event_count queue = some events.length ∧
      freecs_read_events queue = some (events.flatten, events.length) ∧
      (∀ i ev, events[i]? = some ev → (queue.data.drop (i * s)).take s = ev) ∧
      (∀ ev : List Nat, ev.length = s →
        ∃ queue1, freecs_send_event queue ev = some queue1 ∧
          freecs_event_count queue1 = some (events.length + 1) ∧
          queue1.data.take queue.data.length = queue.data ∧
          queue1.data.drop queue.data.length = ev) ∧
      freecs_event_count (freecs_clear_events queue) = some 0 := by
  obtain ⟨queue, hr, hd, hsz⟩ := send_events_spec events (freecs_create_event_queue s) hlen
  have hsz1 : queue.elem_size = s := hsz
  have hd1 : queue.data = events.flatten := by
    rw [hd]
    rfl
  have hdl : queue.data.length = events.length * s := by
    rw [hd1]
    exact flatten_length_const s events hlen
  have hne : ¬ queue.elem_size = 0 := by omega
  refine ⟨queue, hr, ?_, ?_, ?_, ?_, ?_⟩
  · unfold freecs_event_count
    rw [if_neg hne, hdl, hsz1, Nat.mul_div_cancel _ hs]
  · unfold freecs_read_events
    rw [if_neg hne, hdl, hsz1, Nat.mul_div_cancel _ hs, hd1]
  · intro i ev hi
    rw [hd1]
    exact flatten_slice s events i ev hlen hi
  · intro ev hev
    unfold freecs_send_event
    rw [if_pos (by omega)]
    refine ⟨_, rfl, ?_, ?_, ?_⟩
    · unfold freecs_event_count
      simp only
      rw [if_neg hne, List.length_append, List.length_take, hsz1, hev, Nat.min_self, hdl]
      have : events.length * s + s = (events.length + 1) * s := by
        rw [Nat.add_mul, Nat.one_mul]
      rw [this, Nat.mul_div_cancel _ hs]
    · simp only
      rw [List.take_left]
    · simp only
      rw [List.drop_left, hsz1, ← hev, List.take_length]
  · unfold freecs_event_count freecs_clear_events
    simp only
    rw [if_neg hne]
    simp

/-- Witness of C33: the two 8-byte events of the test `event_queue`. -/
theorem event_queue_fifo_witness :
    ∃ queue, send_events (freecs_create_event_queue 8)
        [[1, 0, 0, 0, 10, 0, 0, 0], [2, 0, 0, 0, 20, 0, 0, 0]] = some queue ∧
      freecs_event_count queue = some 2 ∧
      freecs_read_events queue =
        some ([1, 0, 0, 0, 10, 0, 0, 0, 2, 0, 0, 0, 20, 0, 0, 0], 2) ∧
      freecs_event_count (freecs_clear_events queue) = some 0 :=
  have h := event_queue_fifo 8 (by decide)
    [[1, 0, 0, 0, 10, 0, 0, 0], [2, 0, 0, 0, 20, 0, 0, 0]] (by decide)
  h.imp fun _ hq => ⟨hq.1, hq.2.1, hq.2.2.1, hq.2.2.2.2.2⟩

theorem replay_null_payload_commands (fresh : Nat → Nat) :
    (buffer_in_memory fresh buffer_null_payload).commands =
      [⟨freecs_command_type_t.FREECS_CMD_SPAWN, ⟨0, 0⟩, 1,
        [some (fresh 0), some (fresh 1)], [2], [1]⟩] := rfl

theorem replay_null_payload_entries (fresh : Nat → Nat) :
    rebuild_entries ⟨freecs_command_type_t.FREECS_CMD_SPAWN, ⟨0, 0⟩, 1,
        [some (fresh 0), some (fresh 1)], [2], [1]⟩ [1] 0 0 =
      some [⟨1, 2, some [fresh 0, fresh 1], 0⟩] := rfl

/-- Claim C40 fails on the code.  In the world with a two-byte component of bit
1, `freecs_spawn(1, [{bit 1, size 2, data NULL}])` creates the entity `(0, 0)`
with the component bytes `[0, 0]`.  `freecs_queue_spawn` with the same entry
leaves the two bytes of the command's buffer unwritten, and
`freecs_apply_commands` hands `freecs_spawn` a non-null pointer to them: the
replay has no defined result, and when the allocated block held the bytes
`fresh 0, fresh 1` the replay is the direct spawn with that payload, so the
component of the created entity holds these two bytes instead of zeros (for
the bytes `171, 171`: the entity `(0, 0)` reads `[171, 171]`). -/
theorem queued_null_payload_not_zeroed :
    (∃ w, freecs_spawn world_reg 1 [⟨1, 2, none, 0⟩] = some (w, ⟨0, 0⟩) ∧
      get_bytes w ⟨0, 0⟩ 1 = some (some [0, 0])) ∧
    freecs_queue_spawn freecs_create_command_buffer 1 [⟨1, 2, none, 0⟩] =
      some buffer_null_payload ∧
    (buffer_null_payload.commands.map fun cmd => cmd.component_data) = [[none, none]] ∧
    freecs_apply_commands world_reg buffer_null_payload = none ∧
    (∀ fresh : Nat → Nat, ∃ w h,
      freecs_spawn world_reg 1 [⟨1, 2, some [fresh 0, fresh 1], 0⟩] = some (w, h) ∧
      freecs_apply_commands world_reg (buffer_in_memory fresh buffer_null_payload) =
        some (w, freecs_create_command_buffer) ∧
      freecs_is_alive w h = true ∧
      get_bytes w h 1 = some (some [fresh 0, fresh 1])) ∧
    ∃ w b, freecs_apply_commands world_reg
        (buffer_in_memory (fun _ => 171) buffer_null_payload) = some (w, b) ∧
      freecs_is_alive w ⟨0, 0⟩ = true ∧
      get_bytes w ⟨0, 0⟩ 1 = some (some [171, 171]) := by
  refine ⟨⟨_, rfl, rfl⟩, rfl, rfl, rfl, ?_, ⟨_, _, rfl, rfl, rfl⟩⟩
  intro fresh
  have he := entries_one_fit [fresh 0, fresh 1] (by simp)
  obtain ⟨world1, h, loc, arch1, hsp, hw1, hloc, hal, hgen, harch, hmask, hrow, _, _, hview⟩ :=
    spawn_wf world_reg_built.well_formed he (by decide) (by decide)
  refine ⟨world1, h, hsp, ?_, is_alive_iff.mpr ⟨loc, hloc, hal, hgen⟩, ?_⟩
  · unfold freecs_apply_commands
    rw [replay_null_payload_commands fresh]
    unfold apply_commands_loop apply_command
    simp only [replay_null_payload_entries fresh, hsp]
    rfl
  · rw [get_bytes_live hloc hal hgen harch (hw1.cols.archs _ _ harch) (by omega)]
    exact hview _ (List.mem_singleton.mpr rfl) (by simp) _ rfl

theorem foldl_length_flatten (es : List (List freecs_entity_t)) :
    ∀ c, es.foldl (fun c row => c + row.length) c = c + es.flatten.length := by
  induction es with
  | nil => intro c; simp
  | cons row rest ih =>
    intro c
    rw [List.foldl_cons, ih, List.flatten_cons, List.length_append, Nat.add_assoc]

theorem mem_flatten_row {es : List (List freecs_entity_t)} {e : freecs_entity_t}
    (h : e ∈ es.flatten) :
    ∃ (a r : Nat) (row_es : List freecs_entity_t), es[a]? = some row_es ∧ row_es[r]? = some e := by
  rw [List.mem_flatten] at h
  obtain ⟨row_es, hrow, he⟩ := h
  obtain ⟨a, ha⟩ := List.getElem?_of_mem hrow
  obtain ⟨r, hr⟩ := List.getElem?_of_mem he
  exact ⟨a, r, row_es, ha, hr⟩

theorem flatten_nodup_of_slots {locs : List freecs_entity_location_t} :
    ∀ (es : List (List freecs_entity_t)) (a0 : Nat),
    (∀ (a r : Nat) (row_es : List freecs_entity_t) (e : freecs_entity_t),
      es[a]? = some row_es → row_es[r]? = some e →
        locs[e.id]? = some ⟨a0 + a, r, e.generation, true⟩) →
    (es.flatten.map fun e => e.id).Nodup := by
  intro es
  induction es with
  | nil => intro a0 _; simp
  | cons row rest ih =>
    intro a0 h
    rw [List.flatten_cons, List.map_append, List.nodup_append]
    refine ⟨?_, ?_, ?_⟩
    · rw [List.nodup_iff_getElem?_ne_getElem?]
      intro i j hij hj heq
      rw [List.length_map] at hj
      have hi : i < row.length := by omega
      simp only [List.getElem?_map, List.getElem?_eq_getElem hi, List.getElem?_eq_getElem hj,
        Option.map_some', Option.some.injEq] at heq
      have h1 := h 0 i row row[i] (by simp) (List.getElem?_eq_getElem hi)
      have h2 := h 0 j row row[j] (by simp) (List.getElem?_eq_getElem hj)
      rw [heq, h2] at h1
      simp only [Option.some.injEq, freecs_entity_location_t.mk.injEq] at h1
      omega
    · apply ih (a0 + 1)
      intro a r row_es e ha hr
      have h1 := h (a + 1) r row_es e (by simpa using ha) hr
      have h2 : a0 + (a + 1) = a0 + 1 + a := by omega
      rw [h2] at h1
      exact h1
    · intro x hx1 hx2
      rw [List.mem_map] at hx1 hx2
      obtain ⟨e1, he1, rfl⟩ := hx1
      obtain ⟨e2, he2, hid⟩ := hx2
      obtain ⟨r1, hr1⟩ := List.getElem?_of_mem he1
      obtain ⟨a, r2, row_es, ha, hr2⟩ := mem_flatten_row he2
      have h1 := h 0 r1 row e1 (by simp) hr1
      have h2 := h (a + 1) r2 row_es e2 (by simpa using ha) hr2
      rw [hid, h1] at h2
      simp only [Option.some.injEq, freecs_entity_location_t.mk.injEq] at h2
      omega

/-- The rows and the free list partition the slots. -/
theorem EntInv.partition {locs : List freecs_entity_location_t}
    {es : List (List freecs_entity_t)} {free : List freecs_entity_t} (h : EntInv locs es free) :
    es.flatten.length + free.length = locs.length := by
  have hrows : (es.flatten.map fun e => e.id).Nodup :=
    flatten_nodup_of_slots es 0 (fun a r row_es e ha hr => by
      rw [Nat.zero_add]; exact h.slot a r row_es e ha hr)
  have hdisj : Disjoint (es.flatten.map fun e => e.id).toFinset
      (free.map fun e => e.id).toFinset := by
    rw [Finset.disjoint_left]
    intro x hx1 hx2
    rw [List.mem_toFinset, List.mem_map] at hx1 hx2
    obtain ⟨e1, he1, rfl⟩ := hx1
    obtain ⟨e2, he2, hid⟩ := hx2
    obtain ⟨a, r, row_es, ha, hr⟩ := mem_flatten_row he1
    have h1 := h.slot a r row_es e1 ha hr
    obtain ⟨loc, hloc, hdead, _⟩ := h.free_dead e2 he2
    rw [hid, h1] at hloc
    have := Option.some.inj hloc
    rw [← this] at hdead
    cases hdead
  have hunion : (es.flatten.map fun e => e.id).toFinset ∪ (free.map fun e => e.id).toFinset =
      Finset.range locs.length := by
    ext x
    rw [Finset.mem_union, List.mem_toFinset, List.mem_toFinset, Finset.mem_range, List.mem_map,
      List.mem_map]
    constructor
    · rintro (⟨e, he, rfl⟩ | ⟨e, he, rfl⟩)
      · obtain ⟨a, r, row_es, ha, hr⟩ := mem_flatten_row he
        exact (List.getElem?_eq_some.mp (h.slot a r row_es e ha hr)).1
      · obtain ⟨loc, hloc, _, _⟩ := h.free_dead e he
        exact (List.getElem?_eq_some.mp hloc).1
    · intro hx
      have hloc : locs[x]? = some locs[x] := List.getElem?_eq_getElem hx
      cases hal : locs[x].alive with
      | true =>
        left
        obtain ⟨row_es, ha, hr⟩ := h.alive x _ hloc hal
        refine ⟨⟨x, locs[x].generation⟩, ?_, rfl⟩
        rw [List.mem_flatten]
        exact ⟨row_es, List.getElem?_mem ha, List.getElem?_mem hr⟩
      | false =>
        right
        exact ⟨⟨x, locs[x].generation⟩, h.dead_free x _ hloc hal, rfl⟩
  have hcard := congrArg Finset.card hunion
  rw [Finset.card_union_of_disjoint hdisj, List.toFinset_card_of_nodup hrows,
    List.toFinset_card_of_nodup h.free_nodup, Finset.card_range, List.length_map,
    List.length_map] at hcard
  exact hcard

/-- Claim C37.  In every reachable world: `locations_len == next_entity_id`;
the ids on the free list are pairwise distinct; every free-list entry names a
slot below `locations_len` that is dead and whose generation is the listed
one; every dead slot is on the free list (with its generation); hence
`freecs_entity_count + free_entities_len == locations_len`; two live handles
with the same id are equal; and a `freecs_spawn` that is not rejected and
returns hands out a handle that was not alive before the call. -/
theorem slot_partition (world : freecs_world_t) (h : Reachable world) :
    world.locations.length = world.next_entity_id ∧
    (world.free_entities.map fun e => e.id).Nodup ∧
    (∀ e ∈ world.free_entities, e.id < world.locations.length ∧
      ∃ loc, world.locations[e.id]? = some loc ∧ loc.alive = false ∧
        loc.generation = e.generation) ∧
    (∀ (i : Nat) (loc : freecs_entity_location_t), world.locations[i]? = some loc →
      loc.alive = false → ⟨i, loc.generation⟩ ∈ world.free_entities) ∧
    freecs_entity_count world + world.free_entities.length = world.locations.length ∧
    (∀ x y : freecs_entity_t, freecs_is_alive world x = true → freecs_is_alive world y = true →
      x.id = y.id → x = y) ∧
    (∀ (mask : Nat) (entries : List freecs_type_info_entry_t) (world1 : freecs_world_t)
      (entity : freecs_entity_t), ¬ (entries.length = 0 ∨ mask = 0) →
      freecs_spawn world mask entries = some (world1, entity) →
      freecs_is_alive world entity = false) := by
  have hs := h.struct_inv
  refine ⟨hs.next_id.symm, hs.ent.free_nodup, ?_, hs.ent.dead_free, ?_, ?_, ?_⟩
  · intro e he
    obtain ⟨loc, hloc, hd, hg⟩ := hs.ent.free_dead e he
    exact ⟨(List.getElem?_eq_some.mp hloc).1, loc, hloc, hd, hg⟩
  · rw [entity_count_ents, foldl_length_flatten, Nat.zero_add]
    exact hs.ent.partition
  · intro x y hx hy hid
    exact live_same_id hx hy hid
  · intro mask entries world1 entity hm hsp
    obtain ⟨w1, idx, arch, w2, arch1, hfoc, _, halloc, _, _, _⟩ := spawn_spec hsp hm
    obtain ⟨_, hf1, hn1⟩ := find_or_create_count hfoc
    rw [is_alive_false_iff]
    rcases alloc_entity_cases w1 with ⟨e, hfree, hal⟩ | ⟨_, hal⟩
    · rw [hal] at halloc
      have he : e = entity := (Prod.mk.inj halloc).2
      subst he
      have hmem : e ∈ world.free_entities := by
        rw [← hf1, hfree]
        simp
      obtain ⟨loc, hloc, hd, _⟩ := hs.ent.free_dead e hmem
      right
      exact ⟨loc, hloc, by rw [hd]; rfl⟩
    · rw [hal] at halloc
      have he : (⟨w1.next_entity_id, 0⟩ : freecs_entity_t) = entity := (Prod.mk.inj halloc).2
      subst he
      left
      show world.locations.length ≤ w1.next_entity_id
      rw [hn1, hs.next_id]

theorem find_or_create_hit {world : freecs_world_t} (hg : GraphInv world) {j : Nat}
    {X : freecs_archetype_t} (hX : world.archetypes[j]? = some X) (W : freecs_world_t)
    (hW : W.archetype_index = world.archetype_index) (ti : List freecs_type_info_entry_t) :
    find_or_create_archetype W X.mask ti = some (W, j) := by
  cases hf : cache_find world.archetype_index X.mask with
  | none => exact absurd rfl (hg.no_mask hf j X hX)
  | some i =>
    obtain ⟨e, he, hkey⟩ := cache_find_some hf
    obtain ⟨hv, arch, ha, hm⟩ := hg.index_entry i e he
    have hij : i = j := hg.mask_inj i j arch X ha hX (hm.trans hkey)
    subst hij
    unfold find_or_create_archetype
    rw [hW]
    simp only [hf, he, hv, List.getElem?_cons_zero]

theorem set_getD_self {α : Type} (l : List α) (k : Nat) (d : α) (hk : k < l.length) :
    l.set k (l.getD k d) = l := by
  apply List.ext_getElem?
  intro i
  rw [List.getElem?_set]
  by_cases hik : k = i
  · subst hik
    rw [if_pos rfl, if_pos hk, List.getD_eq_getElem?_getD, List.getElem?_eq_getElem hk]
    rfl
  · rw [if_neg hik]

theorem getD_nonneg_lt {l : List Int} {k : Nat} (h : 0 ≤ l.getD k (-1)) : k < l.length := by
  by_contra hc
  rw [List.getD_eq_getElem?_getD, List.getElem?_eq_none (by omega)] at h
  simp at h

theorem add_component_edge_set {world : freecs_world_t} {h : freecs_entity_t} {k : Nat}
    (hk : k < 64) {loc : freecs_entity_location_t} {arch : freecs_archetype_t}
    (hloc : world.locations[h.id]? = some loc) (hal : loc.alive = true)
    (hgen : loc.generation = h.generation)
    (harch : world.archetypes[loc.archetype_index]? = some arch)
    (hmask : arch.mask &&& 2 ^ k = 0) (he : 0 ≤ arch.add_edges.getD k (-1))
    (value : List Nat) (size : Nat) :
    freecs_add_component world h (2 ^ k) value size =
      (move_entity world h loc.archetype_index loc.row (arch.add_edges.getD k (-1)).toNat).bind
        fun w2 =>
          if size > 0 then
            (write_component w2 h.id k value size).bind fun w3 => some (w3, true)
          else some (w2, true) := by
  have hlt : ¬ h.id ≥ world.locations.length := by
    have := (List.getElem?_eq_some.mp hloc).1
    omega
  unfold freecs_add_component
  rw [if_neg hlt]
  simp only [Option.bind_eq_bind, hloc, Option.some_bind, hal, hgen, bit_index_two_pow k hk,
    harch, hmask, Bool.not_true, Bool.false_or, bne_self_eq_false, Bool.false_eq_true,
    if_false, ne_eq, not_true_eq_false, if_neg (not_lt.mpr he)]

theorem add_component_edge_miss {world : freecs_world_t} {h : freecs_entity_t} {k : Nat}
    (hk : k < 64) {loc : freecs_entity_location_t} {arch : freecs_archetype_t}
    (hloc : world.locations[h.id]? = some loc) (hal : loc.alive = true)
    (hgen : loc.generation = h.generation)
    (harch : world.archetypes[loc.archetype_index]? = some arch)
    (hmask : arch.mask &&& 2 ^ k = 0) (he : arch.add_edges.getD k (-1) < 0)
    (hcols : arch.columns.length < FREECS_MAX_COMPONENTS)
    (value : List Nat) (size : Nat) {wf : freecs_world_t} {idx : Nat} {a : freecs_archetype_t}
    (hf : find_or_create_archetype world (arch.mask ||| 2 ^ k)
      (arch.columns.map (fun col => ⟨col.bit, col.elem_size, none, col.type_index⟩) ++
        [⟨2 ^ k, size, none, k⟩]) = some (wf, idx))
    (ha : wf.archetypes[loc.archetype_index]? = some a) (hidx : 0 ≤ toI32 idx) :
    freecs_add_component world h (2 ^ k) value size =
      (move_entity
        { wf with
            archetypes := wf.archetypes.set loc.archetype_index
              { a with add_edges := a.add_edges.set k (toI32 idx) } }
        h loc.archetype_index loc.row (toI32 idx).toNat).bind
        fun w2 =>
          if size > 0 then
            (write_component w2 h.id k value size).bind fun w3 => some (w3, true)
          else some (w2, true) := by
  have hlt : ¬ h.id ≥ world.locations.length := by
    have := (List.getElem?_eq_some.mp hloc).1
    omega
  have hc : ¬ arch.columns.length + 1 > FREECS_MAX_COMPONENTS := by omega
  unfold freecs_add_component
  rw [if_neg hlt]
  simp only [Option.bind_eq_bind, hloc, Option.some_bind, hal, hgen, bit_index_two_pow k hk,
    harch, hmask, Bool.not_true, Bool.false_or, bne_self_eq_false, Bool.false_eq_true,
    if_false, ne_eq, not_true_eq_false, if_pos he, if_neg hc, hf, ha,
    if_neg (not_lt.mpr hidx)]

theorem remove_component_edge_set {world : freecs_world_t} {h : freecs_entity_t} {k : Nat}
    (hk : k < 64) {loc : freecs_entity_location_t} {arch : freecs_archetype_t}
    (hloc : world.locations[h.id]? = some loc) (hal : loc.alive = true)
    (hgen : loc.generation = h.generation)
    (harch : world.archetypes[loc.archetype_index]? = some arch)
    (hmask : arch.mask &&& 2 ^ k ≠ 0) (hrest : arch.mask &&& not64 (2 ^ k) ≠ 0)
    (he : 0 ≤ arch.remove_edges.getD k (-1)) :
    freecs_remove_component world h (2 ^ k) =
      (move_entity world h loc.archetype_index loc.row
        (arch.remove_edges.getD k (-1)).toNat).bind fun w2 => some (w2, true) := by
  have hlt : ¬ h.id ≥ world.locations.length := by
    have := (List.getElem?_eq_some.mp hloc).1
    omega
  unfold freecs_remove_component
  rw [if_neg hlt]
  simp only [Option.bind_eq_bind, hloc, Option.some_bind, hal, hgen, bit_index_two_pow k hk,
    harch, hmask, hrest, Bool.not_true, Bool.false_or, bne_self_eq_false, Bool.false_eq_true,
    if_false, ne_eq, not_true_eq_false, if_neg (not_lt.mpr he)]

theorem remove_component_edge_miss {world : freecs_world_t} {h : freecs_entity_t} {k : Nat}
    (hk : k < 64) {loc : freecs_entity_location_t} {arch : freecs_archetype_t}
    (hloc : world.locations[h.id]? = some loc) (hal : loc.alive = true)
    (hgen : loc.generation = h.generation)
    (harch : world.archetypes[loc.archetype_index]? = some arch)
    (hmask : arch.mask &&& 2 ^ k ≠ 0) (hrest : arch.mask &&& not64 (2 ^ k) ≠ 0)
    (he : arch.remove_edges.getD k (-1) < 0)
    (hcols : arch.columns.length ≤ FREECS_MAX_COMPONENTS)
    {wf : freecs_world_t} {idx : Nat} {a : freecs_archetype_t}
    (hf : find_or_create_archetype world (arch.mask &&& not64 (2 ^ k))
      ((arch.columns.filter (fun col => col.bit != 2 ^ k)).map
        (fun col => ⟨col.bit, col.elem_size, none, col.type_index⟩)) = some (wf, idx))
    (ha : wf.archetypes[loc.archetype_index]? = some a) (hidx : 0 ≤ toI32 idx) :
    freecs_remove_component world h (2 ^ k) =
      (move_entity
        { wf with
            archetypes := wf.archetypes.set loc.archetype_index
              { a with remove_edges := a.remove_edges.set k (toI32 idx) } }
        h loc.archetype_index loc.row (toI32 idx).toNat).bind fun w2 => some (w2, true) := by
  have hlt : ¬ h.id ≥ world.locations.length := by
    have := (List.getElem?_eq_some.mp hloc).1
    omega
  have hc : ¬ ((arch.columns.filter (fun col => col.bit != 2 ^ k)).map
      (fun col => (⟨col.bit, col.elem_size, none, col.type_index⟩ :
        freecs_type_info_entry_t))).length > FREECS_MAX_COMPONENTS := by
    rw [List.length_map]
    have := List.length_filter_le (fun col : freecs_component_column_t => col.bit != 2 ^ k)
      arch.columns
    omega
  unfold freecs_remove_component
  rw [if_neg hlt]
  simp only [Option.bind_eq_bind, hloc, Option.some_bind, hal, hgen, bit_index_two_pow k hk,
    harch, hmask, hrest, Bool.not_true, Bool.false_or, bne_self_eq_false, Bool.false_eq_true,
    if_false, ne_eq, not_true_eq_false, if_pos he, if_neg hc, hf, ha,
    if_neg (not_lt.mpr hidx)]

theorem set_getElem_self {α : Type} {l : List α} {a : Nat} {x : α} (h : l[a]? = some x) :
    l.set a x = l := by
  apply List.ext_getElem?
  intro i
  rw [List.getElem?_set]
  by_cases hia : a = i
  · subst hia
    rw [if_pos rfl, if_pos (List.getElem?_eq_some.mp h).1, h]
  · rw [if_neg hia]

theorem set_unset_edge (l : List Int) (k : Nat) (h : l.getD k (-1) = -1) : l.set k (-1) = l := by
  by_cases hk : k < l.length
  · have := set_getD_self l k (-1) hk
    rw [h] at this
    exact this
  · apply List.ext_getElem?
    intro i
    rw [List.getElem?_set]
    by_cases hik : k = i
    · subst hik
      rw [if_pos rfl, if_neg hk, List.getElem?_eq_none (by omega)]
    · rw [if_neg hik]

theorem edge_target {world : freecs_world_t} (hg : GraphInv world) {j : Nat}
    {X : freecs_archetype_t} (hX : world.archetypes[j]? = some X) : toI32 j = (j : Int) :=
  toI32_small (by
    have := (List.getElem?_eq_some.mp hX).1
    have := hg.arch_bound
    omega)

theorem reset_then_set_add {world : freecs_world_t} {a k : Nat} {arch : freecs_archetype_t}
    (harch : world.archetypes[a]? = some arch) (hk : k < arch.add_edges.length) :
    ({ world with
        archetypes :=
          (world.archetypes.set a { arch with add_edges := arch.add_edges.set k (-1) }).set a
            { arch with
                add_edges := (arch.add_edges.set k (-1)).set k (arch.add_edges.getD k (-1)) } } :
      freecs_world_t) = world := by
  simp only [List.set_set, set_getD_self _ _ _ hk]
  obtain ⟨m, en, cols, cb, ae, re⟩ := arch
  rw [set_getElem_self harch]

theorem reset_then_set_remove {world : freecs_world_t} {a k : Nat} {arch : freecs_archetype_t}
    (harch : world.archetypes[a]? = some arch) (hk : k < arch.remove_edges.length) :
    ({ world with
        archetypes :=
          (world.archetypes.set a { arch with remove_edges := arch.remove_edges.set k (-1) }).set
            a
            { arch with
                remove_edges :=
                  (arch.remove_edges.set k (-1)).set k (arch.remove_edges.getD k (-1)) } } :
      freecs_world_t) = world := by
  simp only [List.set_set, set_getD_self _ _ _ hk]
  obtain ⟨m, en, cols, cb, ae, re⟩ := arch
  rw [set_getElem_self harch]

theorem add_component_reset {world : freecs_world_t} (hg : GraphInv world)
    {h : freecs_entity_t} {k : Nat}
    (hk : k < 64) {loc : freecs_entity_location_t} {arch : freecs_archetype_t}
    (hloc : world.locations[h.id]? = some loc) (hal : loc.alive = true)
    (hgen : loc.generation = h.generation)
    (harch : world.archetypes[loc.archetype_index]? = some arch)
    (hmask : arch.mask &&& 2 ^ k = 0) (he : 0 ≤ arch.add_edges.getD k (-1))
    (hcols : arch.columns.length < FREECS_MAX_COMPONENTS) (value : List Nat) (size : Nat) :
    freecs_add_component (reset_add_edge world loc.archetype_index k) h (2 ^ k) value size =
      freecs_add_component world h (2 ^ k) value size := by
  obtain ⟨arch1, ht, hm1⟩ := hg.add_edge loc.archetype_index k arch harch hk he
  have hklen := getD_nonneg_lt he
  have halen := (List.getElem?_eq_some.mp harch).1
  have hreset : reset_add_edge world loc.archetype_index k =
      { world with
          archetypes := world.archetypes.set loc.archetype_index
            { arch with add_edges := arch.add_edges.set k (-1) } } := by
    unfold reset_add_edge
    rw [harch]
  have hj : toI32 (arch.add_edges.getD k (-1)).toNat = arch.add_edges.getD k (-1) := by
    rw [edge_target hg ht, Int.toNat_of_nonneg he]
  have hmiss := @add_component_edge_miss (reset_add_edge world loc.archetype_index k) h k hk loc
    { arch with add_edges := arch.add_edges.set k (-1) }
    (by rw [hreset]; exact hloc) hal hgen
    (by rw [hreset]; exact List.getElem?_set_eq_of_lt _ halen)
    hmask
    (by
      show (arch.add_edges.set k (-1)).getD k (-1) < 0
      rw [getD_set_eq, if_pos ⟨rfl, hklen⟩]
      decide)
    hcols value size (reset_add_edge world loc.archetype_index k)
    (arch.add_edges.getD k (-1)).toNat { arch with add_edges := arch.add_edges.set k (-1) }
    (by
      have := find_or_create_hit hg ht (reset_add_edge world loc.archetype_index k)
        (by rw [hreset])
        (arch.columns.map (fun col => ⟨col.bit, col.elem_size, none, col.type_index⟩) ++
          [⟨2 ^ k, size, none, k⟩])
      rw [hm1] at this
      exact this)
    (by rw [hreset]; exact List.getElem?_set_eq_of_lt _ halen)
    (by rw [hj]; exact he)
  rw [hmiss, add_component_edge_set hk hloc hal hgen harch hmask he, hj]
  congr 2
  rw [hreset]
  exact reset_then_set_add harch hklen

theorem remove_component_reset {world : freecs_world_t} (hg : GraphInv world)
    {h : freecs_entity_t} {k : Nat}
    (hk : k < 64) {loc : freecs_entity_location_t} {arch : freecs_archetype_t}
    (hloc : world.locations[h.id]? = some loc) (hal : loc.alive = true)
    (hgen : loc.generation = h.generation)
    (harch : world.archetypes[loc.archetype_index]? = some arch)
    (hmask : arch.mask &&& 2 ^ k ≠ 0) (hrest : arch.mask &&& not64 (2 ^ k) ≠ 0)
    (he : 0 ≤ arch.remove_edges.getD k (-1))
    (hcols : arch.columns.length ≤ FREECS_MAX_COMPONENTS) :
    freecs_remove_component (reset_remove_edge world loc.archetype_index k) h (2 ^ k) =
      freecs_remove_component world h (2 ^ k) := by
  obtain ⟨arch1, ht, hm1⟩ := hg.remove_edge loc.archetype_index k arch harch hk he
  have hklen := getD_nonneg_lt he
  have halen := (List.getElem?_eq_some.mp harch).1
  have hreset : reset_remove_edge world loc.archetype_index k =
      { world with
          archetypes := world.archetypes.set loc.archetype_index
            { arch with remove_edges := arch.remove_edges.set k (-1) } } := by
    unfold reset_remove_edge
    rw [harch]
  have hj : toI32 (arch.remove_edges.getD k (-1)).toNat = arch.remove_edges.getD k (-1) := by
    rw [edge_target hg ht, Int.toNat_of_nonneg he]
  have hmiss := @remove_component_edge_miss (reset_remove_edge world loc.archetype_index k) h k
    hk loc { arch with remove_edges := arch.remove_edges.set k (-1) }
    (by rw [hreset]; exact hloc) hal hgen
    (by rw [hreset]; exact List.getElem?_set_eq_of_lt _ halen)
    hmask hrest
    (by
      show (arch.remove_edges.set k (-1)).getD k (-1) < 0
      rw [getD_set_eq, if_pos ⟨rfl, hklen⟩]
      decide)
    hcols (reset_remove_edge world loc.archetype_index k)
    (arch.remove_edges.getD k (-1)).toNat
    { arch with remove_edges := arch.remove_edges.set k (-1) }
    (by
      have := find_or_create_hit hg ht (reset_remove_edge world loc.archetype_index k)
        (by rw [hreset])
        ((arch.columns.filter (fun col => col.bit != 2 ^ k)).map
          (fun col => ⟨col.bit, col.elem_size, none, col.type_index⟩))
      rw [hm1] at this
      exact this)
    (by rw [hreset]; exact List.getElem?_set_eq_of_lt _ halen)
    (by rw [hj]; exact he)
  rw [hmiss, remove_component_edge_set hk hloc hal hgen harch hmask hrest he, hj]
  congr 2
  rw [hreset]
  exact reset_then_set_remove harch hklen

/-- Claim C35.  In a reachable world, for a live handle `h` in the archetype
`arch` and a bit index `k < 64`.  Add: when bit `k` is not in the mask of
`arch` and `arch` has fewer than `FREECS_MAX_COMPONENTS` columns,
`freecs_add_component(h, 1 << k, v, size)` gives the same result (return value
and whole world: destination archetype, locations, masks, column bytes)
whether `add_edges[k]` of `arch` is set or has been reset to `-1` before the
call; resetting an edge that is `-1` changes nothing.  Remove: the same for
`freecs_remove_component(h, 1 << k)` and `remove_edges[k]` when bit `k` is in
the mask, is not the last component, and `arch` has at most
`FREECS_MAX_COMPONENTS` columns. -/
theorem edge_cache_is_a_hint (world : freecs_world_t) (hr : Reachable world)
    (h : freecs_entity_t) (k : Nat) (hk : k < 64) (loc : freecs_entity_location_t)
    (arch : freecs_archetype_t) (hloc : world.locations[h.id]? = some loc)
    (hal : loc.alive = true) (hgen : loc.generation = h.generation)
    (harch : world.archetypes[loc.archetype_index]? = some arch) :
    (arch.mask &&& 2 ^ k = 0 → arch.columns.length < FREECS_MAX_COMPONENTS →
      (0 ≤ arch.add_edges.getD k (-1) → ∀ (value : List Nat) (size : Nat),
        freecs_add_component (reset_add_edge world loc.archetype_index k) h (2 ^ k) value size =
          freecs_add_component world h (2 ^ k) value size) ∧
      (arch.add_edges.getD k (-1) = -1 →
        reset_add_edge world loc.archetype_index k = world)) ∧
    (arch.mask &&& 2 ^ k ≠ 0 → arch.mask &&& not64 (2 ^ k) ≠ 0 →
      arch.columns.length ≤ FREECS_MAX_COMPONENTS →
      (0 ≤ arch.remove_edges.getD k (-1) →
        freecs_remove_component (reset_remove_edge world loc.archetype_index k) h (2 ^ k) =
          freecs_remove_component world h (2 ^ k)) ∧
      (arch.remove_edges.getD k (-1) = -1 →
        reset_remove_edge world loc.archetype_index k = world)) := by
  have hg := hr.struct_inv.graph
  constructor
  · intro hmask hcols
    constructor
    · intro he value size
      exact add_component_reset hg hk hloc hal hgen harch hmask he hcols value size
    · intro he
      unfold reset_add_edge
      rw [harch]
      simp only [set_unset_edge _ _ he]
      obtain ⟨m, en, cols, cb, ae, re⟩ := arch
      rw [set_getElem_self harch]
  · intro hmask hrest hcols
    constructor
    · intro he
      exact remove_component_reset hg hk hloc hal hgen harch hmask hrest he hcols
    · intro he
      unfold reset_remove_edge
      rw [harch]
      simp only [set_unset_edge _ _ he]
      obtain ⟨m, en, cols, cb, ae, re⟩ := arch
      rw [set_getElem_self harch]

set_option maxRecDepth 100000 in
theorem world_three_back_reachable : Reachable world_three_back :=
  Reachable.add_component world_three_removed world_three_back ⟨2, 0⟩ 2 [9] 1 true
    (Reachable.remove_component world_three world_three_removed ⟨2, 0⟩ 2 true
      world_three_reachable ⟨1, by decide, rfl⟩ (by decide) ⟨by decide, by decide⟩)
    ⟨1, by decide, rfl⟩ (by decide) ⟨by decide, by decide⟩

set_option maxRecDepth 100000 in
/-- Witness of C35.  In `world_three` the handle `(0, 0)` lives in the archetype
of mask 1, whose `add_edges[1]` was set when the archetype of mask 3 was
created; with the edge reset, adding component 2 gives the same world
`world_three_added`.  In `world_three_back` the handle `(2, 0)` lives in the
archetype of mask 3, whose `remove_edges[1]` was set by an earlier removal;
with the edge reset, removing component 2 gives the same result. -/
theorem edge_cache_is_a_hint_witness :
    (freecs_add_component (reset_add_edge world_three 0 1) ⟨0, 0⟩ (2 ^ 1) [5] 1 =
        freecs_add_component world_three ⟨0, 0⟩ (2 ^ 1) [5] 1 ∧
      freecs_add_component world_three ⟨0, 0⟩ (2 ^ 1) [5] 1 = some (world_three_added, true) ∧
      reset_add_edge world_three 0 1 ≠ world_three) ∧
    (freecs_remove_component (reset_remove_edge world_three_back 1 1) ⟨2, 0⟩ (2 ^ 1) =
        freecs_remove_component world_three_back ⟨2, 0⟩ (2 ^ 1) ∧
      (freecs_remove_component world_three_back ⟨2, 0⟩ (2 ^ 1)).map Prod.snd = some true ∧
      reset_remove_edge world_three_back 1 1 ≠ world_three_back) :=
  ⟨⟨((edge_cache_is_a_hint world_three world_three_reachable ⟨0, 0⟩ 1 (by decide)
        ⟨0, 0, 0, true⟩ (world_three.archetypes.getD 0 (new_archetype 0)) (by decide) rfl rfl
        (by decide)).1 (by decide) (by decide)).1 (by decide) [5] 1,
      by decide, by decide⟩,
    ⟨((edge_cache_is_a_hint world_three_back world_three_back_reachable ⟨2, 0⟩ 1 (by decide)
        ⟨1, 0, 0, true⟩ (world_three_back.archetypes.getD 1 (new_archetype 0)) (by decide) rfl rfl
        (by decide)).2 (by decide) (by decide) (by decide)).1 (by decide),
      by decide, by decide⟩⟩

/-! ## A state behind a read past `data_len` -/

set_option maxRecDepth 100000 in
theorem world_short_reachable : Reachable world_short :=
  Reachable.spawn world_three world_short 3 [⟨1, 2, some [37, 38], 0⟩] ⟨3, 0⟩
    world_three_reachable (by decide) ⟨by decide, by decide⟩

set_option maxRecDepth 100000 in
/-- In `world_short` the embedded `freecs_despawn((2, 0))` has no result, because
row 1 of the column of component 2 lies past `data_len`; the state the program
is in after the call is reachable through `Reachable.column_bytes`. -/
theorem world_short_despawned_reachable :
    freecs_despawn world_short ⟨2, 0⟩ = none ∧ Reachable world_short_despawned :=
  ⟨by decide,
    Reachable.column_bytes _ world_short_despawned
      (Reachable.despawn (with_column_data world_short 1 1 [9, 0]) _ ⟨2, 0⟩ true
        (Reachable.column_bytes world_short _ world_short_reachable (by decide))
        (show freecs_despawn (with_column_data world_short 1 1 [9, 0]) ⟨2, 0⟩ =
            some (((freecs_despawn (with_column_data world_short 1 1 [9, 0]) ⟨2, 0⟩).map
              Prod.fst).getD world_short, true) by decide))
      (by decide)⟩

set_option maxRecDepth 100000 in
/-- Witness of C2 in `world_short_despawned`, the state after a despawn that
read a column past `data_len`: row 0 of archetype 1 holds the handle `(3, 0)`,
swapped in from row 1, and slot 3 records archetype 1, row 0. -/
theorem slot_table_invariant_witness :
    world_short_despawned.locations[(⟨3, 0⟩ : freecs_entity_t).id]? = some ⟨1, 0, 0, true⟩ :=
  slot_table_invariant world_short_despawned world_short_despawned_reachable.2 1 0
    (world_short_despawned.archetypes.getD 1 (new_archetype 0)) ⟨3, 0⟩ (by decide) (by decide)

set_option maxRecDepth 100000 in
/-- Witness of C37 in `world_short_despawned`: four slots, three live entities,
the free list holds `(2, 1)`, the dead slot 2 with its new generation. -/
theorem slot_partition_witness :
    world_short_despawned.locations.length = world_short_despawned.next_entity_id ∧
    (∀ e ∈ world_short_despawned.free_entities, e.id < world_short_despawned.locations.length ∧
      ∃ loc, world_short_despawned.locations[e.id]? = some loc ∧ loc.alive = false ∧
        loc.generation = e.generation) ∧
    freecs_entity_count world_short_despawned + world_short_despawned.free_entities.length =
      world_short_despawned.locations.length ∧
    world_short_despawned.free_entities = [⟨2, 1⟩] ∧
    freecs_entity_count world_short_despawned = 3 :=
  have h := slot_partition world_short_despawned world_short_despawned_reachable.2
  ⟨h.1, h.2.2.1, h.2.2.2.2.1, by decide, by decide⟩

/-- Claim C18, amended.  In every reachable world a successful `freecs_spawn`
(`mask != 0`, `entry_count > 0`) returns a handle that is alive afterwards; it
is the last entry of the free list when the list is not empty and the fresh
handle `(locations_len, 0)` otherwise.  So the handle is `FREECS_ENTITY_NIL`
exactly when slot 0 is handed out at generation 0: the free list ends in
`(0, 0)`, or it is empty and the world has no slot yet (the first spawn of a
fresh world).  With an empty free list and at least one slot the handle is
not `FREECS_ENTITY_NIL`. -/
theorem spawn_nil_only_for_slot_zero (world : freecs_world_t) (hr : Reachable world)
    (mask : Nat) (entries : List freecs_type_info_entry_t) (world1 : freecs_world_t)
    (entity : freecs_entity_t) (hm : ¬ (entries.length = 0 ∨ mask = 0))
    (hs : freecs_spawn world mask entries = some (world1, entity)) :
    freecs_is_alive world1 entity = true ∧
    (world.free_entities.getLast? = some entity ∨
      (world.free_entities = [] ∧ entity = ⟨world.locations.length, 0⟩)) ∧
    (entity = FREECS_ENTITY_NIL ↔
      (world.free_entities.getLast? = some FREECS_ENTITY_NIL ∨
        (world.free_entities = [] ∧ world.locations.length = 0))) ∧
    (world.free_entities = [] → world.locations.length ≠ 0 →
      entity ≠ FREECS_ENTITY_NIL) := by
  obtain ⟨w1, idx, arch, w2, arch1, hfoc, _, halloc, _, hlt, hw⟩ := spawn_spec hs hm
  obtain ⟨_, hf1, hn1⟩ := find_or_create_count hfoc
  have hnext := hr.struct_inv.next_id
  have halive : freecs_is_alive world1 entity = true := by
    rw [is_alive_iff]
    refine ⟨⟨toU32 idx, toU32 arch.entities.length, entity.generation, true⟩, ?_, rfl, rfl⟩
    rw [hw]
    show (w2.locations.set entity.id _)[entity.id]? = _
    rw [List.getElem?_set_eq_of_lt _ hlt]
  have hcase : world.free_entities.getLast? = some entity ∨
      (world.free_entities = [] ∧ entity = ⟨world.locations.length, 0⟩) := by
    rcases alloc_entity_cases w1 with ⟨e, hfree, hal⟩ | ⟨hfree, hal⟩
    · rw [hal] at halloc
      have he : e = entity := (Prod.mk.inj halloc).2
      left
      rw [← hf1, hfree, ← he]
      simp
    · rw [hal] at halloc
      have he : (⟨w1.next_entity_id, 0⟩ : freecs_entity_t) = entity := (Prod.mk.inj halloc).2
      right
      refine ⟨by rw [← hf1]; exact hfree, ?_⟩
      rw [← he, hn1, hnext]
  refine ⟨halive, hcase, ?_, ?_⟩
  · constructor
    · intro hnil
      rcases hcase with hl | ⟨hfree, he⟩
      · left
        rw [hl, hnil]
      · right
        refine ⟨hfree, ?_⟩
        rw [hnil] at he
        have := congrArg freecs_entity_t.id he
        exact this.symm
    · rintro (hl | ⟨hfree, hlen⟩)
      · rcases hcase with hl2 | ⟨hfree, _⟩
        · rw [hl] at hl2
          exact (Option.some.inj hl2).symm
        · rw [hfree] at hl
          cases hl
      · rcases hcase with hl2 | ⟨_, he⟩
        · rw [hfree] at hl2
          cases hl2
        · rw [he, hlen]
          rfl
  · intro hfree hlen hnil
    rcases hcase with hl | ⟨_, he⟩
    · rw [hfree] at hl
      cases hl
    · rw [hnil] at he
      have := congrArg freecs_entity_t.id he
      exact hlen this.symm

set_option maxRecDepth 100000 in
/-- Witness of C18 in `world_one`, which has one slot and an empty free list:
the spawn returns `(1, 0)`. -/
theorem spawn_nil_only_for_slot_zero_witness :
    freecs_is_alive world_two ⟨1, 0⟩ = true ∧
    (⟨1, 0⟩ : freecs_entity_t) ≠ FREECS_ENTITY_NIL :=
  have h := spawn_nil_only_for_slot_zero world_one world_one_reachable 1
    [⟨1, 2, some [17, 18], 0⟩] world_two ⟨1, 0⟩ (by decide) (by decide)
  ⟨h.1, h.2.2.2 (by decide) (by decide)⟩

/-! ## Despawn on columns of any length -/

theorem erase_full_columns (world : freecs_world_t) :
    erase_bytes (full_columns world) = erase_bytes world := by
  unfold erase_bytes full_columns
  simp only [List.map_map]
  congr 1
  apply List.map_congr_left
  intro arch _
  simp only [Function.comp, erase_bytes_arch, full_arch, List.map_map]
  congr 1

/-- With every column filled up to the row count of its archetype, the despawn
of a live handle of a reachable world has a result, it returns `true`, and the
state after it is reachable.  The world `full_columns world` differs from
`world` in column buffers only, so the state after the C call on `world`
itself, whatever bytes it moved, differs from that result in column buffers
only. -/
theorem Reachable.despawn_full_columns {world : freecs_world_t} (hr : Reachable world)
    {entity : freecs_entity_t} (hal : freecs_is_alive world entity = true) :
    erase_bytes (full_columns world) = erase_bytes world ∧
    ∃ world1, freecs_despawn (full_columns world) entity = some (world1, true) ∧
      Reachable world1 := by
  refine ⟨erase_full_columns world, ?_⟩
  have hrf : Reachable (full_columns world) :=
    Reachable.column_bytes world _ hr (erase_full_columns world)
  have hs := hr.struct_inv
  obtain ⟨loc, hloc, hlal, hgen⟩ := is_alive_iff.mp hal
  obtain ⟨es, hes, hrow⟩ := hs.ent.alive entity.id loc hloc hlal
  simp only [ents, List.getElem?_map] at hes
  cases harch : world.archetypes[loc.archetype_index]? with
  | none => rw [harch] at hes; simp at hes
  | some arch =>
    rw [harch] at hes
    simp only [Option.map_some', Option.some.injEq] at hes
    subst hes
    have hrowlt : loc.row < arch.entities.length := (List.getElem?_eq_some.mp hrow).1
    have hne : ¬ arch.entities.length = 0 := by omega
    have hlastlt : arch.entities.length - 1 < arch.entities.length := by omega
    have hlast := List.getElem?_eq_getElem hlastlt
    have hlloc := hs.ent.slot _ _ _ _ (ents_get harch) hlast
    have harchf : (full_columns world).archetypes[loc.archetype_index]? =
        some (full_arch arch) := by
      simp only [full_columns, List.getElem?_map, harch, Option.map_some']
    have hshape : ∀ col ∈ (full_arch arch).columns,
        col.data.length = arch.entities.length * col.elem_size := by
      intro col hcol
      simp only [full_arch, List.mem_map] at hcol
      obtain ⟨c, _, hc⟩ := hcol
      subst hc
      simp [full_col]
    obtain ⟨cols2, hcols2, _, _⟩ :=
      remove_cols_some (full_arch arch).columns arch.entities.length loc.row hshape hrowlt
    have hidlt : entity.id < world.locations.length := (List.getElem?_eq_some.mp hloc).1
    have hrr : ∃ world2, remove_row (full_columns world) loc.archetype_index loc.row =
        some world2 ∧ world2.locations.length = world.locations.length := by
      by_cases hlt : loc.row < arch.entities.length - 1
      · rw [if_pos hlt] at hcols2
        simp only [Option.bind_eq_some] at hcols2
        obtain ⟨cols1, hc1, hc2⟩ := hcols2
        exact ⟨_, @remove_row_intro_swap (full_columns world) _ _ (full_arch arch) _ _ _ _
          harchf hlt hlast hlloc hc1 hc2, by simp [full_columns]⟩
      · rw [if_neg hlt] at hcols2
        exact ⟨_, @remove_row_intro_last (full_columns world) _ _ (full_arch arch) _
          harchf hne hlt hcols2, by simp [full_columns]⟩
    obtain ⟨world2, hrr2, hlen2⟩ := hrr
    have hl1 : world2.locations[entity.id]? = some (world2.locations[entity.id]) :=
      List.getElem?_eq_getElem (by omega)
    have hd := @despawn_intro (full_columns world) world2 entity loc _ hloc hlal hgen hrr2 hl1
    exact ⟨_, hd, Reachable.despawn _ _ entity true hrf hd⟩
end Freecs
